import Mathlib

/-!
Shallow embedding of the edelta deduplication server.

The definitions follow `src/server`: `def/config.hpp`, `def/struct.hpp`, `def/util.hpp`,
`backend/name_dispenser.hpp`, `backend/container.hpp`, `backend/db_wrapper.hpp`,
`backend/backend_facade.hpp`, `dedup/delta.hpp`, `lib/delta/src/delta.c`,
`dedup/dedup_core.hpp` and `comm/services.hpp`.

Modelling conventions.
* Bytes are natural numbers, buffers are lists, C++ spans are materialised by `spanRead`.
* A call returns `ok`, or `thrown` (a C++ exception left the call; the state is the one the
  exception left behind, the server keeps serving other sessions on it), or `abort`
  (signed integer overflow, or the recursion budget of the model ran out).
* Accesses past the end of a buffer do not stop the run: such reads see zero bytes and such
  writes are lost.
* Memory that outlives a call is a function from offsets to bytes: a container file
  (`Region`) and the share file buffer of a download (`ShareFileBuffer`), which
  `restoreShareFile` never clears. What `restoreShareFile` lays out in the buffer is also
  logged item by item (`ShareFileItem`); a flush is recorded with its length and the items
  laid out since the previous one.
* LevelDB, SHA-256, the Finesse super-feature extractor and xdelta3 are not part of the
  repository; the store is a key-value list, the three functions are parameters (`External`).
-/

namespace dedup

/-! ## def/config.hpp -/

/-- Constant `config::FORCE_LOCAL` -/
def FORCE_LOCAL : Bool := true
/-- Constant `config::PARANOID_CHECK` -/
def PARANOID_CHECK : Bool := false
/-- Constant `config::LOOP_PARALLEL` -/
def LOOP_PARALLEL : Bool := false
/-- Constant `config::DATA_BUFFER_LEN` -/
def DATA_BUFFER_LEN : Nat := 4 <<< 20
/-- Constant `config::META_BUFFER_LEN` -/
def META_BUFFER_LEN : Nat := 2 <<< 20
/-- Constant `config::SHARE_FILE_BUFFER_LEN` -/
def SHARE_FILE_BUFFER_LEN : Nat := 4 <<< 20
/-- Constant `config::BATCH_SIZE` -/
def BATCH_SIZE : Int := 512
/-- Constant `config::CONTAINER_SIZE` -/
def CONTAINER_SIZE : Nat := 256 <<< 10
/-- Constant `config::INTERNAL_FILE_NAME_SIZE` -/
def INTERNAL_FILE_NAME_SIZE : Nat := 16
/-- Constant `config::RECIPE_CACHE_SIZE` -/
def RECIPE_CACHE_SIZE : Nat := 3
/-- Constant `config::MAX_DELTA_DEPTH` -/
def MAX_DELTA_DEPTH : Nat := 1
/-- largest value of a C `int` -/
def INT_MAX : Int := 2147483647

/-! ## def/struct.hpp -/

abbrev Byte := Nat
abbrev Bytes := List Nat
abbrev user_id_t := Int
abbrev fingerprint_t := List Nat
abbrev key_t := List Nat
abbrev internal_file_name_t := List Char

/-- Size `sizeof(indicator_e) + sizeof(packet_size_t)` -/
def PACKET_HEADER_SIZE : Nat := 8
/-- Size `sizeof(shareIndexHead_t)` -/
def SHARE_INDEX_HEAD_SIZE : Nat := 80
/-- Size `sizeof(shareUserRefEntry_t)` -/
def SHARE_USER_REF_ENTRY_SIZE : Nat := 4
/-- Size `sizeof(fileRecipeHead_t)` -/
def FILE_RECIPE_HEAD_SIZE : Nat := 24
/-- Size `sizeof(fileRecipeEntry_t)` -/
def FILE_RECIPE_ENTRY_SIZE : Nat := 44
/-- Size `sizeof(shareFileHead_t)` -/
def SHARE_FILE_HEAD_SIZE : Nat := 16
/-- Size `sizeof(shareEntry_t)` -/
def SHARE_ENTRY_SIZE : Nat := 12

structure fileShareMetaHead_t where
  fullNameSize : Int
  fileSize : Int
  numOfPastSecrets : Int
  sizeOfPastSecrets : Int
  numOfComingSecrets : Int
  sizeOfComingSecrets : Int
deriving DecidableEq, Repr, Inhabited

structure shareMetaEntry_t where
  shareFP : fingerprint_t
  secretID : Int
  secretSize : Int
  shareSize : Int
deriving DecidableEq, Repr, Inhabited

structure shareIndexHead_t where
  shareSize : Int
  numOfUsers : Int
  deltaDepth : Nat
  deltaSize : Nat
  baseFP : fingerprint_t
  containerName : internal_file_name_t
  offset : Nat
deriving DecidableEq, Repr, Inhabited

structure shareUserRefEntry_t where
  userID : user_id_t
deriving DecidableEq, Repr, Inhabited

structure fileRecipeHead_t where
  userID : user_id_t
  fileSize : Int
  numOfShares : Int
deriving DecidableEq, Repr, Inhabited

structure fileRecipeEntry_t where
  shareFP : fingerprint_t
  secretID : Int
  secretSize : Int
  shareSize : Int
deriving DecidableEq, Repr, Inhabited

structure shareFileHead_t where
  fileSize : Int
  numOfShares : Int
deriving DecidableEq, Repr, Inhabited

structure shareEntry_t where
  secretID : Int
  secretSize : Int
  shareSize : Int
deriving DecidableEq, Repr, Inhabited

/-- The bytes of a share index value: `[shareIndexHead_t + shareUserRefEntry_t ...]`.
`entries` holds every 4-byte slot that follows the head. -/
structure ShareIndexValue where
  head : shareIndexHead_t
  entries : List shareUserRefEntry_t
deriving DecidableEq, Repr, Inhabited

/-- The bytes of a file recipe: `[fileRecipeHead_t + fileRecipeEntry_t ...]`.
`entries` holds every 44-byte slot that follows the head. -/
structure FileRecipe where
  head : fileRecipeHead_t
  entries : List fileRecipeEntry_t
deriving DecidableEq, Repr, Inhabited

/-- The share meta buffer `[fileShareMetaHead_t + full file name + shareMetaEntry_t ...]`. -/
structure FileShareMeta where
  head : fileShareMetaHead_t
  fullFileName : List Char
  entries : List shareMetaEntry_t
deriving DecidableEq, Repr, Inhabited

/-! ## Outcomes -/

inductive Abort where
  | signedOverflow
  | outOfFuel
deriving DecidableEq, Repr

/-- Outcome of a call that only reads the store. -/
inductive Ret (α : Type) where
  | ok (a : α)
  | thrown (msg : String)
  | abort (why : Abort)
deriving DecidableEq, Repr

/-- Outcome of a call that may change the state `σ`. -/
inductive Res (σ : Type) (α : Type) where
  | ok (a : α) (s : σ)
  | thrown (msg : String) (s : σ)
  | abort (why : Abort)

/-- A span of `n` elements laid over `l`; slots past the end of `l` read as the default. -/
def spanRead {α : Type} [Inhabited α] (l : List α) (n : Nat) : List α :=
  (List.range n).map (fun i => l.getD i default)

/-- Lookup in a key-value list; the first binding of a key is the live one. -/
def kvGet {κ ν : Type} [DecidableEq κ] (k : κ) : List (κ × ν) → Option ν
  | [] => none
  | (k', v) :: rest => if k' = k then some v else kvGet k rest

/-- Replace the value of every binding of `k` by `f` of it. -/
def kvModify {κ ν : Type} [DecidableEq κ] (k : κ) (f : ν → ν) (l : List (κ × ν)) : List (κ × ν) :=
  l.map (fun kv => if kv.1 = k then (kv.1, f kv.2) else kv)

/-- Remove the bindings of `k`. -/
def kvErase {κ ν : Type} [DecidableEq κ] (k : κ) (l : List (κ × ν)) : List (κ × ν) :=
  l.filter (fun kv => !decide (kv.1 = k))

/-- Source: `boost::numeric_cast<std::size_t>` of a signed value. -/
def numeric_cast (x : Int) : Except String Nat :=
  if x < 0 then .error "bad numeric conversion: negative overflow" else .ok x.toNat

/-! ## Parameters: the libraries the server links against -/

structure superF where
  sf1 : Nat
  sf2 : Nat
  sf3 : Nat
deriving DecidableEq, Repr, Inhabited

structure External where
  /-- Source: `CryptoPrimitive::generateHash` (SHA-256) -/
  generateHash : Bytes → fingerprint_t
  /-- Source: `finesse_super_feature` -/
  finesse_super_feature : Bytes → superF
  /-- Source: `xd3_encode_memory input source avail_output`: the delta, or `none` for a non-zero status -/
  xd3_encode_memory : Bytes → Bytes → Nat → Option Bytes
  /-- Source: `xd3_decode_memory input source avail_output`: the output, or `none` for a non-zero status -/
  xd3_decode_memory : Bytes → Bytes → Nat → Option Bytes
  /-- Constant `config::GetContianerDir()` -/
  containerDir_ : String

/-! ## def/util.hpp -/

def hexDigit (n : Nat) : Char :=
  if n < 10 then Char.ofNat (48 + n) else Char.ofNat (87 + n)

/-- Source: `ToHexDump`: two lowercase hexadecimal digits per byte. -/
def ToHexDump (bs : Bytes) : String :=
  String.mk (bs.flatMap (fun b => [hexDigit (b % 256 / 16), hexDigit (b % 256 % 16)]))

def FormatFullFileName (fullFileName : List Char) : Except String (List Char) :=
  let ret := fullFileName
  if ret.isEmpty then
    .error "the full file name is empty"
  else if ret.head? ≠ some '/' then
    if ret.take 2 = ['.', '/'] ∨ ret.take 3 = ['.', '.', '/'] then
      .error "the full file name should not begin with './' or '../'"
    else
      .ok ('/' :: ret)
  else
    .ok ret

/-- The four bytes of an `int32_t`, least significant first. -/
def int32Bytes (x : Int) : Bytes :=
  let n := (x % 4294967296).toNat
  [n % 256, n / 256 % 256, n / 65536 % 256, n / 16777216 % 256]

def ToFP (E : External) (rawData : Bytes) : fingerprint_t :=
  E.generateHash rawData

def ToRecipeFP (E : External) (fullFileName : List Char) (userID : user_id_t) : fingerprint_t :=
  ToFP E (fullFileName.map Char.toNat ++ int32Bytes userID)

def ParseFileShareMeta (fileShareMeta : FileShareMeta) :
    Except String (fileShareMetaHead_t × List Char × List shareMetaEntry_t) :=
  let kfileShareMetaHead := fileShareMeta.head
  if PARANOID_CHECK ∧ ¬ (fileShareMeta.fullFileName.length = kfileShareMetaHead.fullNameSize ∧
      fileShareMeta.entries.length = kfileShareMetaHead.numOfComingSecrets) then
    .error "file share meta is invalid"
  else
    match numeric_cast kfileShareMetaHead.fullNameSize with
    | .error e => .error e
    | .ok nameSize =>
      match numeric_cast kfileShareMetaHead.numOfComingSecrets with
      | .error e => .error e
      | .ok n =>
        .ok (kfileShareMetaHead, spanRead fileShareMeta.fullFileName nameSize,
          spanRead fileShareMeta.entries n)

def ParseFileRecipe (fileRecipeData : FileRecipe) :
    Except String (fileRecipeHead_t × List fileRecipeEntry_t) :=
  let kFileRecipeHead := fileRecipeData.head
  if PARANOID_CHECK ∧ ¬ ((fileRecipeData.entries.length : Int) = kFileRecipeHead.numOfShares) then
    .error "file recipe data is invalid"
  else
    match numeric_cast kFileRecipeHead.numOfShares with
    | .error e => .error e
    | .ok n => .ok (kFileRecipeHead, spanRead fileRecipeData.entries n)

def ParseShareIndex (shareIndexData : ShareIndexValue) :
    Except String (shareIndexHead_t × List shareUserRefEntry_t) :=
  let kShareIndexHead := shareIndexData.head
  if PARANOID_CHECK ∧ ¬ ((shareIndexData.entries.length : Int) = kShareIndexHead.numOfUsers) then
    .error "share index data is invalid"
  else
    match numeric_cast kShareIndexHead.numOfUsers with
    | .error e => .error e
    | .ok n => .ok (kShareIndexHead, spanRead shareIndexData.entries n)

/-! ## backend/name_dispenser.hpp -/

structure NameDispenser where
  name_ : internal_file_name_t
deriving DecidableEq, Repr

/-- The constructor: `std::fill(name_.begin(), name_.end(), 'a')`. -/
def NameDispenser.new : NameDispenser :=
  ⟨List.replicate INTERNAL_FILE_NAME_SIZE 'a'⟩

/-- Source: `(*cur)++` on a `char`. -/
def charIncr (c : Char) : Char := Char.ofNat (c.toNat + 1)

/-- Source: `NameDispenser::get`: the name handed out and the dispenser afterwards, or the exception;
the exception leaves `name_` as it was. -/
def NameDispenser.get (d : NameDispenser) : Except String (internal_file_name_t × NameDispenser) :=
  let res := d.name_
  let cur := d.name_.findIdx (fun c => !(c == 'z'))
  if cur < d.name_.length then
    .ok (res, ⟨List.replicate cur 'a' ++ charIncr (d.name_.getD cur 'a') :: d.name_.drop (cur + 1)⟩)
  else
    .error "the global filee nae reaches maximum lexicographically"

/-- The dispenser after one more call of `get`, whether it returned or threw. -/
def NameDispenser.afterCall (d : NameDispenser) : NameDispenser :=
  match d.get with
  | .ok (_, d') => d'
  | .error _ => d

/-- The dispenser after `n` calls of `get` on a fresh one. -/
def NameDispenser.afterCalls : Nat → NameDispenser
  | 0 => NameDispenser.new
  | n + 1 => (NameDispenser.afterCalls n).afterCall

/-- The outcome of call number `n` (counting from 0) of `get` on a fresh dispenser. -/
def NameDispenser.nthGet (n : Nat) : Except String internal_file_name_t :=
  match (NameDispenser.afterCalls n).get with
  | .ok (res, _) => .ok res
  | .error e => .error e

/-! ## backend/db_wrapper.hpp -/

structure DataBase where
  /-- content of the LevelDB instance -/
  db_ : List (key_t × ShareIndexValue)
  /-- pending writes, oldest first -/
  writeBatch_ : List (key_t × ShareIndexValue)
  batchCnt_ : Int

def DataBase.new : DataBase := ⟨[], [], 0⟩

/-- Source: `DataBase::Get` reads the LevelDB instance; the write batch is not consulted. -/
def DataBase.Get (d : DataBase) (key : key_t) : Option ShareIndexValue :=
  kvGet key d.db_

/-- Source: `DataBase::BatchFlush`: `DB::Write` applies the batch in order. -/
def DataBase.BatchFlush (d : DataBase) : DataBase :=
  if BATCH_SIZE > 0 then
    { db_ := d.writeBatch_.foldl (fun db kv => kv :: db) d.db_, writeBatch_ := [], batchCnt_ := 0 }
  else d

def DataBase.Put (d : DataBase) (key : key_t) (value : ShareIndexValue) : DataBase :=
  if BATCH_SIZE > 0 then
    let d1 : DataBase := { d with writeBatch_ := d.writeBatch_ ++ [(key, value)], batchCnt_ := d.batchCnt_ + 1 }
    if d1.batchCnt_ > BATCH_SIZE then d1.BatchFlush else d1
  else
    { d with db_ := (key, value) :: d.db_ }

/-- Every binding of the key-value store, newest first: the pending writes, then the content
of the database. `BatchFlush` moves pending writes into the database and keeps this list. -/
def DataBase.bindings (d : DataBase) : List (key_t × ShareIndexValue) :=
  d.writeBatch_.reverse ++ d.db_

/-- The part of `Put` before the flush it may trigger. -/
def DataBase.append (d : DataBase) (key : key_t) (value : ShareIndexValue) : DataBase :=
  { d with writeBatch_ := d.writeBatch_ ++ [(key, value)], batchCnt_ := d.batchCnt_ + 1 }

/-! ## boost::compute::detail::lru_cache -/

/-- The cache keeps its items most recently used first (`m_list` and `m_map` in one list). -/
structure lru_cache (κ ν : Type) where
  m_capacity : Nat
  m_items : List (κ × ν)

/-- Source: `lru_cache::insert` does nothing when the key is already cached; otherwise it evicts the
least recently used item of a full cache and puts the new item in front. -/
def lru_cache.insert {κ ν : Type} [DecidableEq κ] (c : lru_cache κ ν) (key : κ) (value : ν) :
    lru_cache κ ν :=
  match kvGet key c.m_items with
  | some _ => c
  | none =>
    let items := if c.m_items.length ≥ c.m_capacity then c.m_items.dropLast else c.m_items
    { c with m_items := (key, value) :: items }

/-- Source: `lru_cache::get` moves a cached item to the front. -/
def lru_cache.get {κ ν : Type} [DecidableEq κ] (c : lru_cache κ ν) (key : κ) :
    Option ν × lru_cache κ ν :=
  match kvGet key c.m_items with
  | none => (none, c)
  | some v => (some v, { c with m_items := (key, v) :: kvErase key c.m_items })

/-! ## backend/container.hpp -/

/-- Content of a container file: the byte at each offset below `CONTAINER_SIZE`. -/
abbrev Region := Nat → Byte

/-- A file created with `new_file_size = CONTAINER_SIZE` is zero-filled. -/
def Region.fresh : Region := fun _ => 0

/-- Source: `std::copy(data.cbegin(), data.cend(), region.begin() + off)`; bytes that would land past
the end of the mapped file are lost. -/
def Region.write (r : Region) (off : Nat) (data : Bytes) : Region :=
  fun i => if off ≤ i ∧ i < off + data.length ∧ i < CONTAINER_SIZE then data.getD (i - off) 0 else r i

/-- Source: `std::copy_n(region.cbegin() + off, n, out)` -/
def Region.read (r : Region) (off n : Nat) : Bytes :=
  (List.range n).map (fun i => r (off + i))

/-- Source: `MutableContainer`: the file the read-write mapping is attached to, if any. -/
structure MutableContainer where
  mappedFile_ : Option internal_file_name_t
deriving DecidableEq, Repr

def MutableContainer.size (c : MutableContainer) : Nat :=
  match c.mappedFile_ with
  | some _ => CONTAINER_SIZE
  | none => 0

/-! ## backend/backend_facade.hpp -/

inductive IndexPrefix where
  | RECIPE
  | SHARE_INDEX
deriving DecidableEq, Repr

def IndexPrefix.toByte : IndexPrefix → Nat
  | .RECIPE => 0
  | .SHARE_INDEX => 1

def ToIndexKey (pre : IndexPrefix) (inodeFP : fingerprint_t) : key_t :=
  pre.toByte :: inodeFP

/-- Source: `BackendFacade` together with the process-wide state it works on: the `DataBase`
singleton and the files of the container directory. The read container cache holds mappings
of container files, not copies, and is left out. -/
structure BackendFacade where
  /-- key ↦ (buffer, total number of shares the buffer was allocated for) -/
  unfinishedRecipeFileCache_ : List (key_t × (FileRecipe × Nat))
  containerNameDispenser_ : NameDispenser
  shareContainer_ : MutableContainer
  shareContainerName_ : internal_file_name_t
  shareContainerOffset_ : Nat
  /-- key ↦ (buffer, size in bytes) -/
  recipeCache_ : lru_cache key_t (FileRecipe × Nat)
  db : DataBase
  /-- container files by name -/
  containerFiles : List (internal_file_name_t × Region)
  /-- recipe files by file name -/
  recipeFiles : List (String × FileRecipe)

/-- The members before the constructor body runs, on a clean container directory. -/
def BackendFacade.blank : BackendFacade :=
  { unfinishedRecipeFileCache_ := []
    containerNameDispenser_ := NameDispenser.new
    shareContainer_ := ⟨none⟩
    shareContainerName_ := List.replicate INTERNAL_FILE_NAME_SIZE (Char.ofNat 0)
    shareContainerOffset_ := 0
    recipeCache_ := ⟨RECIPE_CACHE_SIZE, []⟩
    db := DataBase.new
    containerFiles := []
    recipeFiles := [] }

def BackendFacade.createShareContainer_ (b : BackendFacade) : Res BackendFacade Unit :=
  match b.containerNameDispenser_.get with
  | .error msg => .thrown msg b
  | .ok (name, dispenser) =>
    let b1 := { b with containerNameDispenser_ := dispenser, shareContainerName_ := name }
    -- MutableContainer::create
    if (kvGet name b1.containerFiles).isSome then
      .thrown "container file already exists" b1
    else
      .ok () { b1 with
        containerFiles := (name, Region.fresh) :: b1.containerFiles,
        shareContainer_ := ⟨some name⟩,
        shareContainerOffset_ := 0 }

def BackendFacade.formatRecipeFileName (E : External) (key : key_t) : String :=
  E.containerDir_ ++ ToHexDump key ++ ".rf"

/-- The index of the first recipe entry a fragment writes, and the number of entries. -/
structure RecipeSpan where
  first : Int
  size : Nat
deriving DecidableEq, Repr

def BackendFacade.putRecipeFile (b : BackendFacade) (userID : user_id_t) (key : key_t)
    (fileShareMetaHead : fileShareMetaHead_t) (totalNumOfShares : Nat) :
    Res BackendFacade RecipeSpan :=
  if fileShareMetaHead.numOfPastSecrets = 0 then
    -- `emplace` keeps the element of a key that is already present
    let cache :=
      match kvGet key b.unfinishedRecipeFileCache_ with
      | some _ => b.unfinishedRecipeFileCache_
      | none =>
        (key, ((⟨default, List.replicate totalNumOfShares default⟩ : FileRecipe), totalNumOfShares)) ::
          b.unfinishedRecipeFileCache_
    let cache := kvModify key
      (fun bt => ({ bt.1 with head := ⟨userID, fileShareMetaHead.fileSize, 0⟩ }, bt.2)) cache
    let b1 := { b with unfinishedRecipeFileCache_ := cache }
    match numeric_cast fileShareMetaHead.numOfComingSecrets with
    | .error e => .thrown e b1
    | .ok n => .ok ⟨0, n⟩ b1
  else
    match kvGet key b.unfinishedRecipeFileCache_ with
    | none => .thrown "fail to find the recipe file in cache" b
    | some (recipeFileBuffer, total) =>
      if PARANOID_CHECK ∧ (recipeFileBuffer.head.userID ≠ userID ∨ total ≠ totalNumOfShares) then
        .thrown "the file recipe head is invalid" b
      else if (FILE_RECIPE_ENTRY_SIZE : Int) * fileShareMetaHead.numOfPastSecrets > INT_MAX ∨
          (FILE_RECIPE_ENTRY_SIZE : Int) * fileShareMetaHead.numOfPastSecrets < -INT_MAX - 1 then
        .abort .signedOverflow
      else
        match numeric_cast fileShareMetaHead.numOfComingSecrets with
        | .error e => .thrown e b
        | .ok n => .ok ⟨fileShareMetaHead.numOfPastSecrets, n⟩ b

/-- Assignment through `recipeFileEntries.begin() + i`. -/
def BackendFacade.setRecipeEntry (b : BackendFacade) (key : key_t) (span : RecipeSpan) (i : Nat)
    (entry : fileRecipeEntry_t) : BackendFacade :=
  let idx : Int := span.first + i
  if idx < 0 then b
  else
    let cache := kvModify key
      (fun bt => ({ bt.1 with entries := bt.1.entries.set idx.toNat entry }, bt.2))
      b.unfinishedRecipeFileCache_
    { b with unfinishedRecipeFileCache_ := cache }

def BackendFacade.finishRecipeFile (E : External) (b : BackendFacade) (_userID : user_id_t)
    (fileShareMetaHead : fileShareMetaHead_t) (key : key_t) : Res BackendFacade Unit :=
  match kvGet key b.unfinishedRecipeFileCache_ with
  | none => .thrown "fail to find the recipe file in cache" b
  | some (recipeFileBuffer, total) =>
    let numOfShares := recipeFileBuffer.head.numOfShares + fileShareMetaHead.numOfComingSecrets
    if numOfShares > INT_MAX ∨ numOfShares < -INT_MAX - 1 then .abort .signedOverflow
    else if (total : Int) = numOfShares ∧
        (FILE_RECIPE_HEAD_SIZE : Int) + FILE_RECIPE_ENTRY_SIZE * numOfShares > INT_MAX then
      .abort .signedOverflow
    else
      let recipeFileBuffer : FileRecipe :=
        { recipeFileBuffer with head := { recipeFileBuffer.head with numOfShares := numOfShares } }
      let cache := kvModify key (fun bt => (recipeFileBuffer, bt.2)) b.unfinishedRecipeFileCache_
      let b1 := { b with unfinishedRecipeFileCache_ := cache }
      let b2 :=
        if (total : Int) = numOfShares then
          let kRecipeSize := FILE_RECIPE_HEAD_SIZE + FILE_RECIPE_ENTRY_SIZE * numOfShares.toNat
          let written : FileRecipe :=
            ⟨recipeFileBuffer.head, spanRead recipeFileBuffer.entries numOfShares.toNat⟩
          { b1 with
            recipeFiles := (BackendFacade.formatRecipeFileName E key, written) ::
              kvErase (BackendFacade.formatRecipeFileName E key) b1.recipeFiles,
            recipeCache_ := b1.recipeCache_.insert key (recipeFileBuffer, kRecipeSize),
            unfinishedRecipeFileCache_ := kvErase key b1.unfinishedRecipeFileCache_ }
        else b1
      .ok () { b2 with db := b2.db.BatchFlush }

def BackendFacade.putShareIndex (b : BackendFacade) (key : key_t) (value : ShareIndexValue) :
    BackendFacade :=
  { b with db := b.db.Put key value }

def BackendFacade.updateShareIndex (b : BackendFacade) (userID : user_id_t) (key : key_t)
    (value : ShareIndexValue) : Res BackendFacade Unit :=
  -- value.resize(value.size() + SHARE_USER_REF_ENTRY_SIZE)
  let entries := value.entries ++ [⟨0⟩]
  -- the slot at SHARE_INDEX_HEAD_SIZE + numOfUsers * SHARE_USER_REF_ENTRY_SIZE
  let entries :=
    if value.head.numOfUsers < 0 then entries else entries.set value.head.numOfUsers.toNat ⟨userID⟩
  if value.head.numOfUsers + 1 > INT_MAX then .abort .signedOverflow
  else
    let value' : ShareIndexValue :=
      ⟨{ value.head with numOfUsers := value.head.numOfUsers + 1 }, entries⟩
    .ok () { b with db := b.db.Put key value' }

def BackendFacade.putShareData (b : BackendFacade) (shareData : Bytes) :
    Res BackendFacade (internal_file_name_t × Nat) :=
  let store (b : BackendFacade) : Res BackendFacade (internal_file_name_t × Nat) :=
    let files :=
      match b.shareContainer_.mappedFile_ with
      | some f => kvModify f (fun r => r.write b.shareContainerOffset_ shareData) b.containerFiles
      | none => b.containerFiles
    let off := b.shareContainerOffset_
    .ok (b.shareContainerName_, off)
      { b with containerFiles := files, shareContainerOffset_ := b.shareContainerOffset_ + shareData.length }
  if b.shareContainerOffset_ + shareData.length > b.shareContainer_.size then
    match b.createShareContainer_ with
    | .ok _ b1 => store b1
    | .thrown msg b1 => .thrown msg b1
    | .abort why => .abort why
  else
    store b

def BackendFacade.getShareIndex (b : BackendFacade) (key : key_t) : Option ShareIndexValue :=
  b.db.Get key

/-- The bytes of the first `size` bytes of a recipe buffer. -/
def FileRecipe.prefixBytes (r : FileRecipe) (size : Nat) : FileRecipe :=
  ⟨r.head, spanRead r.entries ((size - FILE_RECIPE_HEAD_SIZE) / FILE_RECIPE_ENTRY_SIZE)⟩

def BackendFacade.getRecipeData (E : External) (b : BackendFacade) (key : key_t) :
    Res BackendFacade FileRecipe :=
  match b.recipeCache_.get key with
  | (some (recipe, size), cache) =>
    .ok (recipe.prefixBytes size) { b with recipeCache_ := cache }
  | (none, cache) =>
    let b1 := { b with recipeCache_ := cache }
    match kvGet (BackendFacade.formatRecipeFileName E key) b1.recipeFiles with
    | none => .thrown "fail to open recipe file" b1
    | some recipeData => .ok recipeData b1

def BackendFacade.getShareData (b : BackendFacade) (containerName : internal_file_name_t)
    (off : Nat) (size : Nat) : Ret Bytes :=
  match kvGet containerName b.containerFiles with
  | none => .thrown "container file not exists"
  | some region =>
    if PARANOID_CHECK ∧ off + size > CONTAINER_SIZE then .thrown "share data size is invalid"
    else .ok (region.read off size)

/-- The constructor `BackendFacade()` on a clean container directory. -/
def BackendFacade.new : BackendFacade :=
  { BackendFacade.blank with
    containerNameDispenser_ := ⟨'b' :: List.replicate 15 'a'⟩,
    shareContainer_ := ⟨some (List.replicate 16 'a')⟩,
    shareContainerName_ := List.replicate 16 'a',
    shareContainerOffset_ := 0,
    containerFiles := [(List.replicate 16 'a', Region.fresh)] }

/-! ## lib/delta/src/delta.c -/

/-- Source: `compute_delta`: `none` stands for the `NULL` result. The encoder writes into the local
array `deltaData[128 * 1024]`, from which `dSize` bytes are copied out. -/
def compute_delta (E : External) (base src : Bytes) : Option Bytes :=
  if base.length < 1024 ∨ src.length < 512 then none
  else
    match E.xd3_encode_memory src base src.length with
    | none => none
    | some out =>
      let dSize := out.length
      if dSize > src.length then none
      else some (spanRead (out.take (128 * 1024)) dSize)

/-- Source: `restore_delta`: the decoder output, `none` for a non-zero status. -/
def restore_delta (E : External) (base : Bytes) (deltaData : Bytes) (srcSize : Nat) : Option Bytes :=
  E.xd3_decode_memory deltaData base srcSize

/-! ## dedup/delta.hpp -/

structure Delta where
  superFeature1Map_ : List (Nat × fingerprint_t)
  superFeature2Map_ : List (Nat × fingerprint_t)
  superFeature3Map_ : List (Nat × fingerprint_t)
deriving DecidableEq, Repr

def Delta.new : Delta := ⟨[], [], []⟩

def Delta.GenSuperFeature (E : External) (data : Bytes) : superF :=
  E.finesse_super_feature data

def Delta.ComputeDelta (E : External) (base src : Bytes) : Bytes :=
  match compute_delta E base src with
  | some delta => delta
  | none => []

/-- Source: `Delta::RestoreSrc`: the decoder fills a vector of `srcSize` bytes, which is then resized
to the length the decoder reports. -/
def Delta.RestoreSrc (E : External) (base delta : Bytes) (srcSize : Nat) : Bytes :=
  match restore_delta E base delta srcSize with
  | some out => spanRead (out.take srcSize) out.length
  | none => []

def Delta.superFeatureIndexUpdate (d : Delta) (features : superF) (fp : fingerprint_t) : Delta :=
  { superFeature1Map_ := (features.sf1, fp) :: d.superFeature1Map_,
    superFeature2Map_ := (features.sf2, fp) :: d.superFeature2Map_,
    superFeature3Map_ := (features.sf3, fp) :: d.superFeature3Map_ }

def Delta.superFeatureIndex (d : Delta) (features : superF) : Option fingerprint_t :=
  match kvGet features.sf1 d.superFeature1Map_ with
  | some fp => some fp
  | none =>
    match kvGet features.sf2 d.superFeature2Map_ with
    | some fp => some fp
    | none =>
      match kvGet features.sf3 d.superFeature3Map_ with
      | some fp => some fp
      | none => none

/-! ## dedup/dedup_core.hpp -/

structure DedupCore where
  backend_ : BackendFacade
  delta_ : Delta

/-- The server right after start-up on clean directories: the empty store. -/
def DedupCore.new : DedupCore := ⟨BackendFacade.new, Delta.new⟩

def DedupCore.intraUserIndexUpdate (s : DedupCore) (shareFP : fingerprint_t) (userID : user_id_t) :
    Ret Bool :=
  match s.backend_.getShareIndex (ToIndexKey .SHARE_INDEX shareFP) with
  | none => .ok false
  | some value =>
    match ParseShareIndex value with
    | .error e => .thrown e
    | .ok (_, userRefEntries) => .ok (userRefEntries.any (fun entry => entry.userID == userID))

/-- The loop of `firstStageDedup` over the share meta entries. -/
def DedupCore.firstStageLoop (s : DedupCore) (userID : user_id_t) :
    List shareMetaEntry_t → Ret (List Bool)
  | [] => .ok []
  | shareMetaEntry :: rest =>
    match s.intraUserIndexUpdate shareMetaEntry.shareFP userID with
    | .thrown msg => .thrown msg
    | .abort why => .abort why
    | .ok stat =>
      match DedupCore.firstStageLoop s userID rest with
      | .thrown msg => .thrown msg
      | .abort why => .abort why
      | .ok stats => .ok (stat :: stats)

/-- Source: `firstStageDedup`: the values written to `dupStat[0 .. numOfComingSecrets)`. -/
def DedupCore.firstStageDedup (s : DedupCore) (userID : user_id_t) (shareMeta : FileShareMeta) :
    Ret (List Bool) :=
  match ParseFileShareMeta shareMeta with
  | .error e => .thrown e
  | .ok (_, _, shareMetaEntries) =>
    if LOOP_PARALLEL then .thrown "unimplemented"
    else s.firstStageLoop userID shareMetaEntries

/-- Source: `restoreDeltaShare`; `shareData` is the current content of the output span, the result is
its content afterwards. The first argument bounds the recursion depth. -/
def DedupCore.restoreDeltaShare (E : External) (s : DedupCore) :
    Nat → shareIndexHead_t → Bytes → Ret Bytes
  | 0, _, _ => .abort .outOfFuel
  | fuel + 1, shareIndexHead, shareData =>
    match s.backend_.getShareIndex (ToIndexKey .SHARE_INDEX shareIndexHead.baseFP) with
    | none => .thrown "base index not exists"
    | some baseIndexValue =>
      match ParseShareIndex baseIndexValue with
      | .error e => .thrown e
      | .ok (kBaseShareIndexHead, _) =>
        -- std::vector<std::byte> base(kBaseShareIndexHead.shareSize)
        if kBaseShareIndexHead.shareSize < 0 then .thrown "cannot create std::vector larger than max_size()"
        else
          let baseSize : Nat := kBaseShareIndexHead.shareSize.toNat
          let baseRes : Ret Bytes :=
            if kBaseShareIndexHead.deltaDepth = 0 then
              s.backend_.getShareData kBaseShareIndexHead.containerName kBaseShareIndexHead.offset
                baseSize
            else
              DedupCore.restoreDeltaShare E s fuel kBaseShareIndexHead (List.replicate baseSize 0)
          match baseRes with
          | .thrown msg => .thrown msg
          | .abort why => .abort why
          | .ok base =>
            match s.backend_.getShareData shareIndexHead.containerName shareIndexHead.offset
                shareIndexHead.deltaSize with
            | .thrown msg => .thrown msg
            | .abort why => .abort why
            | .ok delta =>
              if shareIndexHead.shareSize < 0 then
                .thrown "cannot create std::vector larger than max_size()"
              else
                let restoreData := Delta.RestoreSrc E base delta shareIndexHead.shareSize.toNat
                if PARANOID_CHECK ∧ restoreData.length ≠ shareData.length then .thrown "size not match"
                else
                  -- std::copy(restoreData.cbegin(), restoreData.cend(), shareData.begin())
                  .ok (restoreData.take shareData.length ++ shareData.drop restoreData.length)

/-- Source: `restoreShare`; `shareData` is the current content of the output span, the result is its
content afterwards. -/
def DedupCore.restoreShare (E : External) (fuel : Nat) (s : DedupCore) (shareFP : fingerprint_t)
    (shareData : Bytes) : Ret Bytes :=
  match s.backend_.getShareIndex (ToIndexKey .SHARE_INDEX shareFP) with
  | none => .thrown "no such share index"
  | some shareIndexValue =>
    match ParseShareIndex shareIndexValue with
    | .error e => .thrown e
    | .ok (kShareIndexHead, _) =>
      if kShareIndexHead.deltaDepth > 0 then
        s.restoreDeltaShare E fuel kShareIndexHead shareData
      else if PARANOID_CHECK ∧ kShareIndexHead.shareSize ≠ (shareData.length : Int) then
        .thrown "share data span size is invalid"
      else
        s.backend_.getShareData kShareIndexHead.containerName kShareIndexHead.offset shareData.length

/-- The bytes of a base share, as `interUserIndexUpdate` (lines 179-185) materialises them
into a vector of `shareSize` bytes: read from the container for a regular share, restored
for a delta compressed one. -/
def DedupCore.fetchBase (E : External) (fuel : Nat) (s : DedupCore)
    (kBaseShareIndexHead : shareIndexHead_t) : Ret Bytes :=
  let baseSize : Nat := kBaseShareIndexHead.shareSize.toNat
  if kBaseShareIndexHead.deltaDepth = 0 then
    s.backend_.getShareData kBaseShareIndexHead.containerName kBaseShareIndexHead.offset baseSize
  else
    s.restoreDeltaShare E fuel kBaseShareIndexHead (List.replicate baseSize 0)

/-- The delta attempt of `interUserIndexUpdate` (lines 170-217): the base fingerprint, the head
of the base and the delta when the share is to be stored as a delta, `none` when the code
falls through to the unique-share path. -/
def DedupCore.deltaCandidate (E : External) (fuel : Nat) (s : DedupCore) (featuers : superF)
    (shareData : Bytes) : Ret (Option (fingerprint_t × shareIndexHead_t × Bytes)) :=
  match s.delta_.superFeatureIndex featuers with
  | none => .ok none
  | some baseFP =>
    match s.backend_.getShareIndex (ToIndexKey .SHARE_INDEX baseFP) with
    | none => .ok none
    | some baseIndexValue =>
      match ParseShareIndex baseIndexValue with
      | .error e => .thrown e
      | .ok (kBaseShareIndexHead, _) =>
        if kBaseShareIndexHead.deltaDepth < MAX_DELTA_DEPTH then
          -- std::vector<std::byte> base(kBaseShareIndexHead.shareSize)
          if kBaseShareIndexHead.shareSize < 0 then
            .thrown "cannot create std::vector larger than max_size()"
          else
            match s.fetchBase E fuel kBaseShareIndexHead with
            | .thrown msg => .thrown msg
            | .abort why => .abort why
            | .ok base =>
              let delta := Delta.ComputeDelta E base shareData
              if !delta.isEmpty then .ok (some (baseFP, kBaseShareIndexHead, delta))
              else .ok none
        else .ok none

/-- The tail shared by both store paths of `interUserIndexUpdate`: write the payload, fill the
new share index value, put it, update the feature index. -/
def DedupCore.storeNewShare (s : DedupCore) (shareFP : fingerprint_t) (userID : user_id_t)
    (shareData : Bytes) (featuers : superF) (payload : Bytes) (deltaDepth : Nat)
    (baseFP : fingerprint_t) (deltaSize : Nat) : Res DedupCore Unit :=
  match s.backend_.putShareData payload with
  | .thrown msg b => .thrown msg { s with backend_ := b }
  | .abort why => .abort why
  | .ok (containerName, offset) b =>
    -- boost::numeric_cast<int>(shareData.size())
    if (shareData.length : Int) > INT_MAX then
      .thrown "bad numeric conversion: positive overflow" { s with backend_ := b }
    else
      let value : ShareIndexValue :=
        ⟨{ shareSize := shareData.length, numOfUsers := 1, deltaDepth := deltaDepth,
           deltaSize := deltaSize, baseFP := baseFP, containerName := containerName,
           offset := offset }, [⟨userID⟩]⟩
      .ok () { backend_ := b.putShareIndex (ToIndexKey .SHARE_INDEX shareFP) value,
               delta_ := s.delta_.superFeatureIndexUpdate featuers shareFP }

def DedupCore.interUserIndexUpdate (E : External) (fuel : Nat) (s : DedupCore)
    (shareFP : fingerprint_t) (userID : user_id_t) (shareData : Bytes) : Res DedupCore Unit :=
  let shareIndexKey := ToIndexKey .SHARE_INDEX shareFP
  match s.backend_.getShareIndex shareIndexKey with
  | none =>
    let featuers := Delta.GenSuperFeature E shareData
    match s.deltaCandidate E fuel featuers shareData with
    | .thrown msg => .thrown msg s
    | .abort why => .abort why
    | .ok (some (baseFP, kBaseShareIndexHead, delta)) =>
      -- this share can be compressed by delta
      s.storeNewShare shareFP userID shareData featuers delta
        ((kBaseShareIndexHead.deltaDepth + 1) % 256) baseFP delta.length
    | .ok none =>
      -- this is a unique share which cannot be compressed by delta
      s.storeNewShare shareFP userID shareData featuers shareData 0 (List.replicate 32 0) 0
  | some value =>
    match ParseShareIndex value with
    | .error e => .thrown e s
    | .ok (_, shareUserRefEntries) =>
      if shareUserRefEntries.all (fun entry => !(entry.userID == userID)) then
        match s.backend_.updateShareIndex userID shareIndexKey value with
        | .ok _ b => .ok () { s with backend_ := b }
        | .thrown msg b => .thrown msg { s with backend_ := b }
        | .abort why => .abort why
      else .ok () s

/-- The span `{shareData.data() + off, size}` over the share data buffer. -/
def shareDataSlice (shareData : Bytes) (off size : Nat) : Bytes :=
  spanRead (shareData.drop off) size

/-- The loop of `secondStageDedup` (lines 121-142) from entry `i` on; the list pairs each
remaining share meta entry with its `dupStat` flag. -/
def DedupCore.secondStageLoop (E : External) (fuel : Nat) (userID : user_id_t) (recipeKey : key_t)
    (recipeFileEntries : RecipeSpan) (shareData : Bytes) :
    List (shareMetaEntry_t × Bool) → Nat → Nat → DedupCore → Res DedupCore Unit
  | [], _, _, s => .ok () s
  | (shareMetaEntry, dup) :: rest, i, shareDataBufferOffset, s =>
    let fileRecipeEntry : fileRecipeEntry_t :=
      ⟨shareMetaEntry.shareFP, shareMetaEntry.secretID, shareMetaEntry.secretSize,
        shareMetaEntry.shareSize⟩
    let setEntry (s : DedupCore) : DedupCore :=
      { s with backend_ := s.backend_.setRecipeEntry recipeKey recipeFileEntries i fileRecipeEntry }
    if !dup then
      match numeric_cast shareMetaEntry.shareSize with
      | .error e => .thrown e s
      | .ok size =>
        match s.interUserIndexUpdate E fuel shareMetaEntry.shareFP userID
            (shareDataSlice shareData shareDataBufferOffset size) with
        | .thrown msg s1 => .thrown msg s1
        | .abort why => .abort why
        | .ok _ s1 =>
          DedupCore.secondStageLoop E fuel userID recipeKey recipeFileEntries shareData rest (i + 1)
            (shareDataBufferOffset + size) (setEntry s1)
    else
      DedupCore.secondStageLoop E fuel userID recipeKey recipeFileEntries shareData rest (i + 1)
        shareDataBufferOffset (setEntry s)

def DedupCore.secondStageDedup (E : External) (fuel : Nat) (s : DedupCore) (userID : user_id_t)
    (shareMeta : FileShareMeta) (shareData : Bytes) (dupStat : List Bool)
    (totalNumOfShares : Nat) : Res DedupCore Unit :=
  match ParseFileShareMeta shareMeta with
  | .error e => .thrown e s
  | .ok (kFileShareMDHead, fullFileNameView, shareMetaEntries) =>
    match FormatFullFileName fullFileNameView with
    | .error e => .thrown e s
    | .ok fullFileName =>
      let recipeFP := ToRecipeFP E fullFileName userID
      let recipeKey := ToIndexKey .RECIPE recipeFP
      match s.backend_.putRecipeFile userID recipeKey kFileShareMDHead totalNumOfShares with
      | .thrown msg b => .thrown msg { s with backend_ := b }
      | .abort why => .abort why
      | .ok recipeFileEntries b =>
        if LOOP_PARALLEL then .thrown "unimplemented" { s with backend_ := b }
        else
          match DedupCore.secondStageLoop E fuel userID recipeKey recipeFileEntries shareData
              (shareMetaEntries.zip (spanRead dupStat shareMetaEntries.length)) 0 0
              { s with backend_ := b } with
          | .thrown msg s1 => .thrown msg s1
          | .abort why => .abort why
          | .ok _ s1 =>
            match s1.backend_.finishRecipeFile E userID kFileShareMDHead recipeKey with
            | .thrown msg b2 => .thrown msg { s1 with backend_ := b2 }
            | .abort why => .abort why
            | .ok _ b2 => .ok () { s1 with backend_ := b2 }

/-- What `restoreShareFile` lays out in the share file buffer. -/
inductive ShareFileItem where
  | head (h : shareFileHead_t)
  | entry (e : shareEntry_t)
  | data (bytes : Bytes)
deriving DecidableEq, Repr

def ShareFileItem.size : ShareFileItem → Nat
  | .head _ => SHARE_FILE_HEAD_SIZE
  | .entry _ => SHARE_ENTRY_SIZE
  | .data bytes => bytes.length

/-- One call `flushCallBack(size)`, with what the code wrote into the buffer since the
previous flush. -/
structure Flush where
  size : Nat
  content : List ShareFileItem
deriving DecidableEq, Repr

/-- Content of the memory behind the span `shareFileData`: the byte at each offset. -/
abbrev ShareFileBuffer := Nat → Byte

/-- A store of `data` through `shareFileData.data() + off`, the span having `size` bytes; bytes
that would land past the end of the span are lost. -/
def ShareFileBuffer.write (size : Nat) (buf : ShareFileBuffer) (off : Nat) (data : Bytes) :
    ShareFileBuffer :=
  fun i => if off ≤ i ∧ i < off + data.length ∧ i < size then data.getD (i - off) 0 else buf i

/-- The bytes under the span `{shareFileData.data() + off, n}`; slots past the end of
`shareFileData` read as 0. -/
def ShareFileBuffer.read (size : Nat) (buf : ShareFileBuffer) (off n : Nat) : Bytes :=
  (List.range n).map (fun i => if off + i < size then buf (off + i) else 0)

/-- The eight bytes of a `long`, least significant first. -/
def int64Bytes (x : Int) : Bytes :=
  let n := (x % 18446744073709551616).toNat
  (List.range 8).map (fun i => n / 256 ^ i % 256)

/-- The stores `shareFileHead.fileSize = ...; shareFileHead.numOfShares = ...` through a
`shareFileHead_t &` at offset `off`: bytes 0-7 and 8-11 of the struct; its four bytes of tail
padding are not written. -/
def ShareFileBuffer.writeHead (size : Nat) (buf : ShareFileBuffer) (off : Nat)
    (h : shareFileHead_t) : ShareFileBuffer :=
  ShareFileBuffer.write size buf off (int64Bytes h.fileSize ++ int32Bytes h.numOfShares)

/-- The three stores through a `shareEntry_t &` at offset `off`. -/
def ShareFileBuffer.writeEntry (size : Nat) (buf : ShareFileBuffer) (off : Nat)
    (e : shareEntry_t) : ShareFileBuffer :=
  ShareFileBuffer.write size buf off
    (int32Bytes e.secretID ++ int32Bytes e.secretSize ++ int32Bytes e.shareSize)

/-- State of the loop of `restoreShareFile`: the items written since the last flush, the
buffer offset, the flushes made so far, and the bytes the buffer holds. -/
structure RestoreCursor where
  written : List ShareFileItem
  shareFileBufferOffset : Nat
  flushed : List Flush
  shareFileData : ShareFileBuffer

/-- The loop of `restoreShareFile` (lines 314-337); `bufferSize` is `shareFileData.size()`.
A flush leaves the buffer as it is, and `restoreShare` is handed the bytes the buffer holds
at `shareFileBufferOffset`, which it may leave in place. -/
def DedupCore.restoreLoop (E : External) (fuel : Nat) (s : DedupCore) (bufferSize : Nat) :
    List fileRecipeEntry_t → RestoreCursor → Res RestoreCursor Unit
  | [], c => .ok () c
  | kFileRecipeEntry :: rest, c =>
    if (SHARE_ENTRY_SIZE : Int) + kFileRecipeEntry.shareSize > INT_MAX then .abort .signedOverflow
    else
      let kFileShareSize : Nat :=
        (((SHARE_ENTRY_SIZE : Int) + kFileRecipeEntry.shareSize) % 18446744073709551616).toNat
      let c1 : RestoreCursor :=
        if (c.shareFileBufferOffset + kFileShareSize) % 18446744073709551616 ≥ bufferSize then
          { written := [], shareFileBufferOffset := 0,
            flushed := c.flushed ++ [⟨c.shareFileBufferOffset, c.written⟩],
            shareFileData := c.shareFileData }
        else c
      let shareEntry : shareEntry_t :=
        ⟨kFileRecipeEntry.secretID, kFileRecipeEntry.secretSize, kFileRecipeEntry.shareSize⟩
      let c2 : RestoreCursor :=
        { written := c1.written ++ [.entry shareEntry],
          shareFileBufferOffset := c1.shareFileBufferOffset + SHARE_ENTRY_SIZE,
          flushed := c1.flushed,
          shareFileData :=
            ShareFileBuffer.writeEntry bufferSize c1.shareFileData c1.shareFileBufferOffset
              shareEntry }
      match numeric_cast kFileRecipeEntry.shareSize with
      | .error e => .thrown e c2
      | .ok size =>
        match s.restoreShare E fuel kFileRecipeEntry.shareFP
            (ShareFileBuffer.read bufferSize c2.shareFileData c2.shareFileBufferOffset size) with
        | .thrown msg => .thrown msg c2
        | .abort why => .abort why
        | .ok bytes =>
          DedupCore.restoreLoop E fuel s bufferSize rest
            { written := c2.written ++ [.data bytes],
              shareFileBufferOffset := c2.shareFileBufferOffset + size,
              flushed := c2.flushed,
              shareFileData :=
                ShareFileBuffer.write bufferSize c2.shareFileData c2.shareFileBufferOffset bytes }

/-- Source: `restoreShareFile` with the span `shareFileData` of `bufferSize` bytes, holding the bytes
`shareFileData` at the call. The state of the outcome pairs the server state with the calls
of `flushCallBack` made, in order, also when an exception ends the call. -/
def DedupCore.restoreShareFile (E : External) (fuel : Nat) (s : DedupCore) (userID : user_id_t)
    (fullFileName : List Char) (shareFileData : ShareFileBuffer) (bufferSize : Nat) :
    Res (DedupCore × List Flush) Unit :=
  match FormatFullFileName fullFileName with
  | .error e => .thrown e (s, [])
  | .ok formattedFullFileName =>
    let recipeFP := ToRecipeFP E formattedFullFileName userID
    let recipeKey := ToIndexKey .RECIPE recipeFP
    match s.backend_.getRecipeData E recipeKey with
    | .thrown msg b => .thrown msg ({ s with backend_ := b }, [])
    | .abort why => .abort why
    | .ok recipeValue b =>
      let s1 : DedupCore := { s with backend_ := b }
      match ParseFileRecipe recipeValue with
      | .error e => .thrown e (s1, [])
      | .ok (kFileRecipeHead, kFileRecipeEntries) =>
        let shareFileHead : shareFileHead_t :=
          ⟨kFileRecipeHead.fileSize, kFileRecipeHead.numOfShares⟩
        if LOOP_PARALLEL then .thrown "unimplemented" (s1, [])
        else
          match s1.restoreLoop E fuel bufferSize kFileRecipeEntries
              ⟨[.head shareFileHead], SHARE_FILE_HEAD_SIZE, [],
                ShareFileBuffer.writeHead bufferSize shareFileData 0 shareFileHead⟩ with
          | .thrown msg c => .thrown msg (s1, c.flushed)
          | .abort why => .abort why
          | .ok _ c =>
            if c.shareFileBufferOffset > 0 then
              .ok () (s1, c.flushed ++ [⟨c.shareFileBufferOffset, c.written⟩])
            else .ok () (s1, c.flushed)

/-! ## comm/services.hpp -/

/-- What one pass of the loop of `ClientUpload::operator()` receives: the total number of
shares announced when the session was opened, the META packet, and the content of the DATA
packet the client answers the STAT response with. -/
structure UploadRound where
  numOfTotalShares : Nat
  shareMeta : FileShareMeta
  shareData : List Bool → Bytes

/-- One pass of the loop of `ClientUpload::operator()`: `firstStageDedup`, the STAT response,
the DATA packet the client sends for it, `secondStageDedup`. The result is the STAT list. -/
def ClientUpload.round (E : External) (fuel : Nat) (userID : user_id_t) (s : DedupCore)
    (r : UploadRound) : Res DedupCore (List Bool) :=
  match s.firstStageDedup userID r.shareMeta with
  | .thrown msg => .thrown msg s
  | .abort why => .abort why
  | .ok dupStat =>
    match s.secondStageDedup E fuel userID r.shareMeta (r.shareData dupStat) dupStat
        r.numOfTotalShares with
    | .thrown msg s1 => .thrown msg s1
    | .abort why => .abort why
    | .ok _ s1 => .ok dupStat s1

/-- Source: `ClientUpload::operator()`: the rounds of one upload session, in order. -/
def ClientUpload.run (E : External) (fuel : Nat) (userID : user_id_t) :
    List UploadRound → DedupCore → Res DedupCore (List (List Bool))
  | [], s => .ok [] s
  | r :: rest, s =>
    match ClientUpload.round E fuel userID s r with
    | .thrown msg s1 => .thrown msg s1
    | .abort why => .abort why
    | .ok dupStat s1 =>
      match ClientUpload.run E fuel userID rest s1 with
      | .thrown msg s2 => .thrown msg s2
      | .abort why => .abort why
      | .ok stats s2 => .ok (dupStat :: stats) s2

/-- Source: `ClientDownload::operator()`: the span handed to `restoreShareFile` leaves room for the
packet header; it lies in `shareFileBuffer_`, which `std::make_unique<std::byte[]>` fills
with zeros for each request. -/
def ClientDownload.run (E : External) (fuel : Nat) (userID : user_id_t) (s : DedupCore)
    (fullFileName : List Char) : Res (DedupCore × List Flush) Unit :=
  s.restoreShareFile E fuel userID fullFileName (fun _ => 0)
    (SHARE_FILE_BUFFER_LEN - PACKET_HEADER_SIZE)

/-! ## Reachable states -/

/-- The state a call leaves behind, when it returns or throws. -/
def Res.state? {σ α : Type} : Res σ α → Option σ
  | .ok _ s => some s
  | .thrown _ s => some s
  | .abort _ => none

/-- The states the server can be in: the empty store, and every state left behind by a call
of `interUserIndexUpdate`, `secondStageDedup` or `restoreShareFile`, with any arguments,
whether the call returned or threw. -/
inductive Reachable (E : External) : DedupCore → Prop where
  | init : Reachable E DedupCore.new
  | interUserIndexUpdate {s s' : DedupCore} (fuel : Nat) (shareFP : fingerprint_t)
      (userID : user_id_t) (shareData : Bytes) :
      Reachable E s →
      (s.interUserIndexUpdate E fuel shareFP userID shareData).state? = some s' →
      Reachable E s'
  | secondStageDedup {s s' : DedupCore} (fuel : Nat) (userID : user_id_t)
      (shareMeta : FileShareMeta) (shareData : Bytes) (dupStat : List Bool)
      (totalNumOfShares : Nat) :
      Reachable E s →
      (s.secondStageDedup E fuel userID shareMeta shareData dupStat totalNumOfShares).state? = some s' →
      Reachable E s'
  | restoreShareFile {s : DedupCore} {r : DedupCore × List Flush} (fuel : Nat)
      (userID : user_id_t) (fullFileName : List Char) (shareFileData : ShareFileBuffer)
      (bufferSize : Nat) :
      Reachable E s →
      (s.restoreShareFile E fuel userID fullFileName shareFileData bufferSize).state? = some r →
      Reachable E r.1

/-! ## Notions used in the statements -/

/-- Stand-ins for the linked libraries, for evaluating the model on concrete inputs: the hash
is the identity, every share has the same super-features, the delta of `src` against `base`
is the part of `src` after its first eight bytes when `src` has eight bytes or more and starts
with the first eight bytes of `base`, and the decoder puts these eight bytes back. -/
def External.sample : External :=
  { generateHash := fun bytes => bytes,
    finesse_super_feature := fun _ => ⟨0, 0, 0⟩,
    xd3_encode_memory := fun input source avail_output =>
      if 8 ≤ input.length ∧ input.take 8 = source.take 8 ∧ input.length - 8 ≤ avail_output then
        some (input.drop 8)
      else none,
    xd3_decode_memory := fun input source avail_output =>
      if 8 + input.length ≤ avail_output then some (source.take 8 ++ input) else none,
    containerDir_ := "./meta/Container/" }

/-- The value `updateShareIndex` writes back: one more slot, the user in slot `numOfUsers`,
`numOfUsers` incremented. -/
def ShareIndexValue.addUser (v : ShareIndexValue) (userID : user_id_t) : ShareIndexValue :=
  { head := { v.head with numOfUsers := v.head.numOfUsers + 1 },
    entries :=
      if v.head.numOfUsers < 0 then v.entries ++ [shareUserRefEntry_t.mk 0]
      else (v.entries ++ [shareUserRefEntry_t.mk 0]).set v.head.numOfUsers.toNat
        (shareUserRefEntry_t.mk userID) }

/-- The value `interUserIndexUpdate` builds for a new share. -/
def newShareValue (userID : user_id_t) (shareData : Bytes) (deltaDepth : Nat)
    (baseFP : fingerprint_t) (deltaSize : Nat) (containerName : internal_file_name_t)
    (offset : Nat) : ShareIndexValue :=
  ⟨{ shareSize := shareData.length, numOfUsers := 1, deltaDepth := deltaDepth,
     deltaSize := deltaSize, baseFP := baseFP, containerName := containerName,
     offset := offset }, [⟨userID⟩]⟩

/-- Between `b` and `b'` only the recipe store changed (unfinished recipes, recipe cache,
recipe files), and the write batch may have been flushed. -/
structure BackendFacade.RecipeStep (b b' : BackendFacade) : Prop where
  dispenser : b'.containerNameDispenser_ = b.containerNameDispenser_
  container : b'.shareContainer_ = b.shareContainer_
  name : b'.shareContainerName_ = b.shareContainerName_
  offset : b'.shareContainerOffset_ = b.shareContainerOffset_
  files : b'.containerFiles = b.containerFiles
  db : b'.db = b.db ∨ b'.db = b.db.BatchFlush

/-- Between `b` and `b'` only the container pool changed. -/
structure BackendFacade.PoolStep (b b' : BackendFacade) : Prop where
  db : b'.db = b.db
  unfinished : b'.unfinishedRecipeFileCache_ = b.unfinishedRecipeFileCache_
  cache : b'.recipeCache_ = b.recipeCache_
  recipes : b'.recipeFiles = b.recipeFiles

/-- State `b'` is what a run of calls of `putShareData` on `b` leaves behind, each call returning or
throwing. -/
inductive BackendFacade.LaterPuts : BackendFacade → BackendFacade → Prop where
  | refl (b : BackendFacade) : BackendFacade.LaterPuts b b
  | step {b b1 b2 : BackendFacade} (shareData : Bytes) :
      BackendFacade.LaterPuts b b1 → (b1.putShareData shareData).state? = some b2 →
      BackendFacade.LaterPuts b b2

/-- A share index value is well formed: at least one user, as many reference slots as
`numOfUsers` says, no user twice. -/
structure ShareIndexValue.UsersOk (v : ShareIndexValue) : Prop where
  pos : 1 ≤ v.head.numOfUsers
  length : (v.entries.length : Int) = v.head.numOfUsers
  nodup : (v.entries.map (fun e => e.userID)).Nodup

/-- The delta depths recorded in the key-value store are consistent. -/
structure DataBase.DepthOk (d : DataBase) : Prop where
  bound : ∀ k v, (k, v) ∈ d.bindings → v.head.deltaDepth ≤ MAX_DELTA_DEPTH
  base : ∀ k v, (k, v) ∈ d.bindings → 0 < v.head.deltaDepth →
    ∃ b, d.Get (ToIndexKey .SHARE_INDEX v.head.baseFP) = some b ∧
      b.head.deltaDepth + 1 = v.head.deltaDepth
  pending : ∀ k v v0, (k, v) ∈ d.writeBatch_ → d.Get k = some v0 →
    v.head.deltaDepth = v0.head.deltaDepth

/-- Property `Q` is kept by every change the server makes to the key-value store: a flush, the
write-back of `updateShareIndex`, and the write of a new share index value (with
`deltaDepth` 0, or one more than that of a base present in the database). -/
structure DbInv (Q : DataBase → Prop) : Prop where
  flush : ∀ d, Q d → Q d.BatchFlush
  add : ∀ d k v u, Q d → d.Get k = some v → 0 ≤ v.head.numOfUsers →
    (∀ e ∈ spanRead v.entries v.head.numOfUsers.toNat, e.userID ≠ u) →
    Q (d.Put k (v.addUser u))
  new : ∀ d fp u data depth baseFP dsize name off, Q d →
    d.Get (ToIndexKey .SHARE_INDEX fp) = none →
    (depth = 0 ∨ ∃ baseVal, d.Get (ToIndexKey .SHARE_INDEX baseFP) = some baseVal ∧
      baseVal.head.deltaDepth < MAX_DELTA_DEPTH ∧ depth = (baseVal.head.deltaDepth + 1) % 256) →
    Q (d.Put (ToIndexKey .SHARE_INDEX fp) (newShareValue u data depth baseFP dsize name off))

/-- The users of a share index value. -/
def ShareIndexValue.users (v : ShareIndexValue) : List user_id_t :=
  v.entries.map (fun e => e.userID)

/-- What the reachable states have in common as far as the share index goes. -/
structure DataBase.Consistent (d : DataBase) : Prop where
  users : ∀ k v, (k, v) ∈ d.bindings → v.UsersOk
  depth : d.DepthOk
  pending : ∀ k v v0, (k, v) ∈ d.writeBatch_ → d.Get k = some v0 → ∃ u, v = v0.addUser u

/-- The number of `baseFP` links to follow from `v` to reach a share index entry with
`deltaDepth == 0`, looking at most `fuel` links far. -/
def DedupCore.stepsToRaw (s : DedupCore) : Nat → ShareIndexValue → Option Nat
  | fuel, v =>
    if v.head.deltaDepth = 0 then some 0
    else
      match fuel with
      | 0 => none
      | fuel + 1 =>
        match s.backend_.getShareIndex (ToIndexKey .SHARE_INDEX v.head.baseFP) with
        | none => none
        | some b => (DedupCore.stepsToRaw s fuel b).map (· + 1)

/-- The bytes at `(name, off)` are `d` and lie in the part of the pool that is never written
again: in a sealed container, or below the write offset of the writable one. -/
def BackendFacade.Holds (b : BackendFacade) (name : internal_file_name_t) (off : Nat) (d : Bytes) :
    Prop :=
  (∃ r, kvGet name b.containerFiles = some r ∧ r.read off d.length = d) ∧
  (name = b.shareContainerName_ → off + d.length ≤ b.shareContainerOffset_)

/-- The share meta entries `ParseFileShareMeta` hands to the two stages. -/
def FileShareMeta.entriesView (m : FileShareMeta) : List shareMetaEntry_t :=
  spanRead m.entries m.head.numOfComingSecrets.toNat

/-- Every share data span that the loop of `secondStageDedup`, started at buffer offset `off`,
passes to `interUserIndexUpdate` satisfies `G`. -/
def SlicesGood (G : fingerprint_t → Bytes → Prop) (shareData : Bytes) :
    List (shareMetaEntry_t × Bool) → Nat → Prop
  | [], _ => True
  | (e, dup) :: rest, off =>
    if dup then SlicesGood G shareData rest off
    else G e.shareFP (shareDataSlice shareData off e.shareSize.toNat) ∧
      SlicesGood G shareData rest (off + e.shareSize.toNat)

/-- The share data spans of every round satisfy `G`, whatever the first-stage statuses are. -/
def RoundsGood (G : fingerprint_t → Bytes → Prop) (rounds : List UploadRound) : Prop :=
  ∀ r ∈ rounds, ∀ dupStat : List Bool, dupStat.length = r.shareMeta.entriesView.length →
    SlicesGood G (r.shareData dupStat) (r.shareMeta.entriesView.zip dupStat) 0

/-- Carry form of the advance step of `NameDispenser.get`. -/
def nameIncr : List Char → Option (List Char)
  | [] => none
  | c :: cs => if c = 'z' then (nameIncr cs).map ('a' :: ·) else some (charIncr c :: cs)

/-- The `k` lowest base-26 digits of `n`, lowest first, as letters. -/
def digitsName : Nat → Nat → List Char
  | 0, _ => []
  | k + 1, n => Char.ofNat (97 + n % 26) :: digitsName k (n / 26)

/-- The container pool is consistent: the writable container carries the name dispensed last,
the dispenser holds the next name, and every container file bears a name dispensed so far. -/
structure BackendFacade.PoolOk (b : BackendFacade) : Prop where
  names : ∃ k, k + 1 < 26 ^ 16 ∧ b.shareContainerName_ = digitsName 16 k ∧
    b.containerNameDispenser_.name_ = digitsName 16 (k + 1) ∧
    ∀ name, (kvGet name b.containerFiles).isSome → ∃ j, j ≤ k ∧ name = digitsName 16 j
  mapped : b.shareContainer_ = ⟨some b.shareContainerName_⟩
  present : (kvGet b.shareContainerName_ b.containerFiles).isSome

/-- The name with index `n` in the order of the dispenser: character `i` from the left is
`'a' + (n / 26 ^ i) mod 26`. -/
def nameOfIndex (n : Nat) : internal_file_name_t :=
  (List.range INTERNAL_FILE_NAME_SIZE).map (fun i => Char.ofNat (97 + n / 26 ^ i % 26))

/-- Strict lexicographic order on names, comparing characters from left to right. -/
def lexLt : List Char → List Char → Bool
  | [], [] => false
  | [], _ :: _ => true
  | _ :: _, [] => false
  | a :: as, b :: bs =>
    if a.toNat < b.toNat then true
    else if b.toNat < a.toNat then false
    else lexLt as bs

/-! ## Concrete runs -/

/-- The flushes of a call of `restoreShareFile` that returned. -/
def Res.flushes? : Res (DedupCore × List Flush) Unit → Option (List Flush)
  | .ok _ (_, flushes) => some flushes
  | _ => none

/-- The META packet of a one-share file `/a`. -/
def Sample.shareMeta (fp : fingerprint_t) (size : Int) : FileShareMeta :=
  { head := ⟨2, size, 0, 0, 1, size⟩, fullFileName := ['/', 'a'],
    entries := [⟨fp, 0, size, size⟩] }

/-- Upload of `/a` holding the share `[5, 6]` with fingerprint `[1]`. -/
def Sample.firstUpload : UploadRound := ⟨1, Sample.shareMeta [1] 2, fun _ => [5, 6]⟩

/-- Upload of `/a` holding the share `[7, 8, 9]` with fingerprint `[2]`. -/
def Sample.secondUpload : UploadRound := ⟨1, Sample.shareMeta [2] 3, fun _ => [7, 8, 9]⟩

/-- The server after user 1 uploaded `Sample.firstUpload` to the empty store. -/
def Sample.afterFirst : DedupCore :=
  match ClientUpload.run External.sample 2 1 [Sample.firstUpload] DedupCore.new with
  | .ok _ s => s
  | _ => DedupCore.new

/-- The server after user 1 then uploaded `Sample.secondUpload` under the same name. -/
def Sample.afterSecond : DedupCore :=
  match ClientUpload.run External.sample 2 1 [Sample.secondUpload] Sample.afterFirst with
  | .ok _ s => s
  | _ => DedupCore.new

/-- The server after user 2 uploaded `Sample.firstUpload` on top of `Sample.afterFirst`. -/
def Sample.afterOther : DedupCore :=
  match ClientUpload.run External.sample 2 2 [Sample.firstUpload] Sample.afterFirst with
  | .ok _ s => s
  | _ => DedupCore.new

/-- The server after `interUserIndexUpdate([1], 7, [5, 6])` on the empty store. -/
def Sample.afterShare : DedupCore :=
  match DedupCore.new.interUserIndexUpdate External.sample 1 [1] 7 [5, 6] with
  | .ok _ s => s
  | _ => DedupCore.new

/-- The backend after `putShareData([1, 2, 3])` on a fresh one. -/
def Sample.afterPut : BackendFacade :=
  match BackendFacade.new.putShareData [1, 2, 3] with
  | .ok _ b => b
  | _ => BackendFacade.new

end dedup

set_option maxRecDepth 100000

namespace dedup

/-! ## Further concrete runs -/

/-- Stand-ins for the linked libraries whose encoder finds nothing to save: its output is the
input itself, as long as it fits the space offered, and the decoder hands its input back. -/
def External.flat : External :=
  { generateHash := fun bytes => bytes,
    finesse_super_feature := fun _ => ⟨0, 0, 0⟩,
    xd3_encode_memory := fun input _ avail_output =>
      if input.length ≤ avail_output then some input else none,
    xd3_decode_memory := fun input _ avail_output =>
      if input.length ≤ avail_output then some input else none,
    containerDir_ := "./meta/Container/" }

/-- Upload of `/a` holding one share of 1024 zero bytes with fingerprint `[1]`. -/
def Sample.baseUpload : UploadRound :=
  ⟨1, Sample.shareMeta [1] 1024, fun _ => List.replicate 1024 0⟩

/-- The server after user 1 uploaded `Sample.baseUpload` to the empty store, with
`External.flat`. -/
def Sample.afterBase : DedupCore :=
  match ClientUpload.run External.flat 2 1 [Sample.baseUpload] DedupCore.new with
  | .ok _ s => s
  | _ => DedupCore.new

/-- The server after `interUserIndexUpdate([2], 1, 512 bytes of value one)` on
`Sample.afterBase`, with `External.flat`. -/
def Sample.afterFlat : DedupCore :=
  match Sample.afterBase.interUserIndexUpdate External.flat 2 [2] 1 (List.replicate 512 1) with
  | .ok _ s => s
  | _ => DedupCore.new

/-- Source: `putRecipeFile` with the compile-time constant `config::PARANOID_CHECK` as an
argument; `putRecipeFile` is this function at the configured value. -/
def BackendFacade.putRecipeFileWith (paranoid : Bool) (b : BackendFacade) (userID : user_id_t)
    (key : key_t) (fileShareMetaHead : fileShareMetaHead_t) (totalNumOfShares : Nat) :
    Res BackendFacade RecipeSpan :=
  if fileShareMetaHead.numOfPastSecrets = 0 then
    let cache :=
      match kvGet key b.unfinishedRecipeFileCache_ with
      | some _ => b.unfinishedRecipeFileCache_
      | none =>
        (key, ((⟨default, List.replicate totalNumOfShares default⟩ : FileRecipe), totalNumOfShares)) ::
          b.unfinishedRecipeFileCache_
    let cache := kvModify key
      (fun bt => ({ bt.1 with head := ⟨userID, fileShareMetaHead.fileSize, 0⟩ }, bt.2)) cache
    let b1 := { b with unfinishedRecipeFileCache_ := cache }
    match numeric_cast fileShareMetaHead.numOfComingSecrets with
    | .error e => .thrown e b1
    | .ok n => .ok ⟨0, n⟩ b1
  else
    match kvGet key b.unfinishedRecipeFileCache_ with
    | none => .thrown "fail to find the recipe file in cache" b
    | some (recipeFileBuffer, total) =>
      if paranoid ∧ (recipeFileBuffer.head.userID ≠ userID ∨ total ≠ totalNumOfShares) then
        .thrown "the file recipe head is invalid" b
      else if (FILE_RECIPE_ENTRY_SIZE : Int) * fileShareMetaHead.numOfPastSecrets > INT_MAX ∨
          (FILE_RECIPE_ENTRY_SIZE : Int) * fileShareMetaHead.numOfPastSecrets < -INT_MAX - 1 then
        .abort .signedOverflow
      else
        match numeric_cast fileShareMetaHead.numOfComingSecrets with
        | .error e => .thrown e b
        | .ok n => .ok ⟨fileShareMetaHead.numOfPastSecrets, n⟩ b

/-- The recipe key of user 1 and file `/a` under `External.sample`. -/
def Sample.recipeKey : key_t :=
  ToIndexKey .RECIPE (ToRecipeFP External.sample ['/', 'a'] 1)

/-- A fresh backend after user 1 opened the recipe of `/a` for two shares in total. -/
def Sample.unfinished : BackendFacade :=
  match BackendFacade.new.putRecipeFile 1 Sample.recipeKey ⟨2, 7, 0, 0, 1, 7⟩ 2 with
  | .ok _ b => b
  | _ => BackendFacade.new

/-- The value of a call that returned. -/
def Res.value? {σ α : Type} : Res σ α → Option α
  | .ok a _ => some a
  | _ => none

/-! ## The share file stream -/

/-- What `restoreShareFile` lays out for one recipe entry: the share entry, then the share. -/
def renderShare (e : fileRecipeEntry_t) (payload : Bytes) : List ShareFileItem :=
  [.entry ⟨e.secretID, e.secretSize, e.shareSize⟩, .data payload]

/-- What `restoreShareFile` lays out for a run of recipe entries with their shares. -/
def renderShares (l : List (fileRecipeEntry_t × Bytes)) : List ShareFileItem :=
  l.flatMap (fun ep => renderShare ep.1 ep.2)

/-- The number of buffer bytes a run of items takes. -/
def itemsSize (l : List ShareFileItem) : Nat :=
  (l.map ShareFileItem.size).sum

/-- The bytes under the span that one pass of the loop of `restoreShareFile` hands to
`restoreShare`: what the buffer holds behind the share entry just written, after the
flush if there is one. -/
def RestoreCursor.slice (bufferSize : Nat) (e : fileRecipeEntry_t) (c : RestoreCursor) : Bytes :=
  if c.shareFileBufferOffset + (SHARE_ENTRY_SIZE + e.shareSize.toNat) ≥ bufferSize then
    ShareFileBuffer.read bufferSize
      (ShareFileBuffer.writeEntry bufferSize c.shareFileData 0
        ⟨e.secretID, e.secretSize, e.shareSize⟩)
      SHARE_ENTRY_SIZE e.shareSize.toNat
  else
    ShareFileBuffer.read bufferSize
      (ShareFileBuffer.writeEntry bufferSize c.shareFileData c.shareFileBufferOffset
        ⟨e.secretID, e.secretSize, e.shareSize⟩)
      (c.shareFileBufferOffset + SHARE_ENTRY_SIZE) e.shareSize.toNat

/-- One pass of the loop of `restoreShareFile` whose share restore returned `payload`: flush
when the entry and the share would reach the end of the buffer, then lay them out. -/
def RestoreCursor.put (bufferSize : Nat) (e : fileRecipeEntry_t) (payload : Bytes)
    (c : RestoreCursor) : RestoreCursor :=
  if c.shareFileBufferOffset + (SHARE_ENTRY_SIZE + e.shareSize.toNat) ≥ bufferSize then
    { written := renderShare e payload,
      shareFileBufferOffset := SHARE_ENTRY_SIZE + e.shareSize.toNat,
      flushed := c.flushed ++ [⟨c.shareFileBufferOffset, c.written⟩],
      shareFileData :=
        ShareFileBuffer.write bufferSize
          (ShareFileBuffer.writeEntry bufferSize c.shareFileData 0
            ⟨e.secretID, e.secretSize, e.shareSize⟩)
          SHARE_ENTRY_SIZE payload }
  else
    { written := c.written ++ renderShare e payload,
      shareFileBufferOffset := c.shareFileBufferOffset + SHARE_ENTRY_SIZE + e.shareSize.toNat,
      flushed := c.flushed,
      shareFileData :=
        ShareFileBuffer.write bufferSize
          (ShareFileBuffer.writeEntry bufferSize c.shareFileData c.shareFileBufferOffset
            ⟨e.secretID, e.secretSize, e.shareSize⟩)
          (c.shareFileBufferOffset + SHARE_ENTRY_SIZE) payload }

/-- The buffer offset is positive, inside the buffer and the size of the items written since
the last flush; every flush made had a positive length inside the buffer, the size of its
items. -/
structure RestoreCursor.Ok (bufferSize : Nat) (c : RestoreCursor) : Prop where
  pos : 0 < c.shareFileBufferOffset
  le : c.shareFileBufferOffset ≤ bufferSize
  size : c.shareFileBufferOffset = itemsSize c.written
  flushed : ∀ f ∈ c.flushed, 0 < f.size ∧ f.size ≤ bufferSize ∧ f.size = itemsSize f.content

/-- How the share file head and the shares `done` spread over the flushes made and the part
of the buffer written since: whole shares only, in order, the head first. -/
def RestoreCursor.Lays (head : shareFileHead_t) (c : RestoreCursor)
    (done : List (fileRecipeEntry_t × Bytes)) : Prop :=
  (c.flushed = [] ∧ c.written = .head head :: renderShares done) ∨
  ∃ (first : List (fileRecipeEntry_t × Bytes)) (rest : List (List (fileRecipeEntry_t × Bytes)))
      (cur : List (fileRecipeEntry_t × Bytes)),
    c.flushed.map (fun f => f.content) =
      (.head head :: renderShares first) :: rest.map renderShares ∧
    c.written = renderShares cur ∧ first ++ rest.flatten ++ cur = done

/-- The backend of `Sample.afterFirst` after a lookup of the recipe of `/a`. -/
def Sample.afterLookup : BackendFacade :=
  match Sample.afterFirst.backend_.getRecipeData External.sample Sample.recipeKey with
  | .ok _ b => b
  | _ => BackendFacade.new

/-- Upload of `/b` by a client whose META packet announces one share with the fingerprint
`[1]` and the share size -1. -/
def Sample.negativeUpload : UploadRound :=
  ⟨1, { head := ⟨2, 2, 0, 0, 1, 2⟩, fullFileName := ['/', 'b'], entries := [⟨[1], 0, 2, -1⟩] },
    fun _ => []⟩

/-- The server after user 1 uploaded `Sample.negativeUpload` on top of `Sample.afterFirst`. -/
def Sample.afterNegative : DedupCore :=
  match ClientUpload.run External.sample 2 1 [Sample.negativeUpload] Sample.afterFirst with
  | .ok _ s => s
  | _ => DedupCore.new

/-! ## Uploads in fragments -/

/-- One fragment of an upload, as `secondStageDedup` receives it. -/
structure Fragment where
  shareMeta : FileShareMeta
  shareData : Bytes
  dupStat : List Bool

/-- The calls of `secondStageDedup` for the fragments of one upload, in order, up to the first
call that does not return. -/
def DedupCore.secondStageRun (E : External) (fuel : Nat) (userID : user_id_t)
    (totalNumOfShares : Nat) : List Fragment → DedupCore → Res DedupCore Unit
  | [], s => .ok () s
  | f :: rest, s =>
    match s.secondStageDedup E fuel userID f.shareMeta f.shareData f.dupStat totalNumOfShares with
    | .thrown msg s1 => .thrown msg s1
    | .abort why => .abort why
    | .ok _ s1 => DedupCore.secondStageRun E fuel userID totalNumOfShares rest s1

/-- The recipe entry `secondStageDedup` writes for a share meta entry. -/
def shareMetaEntry_t.toRecipeEntry (e : shareMetaEntry_t) : fileRecipeEntry_t :=
  ⟨e.shareFP, e.secretID, e.secretSize, e.shareSize⟩

/-- The recipe entries of the share meta entries of a fragment. -/
def Fragment.recipeEntries (f : Fragment) : List fileRecipeEntry_t :=
  f.shareMeta.entriesView.map shareMetaEntry_t.toRecipeEntry

/-- Every fragment announces as `numOfPastSecrets` the number of entries submitted before it,
`past` for the first of the list. -/
def Fragment.Follow : Int → List Fragment → Prop
  | _, [] => True
  | past, f :: rest =>
    f.shareMeta.head.numOfPastSecrets = past ∧
      Fragment.Follow (past + f.shareMeta.head.numOfComingSecrets) rest

/-- The fragments carry the file name `name`. -/
def Fragment.Named (name : List Char) (frags : List Fragment) : Prop :=
  ∀ f ∈ frags, spanRead f.shareMeta.fullFileName f.shareMeta.head.fullNameSize.toNat = name

/-- Assignment of `xs` through consecutive slots of `l`, from slot `pos` on. -/
def writeEntries {α : Type} : List α → Nat → List α → List α
  | l, _, [] => l
  | l, pos, x :: xs => writeEntries (l.set pos x) (pos + 1) xs

/-- The unfinished recipe buffer of `key` was opened by `userID` for a file of `fileSize` bytes
and `total` shares, and holds the entries `sub` submitted so far. -/
def BackendFacade.Building (b : BackendFacade) (key : key_t) (userID : user_id_t)
    (fileSize : Int) (total : Nat) (sub : List fileRecipeEntry_t) : Prop :=
  kvGet key b.unfinishedRecipeFileCache_ =
    some (⟨⟨userID, fileSize, (sub.length : Int)⟩,
      sub ++ List.replicate (total - sub.length) default⟩, total)

/-- First fragment of `/a`, a file of 7 bytes in two shares: the share `[5, 6]`. -/
def Sample.firstFragment : Fragment :=
  ⟨⟨⟨2, 7, 0, 0, 1, 2⟩, ['/', 'a'], [⟨[1], 0, 2, 2⟩]⟩, [5, 6], [false]⟩

/-- Second and last fragment of `/a`: the share `[7, 8, 9]`. -/
def Sample.lastFragment : Fragment :=
  ⟨⟨⟨2, 7, 1, 2, 1, 3⟩, ['/', 'a'], [⟨[2], 1, 3, 3⟩]⟩, [7, 8, 9], [false]⟩

/-- The server after user 1 sent `Sample.firstFragment` to the empty store. -/
def Sample.afterFirstFragment : DedupCore :=
  match DedupCore.new.secondStageRun External.sample 2 1 2 [Sample.firstFragment] with
  | .ok _ s => s
  | _ => DedupCore.new

/-- The server after user 1 sent both fragments of `/a` to the empty store. -/
def Sample.afterFragments : DedupCore :=
  match DedupCore.new.secondStageRun External.sample 2 1 2
    [Sample.firstFragment, Sample.lastFragment] with
  | .ok _ s => s
  | _ => DedupCore.new

/-- A fragment of `/a` without entries that announces a file of 10 bytes. -/
def Sample.emptyFragment : Fragment :=
  ⟨⟨⟨2, 10, 0, 0, 0, 0⟩, ['/', 'a'], []⟩, [], []⟩

/-- A fragment of `/a` with the share `[5, 6]` that announces a file of 20 bytes. -/
def Sample.soleFragment : Fragment :=
  ⟨⟨⟨2, 20, 0, 0, 1, 2⟩, ['/', 'a'], [⟨[1], 0, 2, 2⟩]⟩, [5, 6], [false]⟩

/-- A fragment of `/a` without entries that follows one submitted entry. -/
def Sample.trailingFragment : Fragment :=
  ⟨⟨⟨2, 20, 1, 2, 0, 0⟩, ['/', 'a'], []⟩, [], []⟩

/-- The server after user 1 sent `Sample.emptyFragment` and then `Sample.soleFragment` to the
empty store, as an upload of one share. -/
def Sample.afterEmptyFragment : DedupCore :=
  match DedupCore.new.secondStageRun External.sample 2 1 1
    [Sample.emptyFragment, Sample.soleFragment] with
  | .ok _ s => s
  | _ => DedupCore.new

/-! ## Restoring with a decoder that does not give the share back -/

/-- Source: `restoreDeltaShare` with the compile-time constant `config::PARANOID_CHECK` as an
argument; `restoreDeltaShare` is this function at the configured value. -/
def DedupCore.restoreDeltaShareWith (paranoid : Bool) (E : External) (s : DedupCore) :
    Nat → shareIndexHead_t → Bytes → Ret Bytes
  | 0, _, _ => .abort .outOfFuel
  | fuel + 1, shareIndexHead, shareData =>
    match s.backend_.getShareIndex (ToIndexKey .SHARE_INDEX shareIndexHead.baseFP) with
    | none => .thrown "base index not exists"
    | some baseIndexValue =>
      match ParseShareIndex baseIndexValue with
      | .error e => .thrown e
      | .ok (kBaseShareIndexHead, _) =>
        if kBaseShareIndexHead.shareSize < 0 then .thrown "cannot create std::vector larger than max_size()"
        else
          let baseSize : Nat := kBaseShareIndexHead.shareSize.toNat
          let baseRes : Ret Bytes :=
            if kBaseShareIndexHead.deltaDepth = 0 then
              s.backend_.getShareData kBaseShareIndexHead.containerName kBaseShareIndexHead.offset
                baseSize
            else
              DedupCore.restoreDeltaShareWith paranoid E s fuel kBaseShareIndexHead
                (List.replicate baseSize 0)
          match baseRes with
          | .thrown msg => .thrown msg
          | .abort why => .abort why
          | .ok base =>
            match s.backend_.getShareData shareIndexHead.containerName shareIndexHead.offset
                shareIndexHead.deltaSize with
            | .thrown msg => .thrown msg
            | .abort why => .abort why
            | .ok delta =>
              if shareIndexHead.shareSize < 0 then
                .thrown "cannot create std::vector larger than max_size()"
              else
                let restoreData := Delta.RestoreSrc E base delta shareIndexHead.shareSize.toNat
                if paranoid ∧ restoreData.length ≠ shareData.length then .thrown "size not match"
                else
                  .ok (restoreData.take shareData.length ++ shareData.drop restoreData.length)

/-- Stand-ins for the linked libraries with the encoder of `External.flat` and a decoder that
always reports a failure. -/
def External.deaf : External :=
  { External.flat with xd3_decode_memory := fun _ _ _ => none }

/-- Stand-ins for the linked libraries with the encoder of `External.flat` and a decoder that
reports success with an output of one byte. -/
def External.curt : External :=
  { External.flat with xd3_decode_memory := fun _ _ _ => some [9] }

/-- The server after user 1 sent `/a`, one share of 1024 zero bytes with fingerprint `[1]`, to
the empty store, with `External.flat`. -/
def Sample.afterRaw : DedupCore :=
  match DedupCore.new.secondStageDedup External.flat 2 1 (Sample.shareMeta [1] 1024)
    (List.replicate 1024 0) [false] 1 with
  | .ok _ s => s
  | _ => DedupCore.new

/-- The server after user 1 then sent `/a` as one share of 512 bytes of value one with
fingerprint `[2]`: the share is stored as a delta from the share `[1]`. -/
def Sample.afterDelta : DedupCore :=
  match Sample.afterRaw.secondStageDedup External.flat 2 1 (Sample.shareMeta [2] 512)
    (List.replicate 512 1) [false] 1 with
  | .ok _ s => s
  | _ => DedupCore.new

/-! ## A fragment that holds one share twice -/

/-- A one-fragment upload of `/a` whose two entries both carry the fingerprint `[1]` and the
share `[5, 6]`, neither marked as a duplicate. -/
def Sample.twinFragment : Fragment :=
  ⟨⟨⟨2, 4, 0, 0, 2, 4⟩, ['/', 'a'], [⟨[1], 0, 2, 2⟩, ⟨[1], 1, 2, 2⟩]⟩, [5, 6, 5, 6], [false, false]⟩

/-- The server after user 1 sent `Sample.twinFragment` to the empty store. -/
def Sample.afterTwin : DedupCore :=
  match DedupCore.new.secondStageRun External.sample 2 1 2 [Sample.twinFragment] with
  | .ok _ s => s
  | _ => DedupCore.new

/-! ## An upload that starts over -/

/-- The backend `Sample.unfinished`, where user 1 has opened the recipe of `/a` for two
shares, after `putRecipeFile` of user 1 for the same file, now announced with 9 bytes and one
share. -/
def Sample.reopened : BackendFacade :=
  match Sample.unfinished.putRecipeFile 1 Sample.recipeKey ⟨2, 9, 0, 0, 1, 9⟩ 1 with
  | .ok _ b => b
  | _ => BackendFacade.new

/-- The server after user 1 sent the first of the two fragments of `/a` and then, instead of
the second, uploaded `/a` anew as the one-share file of `Sample.soleFragment`. -/
def Sample.afterRestart : DedupCore :=
  match Sample.afterFirstFragment.secondStageRun External.sample 2 1 1 [Sample.soleFragment] with
  | .ok _ s => s
  | _ => DedupCore.new

/-! ## Uploads of shares that fit a container -/

/-- The META packet of a two-share file `/b`: the share `[1]` of 1024 bytes and the share
`[2]` of 512 bytes. -/
def Sample.pairMeta : FileShareMeta :=
  { head := ⟨2, 1536, 0, 0, 2, 1536⟩, fullFileName := ['/', 'b'],
    entries := [⟨[1], 0, 1024, 1024⟩, ⟨[2], 1, 512, 512⟩] }

/-- The server after user 1 sent `/b` on top of `Sample.afterRaw`: the share `[1]`, which the
store holds, and the new share `[2]` of 512 bytes of value one, stored as a delta from the
share `[1]`. -/
def Sample.afterPair : DedupCore :=
  match Sample.afterRaw.secondStageDedup External.flat 2 1 Sample.pairMeta
    (List.replicate 512 1) [true, false] 2 with
  | .ok _ s => s
  | _ => DedupCore.new

/-- The items of a flush, with each share cut down to its first `n` bytes. -/
def Flush.heads (n : Nat) (f : Flush) : List ShareFileItem :=
  f.content.map (fun item =>
    match item with
    | .data bytes => .data (bytes.take n)
    | other => other)

/-! ## Name dispenser -/

theorem get_eq_nameIncr (l : List Char) :
    (NameDispenser.mk l).get =
      match nameIncr l with
      | some l' => .ok (l, ⟨l'⟩)
      | none => .error "the global filee nae reaches maximum lexicographically" := by
  induction l with
  | nil => simp [NameDispenser.get, nameIncr]
  | cons c cs ih =>
    by_cases hc : c = 'z'
    · subst hc
      simp only [NameDispenser.get, nameIncr] at ih ⊢
      simp only [List.findIdx_cons, beq_self_eq_true, Bool.not_true, cond_false, List.length_cons,
        Nat.add_lt_add_iff_right, if_true]
      cases h : nameIncr cs with
      | none =>
        rw [h] at ih
        by_cases hlt : List.findIdx (fun c => !(c == 'z')) cs < cs.length
        · simp [hlt] at ih
        · simp [hlt]
      | some l' =>
        rw [h] at ih
        by_cases hlt : List.findIdx (fun c => !(c == 'z')) cs < cs.length
        · simp only [hlt, if_true] at ih ⊢
          simp only [Except.ok.injEq, Prod.mk.injEq, true_and, NameDispenser.mk.injEq] at ih
          simp [List.replicate_succ, ← ih]
        · simp [hlt] at ih
    · have hb : (c == 'z') = false := by simpa using hc
      simp [NameDispenser.get, nameIncr, hc, List.findIdx_cons, hb]

theorem digit_lemmas : ∀ d : Fin 26,
    (Char.ofNat (97 + d.val) = 'z' ↔ d.val = 25) ∧
    (d.val < 25 → charIncr (Char.ofNat (97 + d.val)) = Char.ofNat (97 + (d.val + 1))) ∧
    (Char.ofNat (97 + d.val)).toNat = 97 + d.val := by
  decide

theorem nameIncr_digitsName (k n : Nat) :
    nameIncr (digitsName k n) =
      if n % 26 ^ k = 26 ^ k - 1 then none else some (digitsName k (n + 1)) := by
  induction k generalizing n with
  | zero => simp [digitsName, nameIncr, Nat.mod_one]
  | succ k ih =>
    have hd := digit_lemmas ⟨n % 26, Nat.mod_lt _ (by norm_num)⟩
    simp only at hd
    obtain ⟨hz, hs, _⟩ := hd
    have hp : 0 < 26 ^ k := by positivity
    have hmod : n % 26 ^ (k + 1) = n % 26 + 26 * (n / 26 % 26 ^ k) := by
      rw [pow_succ', Nat.mod_mul]
    simp only [digitsName, nameIncr]
    by_cases h25 : n % 26 = 25
    · have hz' : Char.ofNat (97 + n % 26) = 'z' := hz.mpr h25
      rw [if_pos hz', ih]
      have h1 : (n + 1) % 26 = 0 := by omega
      have h2 : (n + 1) / 26 = n / 26 + 1 := by omega
      have hpow : 26 ^ (k + 1) = 26 * 26 ^ k := pow_succ' _ _
      by_cases hall : n / 26 % 26 ^ k = 26 ^ k - 1
      · have : n % 26 ^ (k + 1) = 26 ^ (k + 1) - 1 := by rw [hmod, hpow]; omega
        simp [hall, this]
      · have : ¬ n % 26 ^ (k + 1) = 26 ^ (k + 1) - 1 := by rw [hmod, hpow]; omega
        simp [hall, this, h1, h2]
    · have hz' : ¬ Char.ofNat (97 + n % 26) = 'z' := fun h => h25 (hz.mp h)
      rw [if_neg hz']
      have hlt : n % 26 < 25 := by have := Nat.mod_lt n (show 0 < 26 by norm_num); omega
      have h1 : (n + 1) % 26 = n % 26 + 1 := by omega
      have h2 : (n + 1) / 26 = n / 26 := by omega
      have hpow : 26 ^ (k + 1) = 26 * 26 ^ k := pow_succ' _ _
      have hlt2 : n / 26 % 26 ^ k < 26 ^ k := Nat.mod_lt _ hp
      have : ¬ n % 26 ^ (k + 1) = 26 ^ (k + 1) - 1 := by rw [hmod, hpow]; omega
      simp [this, hs hlt, h1, h2]

theorem digitsName_eq_map (k n : Nat) :
    digitsName k n = (List.range k).map (fun i => Char.ofNat (97 + n / 26 ^ i % 26)) := by
  induction k generalizing n with
  | zero => simp [digitsName]
  | succ k ih =>
    rw [digitsName, ih, List.range_succ_eq_map]
    simp [List.map_map, Function.comp_def, pow_succ', Nat.div_div_eq_div_mul]

theorem nameOfIndex_eq (n : Nat) : nameOfIndex n = digitsName 16 n := by
  rw [digitsName_eq_map]; rfl

theorem digitsName_length (k n : Nat) : (digitsName k n).length = k := by
  induction k generalizing n with
  | zero => simp [digitsName]
  | succ k ih => simp [digitsName, ih]

theorem digitsName_inj (k m n : Nat) (h : digitsName k m = digitsName k n) :
    m % 26 ^ k = n % 26 ^ k := by
  induction k generalizing m n with
  | zero => simp [Nat.mod_one]
  | succ k ih =>
    simp only [digitsName, List.cons.injEq] at h
    obtain ⟨h0, h1⟩ := h
    have hm := (digit_lemmas ⟨m % 26, Nat.mod_lt _ (by norm_num)⟩).2.2
    have hn := (digit_lemmas ⟨n % 26, Nat.mod_lt _ (by norm_num)⟩).2.2
    simp only at hm hn
    have h26 : m % 26 = n % 26 := by
      have := congrArg Char.toNat h0
      rw [hm, hn] at this
      omega
    have := ih _ _ h1
    rw [pow_succ', Nat.mod_mul, Nat.mod_mul, h26, this]

theorem digitsName_inj_lt {m n : Nat} (hm : m < 26 ^ 16) (hn : n < 26 ^ 16)
    (h : digitsName 16 m = digitsName 16 n) : m = n := by
  have := digitsName_inj 16 m n h
  rwa [Nat.mod_eq_of_lt hm, Nat.mod_eq_of_lt hn] at this

theorem get_digitsName {n : Nat} (hn : n + 1 < 26 ^ 16) :
    (NameDispenser.mk (digitsName 16 n)).get = .ok (digitsName 16 n, ⟨digitsName 16 (n + 1)⟩) := by
  rw [get_eq_nameIncr, nameIncr_digitsName, Nat.mod_eq_of_lt (by omega), if_neg (by omega)]

theorem get_digitsName_last :
    (NameDispenser.mk (digitsName 16 (26 ^ 16 - 1))).get =
      .error "the global filee nae reaches maximum lexicographically" := by
  rw [get_eq_nameIncr, nameIncr_digitsName, Nat.mod_eq_of_lt (by norm_num)]
  simp

theorem digitsName_last : digitsName 16 (26 ^ 16 - 1) = List.replicate 16 'z' := by
  decide

theorem afterCalls_eq (n : Nat) :
    NameDispenser.afterCalls n = ⟨digitsName 16 (min n (26 ^ 16 - 1))⟩ := by
  induction n with
  | zero => decide
  | succ n ih =>
    rw [NameDispenser.afterCalls, ih, NameDispenser.afterCall]
    by_cases h : n + 1 < 26 ^ 16
    · rw [min_eq_left (by omega), get_digitsName h, min_eq_left (by omega)]
    · rw [min_eq_right (by omega), get_digitsName_last, min_eq_right (by omega)]

theorem nthGet_eq (n : Nat) :
    NameDispenser.nthGet n =
      if n < 26 ^ 16 - 1 then .ok (nameOfIndex n)
      else .error "the global filee nae reaches maximum lexicographically" := by
  rw [NameDispenser.nthGet, afterCalls_eq]
  by_cases h : n < 26 ^ 16 - 1
  · rw [min_eq_left (by omega), get_digitsName (by omega), if_pos h, nameOfIndex_eq]
  · rw [min_eq_right (by omega), get_digitsName_last, if_neg h]

/-- C9: for every `n < 26^16 - 1`, call number `n` of `NameDispenser::get` on a fresh
dispenser returns the name whose `i`-th character from the left is
`'a' + (n / 26^i) mod 26`; the names returned are pairwise distinct; the call made when the
buffer is all `'z'` (call number `26^16 - 1`) throws, and no call ever returns
`zzzzzzzzzzzzzzzz`. -/
theorem NameDispenser.get_sequence :
    (∀ n, n < 26 ^ 16 - 1 → NameDispenser.nthGet n = .ok (nameOfIndex n)) ∧
    (∀ m n, m < 26 ^ 16 - 1 → n < 26 ^ 16 - 1 →
      NameDispenser.nthGet m = NameDispenser.nthGet n → m = n) ∧
    ((NameDispenser.afterCalls (26 ^ 16 - 1)).name_ = List.replicate 16 'z' ∧
      NameDispenser.nthGet (26 ^ 16 - 1) =
        .error "the global filee nae reaches maximum lexicographically") ∧
    (∀ n, NameDispenser.nthGet n ≠ .ok (List.replicate 16 'z')) := by
  refine ⟨fun n hn => by rw [nthGet_eq, if_pos hn], ?_, ⟨?_, ?_⟩, ?_⟩
  · intro m n hm hn h
    rw [nthGet_eq, nthGet_eq, if_pos hm, if_pos hn, nameOfIndex_eq, nameOfIndex_eq] at h
    exact digitsName_inj_lt (by omega) (by omega) (by simpa using h)
  · rw [afterCalls_eq, min_eq_left (le_refl _), digitsName_last]
  · rw [nthGet_eq, if_neg (lt_irrefl _)]
  · intro n h
    rw [nthGet_eq] at h
    by_cases hn : n < 26 ^ 16 - 1
    · rw [if_pos hn, nameOfIndex_eq, ← digitsName_last] at h
      have h2 : n = 26 ^ 16 - 1 :=
        digitsName_inj_lt (m := n) (n := 26 ^ 16 - 1) (by omega) (by norm_num) (by simpa using h)
      omega
    · rw [if_neg hn] at h
      cases h

/-- Witness for C9 at call number 27. -/
theorem NameDispenser.get_sequence_witness :
    NameDispenser.nthGet 27 = .ok "bbaaaaaaaaaaaaaa".toList ∧
    (27 < 26 ^ 16 - 1 ∧ NameDispenser.nthGet 27 = .ok (nameOfIndex 27)) :=
  ⟨rfl, by norm_num, NameDispenser.get_sequence.1 27 (by norm_num)⟩

/-- C10 (fails on the code): call number 25 returns `zaaaaaaaaaaaaaaa`, call number 26
returns `abaaaaaaaaaaaaaa`, which is lexicographically smaller, not greater. -/
theorem NameDispenser.get_not_lex_increasing :
    NameDispenser.nthGet 25 = .ok "zaaaaaaaaaaaaaaa".toList ∧
    NameDispenser.nthGet 26 = .ok "abaaaaaaaaaaaaaa".toList ∧
    lexLt "zaaaaaaaaaaaaaaa".toList "abaaaaaaaaaaaaaa".toList = false ∧
    lexLt "abaaaaaaaaaaaaaa".toList "zaaaaaaaaaaaaaaa".toList = true :=
  ⟨rfl, rfl, by decide, by decide⟩

/-! ## Key-value lists -/

section kv
variable {κ ν : Type} [DecidableEq κ]

@[simp] theorem kvGet_nil (k : κ) : kvGet k ([] : List (κ × ν)) = none := rfl

theorem kvGet_cons (k k' : κ) (v : ν) (l : List (κ × ν)) :
    kvGet k ((k', v) :: l) = if k' = k then some v else kvGet k l := rfl

@[simp] theorem kvGet_cons_self (k : κ) (v : ν) (l : List (κ × ν)) :
    kvGet k ((k, v) :: l) = some v := by simp [kvGet_cons]

theorem kvGet_cons_ne {k k' : κ} (h : k' ≠ k) (v : ν) (l : List (κ × ν)) :
    kvGet k ((k', v) :: l) = kvGet k l := by simp [kvGet_cons, h]

theorem kvGet_append (k : κ) (l₁ l₂ : List (κ × ν)) :
    kvGet k (l₁ ++ l₂) = match kvGet k l₁ with
      | some v => some v
      | none => kvGet k l₂ := by
  induction l₁ with
  | nil => simp
  | cons a l ih =>
    obtain ⟨k', v⟩ := a
    by_cases h : k' = k <;> simp [kvGet_cons, h, ih]

theorem kvGet_mem {k : κ} {v : ν} {l : List (κ × ν)} (h : kvGet k l = some v) : (k, v) ∈ l := by
  induction l with
  | nil => simp at h
  | cons a l ih =>
    obtain ⟨k', v'⟩ := a
    by_cases hk : k' = k
    · subst hk
      simp at h
      simp [h]
    · rw [kvGet_cons_ne hk] at h
      exact List.mem_cons_of_mem _ (ih h)

theorem kvGet_isSome_of_mem {k : κ} {v : ν} {l : List (κ × ν)} (h : (k, v) ∈ l) :
    (kvGet k l).isSome := by
  induction l with
  | nil => simp at h
  | cons a l ih =>
    obtain ⟨k', v'⟩ := a
    by_cases hk : k' = k
    · simp [kvGet_cons, hk]
    · rw [kvGet_cons_ne hk]
      rcases List.mem_cons.mp h with h1 | h1
      · simp only [Prod.mk.injEq] at h1
        exact absurd h1.1.symm hk
      · exact ih h1

theorem kvGet_eq_none_iff {k : κ} {l : List (κ × ν)} :
    kvGet k l = none ↔ ∀ v, (k, v) ∉ l := by
  constructor
  · intro h v hv
    have := kvGet_isSome_of_mem hv
    simp [h] at this
  · intro h
    cases hg : kvGet k l with
    | none => rfl
    | some v => exact absurd (kvGet_mem hg) (h v)

theorem kvGet_modify (k k' : κ) (f : ν → ν) (l : List (κ × ν)) :
    kvGet k (kvModify k' f l) = if k' = k then (kvGet k l).map f else kvGet k l := by
  induction l with
  | nil => simp [kvModify]
  | cons a l ih =>
    obtain ⟨k₀, v⟩ := a
    simp only [kvModify, List.map_cons] at ih ⊢
    by_cases h0 : k₀ = k' <;> by_cases h1 : k' = k <;> by_cases h2 : k₀ = k <;>
      simp_all [kvGet_cons]

theorem kvGet_erase (k k' : κ) (l : List (κ × ν)) :
    kvGet k (kvErase k' l) = if k' = k then none else kvGet k l := by
  induction l with
  | nil => simp [kvErase]
  | cons a l ih =>
    obtain ⟨k₀, v⟩ := a
    simp only [kvErase, List.filter_cons] at ih ⊢
    by_cases h0 : k₀ = k' <;> by_cases h1 : k' = k <;> by_cases h2 : k₀ = k <;>
      simp_all [kvGet_cons]

theorem kvModify_of_none {k : κ} {f : ν → ν} {l : List (κ × ν)} (h : kvGet k l = none) :
    kvModify k f l = l := by
  induction l with
  | nil => rfl
  | cons a l ih =>
    obtain ⟨k₀, v⟩ := a
    by_cases h0 : k₀ = k
    · simp [kvGet_cons, h0] at h
    · rw [kvGet_cons_ne h0] at h
      simp only [kvModify, List.map_cons, h0, if_false] at ih ⊢
      rw [ih h]

end kv

/-! ## Regions -/

theorem Region.read_length (r : Region) (off n : Nat) : (r.read off n).length = n := by
  simp [Region.read]

theorem Region.read_write_same (r : Region) (off : Nat) (d : Bytes)
    (h : off + d.length ≤ CONTAINER_SIZE) : (r.write off d).read off d.length = d := by
  apply List.ext_getElem
  · simp [Region.read]
  · intro i h1 h2
    simp only [Region.read, List.getElem_map, List.getElem_range, Region.write]
    have : off ≤ off + i ∧ off + i < off + d.length ∧ off + i < CONTAINER_SIZE := by omega
    rw [if_pos this]
    simp [List.getD_eq_getElem?_getD, List.getElem?_eq_getElem h2]

theorem Region.read_write_disjoint (r : Region) (off off' n : Nat) (d : Bytes)
    (h : off + n ≤ off' ∨ off' + d.length ≤ off) : (r.write off' d).read off n = r.read off n := by
  simp only [Region.read]
  apply List.map_congr_left
  intro i hi
  have hi' : i < n := List.mem_range.mp hi
  simp only [Region.write]
  rw [if_neg]
  omega

/-! ## The container pool -/

theorem BackendFacade.new_poolOk : BackendFacade.new.PoolOk := by
  refine ⟨⟨0, by norm_num, by decide, by decide, ?_⟩, rfl, by simp [BackendFacade.new, BackendFacade.blank]⟩
  intro name h
  refine ⟨0, le_refl _, ?_⟩
  simp only [BackendFacade.new, BackendFacade.blank, kvGet_cons] at h
  by_cases hn : List.replicate 16 'a' = name
  · rw [← hn]; decide
  · rw [if_neg hn] at h
    simp at h

theorem BackendFacade.PoolOk.next_fresh {b : BackendFacade} (h : b.PoolOk) {name : internal_file_name_t}
    {d : NameDispenser} (hg : b.containerNameDispenser_.get = .ok (name, d)) :
    kvGet name b.containerFiles = none ∧
    ∃ k, k + 1 < 26 ^ 16 ∧ name = digitsName 16 k ∧ d.name_ = digitsName 16 (k + 1) ∧
      ∀ n, (kvGet n b.containerFiles).isSome → ∃ j, j < k ∧ n = digitsName 16 j := by
  obtain ⟨k, hk, hname, hdisp, hfiles⟩ := h.names
  have hd : b.containerNameDispenser_ = ⟨digitsName 16 (k + 1)⟩ := by
    cases hb : b.containerNameDispenser_; simp [hb] at hdisp; simp [hdisp]
  rw [hd] at hg
  by_cases hk2 : k + 2 < 26 ^ 16
  · rw [get_digitsName hk2] at hg
    simp only [Except.ok.injEq, Prod.mk.injEq] at hg
    obtain ⟨rfl, rfl⟩ := hg
    have hfresh : ∀ n, (kvGet n b.containerFiles).isSome → ∃ j, j < k + 1 ∧ n = digitsName 16 j := by
      intro n hn
      obtain ⟨j, hj, rfl⟩ := hfiles n hn
      exact ⟨j, by omega, rfl⟩
    refine ⟨?_, k + 1, hk2, rfl, rfl, hfresh⟩
    cases hget : kvGet (digitsName 16 (k + 1)) b.containerFiles with
    | none => rfl
    | some r =>
      obtain ⟨j, hj, hjn⟩ := hfresh _ (by rw [hget]; rfl)
      have : k + 1 = j := digitsName_inj_lt (m := k + 1) (n := j) (by omega) (by omega) hjn
      omega
  · have : k + 1 = 26 ^ 16 - 1 := by omega
    rw [this, get_digitsName_last] at hg
    cases hg

theorem BackendFacade.createShareContainer__step {b b' : BackendFacade}
    (h : b.createShareContainer_.state? = some b') : b.PoolStep b' := by
  unfold BackendFacade.createShareContainer_ at h
  cases hg : b.containerNameDispenser_.get with
  | error msg =>
    simp only [hg, Res.state?, Option.some.injEq] at h
    subst h; exact ⟨rfl, rfl, rfl, rfl⟩
  | ok p =>
    obtain ⟨name, disp⟩ := p
    simp only [hg] at h
    by_cases he : (kvGet name b.containerFiles).isSome = true
    · simp only [he, if_true, Res.state?, Option.some.injEq] at h
      subst h; exact ⟨rfl, rfl, rfl, rfl⟩
    · simp only [he, Bool.false_eq_true, if_false, Res.state?, Option.some.injEq] at h
      subst h; exact ⟨rfl, rfl, rfl, rfl⟩

theorem BackendFacade.putShareData_step {b b' : BackendFacade} {d : Bytes}
    (h : (b.putShareData d).state? = some b') : b.PoolStep b' := by
  unfold BackendFacade.putShareData at h
  by_cases hgt : b.shareContainerOffset_ + d.length > b.shareContainer_.size
  · simp only [hgt, if_true] at h
    cases hc : b.createShareContainer_ with
    | abort w => simp [hc, Res.state?] at h
    | thrown msg b1 =>
      simp only [hc, Res.state?, Option.some.injEq] at h
      subst h
      exact BackendFacade.createShareContainer__step (by rw [hc]; rfl)
    | ok x b1 =>
      have h1 : b.PoolStep b1 := BackendFacade.createShareContainer__step (by rw [hc]; rfl)
      simp only [hc, Res.state?, Option.some.injEq] at h
      subst h
      exact ⟨h1.db, h1.unfinished, h1.cache, h1.recipes⟩
  · simp only [hgt, if_false, Res.state?, Option.some.injEq] at h
    subst h; exact ⟨rfl, rfl, rfl, rfl⟩

/-- Closed form of `putShareData` on a consistent pool. -/
theorem BackendFacade.putShareData_eq {b : BackendFacade} (h : b.PoolOk) (d : Bytes) :
    b.putShareData d =
      if b.shareContainerOffset_ + d.length > CONTAINER_SIZE then
        match b.containerNameDispenser_.get with
        | .error msg => .thrown msg b
        | .ok (name, dispenser) =>
          .ok (name, 0) { b with
            containerNameDispenser_ := dispenser,
            shareContainerName_ := name,
            shareContainer_ := ⟨some name⟩,
            containerFiles := (name, Region.fresh.write 0 d) :: b.containerFiles,
            shareContainerOffset_ := d.length }
      else
        .ok (b.shareContainerName_, b.shareContainerOffset_) { b with
          containerFiles := kvModify b.shareContainerName_
            (fun r => r.write b.shareContainerOffset_ d) b.containerFiles,
          shareContainerOffset_ := b.shareContainerOffset_ + d.length } := by
  have hsize : b.shareContainer_.size = CONTAINER_SIZE := by
    rw [h.mapped]; rfl
  unfold BackendFacade.putShareData
  simp only [hsize]
  by_cases hgt : b.shareContainerOffset_ + d.length > CONTAINER_SIZE
  · simp only [hgt, if_true]
    unfold BackendFacade.createShareContainer_
    cases hg : b.containerNameDispenser_.get with
    | error msg => simp
    | ok p =>
      obtain ⟨name, disp⟩ := p
      have hfresh := (h.next_fresh hg).1
      have hm : kvModify name (fun r => r.write 0 d) b.containerFiles = b.containerFiles :=
        kvModify_of_none hfresh
      simp [hfresh, kvModify] at hm ⊢
      exact hm
  · simp only [hgt, if_false]
    simp [h.mapped]

theorem BackendFacade.putShareData_poolOk {b b' : BackendFacade} (h : b.PoolOk) {d : Bytes}
    (hs : (b.putShareData d).state? = some b') : b'.PoolOk := by
  rw [BackendFacade.putShareData_eq h] at hs
  by_cases hgt : b.shareContainerOffset_ + d.length > CONTAINER_SIZE
  · simp only [hgt, if_true] at hs
    cases hg : b.containerNameDispenser_.get with
    | error msg =>
      simp only [hg, Res.state?, Option.some.injEq] at hs
      exact hs ▸ h
    | ok p =>
      obtain ⟨name, disp⟩ := p
      simp only [hg, Res.state?, Option.some.injEq] at hs
      obtain ⟨hfresh, k, hk, hname, hdisp, hfiles⟩ := h.next_fresh hg
      subst hs
      refine ⟨⟨k, hk, hname, hdisp, ?_⟩, rfl, by simp⟩
      intro n hn
      simp only [kvGet_cons] at hn
      by_cases hnn : name = n
      · exact ⟨k, le_refl _, hnn ▸ hname⟩
      · simp only [hnn, if_false] at hn
        obtain ⟨j, hj, rfl⟩ := hfiles n hn
        exact ⟨j, by omega, rfl⟩
  · simp only [hgt, if_false, Res.state?, Option.some.injEq] at hs
    subst hs
    obtain ⟨k, hk, hname, hdisp, hfiles⟩ := h.names
    refine ⟨⟨k, hk, hname, hdisp, ?_⟩, h.mapped, ?_⟩
    · intro n hn
      apply hfiles
      simp only [kvGet_modify] at hn
      by_cases hnn : b.shareContainerName_ = n
      · rw [← hnn]; exact h.present
      · simpa [hnn] using hn
    · simp only [kvGet_modify, if_true]
      have := h.present
      simp only [Option.isSome_map']
      exact this

theorem ParseShareIndex_ok {v : ShareIndexValue} {h : shareIndexHead_t}
    {refs : List shareUserRefEntry_t} (hp : ParseShareIndex v = .ok (h, refs)) :
    h = v.head ∧ 0 ≤ v.head.numOfUsers ∧ refs = spanRead v.entries v.head.numOfUsers.toNat := by
  unfold ParseShareIndex numeric_cast at hp
  simp only [PARANOID_CHECK, Bool.false_eq_true, false_and, if_false] at hp
  by_cases hn : v.head.numOfUsers < 0
  · simp [hn] at hp
  · simp only [hn, if_false, Except.ok.injEq, Prod.mk.injEq] at hp
    exact ⟨hp.1.symm, by omega, hp.2.symm⟩

theorem deltaCandidate_some {E : External} {fuel : Nat} {s : DedupCore} {feat : superF}
    {d : Bytes} {baseFP : fingerprint_t} {kBase : shareIndexHead_t} {delta : Bytes}
    (h : s.deltaCandidate E fuel feat d = .ok (some (baseFP, kBase, delta))) :
    ∃ baseVal base, s.delta_.superFeatureIndex feat = some baseFP ∧
      s.backend_.getShareIndex (ToIndexKey .SHARE_INDEX baseFP) = some baseVal ∧
      kBase = baseVal.head ∧ 0 ≤ kBase.numOfUsers ∧ kBase.deltaDepth < MAX_DELTA_DEPTH ∧
      0 ≤ kBase.shareSize ∧ s.fetchBase E fuel kBase = .ok base ∧
      delta = Delta.ComputeDelta E base d ∧ delta ≠ [] := by
  unfold DedupCore.deltaCandidate at h
  cases hsf : s.delta_.superFeatureIndex feat with
  | none => simp [hsf] at h
  | some fp =>
    simp only [hsf] at h
    cases hget : s.backend_.getShareIndex (ToIndexKey .SHARE_INDEX fp) with
    | none => simp [hget] at h
    | some baseVal =>
      simp only [hget] at h
      cases hp : ParseShareIndex baseVal with
      | error e => simp [hp] at h
      | ok p =>
        obtain ⟨hd, refs⟩ := p
        obtain ⟨hhd, hnu, -⟩ := ParseShareIndex_ok hp
        simp only [hp] at h
        by_cases hdep : hd.deltaDepth < MAX_DELTA_DEPTH
        · simp only [hdep, if_true] at h
          by_cases hneg : hd.shareSize < 0
          · simp [hneg] at h
          · simp only [hneg, if_false] at h
            cases hb : s.fetchBase E fuel hd with
            | thrown m => simp [hb] at h
            | abort w => simp [hb] at h
            | ok base =>
              have hb' := hb
              simp only [hb] at h
              by_cases hem : (Delta.ComputeDelta E base d).isEmpty
              · simp [hem] at h
              · simp only [hem, Bool.not_false, if_true, Ret.ok.injEq, Option.some.injEq,
                  Prod.mk.injEq] at h
                obtain ⟨rfl, rfl, rfl⟩ := h
                refine ⟨baseVal, base, rfl, hget, hhd, hhd ▸ hnu, hdep, by omega, hb', rfl, ?_⟩
                intro he
                simp [he] at hem
        · simp [hdep] at h

theorem storeNewShare_cases {s s' : DedupCore} {fp : fingerprint_t} {u : user_id_t} {d : Bytes}
    {feat : superF} {payload : Bytes} {depth : Nat} {baseFP : fingerprint_t} {dsize : Nat}
    (h : (s.storeNewShare fp u d feat payload depth baseFP dsize).state? = some s') :
    (∃ b, (s.backend_.putShareData payload).state? = some b ∧ s' = { s with backend_ := b }) ∨
    (∃ name off b, s.backend_.putShareData payload = .ok (name, off) b ∧
      (d.length : Int) ≤ INT_MAX ∧
      s' = { backend_ := b.putShareIndex (ToIndexKey .SHARE_INDEX fp)
               (newShareValue u d depth baseFP dsize name off),
             delta_ := s.delta_.superFeatureIndexUpdate feat fp }) := by
  unfold DedupCore.storeNewShare at h
  cases hp : s.backend_.putShareData payload with
  | thrown m b =>
    simp only [hp, Res.state?, Option.some.injEq] at h
    exact Or.inl ⟨b, rfl, h.symm⟩
  | abort w => simp [hp, Res.state?] at h
  | ok r b =>
    obtain ⟨name, off⟩ := r
    simp only [hp] at h
    by_cases hov : (d.length : Int) > INT_MAX
    · simp only [hov, if_true, Res.state?, Option.some.injEq] at h
      exact Or.inl ⟨b, rfl, h.symm⟩
    · simp only [hov, if_false, Res.state?, Option.some.injEq] at h
      exact Or.inr ⟨name, off, b, rfl, by omega, h.symm⟩

/-- What a call of `interUserIndexUpdate` can leave behind. -/
theorem interUserIndexUpdate_cases {E : External} {fuel : Nat} {s s' : DedupCore}
    {fp : fingerprint_t} {u : user_id_t} {d : Bytes}
    (h : (s.interUserIndexUpdate E fuel fp u d).state? = some s') :
    s' = s ∨
    (∃ v, s.backend_.getShareIndex (ToIndexKey .SHARE_INDEX fp) = some v ∧
      0 ≤ v.head.numOfUsers ∧ v.head.numOfUsers + 1 ≤ INT_MAX ∧
      (∀ e ∈ spanRead v.entries v.head.numOfUsers.toNat, e.userID ≠ u) ∧
      s' = { s with backend_ :=
        { s.backend_ with db := s.backend_.db.Put (ToIndexKey .SHARE_INDEX fp) (v.addUser u) } }) ∨
    (s.backend_.getShareIndex (ToIndexKey .SHARE_INDEX fp) = none ∧
      (s.storeNewShare fp u d (Delta.GenSuperFeature E d) d 0 (List.replicate 32 0) 0).state? = some s' ∧
      s.deltaCandidate E fuel (Delta.GenSuperFeature E d) d = .ok none) ∨
    (s.backend_.getShareIndex (ToIndexKey .SHARE_INDEX fp) = none ∧
      ∃ baseFP kBase delta,
        s.deltaCandidate E fuel (Delta.GenSuperFeature E d) d = .ok (some (baseFP, kBase, delta)) ∧
        (s.storeNewShare fp u d (Delta.GenSuperFeature E d) delta ((kBase.deltaDepth + 1) % 256)
          baseFP delta.length).state? = some s') := by
  unfold DedupCore.interUserIndexUpdate at h
  cases hget : s.backend_.getShareIndex (ToIndexKey .SHARE_INDEX fp) with
  | none =>
    simp only [hget] at h
    cases hc : s.deltaCandidate E fuel (Delta.GenSuperFeature E d) d with
    | thrown m =>
      simp only [hc, Res.state?, Option.some.injEq] at h
      exact Or.inl h.symm
    | abort w => simp [hc, Res.state?] at h
    | ok c =>
      cases c with
      | none =>
        simp only [hc] at h
        exact Or.inr (Or.inr (Or.inl ⟨rfl, h, rfl⟩))
      | some t =>
        obtain ⟨baseFP, kBase, delta⟩ := t
        simp only [hc] at h
        exact Or.inr (Or.inr (Or.inr ⟨rfl, baseFP, kBase, delta, rfl, h⟩))
  | some v =>
    simp only [hget] at h
    cases hp : ParseShareIndex v with
    | error e =>
      simp only [hp, Res.state?, Option.some.injEq] at h
      exact Or.inl h.symm
    | ok p =>
      obtain ⟨hd, refs⟩ := p
      obtain ⟨-, hnu, hrefs⟩ := ParseShareIndex_ok hp
      simp only [hp] at h
      by_cases hall : refs.all (fun entry => !(entry.userID == u)) = true
      · simp only [hall, if_true] at h
        unfold BackendFacade.updateShareIndex at h
        by_cases hov : v.head.numOfUsers + 1 > INT_MAX
        · simp [hov, Res.state?] at h
        · simp only [hov, if_false, Res.state?, Option.some.injEq] at h
          refine Or.inr (Or.inl ⟨v, rfl, hnu, by omega, ?_, ?_⟩)
          · intro e he
            rw [← hrefs] at he
            have := List.all_eq_true.mp hall e he
            simpa using this
          · have hnn : ¬ v.head.numOfUsers < 0 := by omega
            rw [← h]
            simp [ShareIndexValue.addUser, hnn]
      · simp only [hall, Bool.false_eq_true, if_false, Res.state?, Option.some.injEq] at h
        exact Or.inl h.symm

/-! ## Steps that touch only the recipe store -/

theorem BackendFacade.RecipeStep.refl (b : BackendFacade) : b.RecipeStep b :=
  ⟨rfl, rfl, rfl, rfl, rfl, Or.inl rfl⟩

theorem BackendFacade.putRecipeFile_step {b b' : BackendFacade} {u : user_id_t} {k : key_t}
    {hd : fileShareMetaHead_t} {t : Nat}
    (h : (b.putRecipeFile u k hd t).state? = some b') : b.RecipeStep b' := by
  unfold BackendFacade.putRecipeFile at h
  by_cases h0 : hd.numOfPastSecrets = 0
  · simp only [h0, if_true] at h
    cases hc : numeric_cast hd.numOfComingSecrets with
    | error e =>
      simp only [hc, Res.state?, Option.some.injEq] at h
      subst h; exact ⟨rfl, rfl, rfl, rfl, rfl, Or.inl rfl⟩
    | ok n =>
      simp only [hc, Res.state?, Option.some.injEq] at h
      subst h; exact ⟨rfl, rfl, rfl, rfl, rfl, Or.inl rfl⟩
  · simp only [h0, if_false] at h
    cases hg : kvGet k b.unfinishedRecipeFileCache_ with
    | none =>
      simp only [hg, Res.state?, Option.some.injEq] at h
      subst h; exact BackendFacade.RecipeStep.refl _
    | some p =>
      obtain ⟨buf, total⟩ := p
      simp only [hg, PARANOID_CHECK, Bool.false_eq_true, false_and, if_false] at h
      split at h
      · simp [Res.state?] at h
      · cases hc : numeric_cast hd.numOfComingSecrets with
        | error e =>
          simp only [hc, Res.state?, Option.some.injEq] at h
          subst h; exact BackendFacade.RecipeStep.refl _
        | ok n =>
          simp only [hc, Res.state?, Option.some.injEq] at h
          subst h; exact BackendFacade.RecipeStep.refl _

theorem BackendFacade.setRecipeEntry_step (b : BackendFacade) (k : key_t) (sp : RecipeSpan)
    (i : Nat) (e : fileRecipeEntry_t) : b.RecipeStep (b.setRecipeEntry k sp i e) := by
  unfold BackendFacade.setRecipeEntry
  by_cases h : sp.first + (i : Int) < 0
  · simp only [h, if_true]; exact BackendFacade.RecipeStep.refl _
  · simp only [h, if_false]; exact ⟨rfl, rfl, rfl, rfl, rfl, Or.inl rfl⟩

theorem BackendFacade.finishRecipeFile_step {E : External} {b b' : BackendFacade} {u : user_id_t}
    {hd : fileShareMetaHead_t} {k : key_t}
    (h : (b.finishRecipeFile E u hd k).state? = some b') : b.RecipeStep b' := by
  unfold BackendFacade.finishRecipeFile at h
  cases hg : kvGet k b.unfinishedRecipeFileCache_ with
  | none =>
    simp only [hg, Res.state?, Option.some.injEq] at h
    subst h; exact BackendFacade.RecipeStep.refl _
  | some p =>
    obtain ⟨buf, total⟩ := p
    simp only [hg] at h
    split at h
    · simp [Res.state?] at h
    · split at h
      · simp [Res.state?] at h
      · simp only [Res.state?, Option.some.injEq] at h
        subst h
        split
        all_goals exact ⟨rfl, rfl, rfl, rfl, rfl, Or.inr rfl⟩

theorem BackendFacade.getRecipeData_step {E : External} {b b' : BackendFacade} {k : key_t}
    (h : (b.getRecipeData E k).state? = some b') : b.RecipeStep b' := by
  unfold BackendFacade.getRecipeData at h
  cases hc : b.recipeCache_.get k with
  | mk o c =>
    cases o with
    | some p =>
      obtain ⟨recipe, size⟩ := p
      simp only [hc, Res.state?, Option.some.injEq] at h
      subst h; exact ⟨rfl, rfl, rfl, rfl, rfl, Or.inl rfl⟩
    | none =>
      simp only [hc] at h
      cases hf : kvGet (BackendFacade.formatRecipeFileName E k) b.recipeFiles with
      | none =>
        simp only [hf, Res.state?, Option.some.injEq] at h
        subst h; exact ⟨rfl, rfl, rfl, rfl, rfl, Or.inl rfl⟩
      | some r =>
        simp only [hf, Res.state?, Option.some.injEq] at h
        subst h; exact ⟨rfl, rfl, rfl, rfl, rfl, Or.inl rfl⟩

/-! ## Induction over the calls -/

theorem ParseFileShareMeta_ok {m : FileShareMeta} {hd : fileShareMetaHead_t} {name : List Char}
    {entries : List shareMetaEntry_t} (h : ParseFileShareMeta m = .ok (hd, name, entries)) :
    hd = m.head ∧ entries = m.entriesView ∧ 0 ≤ m.head.numOfComingSecrets ∧
    name = spanRead m.fullFileName m.head.fullNameSize.toNat := by
  unfold ParseFileShareMeta numeric_cast at h
  simp only [PARANOID_CHECK, Bool.false_eq_true, false_and, if_false] at h
  by_cases h1 : m.head.fullNameSize < 0
  · simp [h1] at h
  · simp only [h1, if_false] at h
    by_cases h2 : m.head.numOfComingSecrets < 0
    · simp [h2] at h
    · simp only [h2, if_false, Except.ok.injEq, Prod.mk.injEq] at h
      obtain ⟨rfl, rfl, rfl⟩ := h
      exact ⟨rfl, rfl, by omega, rfl⟩

section preserve
variable {E : External} {P : DedupCore → Prop}

theorem SlicesGood.trivial (data : Bytes) :
    ∀ (l : List (shareMetaEntry_t × Bool)) (off : Nat), SlicesGood (fun _ _ => True) data l off := by
  intro l
  induction l with
  | nil => intro off; trivial
  | cons a l ih =>
    intro off
    obtain ⟨e, dup⟩ := a
    cases dup
    · simp only [SlicesGood, Bool.false_eq_true, if_false, true_and]; exact ih _
    · simp only [SlicesGood, if_true]; exact ih _

theorem secondStageLoop_preserves {G : fingerprint_t → Bytes → Prop} {u : user_id_t}
    (hinter : ∀ s s' fuel fp d, G fp d → P s →
      (DedupCore.interUserIndexUpdate E fuel s fp u d).state? = some s' → P s')
    (hrec : ∀ (s : DedupCore) b', P s → s.backend_.RecipeStep b' → P { s with backend_ := b' })
    (fuel : Nat) (k : key_t) (sp : RecipeSpan) (data : Bytes) :
    ∀ (l : List (shareMetaEntry_t × Bool)) (i off : Nat) (s s' : DedupCore), P s →
      SlicesGood G data l off →
      (DedupCore.secondStageLoop E fuel u k sp data l i off s).state? = some s' → P s' := by
  intro l
  induction l with
  | nil =>
    intro i off s s' hP _ h
    simp only [DedupCore.secondStageLoop, Res.state?, Option.some.injEq] at h
    exact h ▸ hP
  | cons a l ih =>
    intro i off s s' hP hG h
    obtain ⟨e, dup⟩ := a
    simp only [DedupCore.secondStageLoop] at h
    cases dup with
    | true =>
      simp only [Bool.not_true, Bool.false_eq_true, if_false] at h
      simp only [SlicesGood, if_true] at hG
      exact ih _ _ _ _ (hrec s _ hP (BackendFacade.setRecipeEntry_step _ _ _ _ _)) hG h
    | false =>
      simp only [Bool.not_false, if_true] at h
      simp only [SlicesGood, Bool.false_eq_true, if_false] at hG
      obtain ⟨hG0, hG1⟩ := hG
      cases hc : numeric_cast e.shareSize with
      | error m =>
        simp only [hc, Res.state?, Option.some.injEq] at h
        exact h ▸ hP
      | ok size =>
        have hsize : size = e.shareSize.toNat := by
          unfold numeric_cast at hc
          split at hc
          · cases hc
          · simp only [Except.ok.injEq] at hc; exact hc.symm
        subst hsize
        simp only [hc] at h
        cases hi : DedupCore.interUserIndexUpdate E fuel s e.shareFP u
            (shareDataSlice data off e.shareSize.toNat) with
        | abort w => simp [hi, Res.state?] at h
        | thrown m s1 =>
          simp only [hi, Res.state?, Option.some.injEq] at h
          exact h ▸ hinter s s1 fuel _ _ hG0 hP (by rw [hi]; rfl)
        | ok x s1 =>
          simp only [hi] at h
          have h1 : P s1 := hinter s s1 fuel _ _ hG0 hP (by rw [hi]; rfl)
          exact ih _ _ _ _ (hrec s1 _ h1 (BackendFacade.setRecipeEntry_step _ _ _ _ _)) hG1 h

theorem secondStageDedup_preserves {G : fingerprint_t → Bytes → Prop} {u : user_id_t}
    (hinter : ∀ s s' fuel fp d, G fp d → P s →
      (DedupCore.interUserIndexUpdate E fuel s fp u d).state? = some s' → P s')
    (hrec : ∀ (s : DedupCore) b', P s → s.backend_.RecipeStep b' → P { s with backend_ := b' })
    {fuel : Nat} {s s' : DedupCore} {m : FileShareMeta} {data : Bytes}
    {dup : List Bool} {t : Nat} (hP : P s)
    (hG : SlicesGood G data (m.entriesView.zip (spanRead dup m.entriesView.length)) 0)
    (h : (s.secondStageDedup E fuel u m data dup t).state? = some s') : P s' := by
  unfold DedupCore.secondStageDedup at h
  cases hparse : ParseFileShareMeta m with
  | error e =>
    simp only [hparse, Res.state?, Option.some.injEq] at h; exact h ▸ hP
  | ok p =>
    obtain ⟨hd, name, entries⟩ := p
    obtain ⟨rfl, rfl, -, -⟩ := ParseFileShareMeta_ok hparse
    simp only [hparse] at h
    cases hfmt : FormatFullFileName name with
    | error e =>
      simp only [hfmt, Res.state?, Option.some.injEq] at h; exact h ▸ hP
    | ok fullName =>
      simp only [hfmt, LOOP_PARALLEL, Bool.false_eq_true, if_false] at h
      cases hput : s.backend_.putRecipeFile u (ToIndexKey .RECIPE (ToRecipeFP E fullName u)) m.head t with
      | abort w => simp [hput, Res.state?] at h
      | thrown msg b =>
        simp only [hput, Res.state?, Option.some.injEq] at h
        exact h ▸ hrec s b hP (BackendFacade.putRecipeFile_step (by rw [hput]; rfl))
      | ok sp b =>
        have h1 : P { s with backend_ := b } :=
          hrec s b hP (BackendFacade.putRecipeFile_step (by rw [hput]; rfl))
        simp only [hput] at h
        cases hloop : DedupCore.secondStageLoop E fuel u (ToIndexKey .RECIPE (ToRecipeFP E fullName u))
            sp data (m.entriesView.zip (spanRead dup m.entriesView.length)) 0 0
            { s with backend_ := b } with
        | abort w => simp [hloop, Res.state?] at h
        | thrown msg s1 =>
          simp only [hloop, Res.state?, Option.some.injEq] at h
          exact h ▸ secondStageLoop_preserves hinter hrec _ _ _ _ _ _ _ _ _ h1 hG (by rw [hloop]; rfl)
        | ok x s1 =>
          have h2 : P s1 :=
            secondStageLoop_preserves hinter hrec _ _ _ _ _ _ _ _ _ h1 hG (by rw [hloop]; rfl)
          simp only [hloop] at h
          cases hfin : s1.backend_.finishRecipeFile E u m.head
              (ToIndexKey .RECIPE (ToRecipeFP E fullName u)) with
          | abort w => simp [hfin, Res.state?] at h
          | thrown msg b2 =>
            simp only [hfin, Res.state?, Option.some.injEq] at h
            exact h ▸ hrec s1 b2 h2 (BackendFacade.finishRecipeFile_step (by rw [hfin]; rfl))
          | ok x2 b2 =>
            simp only [hfin, Res.state?, Option.some.injEq] at h
            exact h ▸ hrec s1 b2 h2 (BackendFacade.finishRecipeFile_step (by rw [hfin]; rfl))

theorem restoreShareFile_step {fuel : Nat} {s : DedupCore} {u : user_id_t} {name : List Char}
    {buf : ShareFileBuffer} {n : Nat} {r : DedupCore × List Flush}
    (h : (s.restoreShareFile E fuel u name buf n).state? = some r) :
    ∃ b', s.backend_.RecipeStep b' ∧ r.1 = { s with backend_ := b' } := by
  unfold DedupCore.restoreShareFile at h
  cases hfmt : FormatFullFileName name with
  | error e =>
    simp only [hfmt, Res.state?, Option.some.injEq] at h
    exact ⟨s.backend_, BackendFacade.RecipeStep.refl _, by rw [← h]⟩
  | ok fullName =>
    simp only [hfmt, LOOP_PARALLEL, Bool.false_eq_true, if_false] at h
    cases hget : s.backend_.getRecipeData E (ToIndexKey .RECIPE (ToRecipeFP E fullName u)) with
    | abort w => simp [hget, Res.state?] at h
    | thrown msg b =>
      simp only [hget, Res.state?, Option.some.injEq] at h
      exact ⟨b, BackendFacade.getRecipeData_step (by rw [hget]; rfl), by rw [← h]⟩
    | ok rv b =>
      have hb : s.backend_.RecipeStep b :=
        BackendFacade.getRecipeData_step (E := E) (by rw [hget]; rfl)
      simp only [hget] at h
      cases hp : ParseFileRecipe rv with
      | error e =>
        simp only [hp, Res.state?, Option.some.injEq] at h
        exact ⟨b, hb, by rw [← h]⟩
      | ok p =>
        obtain ⟨rh, re⟩ := p
        simp only [hp] at h
        cases hl : DedupCore.restoreLoop E fuel { s with backend_ := b } n re
            ⟨[.head ⟨rh.fileSize, rh.numOfShares⟩], SHARE_FILE_HEAD_SIZE, [],
              ShareFileBuffer.writeHead n buf 0 ⟨rh.fileSize, rh.numOfShares⟩⟩ with
        | abort w => simp [hl, Res.state?] at h
        | thrown msg c =>
          simp only [hl, Res.state?, Option.some.injEq] at h
          exact ⟨b, hb, by rw [← h]⟩
        | ok x c =>
          simp only [hl] at h
          by_cases hc : c.shareFileBufferOffset > 0
          · simp only [hc, if_true, Res.state?, Option.some.injEq] at h
            exact ⟨b, hb, by rw [← h]⟩
          · simp only [hc, if_false, Res.state?, Option.some.injEq] at h
            exact ⟨b, hb, by rw [← h]⟩

/-- A property that holds for the empty store and is kept by `interUserIndexUpdate` and by
the steps on the recipe store holds in every reachable state. -/
theorem Reachable.invariant (h0 : P DedupCore.new)
    (hinter : ∀ s s' fuel fp u d, P s →
      (DedupCore.interUserIndexUpdate E fuel s fp u d).state? = some s' → P s')
    (hrec : ∀ (s : DedupCore) b', P s → s.backend_.RecipeStep b' → P { s with backend_ := b' })
    {s : DedupCore} (hr : Reachable E s) : P s := by
  induction hr with
  | init => exact h0
  | interUserIndexUpdate fuel fp u d _ hs ih => exact hinter _ _ fuel fp u d ih hs
  | secondStageDedup fuel u m data dup t _ hs ih =>
    exact secondStageDedup_preserves (G := fun _ _ => True)
      (fun s s' fuel fp d _ hP h => hinter s s' fuel fp u d hP h) hrec ih
      (SlicesGood.trivial _ _ _) hs
  | restoreShareFile fuel u name buf n _ hs ih =>
    obtain ⟨b', hb, hr1⟩ := restoreShareFile_step hs
    rw [hr1]
    exact hrec _ _ ih hb

end preserve

/-! ## The container pool in reachable states -/

theorem BackendFacade.PoolOk.congr {b b' : BackendFacade} (h : b.PoolOk)
    (h1 : b'.containerNameDispenser_ = b.containerNameDispenser_)
    (h2 : b'.shareContainer_ = b.shareContainer_)
    (h3 : b'.shareContainerName_ = b.shareContainerName_)
    (h4 : b'.containerFiles = b.containerFiles) : b'.PoolOk := by
  obtain ⟨⟨k, hk, hn, hd, hf⟩, hm, hp⟩ := h
  exact ⟨⟨k, hk, by rw [h3, hn], by rw [h1, hd], by rw [h4]; exact hf⟩, by rw [h2, h3, hm],
    by rw [h3, h4]; exact hp⟩

theorem storeNewShare_poolOk {s s' : DedupCore} {fp : fingerprint_t} {u : user_id_t} {d : Bytes}
    {feat : superF} {payload : Bytes} {depth : Nat} {baseFP : fingerprint_t} {dsize : Nat}
    (hP : s.backend_.PoolOk)
    (h : (s.storeNewShare fp u d feat payload depth baseFP dsize).state? = some s') :
    s'.backend_.PoolOk := by
  rcases storeNewShare_cases h with ⟨b, hb, rfl⟩ | ⟨name, off, b, hb, -, rfl⟩
  · exact BackendFacade.putShareData_poolOk hP hb
  · have hb' : (s.backend_.putShareData payload).state? = some b := by rw [hb]; rfl
    exact (BackendFacade.putShareData_poolOk hP hb').congr rfl rfl rfl rfl

theorem Reachable.poolOk {E : External} {s : DedupCore} (hr : Reachable E s) :
    s.backend_.PoolOk := by
  refine Reachable.invariant (P := fun s => s.backend_.PoolOk) BackendFacade.new_poolOk ?_ ?_ hr
  · intro s s' fuel fp u d hP h
    rcases interUserIndexUpdate_cases h with rfl | ⟨v, -, -, -, -, rfl⟩ | ⟨-, h1, -⟩ |
      ⟨-, baseFP, kBase, delta, -, h1⟩
    · exact hP
    · exact hP.congr rfl rfl rfl rfl
    · exact storeNewShare_poolOk hP h1
    · exact storeNewShare_poolOk hP h1
  · intro s b' hP hb
    exact hP.congr hb.dispenser hb.container hb.name hb.files

/-! ## C6, C8: `putShareData` and `getShareData` -/

theorem BackendFacade.Holds.getShareData {b : BackendFacade} {name : internal_file_name_t}
    {off : Nat} {d : Bytes} (h : b.Holds name off d) : b.getShareData name off d.length = .ok d := by
  obtain ⟨⟨r, hr, hread⟩, -⟩ := h
  simp [BackendFacade.getShareData, hr, PARANOID_CHECK, hread]

theorem BackendFacade.Holds.put {b b' : BackendFacade} (hp : b.PoolOk)
    {name : internal_file_name_t} {off : Nat} {d d' : Bytes} (h : b.Holds name off d)
    (hs : (b.putShareData d').state? = some b') : b'.Holds name off d := by
  obtain ⟨⟨r, hr, hread⟩, hoff⟩ := h
  rw [BackendFacade.putShareData_eq hp] at hs
  by_cases hgt : b.shareContainerOffset_ + d'.length > CONTAINER_SIZE
  · simp only [hgt, if_true] at hs
    cases hg : b.containerNameDispenser_.get with
    | error msg =>
      simp only [hg, Res.state?, Option.some.injEq] at hs
      subst hs
      exact ⟨⟨r, hr, hread⟩, hoff⟩
    | ok p =>
      obtain ⟨n, disp⟩ := p
      simp only [hg, Res.state?, Option.some.injEq] at hs
      have hfresh := (hp.next_fresh hg).1
      have hne : n ≠ name := by
        intro he; rw [he, hr] at hfresh; cases hfresh
      subst hs
      refine ⟨⟨r, ?_, hread⟩, ?_⟩
      · simp only [kvGet_cons, hne, if_false]; exact hr
      · intro he; exact absurd he.symm hne
  · simp only [hgt, if_false, Res.state?, Option.some.injEq] at hs
    subst hs
    by_cases hn : b.shareContainerName_ = name
    · have ho := hoff hn.symm
      refine ⟨⟨r.write b.shareContainerOffset_ d', ?_, ?_⟩, ?_⟩
      · simp [kvGet_modify, hn, hr]
      · rw [Region.read_write_disjoint _ _ _ _ _ (Or.inl ho)]; exact hread
      · intro _; simp only; omega
    · refine ⟨⟨r, ?_, hread⟩, ?_⟩
      · simp [kvGet_modify, hn, hr]
      · intro he; exact absurd he.symm hn

theorem BackendFacade.putShareData_holds {b b' : BackendFacade} (hp : b.PoolOk) {d : Bytes}
    (hd : d.length ≤ CONTAINER_SIZE) {name : internal_file_name_t} {off : Nat}
    (h : b.putShareData d = .ok (name, off) b') : b'.Holds name off d := by
  rw [BackendFacade.putShareData_eq hp] at h
  by_cases hgt : b.shareContainerOffset_ + d.length > CONTAINER_SIZE
  · simp only [hgt, if_true] at h
    cases hg : b.containerNameDispenser_.get with
    | error msg => simp [hg] at h
    | ok p =>
      obtain ⟨n, disp⟩ := p
      simp only [hg, Res.ok.injEq, Prod.mk.injEq] at h
      obtain ⟨⟨rfl, rfl⟩, rfl⟩ := h
      refine ⟨⟨Region.fresh.write 0 d, by simp [kvGet_cons], ?_⟩, ?_⟩
      · exact Region.read_write_same _ _ _ (by omega)
      · intro _; simp
  · simp only [hgt, if_false, Res.ok.injEq, Prod.mk.injEq] at h
    obtain ⟨⟨rfl, rfl⟩, rfl⟩ := h
    obtain ⟨r, hr⟩ := Option.isSome_iff_exists.mp hp.present
    refine ⟨⟨r.write b.shareContainerOffset_ d, by simp [kvGet_modify, hr], ?_⟩, ?_⟩
    · exact Region.read_write_same _ _ _ (by omega)
    · intro _; simp

theorem BackendFacade.LaterPuts.keeps {b b' : BackendFacade} (hl : b.LaterPuts b') :
    b.PoolOk → ∀ {name : internal_file_name_t} {off : Nat} {d : Bytes}, b.Holds name off d →
      b'.PoolOk ∧ b'.Holds name off d := by
  induction hl with
  | refl => intro hp _ _ _ h; exact ⟨hp, h⟩
  | step d' _ hs ih =>
    intro hp name off d h
    obtain ⟨hp1, h1⟩ := ih hp h
    exact ⟨BackendFacade.putShareData_poolOk hp1 hs, h1.put hp1 hs⟩

/-- C6: in a reachable state, for `|d| <= CONTAINER_SIZE`, if `putShareData(d)` returns
`(name, off)` then `getShareData(name, off, |d| bytes)` yields `d`, and it still yields `d`
after any number of later `putShareData` calls. -/
theorem BackendFacade.getShareData_putShareData {E : External} {s : DedupCore}
    (hr : Reachable E s) (d : Bytes) (hd : d.length ≤ CONTAINER_SIZE)
    (name : internal_file_name_t) (off : Nat) (b' : BackendFacade)
    (hput : s.backend_.putShareData d = .ok (name, off) b') :
    b'.getShareData name off d.length = .ok d ∧
    ∀ b'', b'.LaterPuts b'' → b''.getShareData name off d.length = .ok d := by
  have hp := hr.poolOk
  have hh := BackendFacade.putShareData_holds hp hd hput
  have hp' : b'.PoolOk := BackendFacade.putShareData_poolOk hp (by rw [hput]; rfl)
  exact ⟨hh.getShareData, fun b'' hl => (hl.keeps hp' hh).2.getShareData⟩

/-- C8: in a reachable state, for `|d| <= CONTAINER_SIZE`: when `currentOffset + |d|` exceeds
`CONTAINER_SIZE` a new name is taken from the dispenser, a container of that name is
created and the result is `(newName, 0)` (the call throws when the dispenser is
exhausted); otherwise the result is `(currentName, currentOffset)`, the dispenser and
the set of containers are untouched. In both cases the write offset afterwards is the
returned offset plus `|d|`. On a fresh backend the first result is
`('aaaaaaaaaaaaaaaa', 0)` and a second 4096-byte share lands at offset 4096 of the same
container. -/
theorem BackendFacade.putShareData_spec {E : External} :
    (∀ (s : DedupCore) (d : Bytes), Reachable E s → d.length ≤ CONTAINER_SIZE →
      (s.backend_.shareContainerOffset_ + d.length > CONTAINER_SIZE →
        (∀ msg, s.backend_.containerNameDispenser_.get = .error msg →
          s.backend_.putShareData d = .thrown msg s.backend_) ∧
        (∀ newName dispenser, s.backend_.containerNameDispenser_.get = .ok (newName, dispenser) →
          ∃ b', s.backend_.putShareData d = .ok (newName, 0) b' ∧
            kvGet newName s.backend_.containerFiles = none ∧
            (kvGet newName b'.containerFiles).isSome ∧
            b'.containerNameDispenser_ = dispenser ∧
            b'.shareContainerName_ = newName ∧
            b'.shareContainerOffset_ = 0 + d.length)) ∧
      (¬ s.backend_.shareContainerOffset_ + d.length > CONTAINER_SIZE →
        ∃ b', s.backend_.putShareData d =
            .ok (s.backend_.shareContainerName_, s.backend_.shareContainerOffset_) b' ∧
          b'.containerNameDispenser_ = s.backend_.containerNameDispenser_ ∧
          b'.shareContainerName_ = s.backend_.shareContainerName_ ∧
          b'.containerFiles.map Prod.fst = s.backend_.containerFiles.map Prod.fst ∧
          b'.shareContainerOffset_ = s.backend_.shareContainerOffset_ + d.length)) ∧
    (∀ d1 d2 : Bytes, d1.length = 4096 → d2.length = 4096 →
      ∃ b1 b2, DedupCore.new.backend_.putShareData d1 = .ok ("aaaaaaaaaaaaaaaa".toList, 0) b1 ∧
        b1.putShareData d2 = .ok ("aaaaaaaaaaaaaaaa".toList, 4096) b2) := by
  constructor
  · intro s d hr hd
    have hp := hr.poolOk
    rw [BackendFacade.putShareData_eq hp]
    constructor
    · intro hgt
      simp only [hgt, if_true]
      constructor
      · intro msg hg; simp [hg]
      · intro newName dispenser hg
        have hfresh := (hp.next_fresh hg).1
        simp only [hg]
        exact ⟨_, rfl, hfresh, by simp [kvGet_cons], rfl, rfl, by simp⟩
    · intro hgt
      simp only [hgt, if_false]
      refine ⟨_, rfl, rfl, rfl, ?_, rfl⟩
      simp only [kvModify, List.map_map]
      apply List.map_congr_left
      intro kv _
      by_cases h : kv.1 = s.backend_.shareContainerName_ <;> simp [h]
  · intro d1 d2 h1 h2
    have hp := BackendFacade.new_poolOk
    have e1 := BackendFacade.putShareData_eq hp d1
    have hlt : ¬ BackendFacade.new.shareContainerOffset_ + d1.length > CONTAINER_SIZE := by
      simp [BackendFacade.new, BackendFacade.blank, h1, CONTAINER_SIZE]
    rw [if_neg hlt] at e1
    obtain ⟨b1, hb1, hoff1, hname1, hp1⟩ : ∃ b1,
        BackendFacade.new.putShareData d1 = .ok ("aaaaaaaaaaaaaaaa".toList, 0) b1 ∧
        b1.shareContainerOffset_ = 4096 ∧ b1.shareContainerName_ = "aaaaaaaaaaaaaaaa".toList ∧
        b1.PoolOk :=
      ⟨_, e1, by simp [BackendFacade.new, BackendFacade.blank, h1], rfl,
        BackendFacade.putShareData_poolOk hp (by rw [e1]; rfl)⟩
    have e2 := BackendFacade.putShareData_eq hp1 d2
    rw [if_neg (by simp [hoff1, h2, CONTAINER_SIZE]), hoff1, hname1] at e2
    exact ⟨b1, _, hb1, e2⟩

/-! ## The key-value store -/

theorem spanRead_length {α : Type} [Inhabited α] (l : List α) (n : Nat) :
    (spanRead l n).length = n := by
  simp [spanRead]

theorem spanRead_self {α : Type} [Inhabited α] (l : List α) : spanRead l l.length = l := by
  apply List.ext_getElem
  · simp [spanRead]
  · intro i h1 h2
    simp [spanRead, List.getD_eq_getElem?_getD, List.getElem?_eq_getElem h2]

theorem foldl_cons_eq {α : Type} (l init : List α) :
    l.foldl (fun db kv => kv :: db) init = l.reverse ++ init := by
  induction l generalizing init with
  | nil => rfl
  | cons a l ih => simp [List.foldl_cons, ih]

theorem DataBase.BatchFlush_eq (d : DataBase) :
    d.BatchFlush = { db_ := d.writeBatch_.reverse ++ d.db_, writeBatch_ := [], batchCnt_ := 0 } := by
  simp [DataBase.BatchFlush, BATCH_SIZE, foldl_cons_eq]

theorem DataBase.bindings_BatchFlush (d : DataBase) : d.BatchFlush.bindings = d.bindings := by
  simp [DataBase.BatchFlush_eq, DataBase.bindings]

theorem DataBase.Put_eq (d : DataBase) (k : key_t) (v : ShareIndexValue) :
    d.Put k v = d.append k v ∨ d.Put k v = (d.append k v).BatchFlush := by
  unfold DataBase.Put
  simp only [BATCH_SIZE, show (512 : Int) > 0 by norm_num, if_true]
  split
  · exact Or.inr rfl
  · exact Or.inl rfl

theorem DataBase.bindings_append (d : DataBase) (k : key_t) (v : ShareIndexValue) :
    (d.append k v).bindings = (k, v) :: d.bindings := by
  simp [DataBase.append, DataBase.bindings]

theorem DataBase.bindings_Put (d : DataBase) (k : key_t) (v : ShareIndexValue) :
    (d.Put k v).bindings = (k, v) :: d.bindings := by
  rcases DataBase.Put_eq d k v with h | h <;>
    simp [h, DataBase.bindings_BatchFlush, DataBase.bindings_append]

theorem DataBase.Get_mem_bindings {d : DataBase} {k : key_t} {v : ShareIndexValue}
    (h : d.Get k = some v) : (k, v) ∈ d.bindings := by
  simp only [DataBase.bindings, List.mem_append]
  exact Or.inr (kvGet_mem h)

theorem DataBase.mem_bindings_of_batch {d : DataBase} {k : key_t} {v : ShareIndexValue}
    (h : (k, v) ∈ d.writeBatch_) : (k, v) ∈ d.bindings := by
  simp only [DataBase.bindings, List.mem_append, List.mem_reverse]
  exact Or.inl h

/-! ## C2: the user references -/

theorem ShareIndexValue.UsersOk.addUser {v : ShareIndexValue} (h : v.UsersOk) {u : user_id_t}
    (hu : ∀ e ∈ spanRead v.entries v.head.numOfUsers.toNat, e.userID ≠ u) :
    (v.addUser u).UsersOk := by
  obtain ⟨hpos, hlen, hnd⟩ := h
  have hn : v.head.numOfUsers.toNat = v.entries.length := by omega
  rw [hn, spanRead_self] at hu
  have hneg : ¬ v.head.numOfUsers < 0 := by omega
  have hset : (v.entries ++ [shareUserRefEntry_t.mk 0]).set v.entries.length ⟨u⟩ = v.entries ++ [⟨u⟩] := by
    rw [List.set_append_right _ _ (le_refl _)]
    simp
  refine ⟨?_, ?_, ?_⟩
  · simp only [ShareIndexValue.addUser]; omega
  · simp only [ShareIndexValue.addUser, hneg, if_false, hn, hset, List.length_append,
      List.length_singleton]
    push_cast; omega
  · simp only [ShareIndexValue.addUser, hneg, if_false, hn, hset, List.map_append, List.map_cons,
      List.map_nil]
    rw [List.nodup_append]
    refine ⟨hnd, by simp, ?_⟩
    intro a ha hb
    simp only [List.mem_singleton] at hb
    subst hb
    obtain ⟨e, he, rfl⟩ := List.mem_map.mp ha
    exact hu e he rfl

theorem newShareValue_usersOk (u : user_id_t) (d : Bytes) (depth : Nat) (baseFP : fingerprint_t)
    (dsize : Nat) (name : internal_file_name_t) (off : Nat) :
    (newShareValue u d depth baseFP dsize name off).UsersOk :=
  ⟨by simp [newShareValue], by simp [newShareValue], by simp [newShareValue]⟩

theorem DbInv.inter {E : External} {Q : DataBase → Prop} (hQ : DbInv Q) {s s' : DedupCore}
    {fuel : Nat} {fp : fingerprint_t} {u : user_id_t} {d : Bytes} (hP : Q s.backend_.db)
    (h : (s.interUserIndexUpdate E fuel fp u d).state? = some s') : Q s'.backend_.db := by
  have hstore : ∀ {payload depth baseFP dsize},
      (depth = 0 ∨ ∃ baseVal, s.backend_.db.Get (ToIndexKey .SHARE_INDEX baseFP) = some baseVal ∧
        baseVal.head.deltaDepth < MAX_DELTA_DEPTH ∧ depth = (baseVal.head.deltaDepth + 1) % 256) →
      s.backend_.db.Get (ToIndexKey .SHARE_INDEX fp) = none →
      (s.storeNewShare fp u d (Delta.GenSuperFeature E d) payload depth baseFP dsize).state? = some s' →
      Q s'.backend_.db := by
    intro payload depth baseFP dsize hdep hnone h1
    rcases storeNewShare_cases h1 with ⟨b, hb, rfl⟩ | ⟨name, off, b, hb, -, rfl⟩
    · show Q b.db
      rw [(BackendFacade.putShareData_step hb).db]; exact hP
    · have hb' : (s.backend_.putShareData payload).state? = some b := by rw [hb]; rfl
      show Q (b.db.Put _ _)
      rw [(BackendFacade.putShareData_step hb').db]
      exact hQ.new _ _ _ _ _ _ _ _ _ hP hnone hdep
  rcases interUserIndexUpdate_cases h with rfl | ⟨v, hv, hnu, -, hu, rfl⟩ | ⟨hnone, h1, -⟩ |
    ⟨hnone, baseFP, kBase, delta, hc, h1⟩
  · exact hP
  · exact hQ.add _ _ _ _ hP hv hnu hu
  · exact hstore (Or.inl rfl) hnone h1
  · obtain ⟨baseVal, base, -, hbase, rfl, -, hdep, -, -, -, -⟩ := deltaCandidate_some hc
    exact hstore (Or.inr ⟨baseVal, hbase, hdep, rfl⟩) hnone h1

theorem DbInv.recipeStep {Q : DataBase → Prop} (hQ : DbInv Q) {b b' : BackendFacade}
    (hP : Q b.db) (hb : b.RecipeStep b') : Q b'.db := by
  rcases hb.db with h | h
  · rw [h]; exact hP
  · rw [h]; exact hQ.flush _ hP

/-- A property of the key-value store that holds for the empty one and is kept by every
change the server makes to it holds in every reachable state. -/
theorem Reachable.db_invariant {E : External} {Q : DataBase → Prop} (h0 : Q DataBase.new)
    (hQ : DbInv Q) {s : DedupCore} (hr : Reachable E s) : Q s.backend_.db := by
  refine Reachable.invariant (P := fun s => Q s.backend_.db) h0 ?_ ?_ hr
  · intro s s' fuel fp u d hP h
    exact hQ.inter hP h
  · intro s b' hP hb
    exact hQ.recipeStep hP hb

theorem usersOk_dbInv : DbInv (fun d => ∀ k v, (k, v) ∈ d.bindings → v.UsersOk) := by
  refine ⟨?_, ?_, ?_⟩
  · intro d hQ k v h
    rw [DataBase.bindings_BatchFlush] at h
    exact hQ k v h
  · intro d k v u hQ hv _ hu k' v' h
    rw [DataBase.bindings_Put] at h
    rcases List.mem_cons.mp h with h1 | h1
    · simp only [Prod.mk.injEq] at h1
      rw [h1.2]
      exact (hQ k v (DataBase.Get_mem_bindings hv)).addUser hu
    · exact hQ k' v' h1
  · intro d fp u data depth baseFP dsize name off hQ _ _ k' v' h
    rw [DataBase.bindings_Put] at h
    rcases List.mem_cons.mp h with h1 | h1
    · simp only [Prod.mk.injEq] at h1
      rw [h1.2]
      exact newShareValue_usersOk _ _ _ _ _ _ _
    · exact hQ k' v' h1

theorem Reachable.usersOk {E : External} {s : DedupCore} (hr : Reachable E s) :
    ∀ k v, (k, v) ∈ s.backend_.db.bindings → v.UsersOk :=
  Reachable.db_invariant (Q := fun d => ∀ k v, (k, v) ∈ d.bindings → v.UsersOk)
    (by intro k v h; simp [DataBase.new, DataBase.bindings] at h) usersOk_dbInv hr

/-- C2: in every state reachable from the empty store by calls of `interUserIndexUpdate` and
`secondStageDedup` (and `restoreShareFile`), every share index value, whether `Get` returns
it or it is still pending in the write batch, has `numOfUsers >= 1`, exactly `numOfUsers`
user reference entries, and no `userID` twice among them. -/
theorem DedupCore.share_index_users {E : External} {s : DedupCore} (hr : Reachable E s) :
    (∀ key v, s.backend_.getShareIndex key = some v →
      1 ≤ v.head.numOfUsers ∧ (v.entries.length : Int) = v.head.numOfUsers ∧
      (v.entries.map (fun e => e.userID)).Nodup) ∧
    (∀ key v, (key, v) ∈ s.backend_.db.writeBatch_ →
      1 ≤ v.head.numOfUsers ∧ (v.entries.length : Int) = v.head.numOfUsers ∧
      (v.entries.map (fun e => e.userID)).Nodup) := by
  constructor
  · intro key v h
    obtain ⟨h1, h2, h3⟩ := hr.usersOk key v (DataBase.Get_mem_bindings h)
    exact ⟨h1, h2, h3⟩
  · intro key v h
    obtain ⟨h1, h2, h3⟩ := hr.usersOk key v (DataBase.mem_bindings_of_batch h)
    exact ⟨h1, h2, h3⟩

/-! ## C3: the delta depth -/

theorem DataBase.DepthOk.flush {d : DataBase} (h : d.DepthOk) : d.BatchFlush.DepthOk := by
  obtain ⟨hb, hbase, hpend⟩ := h
  have hget : ∀ k v0, d.Get k = some v0 →
      ∃ v1, d.BatchFlush.Get k = some v1 ∧ v1.head.deltaDepth = v0.head.deltaDepth := by
    intro k v0 h0
    simp only [DataBase.BatchFlush_eq, DataBase.Get, kvGet_append]
    cases hk : kvGet k d.writeBatch_.reverse with
    | none => exact ⟨v0, h0, rfl⟩
    | some v1 =>
      have hm : (k, v1) ∈ d.writeBatch_ := List.mem_reverse.mp (kvGet_mem hk)
      exact ⟨v1, rfl, hpend k v1 v0 hm h0⟩
  refine ⟨?_, ?_, ?_⟩
  · intro k v hkv
    rw [DataBase.bindings_BatchFlush] at hkv
    exact hb k v hkv
  · intro k v hkv hpos
    rw [DataBase.bindings_BatchFlush] at hkv
    obtain ⟨b, hbget, hbd⟩ := hbase k v hkv hpos
    obtain ⟨v1, hv1, hv1d⟩ := hget _ _ hbget
    exact ⟨v1, hv1, by rw [hv1d]; exact hbd⟩
  · intro k v v0 hkv
    simp [DataBase.BatchFlush_eq] at hkv

theorem DataBase.DepthOk.append {d : DataBase} (h : d.DepthOk) {k : key_t} {v : ShareIndexValue}
    (hbound : v.head.deltaDepth ≤ MAX_DELTA_DEPTH)
    (hbase : 0 < v.head.deltaDepth →
      ∃ b, d.Get (ToIndexKey .SHARE_INDEX v.head.baseFP) = some b ∧
        b.head.deltaDepth + 1 = v.head.deltaDepth)
    (hpend : ∀ v0, d.Get k = some v0 → v.head.deltaDepth = v0.head.deltaDepth) :
    (d.append k v).DepthOk := by
  obtain ⟨hb, hbs, hp⟩ := h
  refine ⟨?_, ?_, ?_⟩
  · intro k' v' hkv
    rw [DataBase.bindings_append] at hkv
    rcases List.mem_cons.mp hkv with h1 | h1
    · simp only [Prod.mk.injEq] at h1; rw [h1.2]; exact hbound
    · exact hb k' v' h1
  · intro k' v' hkv hpos
    rw [DataBase.bindings_append] at hkv
    rcases List.mem_cons.mp hkv with h1 | h1
    · simp only [Prod.mk.injEq] at h1; rw [h1.2] at hpos ⊢; exact hbase hpos
    · exact hbs k' v' h1 hpos
  · intro k' v' v0 hkv hget
    simp only [DataBase.append, List.mem_append, List.mem_singleton, Prod.mk.injEq] at hkv
    rcases hkv with h1 | h1
    · exact hp k' v' v0 h1 hget
    · rw [h1.1] at hget; rw [h1.2]; exact hpend v0 hget

theorem DataBase.DepthOk.after_put {d : DataBase} (h : d.DepthOk) {k : key_t} {v : ShareIndexValue}
    (hbound : v.head.deltaDepth ≤ MAX_DELTA_DEPTH)
    (hbase : 0 < v.head.deltaDepth →
      ∃ b, d.Get (ToIndexKey .SHARE_INDEX v.head.baseFP) = some b ∧
        b.head.deltaDepth + 1 = v.head.deltaDepth)
    (hpend : ∀ v0, d.Get k = some v0 → v.head.deltaDepth = v0.head.deltaDepth) :
    (d.Put k v).DepthOk := by
  rcases DataBase.Put_eq d k v with e | e
  · rw [e]; exact h.append hbound hbase hpend
  · rw [e]; exact (h.append hbound hbase hpend).flush

theorem depthOk_dbInv : DbInv DataBase.DepthOk := by
  refine ⟨fun d h => h.flush, ?_, ?_⟩
  · intro d k v u hQ hv _ _
    have hm := DataBase.Get_mem_bindings hv
    refine hQ.after_put (hQ.bound k v hm) (fun hpos => hQ.base k v hm hpos) ?_
    intro v0 h0
    rw [hv] at h0
    cases h0; rfl
  · intro d fp u data depth baseFP dsize name off hQ hnone hdep
    refine hQ.after_put ?_ ?_ ?_
    · rcases hdep with rfl | ⟨baseVal, -, hlt, rfl⟩
      · simp [newShareValue]
      · simp only [newShareValue, MAX_DELTA_DEPTH] at hlt ⊢
        omega
    · intro hpos
      rcases hdep with rfl | ⟨baseVal, hget, hlt, rfl⟩
      · simp [newShareValue] at hpos
      · refine ⟨baseVal, hget, ?_⟩
        simp only [newShareValue, MAX_DELTA_DEPTH] at hlt ⊢
        omega
    · intro v0 h0
      rw [hnone] at h0
      cases h0

theorem DataBase.new_depthOk : DataBase.new.DepthOk := by
  refine ⟨?_, ?_, ?_⟩ <;> intro k v <;> simp [DataBase.new, DataBase.bindings]

theorem Reachable.depthOk {E : External} {s : DedupCore} (hr : Reachable E s) :
    s.backend_.db.DepthOk :=
  Reachable.db_invariant DataBase.new_depthOk depthOk_dbInv hr

theorem pending_dbInv : DbInv (fun d => ∀ k v v0, (k, v) ∈ d.writeBatch_ → d.Get k = some v0 →
    ∃ u, v = v0.addUser u) := by
  have happend : ∀ (d : DataBase) k v, (∀ k' v' v0, (k', v') ∈ d.writeBatch_ → d.Get k' = some v0 →
      ∃ u, v' = v0.addUser u) → (∀ v0, d.Get k = some v0 → ∃ u, v = v0.addUser u) →
      ∀ k' v' v0, (k', v') ∈ (d.Put k v).writeBatch_ → (d.Put k v).Get k' = some v0 →
        ∃ u, v' = v0.addUser u := by
    intro d k v hQ hv k' v' v0 hm hg
    rcases DataBase.Put_eq d k v with e | e
    · rw [e] at hm hg
      simp only [DataBase.append, List.mem_append, List.mem_singleton, Prod.mk.injEq] at hm
      have hg' : d.Get k' = some v0 := hg
      rcases hm with h1 | h1
      · exact hQ k' v' v0 h1 hg'
      · rw [h1.1] at hg'; rw [h1.2]; exact hv v0 hg'
    · rw [e] at hm
      simp [DataBase.BatchFlush_eq] at hm
  refine ⟨?_, ?_, ?_⟩
  · intro d _ k v v0 hm
    simp [DataBase.BatchFlush_eq] at hm
  · intro d k v u hQ hv _ _
    refine happend d k _ hQ ?_
    intro v0 h0
    rw [hv] at h0
    cases h0
    exact ⟨u, rfl⟩
  · intro d fp u data depth baseFP dsize name off hQ hnone _
    refine happend d _ _ hQ ?_
    intro v0 h0
    rw [hnone] at h0
    cases h0

theorem consistent_dbInv : DbInv DataBase.Consistent := by
  refine ⟨?_, ?_, ?_⟩
  · intro d h
    exact ⟨usersOk_dbInv.flush d h.users, depthOk_dbInv.flush d h.depth,
      pending_dbInv.flush d h.pending⟩
  · intro d k v u h hv hnu hu
    exact ⟨usersOk_dbInv.add d k v u h.users hv hnu hu, depthOk_dbInv.add d k v u h.depth hv hnu hu,
      pending_dbInv.add d k v u h.pending hv hnu hu⟩
  · intro d fp u data depth baseFP dsize name off h hnone hdep
    exact ⟨usersOk_dbInv.new d fp u data depth baseFP dsize name off h.users hnone hdep,
      depthOk_dbInv.new d fp u data depth baseFP dsize name off h.depth hnone hdep,
      pending_dbInv.new d fp u data depth baseFP dsize name off h.pending hnone hdep⟩

theorem DataBase.new_consistent : DataBase.new.Consistent :=
  ⟨by intro k v h; simp [DataBase.new, DataBase.bindings] at h, DataBase.new_depthOk,
    by intro k v v0 h; simp [DataBase.new] at h⟩

theorem Reachable.consistent {E : External} {s : DedupCore} (hr : Reachable E s) :
    s.backend_.db.Consistent :=
  Reachable.db_invariant DataBase.new_consistent consistent_dbInv hr

theorem DedupCore.stepsToRaw_eq {s : DedupCore} (h : s.backend_.db.DepthOk) :
    ∀ (n : Nat) (k : key_t) (v : ShareIndexValue), (k, v) ∈ s.backend_.db.bindings →
      v.head.deltaDepth ≤ n → s.stepsToRaw n v = some v.head.deltaDepth := by
  intro n
  induction n with
  | zero =>
    intro k v _ hle
    have : v.head.deltaDepth = 0 := by omega
    unfold DedupCore.stepsToRaw
    simp [this]
  | succ n ih =>
    intro k v hkv hle
    unfold DedupCore.stepsToRaw
    by_cases h0 : v.head.deltaDepth = 0
    · simp [h0]
    · obtain ⟨b, hb, hbd⟩ := h.base k v hkv (by omega)
      have hb' : s.backend_.getShareIndex (ToIndexKey .SHARE_INDEX v.head.baseFP) = some b := hb
      simp only [h0, if_false, hb']
      rw [ih _ b (DataBase.Get_mem_bindings hb) (by omega)]
      simp [hbd]

/-- C3: in every reachable state every share index entry (returned by `Get` or pending in the
write batch) has `deltaDepth <= MAX_DELTA_DEPTH`; an entry with `deltaDepth > 0` names a
`baseFP` whose share index entry exists with `deltaDepth` exactly one smaller; and following
`baseFP` links from it reaches a `deltaDepth == 0` entry in at most `MAX_DELTA_DEPTH` steps. -/
theorem DedupCore.delta_depth_bounded {E : External} {s : DedupCore} (hr : Reachable E s) :
    ∀ key v, (s.backend_.getShareIndex key = some v ∨ (key, v) ∈ s.backend_.db.writeBatch_) →
      v.head.deltaDepth ≤ MAX_DELTA_DEPTH ∧
      (0 < v.head.deltaDepth →
        ∃ b, s.backend_.getShareIndex (ToIndexKey .SHARE_INDEX v.head.baseFP) = some b ∧
          b.head.deltaDepth + 1 = v.head.deltaDepth) ∧
      ∃ n, n ≤ MAX_DELTA_DEPTH ∧ s.stepsToRaw MAX_DELTA_DEPTH v = some n := by
  intro key v h
  have hd := hr.depthOk
  have hm : (key, v) ∈ s.backend_.db.bindings := by
    rcases h with h | h
    · exact DataBase.Get_mem_bindings h
    · exact DataBase.mem_bindings_of_batch h
  refine ⟨hd.bound key v hm, fun hpos => hd.base key v hm hpos, v.head.deltaDepth,
    hd.bound key v hm, ?_⟩
  exact DedupCore.stepsToRaw_eq hd _ key v hm (hd.bound key v hm)

/-! ## C7: where a new share is stored -/

theorem Delta.ComputeDelta_length_le (E : External) (base src : Bytes) :
    (Delta.ComputeDelta E base src).length ≤ src.length := by
  unfold Delta.ComputeDelta compute_delta
  by_cases h0 : base.length < 1024 ∨ src.length < 512
  · simp [h0]
  · simp only [h0, if_false]
    cases he : E.xd3_encode_memory src base src.length with
    | none => simp
    | some out =>
      simp only
      by_cases hgt : out.length > src.length
      · simp [hgt]
      · simp only [hgt, if_false, spanRead_length]
        omega

/-- A call of `interUserIndexUpdate` that returns for a fingerprint absent from the index:
either path ends in `storeNewShare`. -/
theorem interUserIndexUpdate_ok_new {E : External} {fuel : Nat} {s s' : DedupCore}
    {fp : fingerprint_t} {u : user_id_t} {d : Bytes}
    (hnone : s.backend_.getShareIndex (ToIndexKey .SHARE_INDEX fp) = none)
    (h : s.interUserIndexUpdate E fuel fp u d = .ok () s') :
    ∃ payload depth baseFP dsize name off b,
      ((s.deltaCandidate E fuel (Delta.GenSuperFeature E d) d = .ok none ∧
          payload = d ∧ depth = 0 ∧ baseFP = List.replicate 32 0 ∧ dsize = 0) ∨
        (∃ kBase, s.deltaCandidate E fuel (Delta.GenSuperFeature E d) d =
            .ok (some (baseFP, kBase, payload)) ∧
          depth = (kBase.deltaDepth + 1) % 256 ∧ dsize = payload.length)) ∧
      s.backend_.putShareData payload = .ok (name, off) b ∧
      s' = { backend_ := b.putShareIndex (ToIndexKey .SHARE_INDEX fp)
               (newShareValue u d depth baseFP dsize name off),
             delta_ := s.delta_.superFeatureIndexUpdate (Delta.GenSuperFeature E d) fp } := by
  have hstore : ∀ {payload depth baseFP dsize},
      s.storeNewShare fp u d (Delta.GenSuperFeature E d) payload depth baseFP dsize = .ok () s' →
      ∃ name off b, s.backend_.putShareData payload = .ok (name, off) b ∧
        s' = { backend_ := b.putShareIndex (ToIndexKey .SHARE_INDEX fp)
                 (newShareValue u d depth baseFP dsize name off),
               delta_ := s.delta_.superFeatureIndexUpdate (Delta.GenSuperFeature E d) fp } := by
    intro payload depth baseFP dsize h1
    unfold DedupCore.storeNewShare at h1
    cases hp : s.backend_.putShareData payload with
    | thrown m b => simp [hp] at h1
    | abort w => simp [hp] at h1
    | ok r b =>
      obtain ⟨name, off⟩ := r
      simp only [hp] at h1
      by_cases hov : (d.length : Int) > INT_MAX
      · simp [hov] at h1
      · simp only [hov, if_false, Res.ok.injEq, true_and] at h1
        exact ⟨name, off, b, rfl, h1.symm⟩
  unfold DedupCore.interUserIndexUpdate at h
  simp only [hnone] at h
  cases hc : s.deltaCandidate E fuel (Delta.GenSuperFeature E d) d with
  | thrown m => simp [hc] at h
  | abort w => simp [hc] at h
  | ok c =>
    cases c with
    | none =>
      simp only [hc] at h
      obtain ⟨name, off, b, hb, hs⟩ := hstore h
      exact ⟨d, 0, _, 0, name, off, b, Or.inl ⟨rfl, rfl, rfl, rfl, rfl⟩, hb, hs⟩
    | some t =>
      obtain ⟨baseFP, kBase, delta⟩ := t
      simp only [hc] at h
      obtain ⟨name, off, b, hb, hs⟩ := hstore h
      exact ⟨delta, _, baseFP, _, name, off, b, Or.inr ⟨kBase, rfl, rfl, rfl⟩, hb, hs⟩

theorem BackendFacade.putShareData_ok_bound {b b' : BackendFacade} (hp : b.PoolOk) {d : Bytes}
    (hd : d.length ≤ CONTAINER_SIZE) {name : internal_file_name_t} {off : Nat}
    (h : b.putShareData d = .ok (name, off) b') :
    off + d.length ≤ CONTAINER_SIZE ∧ name = b'.shareContainerName_ := by
  rw [BackendFacade.putShareData_eq hp] at h
  by_cases hgt : b.shareContainerOffset_ + d.length > CONTAINER_SIZE
  · simp only [hgt, if_true] at h
    cases hg : b.containerNameDispenser_.get with
    | error msg => simp [hg] at h
    | ok p =>
      obtain ⟨n, disp⟩ := p
      simp only [hg, Res.ok.injEq, Prod.mk.injEq] at h
      obtain ⟨⟨rfl, rfl⟩, rfl⟩ := h
      exact ⟨by omega, rfl⟩
  · simp only [hgt, if_false, Res.ok.injEq, Prod.mk.injEq] at h
    obtain ⟨⟨rfl, rfl⟩, rfl⟩ := h
    exact ⟨by omega, rfl⟩

theorem BackendFacade.PoolOk.name_dispensed {b : BackendFacade} (h : b.PoolOk) :
    ∃ n, NameDispenser.nthGet n = .ok b.shareContainerName_ := by
  obtain ⟨k, hk, hname, -, -⟩ := h.names
  refine ⟨k, ?_⟩
  rw [nthGet_eq, if_pos (by omega), nameOfIndex_eq, hname]

/-- In a reachable state, when `interUserIndexUpdate` returns for a fingerprint that is not in
the index and a share data of at most `CONTAINER_SIZE` bytes, the value it writes lies inside
one container, which exists and bears a name handed out by the dispenser. -/
theorem DedupCore.new_share_fits {E : External} {s s' : DedupCore}
    (hr : Reachable E s) (fuel : Nat) (fp : fingerprint_t) (u : user_id_t) (d : Bytes)
    (hd : d.length ≤ CONTAINER_SIZE)
    (hnone : s.backend_.getShareIndex (ToIndexKey .SHARE_INDEX fp) = none)
    (hok : s.interUserIndexUpdate E fuel fp u d = .ok () s') :
    ∃ v, s'.backend_.db.bindings = (ToIndexKey .SHARE_INDEX fp, v) :: s.backend_.db.bindings ∧
      (v.head.offset : Int) +
          (if v.head.deltaDepth = 0 then v.head.shareSize else (v.head.deltaSize : Int)) ≤
        CONTAINER_SIZE ∧
      (kvGet v.head.containerName s'.backend_.containerFiles).isSome ∧
      ∃ n, NameDispenser.nthGet n = .ok v.head.containerName := by
  obtain ⟨payload, depth, baseFP, dsize, name, off, b, hshape, hput, rfl⟩ :=
    interUserIndexUpdate_ok_new hnone hok
  have hp := hr.poolOk
  have hput' : (s.backend_.putShareData payload).state? = some b := by rw [hput]; rfl
  have hpb := BackendFacade.putShareData_poolOk hp hput'
  have hlen : payload.length ≤ d.length := by
    rcases hshape with ⟨-, rfl, -⟩ | ⟨kBase, hc, -⟩
    · exact le_refl _
    · obtain ⟨baseVal, base, -, -, -, -, -, -, -, rfl, -⟩ := deltaCandidate_some hc
      exact Delta.ComputeDelta_length_le _ _ _
  obtain ⟨hbound, hname⟩ := BackendFacade.putShareData_ok_bound hp (by omega) hput
  refine ⟨newShareValue u d depth baseFP dsize name off, ?_, ?_, ?_, ?_⟩
  · show (b.db.Put _ _).bindings = _
    rw [DataBase.bindings_Put, (BackendFacade.putShareData_step hput').db]
  · simp only [newShareValue]
    rcases hshape with ⟨-, rfl, rfl, -, -⟩ | ⟨kBase, hc, rfl, rfl⟩
    · simp only [if_true]
      omega
    · obtain ⟨baseVal, base, -, -, -, -, hdep, -, -, -, -⟩ := deltaCandidate_some hc
      have : (kBase.deltaDepth + 1) % 256 ≠ 0 := by
        simp only [MAX_DELTA_DEPTH] at hdep
        omega
      simp only [this, if_false]
      omega
  · show (kvGet name b.containerFiles).isSome
    rw [hname]; exact hpb.present
  · show ∃ n, NameDispenser.nthGet n = .ok name
    rw [hname]; exact hpb.name_dispensed

theorem firstStageLoop_ok {s : DedupCore} {u : user_id_t} :
    ∀ {entries : List shareMetaEntry_t} {stats : List Bool},
      s.firstStageLoop u entries = .ok stats →
      List.Forall₂ (fun e b => s.intraUserIndexUpdate e.shareFP u = .ok b) entries stats := by
  intro entries
  induction entries with
  | nil =>
    intro stats h
    simp only [DedupCore.firstStageLoop, Ret.ok.injEq] at h
    subst h; exact List.Forall₂.nil
  | cons e rest ih =>
    intro stats h
    simp only [DedupCore.firstStageLoop] at h
    cases hi : s.intraUserIndexUpdate e.shareFP u with
    | thrown m => simp [hi] at h
    | abort w => simp [hi] at h
    | ok b =>
      simp only [hi] at h
      cases hl : s.firstStageLoop u rest with
      | thrown m => simp [hl] at h
      | abort w => simp [hl] at h
      | ok bs =>
        simp only [hl, Ret.ok.injEq] at h
        subst h
        exact List.Forall₂.cons hi (ih hl)

theorem firstStageDedup_ok {s : DedupCore} {u : user_id_t} {m : FileShareMeta} {stats : List Bool}
    (h : s.firstStageDedup u m = .ok stats) :
    List.Forall₂ (fun e b => s.intraUserIndexUpdate e.shareFP u = .ok b) m.entriesView stats := by
  unfold DedupCore.firstStageDedup at h
  cases hp : ParseFileShareMeta m with
  | error e => simp [hp] at h
  | ok p =>
    obtain ⟨hd, name, entries⟩ := p
    obtain ⟨-, rfl, -, -⟩ := ParseFileShareMeta_ok hp
    simp only [hp, LOOP_PARALLEL, Bool.false_eq_true, if_false] at h
    exact firstStageLoop_ok h

/-- A call of `secondStageDedup` that returns went through `putRecipeFile`, the loop and
`finishRecipeFile`. -/
theorem secondStageDedup_ok {E : External} {fuel : Nat} {s s' : DedupCore} {u : user_id_t}
    {m : FileShareMeta} {data : Bytes} {dup : List Bool} {t : Nat}
    (h : s.secondStageDedup E fuel u m data dup t = .ok () s') :
    ∃ name fullName sp b s1 b2,
      ParseFileShareMeta m = .ok (m.head, name, m.entriesView) ∧
      FormatFullFileName name = .ok fullName ∧
      s.backend_.putRecipeFile u (ToIndexKey .RECIPE (ToRecipeFP E fullName u)) m.head t = .ok sp b ∧
      DedupCore.secondStageLoop E fuel u (ToIndexKey .RECIPE (ToRecipeFP E fullName u)) sp data
        (m.entriesView.zip (spanRead dup m.entriesView.length)) 0 0 { s with backend_ := b } =
        .ok () s1 ∧
      s1.backend_.finishRecipeFile E u m.head (ToIndexKey .RECIPE (ToRecipeFP E fullName u)) =
        .ok () b2 ∧
      s' = { s1 with backend_ := b2 } := by
  unfold DedupCore.secondStageDedup at h
  cases hparse : ParseFileShareMeta m with
  | error e => simp [hparse] at h
  | ok p =>
    obtain ⟨hd, name, entries⟩ := p
    obtain ⟨rfl, rfl, -, -⟩ := ParseFileShareMeta_ok hparse
    simp only [hparse] at h
    cases hfmt : FormatFullFileName name with
    | error e => simp [hfmt] at h
    | ok fullName =>
      simp only [hfmt, LOOP_PARALLEL, Bool.false_eq_true, if_false] at h
      cases hput : s.backend_.putRecipeFile u (ToIndexKey .RECIPE (ToRecipeFP E fullName u)) m.head t with
      | abort w => simp [hput] at h
      | thrown msg b => simp [hput] at h
      | ok sp b =>
        simp only [hput] at h
        cases hloop : DedupCore.secondStageLoop E fuel u (ToIndexKey .RECIPE (ToRecipeFP E fullName u))
            sp data (m.entriesView.zip (spanRead dup m.entriesView.length)) 0 0
            { s with backend_ := b } with
        | abort w => simp [hloop] at h
        | thrown msg s1 => simp [hloop] at h
        | ok x s1 =>
          simp only [hloop] at h
          cases hfin : s1.backend_.finishRecipeFile E u m.head
              (ToIndexKey .RECIPE (ToRecipeFP E fullName u)) with
          | abort w => simp [hfin] at h
          | thrown msg b2 => simp [hfin] at h
          | ok x2 b2 =>
            simp only [hfin, Res.ok.injEq, true_and] at h
            exact ⟨name, fullName, sp, b, s1, b2, rfl, hfmt, hput, hloop, hfin, h.symm⟩

section run
variable {E : External} {u : user_id_t} {G : fingerprint_t → Bytes → Prop}
  {J Q : DedupCore → Prop} {F : fingerprint_t}

/-- The loop of `secondStageDedup` keeps an invariant that each call of
`interUserIndexUpdate` on good data and each step on the recipe store keep, and establishes
`Q` when it stores the share `F`. -/
theorem secondStageLoop_post
    (hInv : ∀ s s' fuel fp d, G fp d → J s →
      (DedupCore.interUserIndexUpdate E fuel s fp u d).state? = some s' → J s')
    (hInvR : ∀ (s : DedupCore) b', J s → s.backend_.RecipeStep b' → J { s with backend_ := b' })
    (hPost : ∀ s s' fuel fp d, G fp d → J s → Q s →
      (DedupCore.interUserIndexUpdate E fuel s fp u d).state? = some s' → Q s')
    (hPostR : ∀ (s : DedupCore) b', J s → Q s → s.backend_.RecipeStep b' →
      Q { s with backend_ := b' })
    (hcall : ∀ s s' fuel d, G F d → J s →
      DedupCore.interUserIndexUpdate E fuel s F u d = .ok () s' → Q s')
    (fuel : Nat) (k : key_t) (sp : RecipeSpan) (data : Bytes) :
    ∀ (l : List (shareMetaEntry_t × Bool)) (i off : Nat) (s s' : DedupCore), J s →
      SlicesGood G data l off →
      ((∃ p ∈ l, p.1.shareFP = F ∧ p.2 = true) → Q s) →
      DedupCore.secondStageLoop E fuel u k sp data l i off s = .ok () s' →
      J s' ∧ (Q s → Q s') ∧ ((∃ p ∈ l, p.1.shareFP = F) → Q s') := by
  intro l
  induction l with
  | nil =>
    intro i off s s' hI _ _ h
    simp only [DedupCore.secondStageLoop, Res.ok.injEq, true_and] at h
    subst h
    exact ⟨hI, id, by rintro ⟨p, hp, -⟩; simp at hp⟩
  | cons a l ih =>
    intro i off s s' hI hG hdup h
    obtain ⟨e, dup⟩ := a
    simp only [DedupCore.secondStageLoop] at h
    cases dup with
    | true =>
      simp only [Bool.not_true, Bool.false_eq_true, if_false] at h
      simp only [SlicesGood, if_true] at hG
      have hst := BackendFacade.setRecipeEntry_step s.backend_ k sp i
        ⟨e.shareFP, e.secretID, e.secretSize, e.shareSize⟩
      have hI1 := hInvR s _ hI hst
      have hP1 : Q s → Q _ := fun hp => hPostR s _ hI hp hst
      obtain ⟨hI', hPP, hF⟩ := ih _ _ _ _ hI1 hG
        (fun ⟨p, hp, hpF, hpd⟩ => hP1 (hdup ⟨p, List.mem_cons_of_mem _ hp, hpF, hpd⟩)) h
      refine ⟨hI', fun hp => hPP (hP1 hp), ?_⟩
      rintro ⟨p, hp, hpF⟩
      rcases List.mem_cons.mp hp with rfl | hp'
      · exact hPP (hP1 (hdup ⟨_, List.mem_cons_self _ _, hpF, rfl⟩))
      · exact hF ⟨p, hp', hpF⟩
    | false =>
      simp only [Bool.not_false, if_true] at h
      simp only [SlicesGood, Bool.false_eq_true, if_false] at hG
      obtain ⟨hG0, hG1⟩ := hG
      cases hc : numeric_cast e.shareSize with
      | error m => simp [hc] at h
      | ok size =>
        have hsize : size = e.shareSize.toNat := by
          unfold numeric_cast at hc
          split at hc
          · cases hc
          · simp only [Except.ok.injEq] at hc; exact hc.symm
        subst hsize
        simp only [hc] at h
        cases hi : DedupCore.interUserIndexUpdate E fuel s e.shareFP u
            (shareDataSlice data off e.shareSize.toNat) with
        | abort w => simp [hi] at h
        | thrown m s1 => simp [hi] at h
        | ok x s1 =>
          simp only [hi] at h
          have hst? : (DedupCore.interUserIndexUpdate E fuel s e.shareFP u
              (shareDataSlice data off e.shareSize.toNat)).state? = some s1 := by rw [hi]; rfl
          have hI1 : J s1 := hInv s s1 fuel _ _ hG0 hI hst?
          have hP1 : Q s → Q s1 := fun hp => hPost s s1 fuel _ _ hG0 hI hp hst?
          have hst := BackendFacade.setRecipeEntry_step s1.backend_ k sp i
            ⟨e.shareFP, e.secretID, e.secretSize, e.shareSize⟩
          have hI2 := hInvR s1 _ hI1 hst
          have hP2 : Q s1 → Q _ := fun hp => hPostR s1 _ hI1 hp hst
          obtain ⟨hI', hPP, hF⟩ := ih _ _ _ _ hI2 hG1
            (fun ⟨p, hp, hpF, hpd⟩ => hP2 (hP1 (hdup ⟨p, List.mem_cons_of_mem _ hp, hpF, hpd⟩))) h
          refine ⟨hI', fun hp => hPP (hP2 (hP1 hp)), ?_⟩
          rintro ⟨p, hp, hpF⟩
          rcases List.mem_cons.mp hp with rfl | hp'
          · simp only at hpF
            subst hpF
            exact hPP (hP2 (hcall s s1 fuel _ hG0 hI hi))
          · exact hF ⟨p, hp', hpF⟩

end run

section run
variable {E : External} {u : user_id_t} {G : fingerprint_t → Bytes → Prop}
  {J Q : DedupCore → Prop} {F : fingerprint_t}

theorem ClientUpload.round_ok {fuel : Nat} {s s' : DedupCore} {r : UploadRound}
    {dupStat : List Bool} (h : ClientUpload.round E fuel u s r = .ok dupStat s') :
    s.firstStageDedup u r.shareMeta = .ok dupStat ∧
    s.secondStageDedup E fuel u r.shareMeta (r.shareData dupStat) dupStat
      r.numOfTotalShares = .ok () s' := by
  unfold ClientUpload.round at h
  cases hf : s.firstStageDedup u r.shareMeta with
  | thrown m => simp [hf] at h
  | abort w => simp [hf] at h
  | ok ds =>
    simp only [hf] at h
    cases hs : s.secondStageDedup E fuel u r.shareMeta (r.shareData ds) ds
        r.numOfTotalShares with
    | thrown m s1 => simp [hs] at h
    | abort w => simp [hs] at h
    | ok x s1 =>
      simp only [hs, Res.ok.injEq] at h
      obtain ⟨rfl, rfl⟩ := h
      exact ⟨rfl, hs⟩

/-- One round of an upload session keeps the invariant and establishes `Q` when the
round contains the share `F`. -/
theorem ClientUpload.round_post
    (hInv : ∀ s s' fuel fp d, G fp d → J s →
      (DedupCore.interUserIndexUpdate E fuel s fp u d).state? = some s' → J s')
    (hInvR : ∀ (s : DedupCore) b', J s → s.backend_.RecipeStep b' → J { s with backend_ := b' })
    (hPost : ∀ s s' fuel fp d, G fp d → J s → Q s →
      (DedupCore.interUserIndexUpdate E fuel s fp u d).state? = some s' → Q s')
    (hPostR : ∀ (s : DedupCore) b', J s → Q s → s.backend_.RecipeStep b' →
      Q { s with backend_ := b' })
    (hcall : ∀ s s' fuel d, G F d → J s →
      DedupCore.interUserIndexUpdate E fuel s F u d = .ok () s' → Q s')
    (hdup : ∀ s, J s → s.intraUserIndexUpdate F u = .ok true → Q s)
    {fuel : Nat} {s s' : DedupCore} {r : UploadRound} {dupStat : List Bool}
    (hI : J s) (hG : RoundsGood G [r])
    (h : ClientUpload.round E fuel u s r = .ok dupStat s') :
    J s' ∧ (Q s → Q s') ∧ ((∃ e ∈ r.shareMeta.entriesView, e.shareFP = F) → Q s') := by
  obtain ⟨hfirst, hsecond⟩ := ClientUpload.round_ok h
  have hall := firstStageDedup_ok hfirst
  have hlen : dupStat.length = r.shareMeta.entriesView.length := hall.length_eq.symm
  obtain ⟨name, fullName, sp, b, s1, b2, -, -, hput, hloop, hfin, rfl⟩ :=
    secondStageDedup_ok hsecond
  rw [← hlen, spanRead_self] at hloop
  have hputs : s.backend_.RecipeStep b :=
    BackendFacade.putRecipeFile_step (by rw [hput]; rfl)
  have hI1 := hInvR s b hI hputs
  have hP1 : Q s → Q { s with backend_ := b } := fun hp => hPostR s b hI hp hputs
  have hzip : ∀ (a : shareMetaEntry_t) (c : Bool), (a, c) ∈ r.shareMeta.entriesView.zip dupStat →
      s.intraUserIndexUpdate a.shareFP u = .ok c :=
    fun a c hm => (List.forall₂_iff_zip.mp hall).2 hm
  obtain ⟨hI2, hPP, hF⟩ := secondStageLoop_post hInv hInvR hPost hPostR hcall fuel _ sp _ _ 0 0 _ s1
    hI1 (hG r (List.mem_singleton.mpr rfl) dupStat hlen)
    (fun ⟨p, hp, hpF, hpd⟩ => by
      apply hP1
      apply hdup s hI
      have := hzip p.1 p.2 hp
      rw [hpF, hpd] at this
      exact this) hloop
  have hfins : s1.backend_.RecipeStep b2 :=
    BackendFacade.finishRecipeFile_step (by rw [hfin]; rfl)
  refine ⟨hInvR s1 b2 hI2 hfins, fun hp => hPostR s1 b2 hI2 (hPP (hP1 hp)) hfins, ?_⟩
  rintro ⟨e, he, heF⟩
  apply hPostR s1 b2 hI2 _ hfins
  apply hF
  obtain ⟨i, hi, rfl⟩ := List.getElem_of_mem he
  have hi' : i < dupStat.length := by omega
  refine ⟨(r.shareMeta.entriesView[i], dupStat[i]), ?_, heF⟩
  rw [List.mem_iff_getElem]
  exact ⟨i, by simp [hi, hi'], by simp⟩

theorem RoundsGood.cons {r : UploadRound} {rest : List UploadRound}
    (h : RoundsGood G (r :: rest)) : RoundsGood G [r] ∧ RoundsGood G rest :=
  ⟨fun r' hr' => h r' (by simp at hr'; simp [hr']),
    fun r' hr' => h r' (List.mem_cons_of_mem _ hr')⟩

/-- An upload session keeps the invariant and establishes `Q` when one of its rounds
contains the share `F`. -/
theorem ClientUpload.run_post
    (hInv : ∀ s s' fuel fp d, G fp d → J s →
      (DedupCore.interUserIndexUpdate E fuel s fp u d).state? = some s' → J s')
    (hInvR : ∀ (s : DedupCore) b', J s → s.backend_.RecipeStep b' → J { s with backend_ := b' })
    (hPost : ∀ s s' fuel fp d, G fp d → J s → Q s →
      (DedupCore.interUserIndexUpdate E fuel s fp u d).state? = some s' → Q s')
    (hPostR : ∀ (s : DedupCore) b', J s → Q s → s.backend_.RecipeStep b' →
      Q { s with backend_ := b' })
    (hcall : ∀ s s' fuel d, G F d → J s →
      DedupCore.interUserIndexUpdate E fuel s F u d = .ok () s' → Q s')
    (hdup : ∀ s, J s → s.intraUserIndexUpdate F u = .ok true → Q s)
    (fuel : Nat) :
    ∀ (rounds : List UploadRound) (s s' : DedupCore) (stats : List (List Bool)),
      J s → RoundsGood G rounds → ClientUpload.run E fuel u rounds s = .ok stats s' →
      J s' ∧ (Q s → Q s') ∧
      ((∃ r ∈ rounds, ∃ e ∈ r.shareMeta.entriesView, e.shareFP = F) → Q s') := by
  intro rounds
  induction rounds with
  | nil =>
    intro s s' stats hI _ h
    simp only [ClientUpload.run, Res.ok.injEq] at h
    obtain ⟨-, rfl⟩ := h
    exact ⟨hI, id, by rintro ⟨r, hr, -⟩; simp at hr⟩
  | cons r rest ih =>
    intro s s' stats hI hG h
    simp only [ClientUpload.run] at h
    cases hr : ClientUpload.round E fuel u s r with
    | thrown m s1 => simp [hr] at h
    | abort w => simp [hr] at h
    | ok dupStat s1 =>
      simp only [hr] at h
      cases hrest : ClientUpload.run E fuel u rest s1 with
      | thrown m s2 => simp [hrest] at h
      | abort w => simp [hrest] at h
      | ok stats' s2 =>
        simp only [hrest, Res.ok.injEq] at h
        obtain ⟨-, rfl⟩ := h
        obtain ⟨hG1, hG2⟩ := hG.cons
        obtain ⟨hI1, hP1, hF1⟩ := ClientUpload.round_post hInv hInvR hPost hPostR hcall hdup hI hG1 hr
        obtain ⟨hI2, hP2, hF2⟩ := ih s1 s2 stats' hI1 hG2 hrest
        refine ⟨hI2, fun hp => hP2 (hP1 hp), ?_⟩
        rintro ⟨r', hr', e, he, heF⟩
        rcases List.mem_cons.mp hr' with rfl | hr''
        · exact hP2 (hF1 ⟨e, he, heF⟩)
        · exact hF2 ⟨r', hr'', e, he, heF⟩

end run

theorem RoundsGood.of_true (rounds : List UploadRound) : RoundsGood (fun _ _ => True) rounds :=
  fun _ _ _ _ => SlicesGood.trivial _ _ _

/-! ## What a completed round leaves behind -/

theorem BackendFacade.finishRecipeFile_ok_db {E : External} {b b' : BackendFacade} {u : user_id_t}
    {hd : fileShareMetaHead_t} {k : key_t} (h : b.finishRecipeFile E u hd k = .ok () b') :
    b'.db = b.db.BatchFlush := by
  unfold BackendFacade.finishRecipeFile at h
  cases hg : kvGet k b.unfinishedRecipeFileCache_ with
  | none => simp [hg] at h
  | some p =>
    obtain ⟨buf, total⟩ := p
    simp only [hg] at h
    split at h
    · simp at h
    · split at h
      · simp at h
      · simp only [Res.ok.injEq, true_and] at h
        subst h
        split <;> rfl

theorem ClientUpload.round_flushed {E : External} {fuel : Nat} {u : user_id_t} {s s' : DedupCore}
    {r : UploadRound} {dupStat : List Bool}
    (h : ClientUpload.round E fuel u s r = .ok dupStat s') :
    s'.backend_.db.writeBatch_ = [] ∧ s'.backend_.db.batchCnt_ = 0 := by
  obtain ⟨-, hsecond⟩ := ClientUpload.round_ok h
  obtain ⟨name, fullName, sp, b, s1, b2, -, -, -, -, hfin, rfl⟩ := secondStageDedup_ok hsecond
  have := BackendFacade.finishRecipeFile_ok_db hfin
  show b2.db.writeBatch_ = [] ∧ b2.db.batchCnt_ = 0
  rw [this, DataBase.BatchFlush_eq]
  exact ⟨rfl, rfl⟩

theorem ClientUpload.run_flushed {E : External} {fuel : Nat} {u : user_id_t} :
    ∀ {rounds : List UploadRound} {s s' : DedupCore} {stats : List (List Bool)},
      rounds ≠ [] → ClientUpload.run E fuel u rounds s = .ok stats s' →
      s'.backend_.db.writeBatch_ = [] ∧ s'.backend_.db.batchCnt_ = 0 := by
  intro rounds
  induction rounds with
  | nil => intro s s' stats hne; exact absurd rfl hne
  | cons r rest ih =>
    intro s s' stats _ h
    simp only [ClientUpload.run] at h
    cases hr : ClientUpload.round E fuel u s r with
    | thrown m s1 => simp [hr] at h
    | abort w => simp [hr] at h
    | ok dupStat s1 =>
      simp only [hr] at h
      cases hrest : ClientUpload.run E fuel u rest s1 with
      | thrown m s2 => simp [hrest] at h
      | abort w => simp [hrest] at h
      | ok stats' s2 =>
        simp only [hrest, Res.ok.injEq] at h
        obtain ⟨-, rfl⟩ := h
        cases rest with
        | nil =>
          simp only [ClientUpload.run, Res.ok.injEq] at hrest
          obtain ⟨-, rfl⟩ := hrest
          exact ClientUpload.round_flushed hr
        | cons r2 rest2 => exact ih (by simp) hrest

theorem ClientUpload.run_parse {E : External} {fuel : Nat} {u : user_id_t} :
    ∀ {rounds : List UploadRound} {s s' : DedupCore} {stats : List (List Bool)},
      ClientUpload.run E fuel u rounds s = .ok stats s' →
      ∀ r ∈ rounds, ∃ name, ParseFileShareMeta r.shareMeta =
        .ok (r.shareMeta.head, name, r.shareMeta.entriesView) := by
  intro rounds
  induction rounds with
  | nil => intro s s' stats _ r hr; simp at hr
  | cons r rest ih =>
    intro s s' stats h r' hr'
    simp only [ClientUpload.run] at h
    cases hr : ClientUpload.round E fuel u s r with
    | thrown m s1 => simp [hr] at h
    | abort w => simp [hr] at h
    | ok dupStat s1 =>
      simp only [hr] at h
      cases hrest : ClientUpload.run E fuel u rest s1 with
      | thrown m s2 => simp [hrest] at h
      | abort w => simp [hrest] at h
      | ok stats' s2 =>
        rcases List.mem_cons.mp hr' with rfl | hr''
        · obtain ⟨-, hsecond⟩ := ClientUpload.round_ok hr
          obtain ⟨name, -, -, -, -, -, hp, -⟩ := secondStageDedup_ok hsecond
          exact ⟨name, hp⟩
        · exact ih hrest r' hr''

/-! ## The key-value store across `interUserIndexUpdate` -/

theorem ToIndexKey_inj {p : IndexPrefix} {a b : fingerprint_t}
    (h : ToIndexKey p a = ToIndexKey p b) : a = b := by
  simpa [ToIndexKey] using h

/-- What a call of `interUserIndexUpdate` can do to the key-value store. -/
theorem interUserIndexUpdate_db {E : External} {fuel : Nat} {s s' : DedupCore}
    {fp : fingerprint_t} {u : user_id_t} {d : Bytes}
    (h : (s.interUserIndexUpdate E fuel fp u d).state? = some s') :
    s'.backend_.db = s.backend_.db ∨
    (∃ v, s.backend_.db.Get (ToIndexKey .SHARE_INDEX fp) = some v ∧ 0 ≤ v.head.numOfUsers ∧
      (∀ e ∈ spanRead v.entries v.head.numOfUsers.toNat, e.userID ≠ u) ∧
      s'.backend_.db = s.backend_.db.Put (ToIndexKey .SHARE_INDEX fp) (v.addUser u)) ∨
    (s.backend_.db.Get (ToIndexKey .SHARE_INDEX fp) = none ∧
      ∃ depth baseFP dsize name off, s'.backend_.db =
        s.backend_.db.Put (ToIndexKey .SHARE_INDEX fp)
          (newShareValue u d depth baseFP dsize name off)) := by
  have hstore : ∀ {payload depth baseFP dsize},
      s.backend_.db.Get (ToIndexKey .SHARE_INDEX fp) = none →
      (s.storeNewShare fp u d (Delta.GenSuperFeature E d) payload depth baseFP dsize).state? = some s' →
      s'.backend_.db = s.backend_.db ∨
      (s.backend_.db.Get (ToIndexKey .SHARE_INDEX fp) = none ∧
        ∃ depth baseFP dsize name off, s'.backend_.db =
          s.backend_.db.Put (ToIndexKey .SHARE_INDEX fp)
            (newShareValue u d depth baseFP dsize name off)) := by
    intro payload depth baseFP dsize hnone h1
    rcases storeNewShare_cases h1 with ⟨b, hb, rfl⟩ | ⟨name, off, b, hb, -, rfl⟩
    · exact Or.inl (BackendFacade.putShareData_step hb).db
    · have hb' : (s.backend_.putShareData payload).state? = some b := by rw [hb]; rfl
      refine Or.inr ⟨hnone, depth, baseFP, dsize, name, off, ?_⟩
      show b.db.Put _ _ = _
      rw [(BackendFacade.putShareData_step hb').db]
  rcases interUserIndexUpdate_cases h with rfl | ⟨v, hv, hnu, -, hu, rfl⟩ | ⟨hnone, h1, -⟩ |
    ⟨hnone, baseFP, kBase, delta, -, h1⟩
  · exact Or.inl rfl
  · exact Or.inr (Or.inl ⟨v, hv, hnu, hu, rfl⟩)
  · rcases hstore hnone h1 with h2 | h2
    · exact Or.inl h2
    · exact Or.inr (Or.inr h2)
  · rcases hstore hnone h1 with h2 | h2
    · exact Or.inl h2
    · exact Or.inr (Or.inr h2)

/-- What a call of `interUserIndexUpdate` that returns has found or done. -/
theorem interUserIndexUpdate_ok_db {E : External} {fuel : Nat} {s s' : DedupCore}
    {fp : fingerprint_t} {u : user_id_t} {d : Bytes}
    (h : s.interUserIndexUpdate E fuel fp u d = .ok () s') :
    (∃ v, s.backend_.db.Get (ToIndexKey .SHARE_INDEX fp) = some v ∧ 0 ≤ v.head.numOfUsers ∧
      (∃ e ∈ spanRead v.entries v.head.numOfUsers.toNat, e.userID = u) ∧ s' = s) ∨
    (∃ v, s.backend_.db.Get (ToIndexKey .SHARE_INDEX fp) = some v ∧ 0 ≤ v.head.numOfUsers ∧
      (∀ e ∈ spanRead v.entries v.head.numOfUsers.toNat, e.userID ≠ u) ∧
      s'.backend_.db = s.backend_.db.Put (ToIndexKey .SHARE_INDEX fp) (v.addUser u)) ∨
    (s.backend_.db.Get (ToIndexKey .SHARE_INDEX fp) = none ∧
      ∃ depth baseFP dsize name off, s'.backend_.db =
        s.backend_.db.Put (ToIndexKey .SHARE_INDEX fp)
          (newShareValue u d depth baseFP dsize name off)) := by
  cases hget : s.backend_.getShareIndex (ToIndexKey .SHARE_INDEX fp) with
  | none =>
    obtain ⟨payload, depth, baseFP, dsize, name, off, b, -, hput, rfl⟩ :=
      interUserIndexUpdate_ok_new hget h
    have hb' : (s.backend_.putShareData payload).state? = some b := by rw [hput]; rfl
    refine Or.inr (Or.inr ⟨hget, depth, baseFP, dsize, name, off, ?_⟩)
    show b.db.Put _ _ = _
    rw [(BackendFacade.putShareData_step hb').db]
  | some v =>
    have hget' : s.backend_.db.Get (ToIndexKey .SHARE_INDEX fp) = some v := hget
    unfold DedupCore.interUserIndexUpdate at h
    simp only [hget] at h
    cases hp : ParseShareIndex v with
    | error e => simp [hp] at h
    | ok p =>
      obtain ⟨hd, refs⟩ := p
      obtain ⟨-, hnu, rfl⟩ := ParseShareIndex_ok hp
      simp only [hp] at h
      by_cases hall : (spanRead v.entries v.head.numOfUsers.toNat).all
          (fun entry => !(entry.userID == u)) = true
      · have hstate : (s.interUserIndexUpdate E fuel fp u d).state? = some s' := by
          unfold DedupCore.interUserIndexUpdate
          simp only [hget, hp, hall, if_true]
          simp only [hall, if_true] at h
          rw [h]; rfl
        rcases interUserIndexUpdate_db hstate with h1 | h1 | ⟨h1, -⟩
        · simp only [hall, if_true] at h
          unfold BackendFacade.updateShareIndex at h
          by_cases hov : v.head.numOfUsers + 1 > INT_MAX
          · simp [hov] at h
          · simp only [hov, if_false, Res.ok.injEq, true_and] at h
            refine Or.inr (Or.inl ⟨v, hget', hnu, ?_, ?_⟩)
            · intro e he
              have := List.all_eq_true.mp hall e he
              simpa using this
            · subst h; rfl
        · exact Or.inr (Or.inl h1)
        · rw [hget'] at h1; cases h1
      · simp only [hall, Bool.false_eq_true, if_false, Res.ok.injEq, true_and] at h
        refine Or.inl ⟨v, hget', hnu, ?_, h.symm⟩
        simp only [List.all_eq_true, not_forall] at hall
        obtain ⟨e, he, hne⟩ := hall
        exact ⟨e, he, by simpa using hne⟩

/-! ## Bindings and pending writes -/

theorem DataBase.kvGet_bindings (d : DataBase) (k : key_t) :
    kvGet k d.bindings = d.Get k ∨ ∃ v, kvGet k d.bindings = some v ∧ (k, v) ∈ d.writeBatch_ := by
  unfold DataBase.bindings
  rw [kvGet_append]
  cases hb : kvGet k d.writeBatch_.reverse with
  | none => exact Or.inl rfl
  | some v => exact Or.inr ⟨v, rfl, List.mem_reverse.mp (kvGet_mem hb)⟩

theorem DataBase.kvGet_bindings_flushed {d : DataBase} (h : d.writeBatch_ = []) (k : key_t) :
    d.Get k = kvGet k d.bindings := by
  simp [DataBase.bindings, h, DataBase.Get]

theorem DataBase.BatchFlush_flushed {d : DataBase} (h : d.writeBatch_ = []) (hc : d.batchCnt_ = 0) :
    d.BatchFlush = d := by
  rw [DataBase.BatchFlush_eq]
  cases d
  simp_all

theorem ShareIndexValue.UsersOk.addUser_entries {v : ShareIndexValue} (h : v.UsersOk)
    (u : user_id_t) : (v.addUser u).entries = v.entries ++ [⟨u⟩] := by
  have hpos := h.pos
  have hlen := h.length
  have hn : ¬ v.head.numOfUsers < 0 := by omega
  have hl : v.head.numOfUsers.toNat = v.entries.length := by omega
  simp only [ShareIndexValue.addUser, hn, if_false, hl]
  simp

theorem ShareIndexValue.UsersOk.addUser_users {v : ShareIndexValue} (h : v.UsersOk)
    (u : user_id_t) : (v.addUser u).users = v.users ++ [u] := by
  simp [ShareIndexValue.users, h.addUser_entries]

theorem ShareIndexValue.UsersOk.spanRead_entries {v : ShareIndexValue} (h : v.UsersOk) :
    spanRead v.entries v.head.numOfUsers.toNat = v.entries := by
  have hpos := h.pos
  have hlen := h.length
  have hl : v.head.numOfUsers.toNat = v.entries.length := by omega
  rw [hl, spanRead_self]

/-- In a consistent store, a user found in the database value of a key is a user of the newest
binding of that key. -/
theorem DataBase.Consistent.newest_has_user {d : DataBase} (hc : d.Consistent) {k : key_t}
    {v : ShareIndexValue} (hv : d.Get k = some v) {u : user_id_t} (hu : u ∈ v.users) :
    ∃ w, kvGet k d.bindings = some w ∧ u ∈ w.users := by
  rcases d.kvGet_bindings k with h | ⟨w, hw, hmem⟩
  · exact ⟨v, by rw [h, hv], hu⟩
  · obtain ⟨u', rfl⟩ := hc.pending k w v hmem hv
    refine ⟨_, hw, ?_⟩
    rw [(hc.users k v (DataBase.Get_mem_bindings hv)).addUser_users]
    exact List.mem_append_left _ hu

theorem intraUserIndexUpdate_true {s : DedupCore} {fp : fingerprint_t} {u : user_id_t}
    {v : ShareIndexValue} (hv : s.backend_.db.Get (ToIndexKey .SHARE_INDEX fp) = some v)
    (hok : v.UsersOk) (hu : u ∈ v.users) : s.intraUserIndexUpdate fp u = .ok true := by
  have hpos := hok.pos
  unfold DedupCore.intraUserIndexUpdate BackendFacade.getShareIndex
  simp only [hv]
  have hp : ParseShareIndex v = .ok (v.head, v.entries) := by
    unfold ParseShareIndex numeric_cast
    have hn : ¬ v.head.numOfUsers < 0 := by omega
    simp only [PARANOID_CHECK, Bool.false_eq_true, false_and, if_false, hn, hok.spanRead_entries]
  simp only [hp, Ret.ok.injEq, List.any_eq_true, beq_iff_eq]
  simp only [ShareIndexValue.users, List.mem_map] at hu
  obtain ⟨e, he, rfl⟩ := hu
  exact ⟨e, he, rfl⟩

theorem intraUserIndexUpdate_ok {s : DedupCore} {fp : fingerprint_t} {u : user_id_t} {b : Bool}
    (h : s.intraUserIndexUpdate fp u = .ok b) :
    (s.backend_.db.Get (ToIndexKey .SHARE_INDEX fp) = none ∧ b = false) ∨
    ∃ v, s.backend_.db.Get (ToIndexKey .SHARE_INDEX fp) = some v ∧ 0 ≤ v.head.numOfUsers ∧
      b = (spanRead v.entries v.head.numOfUsers.toNat).any (fun e => e.userID == u) := by
  unfold DedupCore.intraUserIndexUpdate BackendFacade.getShareIndex at h
  cases hg : s.backend_.db.Get (ToIndexKey .SHARE_INDEX fp) with
  | none =>
    simp only [hg, Ret.ok.injEq] at h
    exact Or.inl ⟨rfl, h.symm⟩
  | some v =>
    simp only [hg] at h
    cases hp : ParseShareIndex v with
    | error e => simp [hp] at h
    | ok p =>
      obtain ⟨hd, refs⟩ := p
      obtain ⟨-, hnu, rfl⟩ := ParseShareIndex_ok hp
      simp only [hp, Ret.ok.injEq] at h
      exact Or.inr ⟨v, rfl, hnu, h.symm⟩

theorem firstStageLoop_all_true {s : DedupCore} {u : user_id_t} :
    ∀ (entries : List shareMetaEntry_t),
      (∀ e ∈ entries, s.intraUserIndexUpdate e.shareFP u = .ok true) →
      s.firstStageLoop u entries = .ok (List.replicate entries.length true) := by
  intro entries
  induction entries with
  | nil => intro _; rfl
  | cons e rest ih =>
    intro h
    simp only [DedupCore.firstStageLoop, h e (List.mem_cons_self _ _),
      ih (fun e' he' => h e' (List.mem_cons_of_mem _ he')), List.length_cons, List.replicate_succ]

theorem SlicesGood.all_dup (G : fingerprint_t → Bytes → Prop) (data : Bytes) :
    ∀ (entries : List shareMetaEntry_t) (off : Nat),
      SlicesGood G data (entries.zip (List.replicate entries.length true)) off := by
  intro entries
  induction entries with
  | nil => intro off; simp [SlicesGood]
  | cons e rest ih =>
    intro off
    simp only [List.length_cons, List.replicate_succ, List.zip_cons_cons, SlicesGood, if_true]
    exact ih off

/-! ## C5: uploading the same file again -/

theorem DataBase.newest_put {d : DataBase} {k k' : key_t} {v' : ShareIndexValue} {u : user_id_t}
    (h : ∃ w, kvGet k d.bindings = some w ∧ u ∈ w.users) (hv : u ∈ v'.users) :
    ∃ w, kvGet k (d.Put k' v').bindings = some w ∧ u ∈ w.users := by
  rw [DataBase.bindings_Put]
  by_cases hk : k' = k
  · subst hk
    exact ⟨v', by simp, hv⟩
  · rw [kvGet_cons_ne hk]
    exact h

theorem BackendFacade.RecipeStep.bindings {b b' : BackendFacade} (h : b.RecipeStep b') :
    b'.db.bindings = b.db.bindings := by
  rcases h.db with h1 | h1
  · rw [h1]
  · rw [h1, DataBase.bindings_BatchFlush]

/-- After an upload session of user `u`, every share of every round has `u` among the users of
its newest binding. -/
theorem ClientUpload.run_records_user {E : External} {fuel : Nat} {u : user_id_t}
    {rounds : List UploadRound} {s0 s1 : DedupCore} {stats : List (List Bool)}
    (h0 : s0.backend_.db.Consistent) (hrun : ClientUpload.run E fuel u rounds s0 = .ok stats s1)
    {r : UploadRound} (hr : r ∈ rounds) {e : shareMetaEntry_t} (he : e ∈ r.shareMeta.entriesView) :
    s1.backend_.db.Consistent ∧
    ∃ w, kvGet (ToIndexKey .SHARE_INDEX e.shareFP) s1.backend_.db.bindings = some w ∧
      u ∈ w.users := by
  have hfound : ∀ (s : DedupCore) (v : ShareIndexValue), s.backend_.db.Consistent →
      s.backend_.db.Get (ToIndexKey .SHARE_INDEX e.shareFP) = some v →
      (∃ x ∈ spanRead v.entries v.head.numOfUsers.toNat, x.userID = u) →
      ∃ w, kvGet (ToIndexKey .SHARE_INDEX e.shareFP) s.backend_.db.bindings = some w ∧
        u ∈ w.users := by
    intro s v hc hv ⟨x, hx, hxu⟩
    have hok := hc.users _ _ (DataBase.Get_mem_bindings hv)
    rw [hok.spanRead_entries] at hx
    exact hc.newest_has_user hv (List.mem_map.mpr ⟨x, hx, hxu⟩)
  have h := ClientUpload.run_post (E := E) (u := u) (G := fun _ _ => True)
    (J := fun s => s.backend_.db.Consistent)
    (Q := fun s => ∃ w, kvGet (ToIndexKey .SHARE_INDEX e.shareFP) s.backend_.db.bindings = some w ∧
      u ∈ w.users) (F := e.shareFP)
    (fun s s' fuel fp d _ hI hs => consistent_dbInv.inter hI hs)
    (fun s b' hI hb => consistent_dbInv.recipeStep hI hb)
    (by
      intro s s' fuel fp d _ hI hP hs
      rcases interUserIndexUpdate_db hs with h1 | ⟨v, hv, -, -, h1⟩ | ⟨-, depth, baseFP, dsize, name, off, h1⟩
      · rw [h1]; exact hP
      · rw [h1]
        refine DataBase.newest_put hP ?_
        rw [(hI.users _ _ (DataBase.Get_mem_bindings hv)).addUser_users]
        simp
      · rw [h1]
        exact DataBase.newest_put hP (by simp [newShareValue, ShareIndexValue.users]))
    (by
      intro s b' _ hP hb
      show ∃ w, kvGet _ b'.db.bindings = some w ∧ u ∈ w.users
      rw [hb.bindings]; exact hP)
    (by
      intro s s' fuel d _ hI hs
      rcases interUserIndexUpdate_ok_db hs with ⟨v, hv, -, hx, rfl⟩ | ⟨v, hv, -, -, h1⟩ |
        ⟨-, depth, baseFP, dsize, name, off, h1⟩
      · exact hfound _ v hI hv hx
      · rw [h1, DataBase.bindings_Put]
        refine ⟨_, kvGet_cons_self _ _ _, ?_⟩
        rw [(hI.users _ _ (DataBase.Get_mem_bindings hv)).addUser_users]
        simp
      · rw [h1, DataBase.bindings_Put]
        exact ⟨_, kvGet_cons_self _ _ _, by simp [newShareValue, ShareIndexValue.users]⟩)
    (by
      intro s hI hs
      rcases intraUserIndexUpdate_ok hs with ⟨-, hf⟩ | ⟨v, hv, -, hb⟩
      · cases hf
      · refine hfound s v hI hv ?_
        have := hb.symm
        simp only [List.any_eq_true, beq_iff_eq] at this
        exact this)
    fuel rounds s0 s1 stats h0 (RoundsGood.of_true rounds) hrun
  exact ⟨h.1, h.2.2 ⟨r, hr, e, he, rfl⟩⟩

theorem secondStageLoop_all_dup {E : External} {fuel : Nat} {u : user_id_t} {k : key_t}
    {sp : RecipeSpan} {data : Bytes} :
    ∀ (entries : List shareMetaEntry_t) (i off : Nat) (s : DedupCore),
      ∃ s', DedupCore.secondStageLoop E fuel u k sp data
        (entries.zip (List.replicate entries.length true)) i off s = .ok () s' := by
  intro entries
  induction entries with
  | nil => intro i off s; exact ⟨s, rfl⟩
  | cons e rest ih =>
    intro i off s
    simp only [List.length_cons, List.replicate_succ, List.zip_cons_cons,
      DedupCore.secondStageLoop, Bool.not_true, Bool.false_eq_true, if_false]
    exact ih _ _ _

theorem BackendFacade.putRecipeFile_fuel {b : BackendFacade} {u : user_id_t} {k : key_t}
    {hd : fileShareMetaHead_t} {t : Nat} : b.putRecipeFile u k hd t ≠ .abort .outOfFuel := by
  unfold BackendFacade.putRecipeFile
  by_cases h0 : hd.numOfPastSecrets = 0
  · simp only [h0, if_true]
    cases numeric_cast hd.numOfComingSecrets <;> simp
  · simp only [h0, if_false]
    cases kvGet k b.unfinishedRecipeFileCache_ with
    | none => simp
    | some p =>
      simp only [PARANOID_CHECK, Bool.false_eq_true, false_and, if_false]
      split_ifs
      · simp
      · cases numeric_cast hd.numOfComingSecrets <;> simp

theorem BackendFacade.finishRecipeFile_fuel {E : External} {b : BackendFacade} {u : user_id_t}
    {k : key_t} {hd : fileShareMetaHead_t} : b.finishRecipeFile E u hd k ≠ .abort .outOfFuel := by
  unfold BackendFacade.finishRecipeFile
  cases kvGet k b.unfinishedRecipeFileCache_ with
  | none => simp
  | some p =>
    simp only
    split_ifs <;> simp

/-- With every share flagged as a duplicate, `secondStageDedup` needs no fuel. -/
theorem secondStageDedup_all_dup_fuel {E : External} {fuel : Nat} {s : DedupCore} {u : user_id_t}
    {m : FileShareMeta} {data : Bytes} {t : Nat} :
    s.secondStageDedup E fuel u m data (List.replicate m.entriesView.length true) t ≠
      .abort .outOfFuel := by
  have hsp : spanRead (List.replicate m.entriesView.length true) m.entriesView.length =
      List.replicate m.entriesView.length true := by
    simpa using spanRead_self (List.replicate m.entriesView.length true)
  unfold DedupCore.secondStageDedup
  cases hparse : ParseFileShareMeta m with
  | error e => simp
  | ok p =>
    obtain ⟨hd, name, entries⟩ := p
    obtain ⟨rfl, rfl, -, -⟩ := ParseFileShareMeta_ok hparse
    simp only
    cases hfmt : FormatFullFileName name with
    | error e => simp
    | ok fullName =>
      simp only [LOOP_PARALLEL, Bool.false_eq_true, if_false]
      cases hput : s.backend_.putRecipeFile u (ToIndexKey .RECIPE (ToRecipeFP E fullName u)) m.head t with
      | abort w =>
        simp only [ne_eq, Res.abort.injEq]
        rintro rfl
        exact BackendFacade.putRecipeFile_fuel hput
      | thrown msg b => simp
      | ok sp b =>
        simp only [hsp]
        obtain ⟨s1, hs1⟩ := @secondStageLoop_all_dup E fuel u
          (ToIndexKey .RECIPE (ToRecipeFP E fullName u)) sp data
          m.entriesView 0 0 { s with backend_ := b }
        simp only [hs1]
        cases hfin : s1.backend_.finishRecipeFile E u m.head
            (ToIndexKey .RECIPE (ToRecipeFP E fullName u)) with
        | abort w =>
          simp only [ne_eq, Res.abort.injEq]
          rintro rfl
          exact BackendFacade.finishRecipeFile_fuel hfin
        | thrown msg b2 => simp
        | ok x b2 => simp

/-- C5: after an upload session of user `u` from a reachable state, `firstStageDedup` run again
for `u` on the share meta of any round of the session returns `true` for every entry; and a
following `secondStageDedup` with those statuses and an empty share data, whether it returns
or throws, leaves the key-value store (so every share index value) and the container pool
(files, current container, its name, the write offset, the name dispenser) as they were. The
call does not run out of fuel, whatever the fuel is. -/
theorem DedupCore.reupload_changes_nothing {E : External} {fuel : Nat} {u : user_id_t}
    {rounds : List UploadRound} {s0 s1 : DedupCore} {stats : List (List Bool)}
    (hreach : Reachable E s0) (hrun : ClientUpload.run E fuel u rounds s0 = .ok stats s1)
    {r : UploadRound} (hr : r ∈ rounds) :
    s1.firstStageDedup u r.shareMeta =
      .ok (List.replicate r.shareMeta.entriesView.length true) ∧
    ∀ (fuel' total : Nat),
      s1.secondStageDedup E fuel' u r.shareMeta []
        (List.replicate r.shareMeta.entriesView.length true) total ≠ .abort .outOfFuel ∧
      ∀ s2 : DedupCore,
        (s1.secondStageDedup E fuel' u r.shareMeta []
          (List.replicate r.shareMeta.entriesView.length true) total).state? = some s2 →
        s2.backend_.db = s1.backend_.db ∧
        s2.backend_.containerFiles = s1.backend_.containerFiles ∧
        s2.backend_.shareContainer_ = s1.backend_.shareContainer_ ∧
        s2.backend_.shareContainerName_ = s1.backend_.shareContainerName_ ∧
        s2.backend_.shareContainerOffset_ = s1.backend_.shareContainerOffset_ ∧
        s2.backend_.containerNameDispenser_ = s1.backend_.containerNameDispenser_ := by
  have hne : rounds ≠ [] := by rintro rfl; simp at hr
  obtain ⟨hbatch, hcnt⟩ := ClientUpload.run_flushed hne hrun
  constructor
  · obtain ⟨name, hparse⟩ := ClientUpload.run_parse hrun r hr
    unfold DedupCore.firstStageDedup
    simp only [hparse, LOOP_PARALLEL, Bool.false_eq_true, if_false]
    apply firstStageLoop_all_true
    intro e he
    obtain ⟨hc, w, hw, hu⟩ := ClientUpload.run_records_user hreach.consistent hrun hr he
    rw [← DataBase.kvGet_bindings_flushed hbatch] at hw
    exact intraUserIndexUpdate_true hw (hc.users _ _ (DataBase.Get_mem_bindings hw)) hu
  · intro fuel' total
    refine ⟨secondStageDedup_all_dup_fuel, ?_⟩
    intro s2 h2
    have hsp : spanRead (List.replicate r.shareMeta.entriesView.length true)
        r.shareMeta.entriesView.length = List.replicate r.shareMeta.entriesView.length true := by
      simpa using spanRead_self (List.replicate r.shareMeta.entriesView.length true)
    refine secondStageDedup_preserves (E := E) (G := fun _ _ => False) (u := u)
      (P := fun s => s.backend_.db = s1.backend_.db ∧
        s.backend_.containerFiles = s1.backend_.containerFiles ∧
        s.backend_.shareContainer_ = s1.backend_.shareContainer_ ∧
        s.backend_.shareContainerName_ = s1.backend_.shareContainerName_ ∧
        s.backend_.shareContainerOffset_ = s1.backend_.shareContainerOffset_ ∧
        s.backend_.containerNameDispenser_ = s1.backend_.containerNameDispenser_)
      (fun s s' fuel fp d hG _ _ => hG.elim) ?_ ⟨rfl, rfl, rfl, rfl, rfl, rfl⟩
      (by rw [hsp]; exact SlicesGood.all_dup _ _ _ _) h2
    rintro s b' ⟨h1, h2, h3, h4, h5, h6⟩ hb
    refine ⟨?_, hb.files.trans h2, hb.container.trans h3, hb.name.trans h4, hb.offset.trans h5,
      hb.dispenser.trans h6⟩
    rcases hb.db with hd | hd
    · exact hd.trans h1
    · show b'.db = _
      rw [hd, h1, DataBase.BatchFlush_flushed hbatch hcnt]

/-! ## C4: the same share uploaded by two users -/

theorem ClientUpload.run_cons {E : External} {fuel : Nat} {u : user_id_t} {r : UploadRound}
    {rest : List UploadRound} {s s' : DedupCore} {stats : List (List Bool)}
    (h : ClientUpload.run E fuel u (r :: rest) s = .ok stats s') :
    ∃ st s1 stats', ClientUpload.round E fuel u s r = .ok st s1 ∧
      ClientUpload.run E fuel u rest s1 = .ok stats' s' ∧ stats = st :: stats' := by
  simp only [ClientUpload.run] at h
  cases hr : ClientUpload.round E fuel u s r with
  | thrown m s1 => simp [hr] at h
  | abort w => simp [hr] at h
  | ok dupStat s1 =>
    simp only [hr] at h
    cases hrest : ClientUpload.run E fuel u rest s1 with
    | thrown m s2 => simp [hrest] at h
    | abort w => simp [hrest] at h
    | ok stats' s2 =>
      simp only [hrest, Res.ok.injEq] at h
      obtain ⟨rfl, rfl⟩ := h
      exact ⟨dupStat, s1, stats', rfl, hrest, rfl⟩

/-- A share index value with the single user `a`. -/
theorem ShareIndexValue.single_usersOk {v : ShareIndexValue} {a : user_id_t}
    (h : v.head.numOfUsers = 1 ∧ v.entries = [⟨a⟩]) : v.UsersOk :=
  ⟨by rw [h.1], by rw [h.1, h.2]; rfl, by rw [h.2]; simp⟩

theorem ShareIndexValue.single_span {v : ShareIndexValue} {a : user_id_t}
    (h : v.head.numOfUsers = 1 ∧ v.entries = [⟨a⟩]) :
    spanRead v.entries v.head.numOfUsers.toNat = [⟨a⟩] := by
  rw [(ShareIndexValue.single_usersOk h).spanRead_entries, h.2]

theorem ShareIndexValue.single_addUser {v : ShareIndexValue} {a : user_id_t}
    (h : v.head.numOfUsers = 1 ∧ v.entries = [⟨a⟩]) (b : user_id_t) :
    (v.addUser b).head.numOfUsers = 2 ∧ (v.addUser b).entries = [⟨a⟩, ⟨b⟩] := by
  refine ⟨?_, ?_⟩
  · simp only [ShareIndexValue.addUser, h.1]; rfl
  · rw [(ShareIndexValue.single_usersOk h).addUser_entries, h.2]; rfl

theorem ShareIndexValue.single_addUser_span {v : ShareIndexValue} {a : user_id_t}
    (h : v.head.numOfUsers = 1 ∧ v.entries = [⟨a⟩]) (b : user_id_t) :
    spanRead (v.addUser b).entries (v.addUser b).head.numOfUsers.toNat = [⟨a⟩, ⟨b⟩] := by
  obtain ⟨h1, h2⟩ := ShareIndexValue.single_addUser h b
  rw [h1, h2]; rfl

section twoUsers
variable {E : External} {A B : user_id_t} {F : fingerprint_t}

/-- Every binding of `F` has the single user `A`. -/
theorem ClientUpload.run_first_user {fuel : Nat} {rounds : List UploadRound} {s0 s1 : DedupCore}
    {stats : List (List Bool)}
    (hnew : ∀ v, (ToIndexKey .SHARE_INDEX F, v) ∉ s0.backend_.db.bindings)
    (hrun : ClientUpload.run E fuel A rounds s0 = .ok stats s1)
    (hF : ∃ r ∈ rounds, ∃ e ∈ r.shareMeta.entriesView, e.shareFP = F) :
    ∃ v1, s1.backend_.db.Get (ToIndexKey .SHARE_INDEX F) = some v1 ∧
      v1.head.numOfUsers = 1 ∧ v1.entries = [⟨A⟩] ∧
      s1.backend_.db.writeBatch_ = [] := by
  have h := ClientUpload.run_post (E := E) (u := A) (G := fun _ _ => True)
    (J := fun s => ∀ v, (ToIndexKey .SHARE_INDEX F, v) ∈ s.backend_.db.bindings →
      v.head.numOfUsers = 1 ∧ v.entries = [⟨A⟩])
    (Q := fun s => ∃ v, (ToIndexKey .SHARE_INDEX F, v) ∈ s.backend_.db.bindings) (F := F)
    (by
      intro s s' fuel fp d _ hI hs v hv
      rcases interUserIndexUpdate_db hs with h1 | ⟨v0, hv0, -, hne, h1⟩ |
        ⟨-, depth, baseFP, dsize, name, off, h1⟩
      · rw [h1] at hv; exact hI v hv
      · rw [h1, DataBase.bindings_Put] at hv
        rcases List.mem_cons.mp hv with hv | hv
        · simp only [Prod.mk.injEq] at hv
          rw [← hv.1] at hv0
          have hs0 := hI v0 (DataBase.Get_mem_bindings hv0)
          have := hne ⟨A⟩ (by rw [ShareIndexValue.single_span hs0]; simp)
          exact absurd rfl this
        · exact hI v hv
      · rw [h1, DataBase.bindings_Put] at hv
        rcases List.mem_cons.mp hv with hv | hv
        · simp only [Prod.mk.injEq] at hv
          rw [hv.2]
          exact ⟨rfl, rfl⟩
        · exact hI v hv)
    (by
      intro s b' hI hb v hv
      have hv' : (ToIndexKey .SHARE_INDEX F, v) ∈ b'.db.bindings := hv
      rw [hb.bindings] at hv'
      exact hI v hv')
    (by
      rintro s s' fuel fp d _ hI ⟨v, hv⟩ hs
      rcases interUserIndexUpdate_db hs with h1 | ⟨v0, -, -, -, h1⟩ |
        ⟨-, depth, baseFP, dsize, name, off, h1⟩
      · rw [h1]; exact ⟨v, hv⟩
      · rw [h1, DataBase.bindings_Put]; exact ⟨v, List.mem_cons_of_mem _ hv⟩
      · rw [h1, DataBase.bindings_Put]; exact ⟨v, List.mem_cons_of_mem _ hv⟩)
    (by
      rintro s b' _ ⟨v, hv⟩ hb
      refine ⟨v, ?_⟩
      show _ ∈ b'.db.bindings
      rw [hb.bindings]; exact hv)
    (by
      intro s s' fuel d _ hI hs
      rcases interUserIndexUpdate_ok_db hs with ⟨v, hv, -, -, rfl⟩ | ⟨v, -, -, -, h1⟩ |
        ⟨-, depth, baseFP, dsize, name, off, h1⟩
      · exact ⟨v, DataBase.Get_mem_bindings hv⟩
      · rw [h1, DataBase.bindings_Put]; exact ⟨_, List.mem_cons_self _ _⟩
      · rw [h1, DataBase.bindings_Put]; exact ⟨_, List.mem_cons_self _ _⟩)
    (by
      intro s hI hs
      rcases intraUserIndexUpdate_ok hs with ⟨-, hf⟩ | ⟨v, hv, -, -⟩
      · cases hf
      · exact ⟨v, DataBase.Get_mem_bindings hv⟩)
    fuel rounds s0 s1 stats (fun v hv => absurd hv (hnew v)) (RoundsGood.of_true rounds) hrun
  obtain ⟨hI, -, hP⟩ := h
  obtain ⟨v, hv⟩ := hP hF
  have hne : rounds ≠ [] := by
    rintro rfl
    obtain ⟨r, hr, -⟩ := hF
    simp at hr
  obtain ⟨hbatch, -⟩ := ClientUpload.run_flushed hne hrun
  have hsome := kvGet_isSome_of_mem hv
  rw [← DataBase.kvGet_bindings_flushed hbatch] at hsome
  obtain ⟨v1, hv1⟩ := Option.isSome_iff_exists.mp hsome
  obtain ⟨h1, h2⟩ := hI v1 (DataBase.Get_mem_bindings hv1)
  exact ⟨v1, hv1, h1, h2, hbatch⟩

/-- The invariant of the second user's session on the key-value store. -/
theorem DataBase.second_user_flush {d : DataBase} {k : key_t} {v1 w : ShareIndexValue}
    (h : (d.Get k = some v1 ∨ d.Get k = some w) ∧ ∀ v, (k, v) ∈ d.writeBatch_ → v = w) :
    (d.BatchFlush.Get k = some v1 ∨ d.BatchFlush.Get k = some w) ∧
      ∀ v, (k, v) ∈ d.BatchFlush.writeBatch_ → v = w := by
  rw [DataBase.BatchFlush_eq]
  refine ⟨?_, by intro v hv; simp at hv⟩
  show kvGet k (d.writeBatch_.reverse ++ d.db_) = _ ∨ kvGet k (d.writeBatch_.reverse ++ d.db_) = _
  rw [kvGet_append]
  cases hb : kvGet k d.writeBatch_.reverse with
  | none => exact h.1
  | some v => exact Or.inr (by rw [h.2 v (List.mem_reverse.mp (kvGet_mem hb))])

theorem DataBase.second_user_put {d : DataBase} {k k' : key_t} {v1 w v' : ShareIndexValue}
    (h : (d.Get k = some v1 ∨ d.Get k = some w) ∧ ∀ v, (k, v) ∈ d.writeBatch_ → v = w)
    (hk : k' = k → v' = w) :
    ((d.Put k' v').Get k = some v1 ∨ (d.Put k' v').Get k = some w) ∧
      ∀ v, (k, v) ∈ (d.Put k' v').writeBatch_ → v = w := by
  have happ : ((d.append k' v').Get k = some v1 ∨ (d.append k' v').Get k = some w) ∧
      ∀ v, (k, v) ∈ (d.append k' v').writeBatch_ → v = w := by
    refine ⟨h.1, ?_⟩
    intro v hv
    simp only [DataBase.append, List.mem_append, List.mem_singleton, Prod.mk.injEq] at hv
    rcases hv with hv | ⟨hk', hv'⟩
    · exact h.2 v hv
    · rw [hv']; exact hk hk'.symm
  rcases DataBase.Put_eq d k' v' with h1 | h1
  · rw [h1]; exact happ
  · rw [h1]; exact DataBase.second_user_flush happ

theorem DataBase.second_user_newest {d : DataBase} {k : key_t} {v1 w : ShareIndexValue}
    (h : (d.Get k = some v1 ∨ d.Get k = some w) ∧ ∀ v, (k, v) ∈ d.writeBatch_ → v = w)
    (hget : d.Get k = some w) : kvGet k d.bindings = some w := by
  rcases d.kvGet_bindings k with h1 | ⟨v, hv, hmem⟩
  · rw [h1, hget]
  · rw [hv, h.2 v hmem]

end twoUsers

section twoUsers
variable {E : External} {A B : user_id_t} {F : fingerprint_t}

/-- The session of a second user `B` turns the value `v1` of `F`, whose single user is `A`,
into `v1.addUser B`. -/
theorem ClientUpload.run_second_user {fuel : Nat} {rounds : List UploadRound} {s1 s2 : DedupCore}
    {stats : List (List Bool)} {v1 : ShareIndexValue} (hAB : A ≠ B)
    (hget : s1.backend_.db.Get (ToIndexKey .SHARE_INDEX F) = some v1)
    (hsingle : v1.head.numOfUsers = 1 ∧ v1.entries = [⟨A⟩])
    (hbatch : s1.backend_.db.writeBatch_ = [])
    (hrun : ClientUpload.run E fuel B rounds s1 = .ok stats s2)
    (hF : ∃ r ∈ rounds, ∃ e ∈ r.shareMeta.entriesView, e.shareFP = F) :
    s2.backend_.db.Get (ToIndexKey .SHARE_INDEX F) = some (v1.addUser B) := by
  -- a value of `F` in which `B` is absent is `v1`, one in which `B` is present is the new one
  have habsent : ∀ (d : DataBase) (v : ShareIndexValue),
      ((d.Get (ToIndexKey .SHARE_INDEX F) = some v1 ∨
        d.Get (ToIndexKey .SHARE_INDEX F) = some (v1.addUser B)) ∧
        ∀ v, (ToIndexKey .SHARE_INDEX F, v) ∈ d.writeBatch_ → v = v1.addUser B) →
      d.Get (ToIndexKey .SHARE_INDEX F) = some v →
      (∀ e ∈ spanRead v.entries v.head.numOfUsers.toNat, e.userID ≠ B) → v = v1 := by
    intro d v hI hv hne
    rcases hI.1 with h | h
    · rw [h] at hv; exact (Option.some.inj hv).symm
    · rw [h] at hv
      have hv' := Option.some.inj hv
      subst hv'
      have := hne ⟨B⟩ (by rw [ShareIndexValue.single_addUser_span hsingle]; simp)
      exact absurd rfl this
  have hpresent : ∀ (d : DataBase) (v : ShareIndexValue),
      ((d.Get (ToIndexKey .SHARE_INDEX F) = some v1 ∨
        d.Get (ToIndexKey .SHARE_INDEX F) = some (v1.addUser B)) ∧
        ∀ v, (ToIndexKey .SHARE_INDEX F, v) ∈ d.writeBatch_ → v = v1.addUser B) →
      d.Get (ToIndexKey .SHARE_INDEX F) = some v →
      (∃ e ∈ spanRead v.entries v.head.numOfUsers.toNat, e.userID = B) →
      kvGet (ToIndexKey .SHARE_INDEX F) d.bindings = some (v1.addUser B) := by
    rintro d v hI hv ⟨e, he, heB⟩
    rcases hI.1 with h | h
    · rw [h] at hv
      have hv' := Option.some.inj hv
      subst hv'
      rw [ShareIndexValue.single_span hsingle] at he
      simp only [List.mem_singleton] at he
      subst he
      exact absurd heB hAB
    · exact DataBase.second_user_newest hI h
  have h := ClientUpload.run_post (E := E) (u := B) (G := fun _ _ => True)
    (J := fun s => (s.backend_.db.Get (ToIndexKey .SHARE_INDEX F) = some v1 ∨
        s.backend_.db.Get (ToIndexKey .SHARE_INDEX F) = some (v1.addUser B)) ∧
      ∀ v, (ToIndexKey .SHARE_INDEX F, v) ∈ s.backend_.db.writeBatch_ → v = v1.addUser B)
    (Q := fun s => kvGet (ToIndexKey .SHARE_INDEX F) s.backend_.db.bindings =
      some (v1.addUser B)) (F := F)
    (by
      intro s s' fuel fp d _ hI hs
      rcases interUserIndexUpdate_db hs with h1 | ⟨v0, hv0, -, hne, h1⟩ |
        ⟨hnone, depth, baseFP, dsize, name, off, h1⟩
      · rw [h1]; exact hI
      · rw [h1]
        refine DataBase.second_user_put hI ?_
        intro hk
        rw [hk] at hv0
        rw [habsent _ v0 hI hv0 hne]
      · rw [h1]
        refine DataBase.second_user_put hI ?_
        intro hk
        rw [hk] at hnone
        rcases hI.1 with h | h <;> rw [h] at hnone <;> cases hnone)
    (by
      intro s b' hI hb
      show (b'.db.Get _ = _ ∨ b'.db.Get _ = _) ∧ ∀ v, _ ∈ b'.db.writeBatch_ → _
      rcases hb.db with h1 | h1
      · rw [h1]; exact hI
      · rw [h1]; exact DataBase.second_user_flush hI)
    (by
      intro s s' fuel fp d _ hI hP hs
      rcases interUserIndexUpdate_db hs with h1 | ⟨v0, hv0, -, hne, h1⟩ |
        ⟨hnone, depth, baseFP, dsize, name, off, h1⟩
      · rw [h1]; exact hP
      · rw [h1, DataBase.bindings_Put]
        by_cases hk : ToIndexKey .SHARE_INDEX fp = ToIndexKey .SHARE_INDEX F
        · rw [hk] at hv0 ⊢
          rw [habsent _ v0 hI hv0 hne, kvGet_cons_self]
        · rw [kvGet_cons_ne hk]; exact hP
      · rw [h1, DataBase.bindings_Put]
        by_cases hk : ToIndexKey .SHARE_INDEX fp = ToIndexKey .SHARE_INDEX F
        · rw [hk] at hnone
          rcases hI.1 with h | h <;> rw [h] at hnone <;> cases hnone
        · rw [kvGet_cons_ne hk]; exact hP)
    (by
      intro s b' _ hP hb
      show kvGet _ b'.db.bindings = _
      rw [hb.bindings]; exact hP)
    (by
      intro s s' fuel d _ hI hs
      rcases interUserIndexUpdate_ok_db hs with ⟨v, hv, -, hx, rfl⟩ | ⟨v, hv, -, hne, h1⟩ |
        ⟨hnone, depth, baseFP, dsize, name, off, h1⟩
      · exact hpresent _ v hI hv hx
      · rw [h1, DataBase.bindings_Put, habsent _ v hI hv hne, kvGet_cons_self]
      · rcases hI.1 with h | h <;> rw [h] at hnone <;> cases hnone)
    (by
      intro s hI hs
      rcases intraUserIndexUpdate_ok hs with ⟨-, hf⟩ | ⟨v, hv, -, hb⟩
      · cases hf
      · refine hpresent _ v hI hv ?_
        have := hb.symm
        simp only [List.any_eq_true, beq_iff_eq] at this
        exact this)
    fuel rounds s1 s2 stats ⟨Or.inl hget, by intro v hv; rw [hbatch] at hv; simp at hv⟩
    (RoundsGood.of_true rounds) hrun
  obtain ⟨-, -, hP⟩ := h
  have hne : rounds ≠ [] := by
    rintro rfl
    obtain ⟨r, hr, -⟩ := hF
    simp at hr
  obtain ⟨hbatch2, -⟩ := ClientUpload.run_flushed hne hrun
  rw [DataBase.kvGet_bindings_flushed hbatch2]
  exact hP hF

theorem intraUserIndexUpdate_eq {s : DedupCore} {fp : fingerprint_t} {u : user_id_t}
    {v : ShareIndexValue} (hv : s.backend_.db.Get (ToIndexKey .SHARE_INDEX fp) = some v)
    (hok : v.UsersOk) :
    s.intraUserIndexUpdate fp u = .ok (v.entries.any (fun e => e.userID == u)) := by
  have hpos := hok.pos
  unfold DedupCore.intraUserIndexUpdate BackendFacade.getShareIndex
  simp only [hv]
  have hp : ParseShareIndex v = .ok (v.head, v.entries) := by
    unfold ParseShareIndex numeric_cast
    have hn : ¬ v.head.numOfUsers < 0 := by omega
    simp only [PARANOID_CHECK, Bool.false_eq_true, false_and, if_false, hn, hok.spanRead_entries]
  simp only [hp]

/-- C4: user `A` completes an upload session containing a share whose fingerprint `F` has no
binding in the key-value store (pending writes included), then a different user `B`
completes a session containing `F`. Then, in the state `B` starts from, the first-stage check
of `F` for `B` returns `false`; the `firstStageDedup` of the first round of `B` returns the
statuses that the session reports for it, with `false` at every entry of fingerprint `F`; and
after the session of `B` the share index value of `F` has `numOfUsers == 2` and the user
references `A`, `B`, with container name, offset, share size and delta depth as they were
before the session of `B`. -/
theorem DedupCore.second_user_is_added {fuelA fuelB : Nat} {roundsA roundsB : List UploadRound}
    {s0 s1 s2 : DedupCore} {statsA statsB : List (List Bool)} (hAB : A ≠ B)
    (hnew : ∀ v, (ToIndexKey .SHARE_INDEX F, v) ∉ s0.backend_.db.bindings)
    (hA : ClientUpload.run E fuelA A roundsA s0 = .ok statsA s1)
    (hFA : ∃ r ∈ roundsA, ∃ e ∈ r.shareMeta.entriesView, e.shareFP = F)
    (hB : ClientUpload.run E fuelB B roundsB s1 = .ok statsB s2)
    (hFB : ∃ r ∈ roundsB, ∃ e ∈ r.shareMeta.entriesView, e.shareFP = F) :
    s1.intraUserIndexUpdate F B = .ok false ∧
    (∀ r ∈ roundsB.head?, ∃ st, s1.firstStageDedup B r.shareMeta = .ok st ∧
      statsB.head? = some st ∧
      ∀ p ∈ r.shareMeta.entriesView.zip st, p.1.shareFP = F → p.2 = false) ∧
    ∃ v1 v2, s1.backend_.getShareIndex (ToIndexKey .SHARE_INDEX F) = some v1 ∧
      s2.backend_.getShareIndex (ToIndexKey .SHARE_INDEX F) = some v2 ∧
      v2.head.numOfUsers = 2 ∧ v2.entries = [⟨A⟩, ⟨B⟩] ∧
      v2.head.containerName = v1.head.containerName ∧ v2.head.offset = v1.head.offset ∧
      v2.head.shareSize = v1.head.shareSize ∧ v2.head.deltaDepth = v1.head.deltaDepth := by
  obtain ⟨v1, hv1, hn1, he1, hbatch⟩ := ClientUpload.run_first_user hnew hA hFA
  have h2 := ClientUpload.run_second_user hAB hv1 ⟨hn1, he1⟩ hbatch hB hFB
  have hfalse : s1.intraUserIndexUpdate F B = .ok false := by
    rw [intraUserIndexUpdate_eq hv1 (ShareIndexValue.single_usersOk ⟨hn1, he1⟩), he1]
    simp [hAB]
  refine ⟨hfalse, ?_, v1, v1.addUser B, hv1, h2, ?_⟩
  · intro r hr
    cases roundsB with
    | nil => simp at hr
    | cons r0 rest =>
      simp only [List.head?_cons, Option.mem_def, Option.some.injEq] at hr
      subst hr
      obtain ⟨st, s', stats', hround, -, rfl⟩ := ClientUpload.run_cons hB
      obtain ⟨hfirst, -⟩ := ClientUpload.round_ok hround
      refine ⟨st, hfirst, rfl, ?_⟩
      rintro ⟨e, b⟩ hp hpF
      have := (List.forall₂_iff_zip.mp (firstStageDedup_ok hfirst)).2 hp
      simp only at hpF
      rw [hpF, hfalse] at this
      simp only [Ret.ok.injEq] at this
      exact this.symm
  · obtain ⟨h3, h4⟩ := ShareIndexValue.single_addUser ⟨hn1, he1⟩ B
    exact ⟨h3, h4, rfl, rfl, rfl, rfl⟩

end twoUsers

/-! ## C1: restoring an uploaded file -/

/-- C1 (fails on the code): user 1 uploads the file `/a` with the single share `[5, 6]`
(fingerprint `[1]`), then uploads `/a` again with the single share `[7, 8, 9]` (fingerprint
`[2]`). Both sessions complete, each in one fragment whose entry count is the declared
total; the payloads are far below `CONTAINER_SIZE`, the two fingerprints differ, and the
codec stand-in decodes what it encodes. The recipe file on disk then holds the second
recipe, but `restoreShareFile(1, "/a")` flushes the stream of the first upload: entry
`{0, 2, 2}` followed by `[5, 6]`, not entry `{0, 3, 3}` followed by `[7, 8, 9]`. The recipe
cache still holds the first recipe, because `lru_cache::insert` leaves a cached key alone. -/
theorem DedupCore.restore_after_second_upload :
    (∀ src base n out, External.sample.xd3_encode_memory src base n = some out →
      External.sample.xd3_decode_memory out base src.length = some src) ∧
    ClientUpload.run External.sample 2 1 [Sample.firstUpload] DedupCore.new =
      .ok [[false]] Sample.afterFirst ∧
    ClientUpload.run External.sample 2 1 [Sample.secondUpload] Sample.afterFirst =
      .ok [[false]] Sample.afterSecond ∧
    Sample.afterSecond.backend_.recipeFiles.map Prod.snd =
      [⟨⟨1, 3, 1⟩, [⟨[2], 0, 3, 3⟩]⟩] ∧
    Sample.afterSecond.backend_.recipeCache_.m_items.map (fun kv => kv.2.1) =
      [⟨⟨1, 2, 1⟩, [⟨[1], 0, 2, 2⟩]⟩] ∧
    (∀ shareFileData : ShareFileBuffer,
      (Sample.afterSecond.restoreShareFile External.sample 2 1 ['/', 'a'] shareFileData
          (SHARE_FILE_BUFFER_LEN - PACKET_HEADER_SIZE)).flushes? =
        some [⟨30, [.head ⟨2, 1⟩, .entry ⟨0, 2, 2⟩, .data [5, 6]]⟩]) := by
  refine ⟨?_, rfl, rfl, by decide, by decide, fun _ => rfl⟩
  intro src base n out h
  simp only [External.sample] at h ⊢
  split at h
  · rename_i hc
    obtain ⟨h8, htake, -⟩ := hc
    simp only [Option.some.injEq] at h
    subst h
    have hlen : 8 + (List.drop 8 src).length ≤ src.length := by
      rw [List.length_drop]; omega
    rw [if_pos hlen, ← htake, List.take_append_drop]
  · cases h

/-! ## Instances -/

/-- Instance of C2 at the state after a first upload. -/
theorem DedupCore.share_index_users_witness :
    (∀ key v, Sample.afterFirst.backend_.getShareIndex key = some v →
      1 ≤ v.head.numOfUsers ∧ (v.entries.length : Int) = v.head.numOfUsers ∧
      (v.entries.map (fun e => e.userID)).Nodup) ∧
    (∀ key v, (key, v) ∈ Sample.afterFirst.backend_.db.writeBatch_ →
      1 ≤ v.head.numOfUsers ∧ (v.entries.length : Int) = v.head.numOfUsers ∧
      (v.entries.map (fun e => e.userID)).Nodup) :=
  DedupCore.share_index_users (E := External.sample) (s := Sample.afterFirst)
    (Reachable.secondStageDedup 2 1 (Sample.shareMeta [1] 2) [5, 6] [false] 1 Reachable.init rfl)

/-- Instance of C3 at the share index entry left by a first upload. -/
theorem DedupCore.delta_depth_bounded_witness :
    Sample.afterFirst.backend_.getShareIndex (ToIndexKey .SHARE_INDEX [1]) =
      some (newShareValue 1 [5, 6] 0 (List.replicate 32 0) 0 "aaaaaaaaaaaaaaaa".toList 0) ∧
    ((newShareValue 1 [5, 6] 0 (List.replicate 32 0) 0 "aaaaaaaaaaaaaaaa".toList 0).head.deltaDepth ≤
        MAX_DELTA_DEPTH ∧
      (0 < (newShareValue 1 [5, 6] 0 (List.replicate 32 0) 0
          "aaaaaaaaaaaaaaaa".toList 0).head.deltaDepth →
        ∃ b, Sample.afterFirst.backend_.getShareIndex (ToIndexKey .SHARE_INDEX
            (newShareValue 1 [5, 6] 0 (List.replicate 32 0) 0
              "aaaaaaaaaaaaaaaa".toList 0).head.baseFP) = some b ∧
          b.head.deltaDepth + 1 = (newShareValue 1 [5, 6] 0 (List.replicate 32 0) 0
            "aaaaaaaaaaaaaaaa".toList 0).head.deltaDepth) ∧
      ∃ n, n ≤ MAX_DELTA_DEPTH ∧ Sample.afterFirst.stepsToRaw MAX_DELTA_DEPTH
        (newShareValue 1 [5, 6] 0 (List.replicate 32 0) 0 "aaaaaaaaaaaaaaaa".toList 0) = some n) :=
  ⟨rfl, DedupCore.delta_depth_bounded (E := External.sample) (s := Sample.afterFirst)
    (Reachable.secondStageDedup 2 1 (Sample.shareMeta [1] 2) [5, 6] [false] 1 Reachable.init rfl)
    (ToIndexKey .SHARE_INDEX [1])
    (newShareValue 1 [5, 6] 0 (List.replicate 32 0) 0 "aaaaaaaaaaaaaaaa".toList 0)
    (Or.inl rfl)⟩

/-- Instance of C4: user 1, then user 2, upload the share of fingerprint `[1]`. -/
theorem DedupCore.second_user_is_added_witness :
    Sample.afterFirst.intraUserIndexUpdate [1] 2 = .ok false ∧
    (∀ r ∈ [Sample.firstUpload].head?, ∃ st,
      Sample.afterFirst.firstStageDedup 2 r.shareMeta = .ok st ∧
      [[false]].head? = some st ∧
      ∀ p ∈ r.shareMeta.entriesView.zip st, p.1.shareFP = [1] → p.2 = false) ∧
    ∃ v1 v2, Sample.afterFirst.backend_.getShareIndex (ToIndexKey .SHARE_INDEX [1]) = some v1 ∧
      Sample.afterOther.backend_.getShareIndex (ToIndexKey .SHARE_INDEX [1]) = some v2 ∧
      v2.head.numOfUsers = 2 ∧ v2.entries = [⟨1⟩, ⟨2⟩] ∧
      v2.head.containerName = v1.head.containerName ∧ v2.head.offset = v1.head.offset ∧
      v2.head.shareSize = v1.head.shareSize ∧ v2.head.deltaDepth = v1.head.deltaDepth :=
  @DedupCore.second_user_is_added External.sample 1 2 [1] 2 2 [Sample.firstUpload]
    [Sample.firstUpload] DedupCore.new Sample.afterFirst Sample.afterOther [[false]] [[false]]
    (by decide)
    (fun _ hv => List.not_mem_nil _ hv) rfl
    ⟨Sample.firstUpload, List.mem_singleton.mpr rfl, ⟨[1], 0, 2, 2⟩, List.mem_singleton.mpr rfl, rfl⟩
    rfl
    ⟨Sample.firstUpload, List.mem_singleton.mpr rfl, ⟨[1], 0, 2, 2⟩, List.mem_singleton.mpr rfl, rfl⟩

/-- Instance of C5: user 1 uploads `/a` and runs both stages again. -/
theorem DedupCore.reupload_changes_nothing_witness :
    Sample.afterFirst.firstStageDedup 1 Sample.firstUpload.shareMeta =
      .ok (List.replicate Sample.firstUpload.shareMeta.entriesView.length true) ∧
    ∀ (fuel' total : Nat),
      Sample.afterFirst.secondStageDedup External.sample fuel' 1 Sample.firstUpload.shareMeta []
        (List.replicate Sample.firstUpload.shareMeta.entriesView.length true) total ≠
          .abort .outOfFuel ∧
      ∀ s2 : DedupCore,
        (Sample.afterFirst.secondStageDedup External.sample fuel' 1 Sample.firstUpload.shareMeta []
          (List.replicate Sample.firstUpload.shareMeta.entriesView.length true) total).state? =
            some s2 →
        s2.backend_.db = Sample.afterFirst.backend_.db ∧
        s2.backend_.containerFiles = Sample.afterFirst.backend_.containerFiles ∧
        s2.backend_.shareContainer_ = Sample.afterFirst.backend_.shareContainer_ ∧
        s2.backend_.shareContainerName_ = Sample.afterFirst.backend_.shareContainerName_ ∧
        s2.backend_.shareContainerOffset_ = Sample.afterFirst.backend_.shareContainerOffset_ ∧
        s2.backend_.containerNameDispenser_ = Sample.afterFirst.backend_.containerNameDispenser_ :=
  @DedupCore.reupload_changes_nothing External.sample 2 1 [Sample.firstUpload] DedupCore.new
    Sample.afterFirst [[false]] Reachable.init rfl Sample.firstUpload (List.mem_singleton.mpr rfl)

/-- Instance of C6: three bytes put on a fresh backend. -/
theorem BackendFacade.getShareData_putShareData_witness :
    Sample.afterPut.getShareData "aaaaaaaaaaaaaaaa".toList 0 3 = .ok [1, 2, 3] ∧
    ∀ b'', Sample.afterPut.LaterPuts b'' →
      b''.getShareData "aaaaaaaaaaaaaaaa".toList 0 3 = .ok [1, 2, 3] :=
  BackendFacade.getShareData_putShareData (E := External.sample) (s := DedupCore.new)
    Reachable.init [1, 2, 3] (by decide) "aaaaaaaaaaaaaaaa".toList 0 Sample.afterPut rfl

/-- Instance of C8: three bytes fit into the fresh container, so the result is the current
name and offset and nothing is allocated. -/
theorem BackendFacade.putShareData_spec_witness :
    ∃ b', DedupCore.new.backend_.putShareData [1, 2, 3] =
        .ok (DedupCore.new.backend_.shareContainerName_,
          DedupCore.new.backend_.shareContainerOffset_) b' ∧
      b'.containerNameDispenser_ = DedupCore.new.backend_.containerNameDispenser_ ∧
      b'.shareContainerName_ = DedupCore.new.backend_.shareContainerName_ ∧
      b'.containerFiles.map Prod.fst = DedupCore.new.backend_.containerFiles.map Prod.fst ∧
      b'.shareContainerOffset_ = DedupCore.new.backend_.shareContainerOffset_ + [1, 2, 3].length :=
  ((@BackendFacade.putShareData_spec External.sample).1 DedupCore.new [1, 2, 3] Reachable.init
    (by decide)).2 (by decide)

/-! ## C12, C13: what `compute_delta` accepts -/

theorem compute_delta_small_src (E : External) (base src : Bytes) (h : src.length < 512) :
    compute_delta E base src = none := by
  unfold compute_delta
  rw [if_pos (Or.inr h)]

theorem compute_delta_small_base (E : External) (base src : Bytes) (h : base.length < 1024) :
    compute_delta E base src = none := by
  unfold compute_delta
  rw [if_pos (Or.inl h)]

theorem compute_delta_length_le {E : External} {base src delta : Bytes}
    (h : compute_delta E base src = some delta) : delta.length ≤ src.length := by
  have := Delta.ComputeDelta_length_le E base src
  unfold Delta.ComputeDelta at this
  rw [h] at this
  exact this

/-- The new value of a call of `interUserIndexUpdate` that returns for a fingerprint absent
from the index, with the provenance of its delta fields. -/
theorem interUserIndexUpdate_new_value {E : External} {fuel : Nat} {s s' : DedupCore}
    {fp : fingerprint_t} {u : user_id_t} {d : Bytes}
    (hnone : s.backend_.getShareIndex (ToIndexKey .SHARE_INDEX fp) = none)
    (h : s.interUserIndexUpdate E fuel fp u d = .ok () s') :
    ∃ payload depth baseFP dsize name off b,
      s.backend_.putShareData payload = .ok (name, off) b ∧
      s' = { backend_ := b.putShareIndex (ToIndexKey .SHARE_INDEX fp)
               (newShareValue u d depth baseFP dsize name off),
             delta_ := s.delta_.superFeatureIndexUpdate (Delta.GenSuperFeature E d) fp } ∧
      s'.backend_.db.bindings =
        (ToIndexKey .SHARE_INDEX fp, newShareValue u d depth baseFP dsize name off) ::
          s.backend_.db.bindings ∧
      ((payload = d ∧ depth = 0 ∧ baseFP = List.replicate 32 0 ∧ dsize = 0) ∨
        (∃ base, payload = Delta.ComputeDelta E base d ∧ payload ≠ [] ∧ 0 < depth ∧
          dsize = payload.length)) := by
  obtain ⟨payload, depth, baseFP, dsize, name, off, b, hshape, hput, rfl⟩ :=
    interUserIndexUpdate_ok_new hnone h
  have hput' : (s.backend_.putShareData payload).state? = some b := by rw [hput]; rfl
  refine ⟨payload, depth, baseFP, dsize, name, off, b, hput, rfl, ?_, ?_⟩
  · show (b.db.Put _ _).bindings = _
    rw [DataBase.bindings_Put, (BackendFacade.putShareData_step hput').db]
  · rcases hshape with ⟨-, h1, h2, h3, h4⟩ | ⟨kBase, hc, h1, h2⟩
    · exact Or.inl ⟨h1, h2, h3, h4⟩
    · obtain ⟨baseVal, base, -, -, -, -, hdep, -, -, hdelta, hne⟩ := deltaCandidate_some hc
      refine Or.inr ⟨base, hdelta, hne, ?_, h2⟩
      simp only [MAX_DELTA_DEPTH] at hdep
      omega

/-- A call of `interUserIndexUpdate` that stores a share of fewer than 512 bytes appends the
share data itself and writes a value with `deltaDepth = 0`. -/
theorem small_share_value (E : External) :
    (∀ base src : Bytes, src.length < 512 → compute_delta E base src = none) ∧
    (∀ base src : Bytes, base.length < 1024 → compute_delta E base src = none) ∧
    (∀ (s s' : DedupCore) (fuel : Nat) (fp : fingerprint_t) (u : user_id_t) (d : Bytes),
      d.length < 512 →
      s.backend_.getShareIndex (ToIndexKey .SHARE_INDEX fp) = none →
      s.interUserIndexUpdate E fuel fp u d = .ok () s' →
      ∃ name off b v, s.backend_.putShareData d = .ok (name, off) b ∧
        s'.backend_.db.bindings = (ToIndexKey .SHARE_INDEX fp, v) :: s.backend_.db.bindings ∧
        v = newShareValue u d 0 (List.replicate 32 0) 0 name off ∧ v.head.deltaDepth = 0) := by
  refine ⟨compute_delta_small_src E, compute_delta_small_base E, ?_⟩
  intro s s' fuel fp u d hd hnone hok
  obtain ⟨payload, depth, baseFP, dsize, name, off, b, hput, -, hb, hshape⟩ :=
    interUserIndexUpdate_new_value hnone hok
  rcases hshape with ⟨rfl, rfl, rfl, rfl⟩ | ⟨base, hp, hne, -, -⟩
  · exact ⟨name, off, b, _, hput, hb, rfl, rfl⟩
  · exfalso
    apply hne
    rw [hp]
    unfold Delta.ComputeDelta
    rw [compute_delta_small_src E base d hd]

/-- C13 (amended): a delta accepted by `compute_delta` / `ComputeDelta` is at most as long as
the source (an encoder output of more than `srcSize` bytes is refused, one of exactly
`srcSize` bytes is accepted); so a value that `interUserIndexUpdate` writes for a new share
with `deltaDepth > 0` has `0 < deltaSize <= shareSize`. -/
theorem DedupCore.delta_not_longer_than_share (E : External) :
    (∀ base src delta : Bytes, compute_delta E base src = some delta →
      delta.length ≤ src.length) ∧
    (∀ base src : Bytes, (Delta.ComputeDelta E base src).length ≤ src.length) ∧
    (∀ (s s' : DedupCore) (fuel : Nat) (fp : fingerprint_t) (u : user_id_t) (d : Bytes),
      s.backend_.getShareIndex (ToIndexKey .SHARE_INDEX fp) = none →
      s.interUserIndexUpdate E fuel fp u d = .ok () s' →
      ∃ v, s'.backend_.db.bindings = (ToIndexKey .SHARE_INDEX fp, v) :: s.backend_.db.bindings ∧
        (0 < v.head.deltaDepth → 0 < v.head.deltaSize ∧ (v.head.deltaSize : Int) ≤ v.head.shareSize)) := by
  refine ⟨fun base src delta h => compute_delta_length_le h,
    Delta.ComputeDelta_length_le E, ?_⟩
  intro s s' fuel fp u d hnone hok
  obtain ⟨payload, depth, baseFP, dsize, name, off, b, -, -, hb, hshape⟩ :=
    interUserIndexUpdate_new_value hnone hok
  refine ⟨_, hb, ?_⟩
  intro hpos
  rcases hshape with ⟨-, rfl, -, -⟩ | ⟨base, hp, hne, -, rfl⟩
  · simp [newShareValue] at hpos
  · simp only [newShareValue]
    constructor
    · exact List.length_pos.mpr hne
    · have := Delta.ComputeDelta_length_le E base d
      rw [← hp] at this
      exact_mod_cast this

/-- C13 (as stated, fails): with an encoder whose output for 512 bytes is 512 bytes long,
`compute_delta` accepts that output against a 1024-byte base, and `interUserIndexUpdate`
writes a value with `deltaDepth = 1` and `deltaSize = shareSize = 512`. -/
theorem DedupCore.delta_as_long_as_share :
    compute_delta External.flat (List.replicate 1024 0) (List.replicate 512 1) =
      some (List.replicate 512 1) ∧
    Sample.afterBase.backend_.getShareIndex (ToIndexKey .SHARE_INDEX [2]) = none ∧
    Sample.afterBase.interUserIndexUpdate External.flat 2 [2] 1 (List.replicate 512 1) =
      .ok () Sample.afterFlat ∧
    Sample.afterFlat.backend_.db.bindings.map
        (fun kv => (kv.1, kv.2.head.deltaDepth, kv.2.head.deltaSize, kv.2.head.shareSize)) =
      [(ToIndexKey .SHARE_INDEX [2], 1, 512, 512), (ToIndexKey .SHARE_INDEX [1], 0, 0, 1024)] ∧
    ¬ (∀ base src delta : Bytes, compute_delta External.flat base src = some delta →
      delta.length < src.length) := by
  refine ⟨by decide, by decide, rfl, by decide, ?_⟩
  intro hall
  have h := hall (List.replicate 1024 0) (List.replicate 512 1) (List.replicate 512 1) (by decide)
  simp at h

/-! ## C14: the first stage -/

theorem firstStageLoop_total {s : DedupCore} {u : user_id_t}
    (hintra : ∀ fp, ∃ b, s.intraUserIndexUpdate fp u = .ok b) :
    ∀ entries : List shareMetaEntry_t, ∃ stats, s.firstStageLoop u entries = .ok stats := by
  intro entries
  induction entries with
  | nil => exact ⟨[], rfl⟩
  | cons e rest ih =>
    obtain ⟨b, hb⟩ := hintra e.shareFP
    obtain ⟨stats, hs⟩ := ih
    exact ⟨b :: stats, by simp only [DedupCore.firstStageLoop, hb, hs]⟩

/-- C14: in a reachable state `intraUserIndexUpdate(fp, user)` returns, and returns `true`
iff the share index holds a value for `fp` one of whose reference entries has
`userID == user`; `firstStageDedup`, for a share meta whose head sizes are not negative,
returns one status per coming secret, status `i` being the result of
`intraUserIndexUpdate` for entry `i`. Both only read the store: they are functions of the
state and return no state. -/
theorem DedupCore.first_stage_reads {E : External} {s : DedupCore} (hr : Reachable E s) :
    (∀ fp u, ∃ b, s.intraUserIndexUpdate fp u = .ok b ∧
      (b = true ↔ ∃ v, s.backend_.getShareIndex (ToIndexKey .SHARE_INDEX fp) = some v ∧
        ∃ e ∈ v.entries, e.userID = u)) ∧
    (∀ u (m : FileShareMeta), 0 ≤ m.head.fullNameSize → 0 ≤ m.head.numOfComingSecrets →
      ∃ stats, s.firstStageDedup u m = .ok stats ∧
        stats.length = m.head.numOfComingSecrets.toNat ∧
        List.Forall₂ (fun e b => s.intraUserIndexUpdate e.shareFP u = .ok b)
          (spanRead m.entries m.head.numOfComingSecrets.toNat) stats) := by
  have hintra : ∀ fp u, ∃ b, s.intraUserIndexUpdate fp u = .ok b ∧
      (b = true ↔ ∃ v, s.backend_.getShareIndex (ToIndexKey .SHARE_INDEX fp) = some v ∧
        ∃ e ∈ v.entries, e.userID = u) := by
    intro fp u
    cases hg : s.backend_.getShareIndex (ToIndexKey .SHARE_INDEX fp) with
    | none =>
      refine ⟨false, ?_, by simp⟩
      unfold DedupCore.intraUserIndexUpdate
      rw [hg]
    | some v =>
      have hok := hr.usersOk _ v (DataBase.Get_mem_bindings hg)
      refine ⟨_, intraUserIndexUpdate_eq hg hok, ?_⟩
      simp only [List.any_eq_true, beq_iff_eq, Option.some.injEq, exists_eq_left']
  refine ⟨hintra, ?_⟩
  intro u m h1 h2
  have hparse : ParseFileShareMeta m =
      .ok (m.head, spanRead m.fullFileName m.head.fullNameSize.toNat, m.entriesView) := by
    unfold ParseFileShareMeta numeric_cast
    simp only [PARANOID_CHECK, Bool.false_eq_true, false_and, if_false,
      not_lt.mpr h1, not_lt.mpr h2]
    rfl
  obtain ⟨stats, hs⟩ := firstStageLoop_total (s := s) (u := u)
    (fun fp => (hintra fp u).imp fun b hb => hb.1) m.entriesView
  have hfirst : s.firstStageDedup u m = .ok stats := by
    unfold DedupCore.firstStageDedup
    simp only [hparse, LOOP_PARALLEL, Bool.false_eq_true, if_false, hs]
  have hall := firstStageDedup_ok hfirst
  refine ⟨stats, hfirst, ?_, hall⟩
  rw [← hall.length_eq]
  simp [FileShareMeta.entriesView, spanRead_length]

/-! ## C18, C19: errors of the recipe store -/

/-- C18: `putRecipeFile` with `numOfPastSecrets > 0` for a key that has no unfinished buffer
throws, and `finishRecipeFile` for a key that has no unfinished buffer throws; both leave
the backend (unfinished recipes, recipe cache, key-value store and all the rest) as it
was. -/
theorem BackendFacade.recipe_calls_without_buffer (E : External) (b : BackendFacade)
    (key : key_t) (hnone : kvGet key b.unfinishedRecipeFileCache_ = none) :
    (∀ (userID : user_id_t) (hd : fileShareMetaHead_t) (total : Nat), 0 < hd.numOfPastSecrets →
      b.putRecipeFile userID key hd total = .thrown "fail to find the recipe file in cache" b) ∧
    (∀ (userID : user_id_t) (hd : fileShareMetaHead_t),
      b.finishRecipeFile E userID hd key = .thrown "fail to find the recipe file in cache" b) := by
  constructor
  · intro userID hd total hpos
    unfold BackendFacade.putRecipeFile
    rw [if_neg (by omega)]
    simp only [hnone]
  · intro userID hd
    unfold BackendFacade.finishRecipeFile
    simp only [hnone]

theorem BackendFacade.putRecipeFile_eq_with (b : BackendFacade) (userID : user_id_t)
    (key : key_t) (hd : fileShareMetaHead_t) (total : Nat) :
    b.putRecipeFile userID key hd total =
      b.putRecipeFileWith PARANOID_CHECK userID key hd total := by
  unfold BackendFacade.putRecipeFile BackendFacade.putRecipeFileWith
  by_cases h0 : hd.numOfPastSecrets = 0
  · simp only [h0, if_true]
  · simp only [h0, if_false]

/-- C19 (amended): for a key whose unfinished buffer exists and `numOfPastSecrets > 0`, the
comparison of the user and of the total with the buffer is compiled in only under
`config::PARANOID_CHECK`: with the flag set a mismatch throws, and `putRecipeFile` is the
function with the flag as configured, `false`, where the user and the total are not looked
at and the call returns the span that starts at entry `numOfPastSecrets`. -/
theorem BackendFacade.putRecipeFile_mismatch (b : BackendFacade) (key : key_t)
    (buffer : FileRecipe) (declared : Nat)
    (hbuf : kvGet key b.unfinishedRecipeFileCache_ = some (buffer, declared))
    (userID : user_id_t) (hd : fileShareMetaHead_t) (total : Nat)
    (hpast : 0 < hd.numOfPastSecrets) :
    (buffer.head.userID ≠ userID ∨ declared ≠ total →
      b.putRecipeFileWith true userID key hd total =
        .thrown "the file recipe head is invalid" b) ∧
    b.putRecipeFile userID key hd total = b.putRecipeFileWith false userID key hd total ∧
    ((FILE_RECIPE_ENTRY_SIZE : Int) * hd.numOfPastSecrets ≤ INT_MAX →
      0 ≤ hd.numOfComingSecrets →
      b.putRecipeFile userID key hd total =
        .ok ⟨hd.numOfPastSecrets, hd.numOfComingSecrets.toNat⟩ b) := by
  refine ⟨?_, BackendFacade.putRecipeFile_eq_with b userID key hd total, ?_⟩
  · intro hmis
    unfold BackendFacade.putRecipeFileWith
    rw [if_neg (by omega)]
    simp only [hbuf, true_and]
    rw [if_pos hmis]
  · intro hov hcoming
    unfold BackendFacade.putRecipeFile numeric_cast
    rw [if_neg (by omega)]
    simp only [hbuf, PARANOID_CHECK, Bool.false_eq_true, false_and, if_false]
    rw [if_neg (by
      simp only [FILE_RECIPE_ENTRY_SIZE, INT_MAX] at hov ⊢
      omega), if_neg (by omega)]

/-- C19 (as stated, fails): the unfinished buffer of the key was opened by user 1 for two
shares; `putRecipeFile` by user 2 with a total of five and `numOfPastSecrets = 1` returns
the span instead of throwing. -/
theorem BackendFacade.putRecipeFile_accepts_mismatch :
    kvGet Sample.recipeKey Sample.unfinished.unfinishedRecipeFileCache_ =
      some (⟨⟨1, 7, 0⟩, [default, default]⟩, 2) ∧
    Sample.unfinished.putRecipeFile 2 Sample.recipeKey ⟨2, 7, 1, 0, 1, 7⟩ 5 =
      .ok ⟨1, 1⟩ Sample.unfinished := by
  refine ⟨by decide, rfl⟩

/-! ## C16: the recipe after a second upload -/

/-- C16 (fails on the code): user 1 completes the upload of `/a` with the entry of
fingerprint `[1]`, then completes a second upload of `/a` with the entry of fingerprint
`[2]`. The recipe file then holds the second recipe, but `getRecipeData(recipeKey)`
returns the first one, from the recipe cache, and `restoreShareFile` streams the first
upload: `finishRecipeFile` calls `lru_cache::insert`, which leaves a cached key alone. -/
theorem BackendFacade.getRecipeData_after_second_upload :
    ClientUpload.run External.sample 2 1 [Sample.firstUpload] DedupCore.new =
      .ok [[false]] Sample.afterFirst ∧
    ClientUpload.run External.sample 2 1 [Sample.secondUpload] Sample.afterFirst =
      .ok [[false]] Sample.afterSecond ∧
    kvGet (BackendFacade.formatRecipeFileName External.sample Sample.recipeKey)
        Sample.afterSecond.backend_.recipeFiles =
      some ⟨⟨1, 3, 1⟩, [⟨[2], 0, 3, 3⟩]⟩ ∧
    (Sample.afterSecond.backend_.getRecipeData External.sample Sample.recipeKey).value? =
      some ⟨⟨1, 2, 1⟩, [⟨[1], 0, 2, 2⟩]⟩ ∧
    (∀ shareFileData : ShareFileBuffer,
      (Sample.afterSecond.restoreShareFile External.sample 2 1 ['/', 'a'] shareFileData
          (SHARE_FILE_BUFFER_LEN - PACKET_HEADER_SIZE)).flushes? =
        some [⟨30, [.head ⟨2, 1⟩, .entry ⟨0, 2, 2⟩, .data [5, 6]]⟩]) := by
  refine ⟨rfl, rfl, by decide, by decide, fun _ => rfl⟩

/-! ## C20: restoring what is not there -/

/-- C20: `restoreShareFile` for a user and file name whose recipe key is neither in the recipe
cache nor has a recipe file throws, with no call of `flushCallBack` and the state as it
was; `restoreShare` for a fingerprint with no share index entry throws; `restoreDeltaShare`
throws when the entry named by `baseFP` is missing. The last two only read the store: they
return no state. -/
theorem DedupCore.restore_errors (E : External) (s : DedupCore) :
    (∀ (fuel : Nat) (u : user_id_t) (name : List Char) (shareFileData : ShareFileBuffer)
        (bufferSize : Nat),
      (∀ fullName, FormatFullFileName name = .ok fullName →
        kvGet (ToIndexKey .RECIPE (ToRecipeFP E fullName u)) s.backend_.recipeCache_.m_items =
          none ∧
        kvGet (BackendFacade.formatRecipeFileName E (ToIndexKey .RECIPE (ToRecipeFP E fullName u)))
          s.backend_.recipeFiles = none) →
      ∃ msg, s.restoreShareFile E fuel u name shareFileData bufferSize = .thrown msg (s, [])) ∧
    (∀ (fuel : Nat) (fp : fingerprint_t) (data : Bytes),
      s.backend_.getShareIndex (ToIndexKey .SHARE_INDEX fp) = none →
      s.restoreShare E fuel fp data = .thrown "no such share index") ∧
    (∀ (fuel : Nat) (head : shareIndexHead_t) (data : Bytes),
      s.backend_.getShareIndex (ToIndexKey .SHARE_INDEX head.baseFP) = none →
      s.restoreDeltaShare E (fuel + 1) head data = .thrown "base index not exists") := by
  refine ⟨?_, ?_, ?_⟩
  · intro fuel u name shareFileData bufferSize hno
    unfold DedupCore.restoreShareFile
    cases hfmt : FormatFullFileName name with
    | error e => exact ⟨e, rfl⟩
    | ok fullName =>
      obtain ⟨hcache, hfile⟩ := hno fullName hfmt
      refine ⟨"fail to open recipe file", ?_⟩
      simp only [BackendFacade.getRecipeData, lru_cache.get, hcache, hfile]
  · intro fuel fp data hnone
    unfold DedupCore.restoreShare
    rw [hnone]
  · intro fuel head data hnone
    unfold DedupCore.restoreDeltaShare
    rw [hnone]

/-! ## C11: the two store paths of `interUserIndexUpdate` -/

theorem shareSize_dbInv : DbInv (fun d => ∀ k v, (k, v) ∈ d.bindings → 0 ≤ v.head.shareSize) := by
  refine ⟨?_, ?_, ?_⟩
  · intro d h k v hv
    rw [DataBase.bindings_BatchFlush] at hv
    exact h k v hv
  · intro d k v u h hv _ _ k' v' hv'
    rw [DataBase.bindings_Put] at hv'
    rcases List.mem_cons.mp hv' with h1 | h1
    · simp only [Prod.mk.injEq] at h1
      rw [h1.2]
      exact h k v (DataBase.Get_mem_bindings hv)
    · exact h k' v' h1
  · intro d fp u data depth baseFP dsize name off h _ _ k' v' hv'
    rw [DataBase.bindings_Put] at hv'
    rcases List.mem_cons.mp hv' with h1 | h1
    · simp only [Prod.mk.injEq] at h1
      rw [h1.2]
      simp [newShareValue]
    · exact h k' v' h1

theorem Reachable.shareSize_nonneg {E : External} {s : DedupCore} (hr : Reachable E s) :
    ∀ k v, (k, v) ∈ s.backend_.db.bindings → 0 ≤ v.head.shareSize :=
  Reachable.db_invariant (Q := fun d => ∀ k v, (k, v) ∈ d.bindings → 0 ≤ v.head.shareSize)
    (by intro k v h; simp [DataBase.new, DataBase.bindings] at h) shareSize_dbInv hr

theorem BackendFacade.putShareData_files {b b' : BackendFacade} (hp : b.PoolOk) {d : Bytes}
    (hs : (b.putShareData d).state? = some b') :
    (∀ n, (kvGet n b.containerFiles).isSome → (kvGet n b'.containerFiles).isSome) ∧
    (kvGet b'.shareContainerName_ b'.containerFiles).isSome :=
  ⟨by
    intro n hn
    rw [BackendFacade.putShareData_eq hp] at hs
    by_cases hgt : b.shareContainerOffset_ + d.length > CONTAINER_SIZE
    · simp only [hgt, if_true] at hs
      cases hg : b.containerNameDispenser_.get with
      | error msg =>
        simp only [hg, Res.state?, Option.some.injEq] at hs
        rw [← hs]; exact hn
      | ok p =>
        obtain ⟨name, disp⟩ := p
        simp only [hg, Res.state?, Option.some.injEq] at hs
        rw [← hs]
        show (kvGet n ((name, _) :: b.containerFiles)).isSome
        rw [kvGet_cons]
        split
        · rfl
        · exact hn
    · simp only [hgt, if_false, Res.state?, Option.some.injEq] at hs
      rw [← hs]
      show (kvGet n (kvModify b.shareContainerName_ (fun r => r.write b.shareContainerOffset_ d)
        b.containerFiles)).isSome
      rw [kvGet_modify]
      split
      · simpa using hn
      · exact hn,
   (BackendFacade.putShareData_poolOk hp hs).present⟩

/-- In a reachable state the container named by a share index value exists. -/
theorem Reachable.containers {E : External} {s : DedupCore} (hr : Reachable E s) :
    ∀ k v, (k, v) ∈ s.backend_.db.bindings →
      (kvGet v.head.containerName s.backend_.containerFiles).isSome := by
  have h := Reachable.invariant (E := E)
    (P := fun s => s.backend_.PoolOk ∧ ∀ k v, (k, v) ∈ s.backend_.db.bindings →
      (kvGet v.head.containerName s.backend_.containerFiles).isSome)
    ⟨BackendFacade.new_poolOk, by
      intro k v h
      simp [DedupCore.new, BackendFacade.new, BackendFacade.blank, DataBase.new,
        DataBase.bindings] at h⟩
    (by
      rintro s s' fuel fp u d ⟨hp, hc⟩ h
      have hstore : ∀ {feat payload depth baseFP dsize},
          (s.storeNewShare fp u d feat payload depth baseFP dsize).state? = some s' →
          s'.backend_.PoolOk ∧ ∀ k v, (k, v) ∈ s'.backend_.db.bindings →
            (kvGet v.head.containerName s'.backend_.containerFiles).isSome := by
        intro feat payload depth baseFP dsize h1
        refine ⟨storeNewShare_poolOk hp h1, ?_⟩
        rcases storeNewShare_cases h1 with ⟨b, hb, rfl⟩ | ⟨name, off, b, hb, -, rfl⟩
        · intro k v hv
          have hv' : (k, v) ∈ b.db.bindings := hv
          rw [(BackendFacade.putShareData_step hb).db] at hv'
          exact (BackendFacade.putShareData_files hp hb).1 _ (hc k v hv')
        · have hb' : (s.backend_.putShareData payload).state? = some b := by rw [hb]; rfl
          have hname : name = b.shareContainerName_ := by
            rw [BackendFacade.putShareData_eq hp] at hb
            by_cases hgt : s.backend_.shareContainerOffset_ + payload.length > CONTAINER_SIZE
            · simp only [hgt, if_true] at hb
              cases hg : s.backend_.containerNameDispenser_.get with
              | error msg => simp [hg] at hb
              | ok p =>
                obtain ⟨n, disp⟩ := p
                simp only [hg, Res.ok.injEq, Prod.mk.injEq] at hb
                obtain ⟨⟨rfl, -⟩, rfl⟩ := hb
                rfl
            · simp only [hgt, if_false, Res.ok.injEq, Prod.mk.injEq] at hb
              obtain ⟨⟨rfl, -⟩, rfl⟩ := hb
              rfl
          intro k v hv
          have hv' : (k, v) ∈ (b.db.Put (ToIndexKey .SHARE_INDEX fp)
              (newShareValue u d depth baseFP dsize name off)).bindings := hv
          show (kvGet v.head.containerName b.containerFiles).isSome
          rw [DataBase.bindings_Put, (BackendFacade.putShareData_step hb').db] at hv'
          rcases List.mem_cons.mp hv' with h2 | h2
          · simp only [Prod.mk.injEq] at h2
            rw [h2.2]
            show (kvGet name b.containerFiles).isSome
            rw [hname]
            exact (BackendFacade.putShareData_files hp hb').2
          · exact (BackendFacade.putShareData_files hp hb').1 _ (hc k v h2)
      rcases interUserIndexUpdate_cases h with rfl | ⟨v0, hv0, -, -, -, rfl⟩ | ⟨-, h1, -⟩ |
        ⟨-, baseFP, kBase, delta, -, h1⟩
      · exact ⟨hp, hc⟩
      · refine ⟨hp.congr rfl rfl rfl rfl, ?_⟩
        intro k v hv
        have hv' : (k, v) ∈ (s.backend_.db.Put (ToIndexKey .SHARE_INDEX fp)
            (v0.addUser u)).bindings := hv
        show (kvGet v.head.containerName s.backend_.containerFiles).isSome
        rw [DataBase.bindings_Put] at hv'
        rcases List.mem_cons.mp hv' with h2 | h2
        · simp only [Prod.mk.injEq] at h2
          rw [h2.2]
          exact hc _ v0 (DataBase.Get_mem_bindings hv0)
        · exact hc k v h2
      · exact hstore h1
      · exact hstore h1)
    (by
      rintro s b' ⟨hp, hc⟩ hb
      refine ⟨hp.congr hb.dispenser hb.container hb.name hb.files, ?_⟩
      intro k v hv
      have hv' : (k, v) ∈ b'.db.bindings := hv
      show (kvGet v.head.containerName b'.containerFiles).isSome
      rw [hb.bindings] at hv'
      rw [hb.files]
      exact hc k v hv')
    hr
  exact h.2

theorem ShareIndexValue.UsersOk.parse {v : ShareIndexValue} (hok : v.UsersOk) :
    ParseShareIndex v = .ok (v.head, v.entries) := by
  have hpos := hok.pos
  unfold ParseShareIndex numeric_cast
  have hn : ¬ v.head.numOfUsers < 0 := by omega
  simp only [PARANOID_CHECK, Bool.false_eq_true, false_and, if_false, hn, hok.spanRead_entries]

/-- What `storeNewShare` leaves behind when `putShareData` returns and the share size is an
`int`: the value is bound to the key in front of the bindings there were, the pool is what
`putShareData` left, and holds the payload where the value points. -/
theorem DedupCore.storeNewShare_wrote {s : DedupCore} (hp : s.backend_.PoolOk)
    {fp : fingerprint_t} {u : user_id_t} {d : Bytes} {feat : superF} {payload : Bytes}
    {depth : Nat} {baseFP : fingerprint_t} {dsize : Nat} {name : internal_file_name_t}
    {off : Nat} {b : BackendFacade}
    (hput : s.backend_.putShareData payload = .ok (name, off) b)
    (hlen : (d.length : Int) ≤ INT_MAX) :
    ∃ s', s.storeNewShare fp u d feat payload depth baseFP dsize = .ok () s' ∧
      s'.backend_.db.bindings =
        (ToIndexKey .SHARE_INDEX fp,
          ⟨{ shareSize := d.length, numOfUsers := 1, deltaDepth := depth, deltaSize := dsize,
             baseFP := baseFP, containerName := name, offset := off }, [⟨u⟩]⟩) ::
          s.backend_.db.bindings ∧
      s'.backend_.containerFiles = b.containerFiles ∧
      (payload.length ≤ CONTAINER_SIZE →
        s'.backend_.getShareData name off payload.length = .ok payload) ∧
      s'.delta_ = s.delta_.superFeatureIndexUpdate feat fp := by
  have hput' : (s.backend_.putShareData payload).state? = some b := by rw [hput]; rfl
  have hcall : s.storeNewShare fp u d feat payload depth baseFP dsize =
      .ok () { backend_ := b.putShareIndex (ToIndexKey .SHARE_INDEX fp)
                 ⟨{ shareSize := d.length, numOfUsers := 1, deltaDepth := depth,
                    deltaSize := dsize, baseFP := baseFP, containerName := name,
                    offset := off }, [⟨u⟩]⟩,
               delta_ := s.delta_.superFeatureIndexUpdate feat fp } := by
    unfold DedupCore.storeNewShare
    simp only [hput, not_lt.mpr hlen, if_false]
  refine ⟨_, hcall, ?_, rfl, ?_, rfl⟩
  · show (b.db.Put _ _).bindings = _
    rw [DataBase.bindings_Put, (BackendFacade.putShareData_step hput').db]
  · intro hfit
    exact (BackendFacade.putShareData_holds hp hfit hput).getShareData

/-- C11: in a reachable state, for a fingerprint absent from the index: the base that the
similarity lookup names, when its share index entry is present with `deltaDepth <
MAX_DELTA_DEPTH`, can be read from the pool. When the similarity lookup returns a `baseFP`
whose entry is present with `deltaDepth < MAX_DELTA_DEPTH` and `ComputeDelta` of the stored
bytes of the base and the share data is not empty, `interUserIndexUpdate` hands the delta
(not the data) to `putShareData` and returns as soon as that call does: the key of the
fingerprint is then bound to a value with `deltaDepth = base.deltaDepth + 1`, that `baseFP`,
`deltaSize = |delta|`, `shareSize = |data|`, `numOfUsers = 1`, the single reference `user` and
the place `putShareData` returned; the pool is what `putShareData(delta)` left and holds the
delta at that place. In every other case the same holds with the data itself as the payload
and a value with `deltaDepth = 0`, `baseFP` all zero and `deltaSize = 0`. A base whose
`deltaDepth` is `MAX_DELTA_DEPTH` is one of these other cases, whatever `ComputeDelta` would
return. The share size is an `int`. -/
theorem DedupCore.new_share_paths {E : External} {s : DedupCore} (hr : Reachable E s)
    (fuel : Nat) (fp : fingerprint_t) (u : user_id_t) (d : Bytes)
    (hnone : s.backend_.getShareIndex (ToIndexKey .SHARE_INDEX fp) = none)
    (hlen : (d.length : Int) ≤ INT_MAX) :
    (∀ baseFP baseVal, s.delta_.superFeatureIndex (Delta.GenSuperFeature E d) = some baseFP →
      s.backend_.getShareIndex (ToIndexKey .SHARE_INDEX baseFP) = some baseVal →
      baseVal.head.deltaDepth < MAX_DELTA_DEPTH →
      ∃ base, s.backend_.getShareData baseVal.head.containerName baseVal.head.offset
        baseVal.head.shareSize.toNat = .ok base) ∧
    (∀ baseFP baseVal base,
      s.delta_.superFeatureIndex (Delta.GenSuperFeature E d) = some baseFP →
      s.backend_.getShareIndex (ToIndexKey .SHARE_INDEX baseFP) = some baseVal →
      baseVal.head.deltaDepth < MAX_DELTA_DEPTH →
      s.backend_.getShareData baseVal.head.containerName baseVal.head.offset
        baseVal.head.shareSize.toNat = .ok base →
      Delta.ComputeDelta E base d ≠ [] →
      ∀ name off b, s.backend_.putShareData (Delta.ComputeDelta E base d) = .ok (name, off) b →
        ∃ s', s.interUserIndexUpdate E fuel fp u d = .ok () s' ∧
          s'.backend_.db.bindings =
            (ToIndexKey .SHARE_INDEX fp,
              ⟨{ shareSize := d.length, numOfUsers := 1,
                 deltaDepth := baseVal.head.deltaDepth + 1,
                 deltaSize := (Delta.ComputeDelta E base d).length, baseFP := baseFP,
                 containerName := name, offset := off }, [⟨u⟩]⟩) ::
              s.backend_.db.bindings ∧
          s'.backend_.containerFiles = b.containerFiles ∧
          ((Delta.ComputeDelta E base d).length ≤ CONTAINER_SIZE →
            s'.backend_.getShareData name off (Delta.ComputeDelta E base d).length =
              .ok (Delta.ComputeDelta E base d)) ∧
          s'.delta_ = s.delta_.superFeatureIndexUpdate (Delta.GenSuperFeature E d) fp) ∧
    ((¬ ∃ baseFP baseVal base,
        s.delta_.superFeatureIndex (Delta.GenSuperFeature E d) = some baseFP ∧
        s.backend_.getShareIndex (ToIndexKey .SHARE_INDEX baseFP) = some baseVal ∧
        baseVal.head.deltaDepth < MAX_DELTA_DEPTH ∧
        s.backend_.getShareData baseVal.head.containerName baseVal.head.offset
          baseVal.head.shareSize.toNat = .ok base ∧
        Delta.ComputeDelta E base d ≠ []) →
      ∀ name off b, s.backend_.putShareData d = .ok (name, off) b →
        ∃ s', s.interUserIndexUpdate E fuel fp u d = .ok () s' ∧
          s'.backend_.db.bindings =
            (ToIndexKey .SHARE_INDEX fp,
              ⟨{ shareSize := d.length, numOfUsers := 1, deltaDepth := 0, deltaSize := 0,
                 baseFP := List.replicate 32 0, containerName := name, offset := off },
                [⟨u⟩]⟩) ::
              s.backend_.db.bindings ∧
          s'.backend_.containerFiles = b.containerFiles ∧
          (d.length ≤ CONTAINER_SIZE → s'.backend_.getShareData name off d.length = .ok d) ∧
          s'.delta_ = s.delta_.superFeatureIndexUpdate (Delta.GenSuperFeature E d) fp) ∧
    (∀ baseFP baseVal, s.delta_.superFeatureIndex (Delta.GenSuperFeature E d) = some baseFP →
      s.backend_.getShareIndex (ToIndexKey .SHARE_INDEX baseFP) = some baseVal →
      baseVal.head.deltaDepth = MAX_DELTA_DEPTH →
      ¬ ∃ baseFP' baseVal' base,
        s.delta_.superFeatureIndex (Delta.GenSuperFeature E d) = some baseFP' ∧
        s.backend_.getShareIndex (ToIndexKey .SHARE_INDEX baseFP') = some baseVal' ∧
        baseVal'.head.deltaDepth < MAX_DELTA_DEPTH ∧
        s.backend_.getShareData baseVal'.head.containerName baseVal'.head.offset
          baseVal'.head.shareSize.toNat = .ok base ∧
        Delta.ComputeDelta E base d ≠ []) := by
  have hp := hr.poolOk
  have hbase : ∀ baseFP baseVal,
      s.backend_.getShareIndex (ToIndexKey .SHARE_INDEX baseFP) = some baseVal →
      baseVal.head.deltaDepth < MAX_DELTA_DEPTH →
      ParseShareIndex baseVal = .ok (baseVal.head, baseVal.entries) ∧
      ¬ baseVal.head.shareSize < 0 ∧
      ∃ base, s.backend_.getShareData baseVal.head.containerName baseVal.head.offset
          baseVal.head.shareSize.toNat = .ok base ∧
        s.fetchBase E fuel baseVal.head = .ok base := by
    intro baseFP baseVal hget hdepth
    have hmem := DataBase.Get_mem_bindings hget
    have hok := hr.usersOk _ baseVal hmem
    have hsize := hr.shareSize_nonneg _ baseVal hmem
    have hcont := hr.containers _ baseVal hmem
    obtain ⟨region, hregion⟩ := Option.isSome_iff_exists.mp hcont
    have hzero : baseVal.head.deltaDepth = 0 := by
      simp only [MAX_DELTA_DEPTH] at hdepth
      omega
    have hread : s.backend_.getShareData baseVal.head.containerName baseVal.head.offset
        baseVal.head.shareSize.toNat =
        .ok (region.read baseVal.head.offset baseVal.head.shareSize.toNat) := by
      unfold BackendFacade.getShareData
      simp only [hregion, PARANOID_CHECK, Bool.false_eq_true, false_and, if_false]
    refine ⟨hok.parse, not_lt.mpr hsize, _, hread, ?_⟩
    unfold DedupCore.fetchBase
    simp only [hzero, if_true, hread]
  refine ⟨?_, ?_, ?_, ?_⟩
  · intro baseFP baseVal _ hget hdepth
    obtain ⟨-, -, base, hread, -⟩ := hbase baseFP baseVal hget hdepth
    exact ⟨base, hread⟩
  · intro baseFP baseVal base hidx hget hdepth hread hne name off b hput
    obtain ⟨hparse, hsize, base', hread', hfetch⟩ := hbase baseFP baseVal hget hdepth
    have hb : base' = base := by
      rw [hread] at hread'
      exact (Ret.ok.inj hread').symm
    subst hb
    have hemp : (Delta.ComputeDelta E base' d).isEmpty = false := by
      cases hc : Delta.ComputeDelta E base' d with
      | nil => exact absurd hc hne
      | cons a l => rfl
    have hzero : (baseVal.head.deltaDepth + 1) % 256 = baseVal.head.deltaDepth + 1 := by
      simp only [MAX_DELTA_DEPTH] at hdepth
      omega
    have hcall : s.interUserIndexUpdate E fuel fp u d =
        s.storeNewShare fp u d (Delta.GenSuperFeature E d) (Delta.ComputeDelta E base' d)
          (baseVal.head.deltaDepth + 1) baseFP (Delta.ComputeDelta E base' d).length := by
      unfold DedupCore.interUserIndexUpdate DedupCore.deltaCandidate
      simp only [hnone, hidx, hget, hparse, hdepth, if_true, hsize, if_false, hfetch, hemp,
        Bool.not_false, hzero]
    rw [hcall]
    exact DedupCore.storeNewShare_wrote hp hput hlen
  · intro hno name off b hput
    have hcall : s.interUserIndexUpdate E fuel fp u d =
        s.storeNewShare fp u d (Delta.GenSuperFeature E d) d 0 (List.replicate 32 0) 0 := by
      cases hidx : s.delta_.superFeatureIndex (Delta.GenSuperFeature E d) with
      | none =>
        unfold DedupCore.interUserIndexUpdate DedupCore.deltaCandidate
        simp only [hnone, hidx]
      | some baseFP =>
        cases hget : s.backend_.getShareIndex (ToIndexKey .SHARE_INDEX baseFP) with
        | none =>
          unfold DedupCore.interUserIndexUpdate DedupCore.deltaCandidate
          simp only [hnone, hidx, hget]
        | some baseVal =>
          by_cases hdepth : baseVal.head.deltaDepth < MAX_DELTA_DEPTH
          · obtain ⟨hparse, hsize, base, hread, hfetch⟩ := hbase baseFP baseVal hget hdepth
            have hemp : Delta.ComputeDelta E base d = [] := by
              by_contra hne
              exact hno ⟨baseFP, baseVal, base, hidx, hget, hdepth, hread, hne⟩
            unfold DedupCore.interUserIndexUpdate DedupCore.deltaCandidate
            simp only [hnone, hidx, hget, hparse, hdepth, if_true, hsize, if_false, hfetch,
              hemp, List.isEmpty_nil, Bool.not_true, Bool.false_eq_true]
          · have hparse := (hr.usersOk _ baseVal (DataBase.Get_mem_bindings hget)).parse
            unfold DedupCore.interUserIndexUpdate DedupCore.deltaCandidate
            simp only [hnone, hidx, hget, hparse, hdepth, if_false]
    rw [hcall]
    exact DedupCore.storeNewShare_wrote hp hput hlen
  · rintro baseFP baseVal hidx hget hdepth ⟨baseFP', baseVal', base, hidx', hget', hlt, -, -⟩
    rw [hidx] at hidx'
    cases hidx'
    rw [hget] at hget'
    cases hget'
    omega

/-! ## C17: the stream of `restoreShareFile` -/

theorem BackendFacade.getShareData_length {b : BackendFacade} {name : internal_file_name_t}
    {off n : Nat} {out : Bytes} (h : b.getShareData name off n = .ok out) : out.length = n := by
  unfold BackendFacade.getShareData at h
  cases hk : kvGet name b.containerFiles with
  | none => simp [hk] at h
  | some r =>
    simp only [hk, PARANOID_CHECK, Bool.false_eq_true, false_and, if_false, Ret.ok.injEq] at h
    rw [← h, Region.read_length]

theorem DedupCore.restoreDeltaShare_length {E : External} {s : DedupCore} :
    ∀ {fuel : Nat} {head : shareIndexHead_t} {data out : Bytes},
      s.restoreDeltaShare E fuel head data = .ok out → out.length = data.length := by
  intro fuel
  cases fuel with
  | zero => intro head data out h; simp [DedupCore.restoreDeltaShare] at h
  | succ fuel =>
    intro head data out h
    unfold DedupCore.restoreDeltaShare at h
    cases hg : s.backend_.getShareIndex (ToIndexKey .SHARE_INDEX head.baseFP) with
    | none => simp [hg] at h
    | some bv =>
      simp only [hg] at h
      cases hp : ParseShareIndex bv with
      | error e => simp [hp] at h
      | ok p =>
        obtain ⟨bh, refs⟩ := p
        simp only [hp] at h
        by_cases hneg : bh.shareSize < 0
        · simp [hneg] at h
        · simp only [hneg, if_false] at h
          split at h
          · cases h
          · cases h
          · split at h
            · cases h
            · cases h
            · by_cases hneg2 : head.shareSize < 0
              · simp [hneg2] at h
              · simp only [hneg2, if_false, PARANOID_CHECK, Bool.false_eq_true, false_and,
                  Ret.ok.injEq] at h
                rw [← h]
                simp only [List.length_append, List.length_take, List.length_drop]
                omega

theorem DedupCore.restoreShare_length {E : External} {fuel : Nat} {s : DedupCore}
    {fp : fingerprint_t} {data out : Bytes} (h : s.restoreShare E fuel fp data = .ok out) :
    out.length = data.length := by
  unfold DedupCore.restoreShare at h
  cases hg : s.backend_.getShareIndex (ToIndexKey .SHARE_INDEX fp) with
  | none => simp [hg] at h
  | some v =>
    simp only [hg] at h
    cases hp : ParseShareIndex v with
    | error e => simp [hp] at h
    | ok p =>
      obtain ⟨hd, refs⟩ := p
      simp only [hp] at h
      by_cases hpos : hd.deltaDepth > 0
      · simp only [hpos, if_true] at h
        exact DedupCore.restoreDeltaShare_length h
      · simp only [hpos, if_false, PARANOID_CHECK, Bool.false_eq_true, false_and] at h
        exact BackendFacade.getShareData_length h

theorem renderShares_append (l₁ l₂ : List (fileRecipeEntry_t × Bytes)) :
    renderShares (l₁ ++ l₂) = renderShares l₁ ++ renderShares l₂ := by
  simp [renderShares, List.flatMap_append]

theorem renderShares_single (e : fileRecipeEntry_t) (p : Bytes) :
    renderShares [(e, p)] = [.entry ⟨e.secretID, e.secretSize, e.shareSize⟩, .data p] := by
  simp [renderShares, renderShare]

theorem itemsSize_append (l₁ l₂ : List ShareFileItem) :
    itemsSize (l₁ ++ l₂) = itemsSize l₁ + itemsSize l₂ := by
  simp [itemsSize]

theorem itemsSize_renderShare (e : fileRecipeEntry_t) (p : Bytes) :
    itemsSize (renderShare e p) = SHARE_ENTRY_SIZE + p.length := by
  simp [itemsSize, renderShare, ShareFileItem.size]

theorem DedupCore.restoreLoop_cons {E : External} {fuel : Nat} {s : DedupCore} {B : Nat}
    {e : fileRecipeEntry_t} {p : Bytes} (rest : List fileRecipeEntry_t) (c : RestoreCursor)
    (h0 : 0 ≤ e.shareSize) (hmax : (SHARE_ENTRY_SIZE : Int) + e.shareSize ≤ INT_MAX)
    (hc : c.shareFileBufferOffset < 2 ^ 63)
    (hp : s.restoreShare E fuel e.shareFP (c.slice B e) = .ok p) :
    s.restoreLoop E fuel B (e :: rest) c = s.restoreLoop E fuel B rest (c.put B e p) := by
  have hk : (((SHARE_ENTRY_SIZE : Int) + e.shareSize) % 18446744073709551616).toNat =
      SHARE_ENTRY_SIZE + e.shareSize.toNat := by
    simp only [SHARE_ENTRY_SIZE, INT_MAX] at hmax ⊢
    omega
  have hsum : (c.shareFileBufferOffset + (SHARE_ENTRY_SIZE + e.shareSize.toNat)) %
      18446744073709551616 = c.shareFileBufferOffset + (SHARE_ENTRY_SIZE + e.shareSize.toNat) := by
    apply Nat.mod_eq_of_lt
    simp only [SHARE_ENTRY_SIZE, INT_MAX] at hmax ⊢
    omega
  have hcast : numeric_cast e.shareSize = .ok e.shareSize.toNat := by
    unfold numeric_cast
    rw [if_neg (by omega)]
  rw [DedupCore.restoreLoop]
  rw [if_neg (by omega)]
  unfold RestoreCursor.slice at hp
  unfold RestoreCursor.put
  by_cases hfl : c.shareFileBufferOffset + (SHARE_ENTRY_SIZE + e.shareSize.toNat) ≥ B
  · simp only [hfl, if_true] at hp
    simp only [hk, hsum, hcast, hfl, if_true, Nat.zero_add, hp, renderShare, List.nil_append,
      List.append_assoc, List.singleton_append]
  · simp only [hfl, if_false] at hp
    simp only [hk, hsum, hcast, hfl, if_false, hp, renderShare, List.append_assoc,
      List.singleton_append]

theorem RestoreCursor.Ok.after_write {B : Nat} {c : RestoreCursor} (hc : c.Ok B)
    {e : fileRecipeEntry_t} {p : Bytes} (hlen : p.length = e.shareSize.toNat)
    (hfit : SHARE_ENTRY_SIZE + e.shareSize.toNat < B) : (c.put B e p).Ok B := by
  unfold RestoreCursor.put
  by_cases hfl : c.shareFileBufferOffset + (SHARE_ENTRY_SIZE + e.shareSize.toNat) ≥ B
  · simp only [hfl, if_true]
    refine ⟨?_, ?_, ?_, ?_⟩
    · simp only [SHARE_ENTRY_SIZE]; omega
    · exact le_of_lt hfit
    · simp only [itemsSize_renderShare, hlen]
    · intro f hf
      rcases List.mem_append.mp hf with h1 | h1
      · exact hc.flushed f h1
      · simp only [List.mem_singleton] at h1
        subst h1
        exact ⟨hc.pos, hc.le, hc.size⟩
  · simp only [hfl, if_false]
    refine ⟨?_, ?_, ?_, hc.flushed⟩
    · have := hc.pos
      show 0 < c.shareFileBufferOffset + SHARE_ENTRY_SIZE + e.shareSize.toNat
      omega
    · show c.shareFileBufferOffset + SHARE_ENTRY_SIZE + e.shareSize.toNat ≤ B
      omega
    · show c.shareFileBufferOffset + SHARE_ENTRY_SIZE + e.shareSize.toNat = _
      rw [itemsSize_append, itemsSize_renderShare, hlen, ← hc.size]
      omega

theorem RestoreCursor.Lays.after_share {head : shareFileHead_t} {c : RestoreCursor}
    {done : List (fileRecipeEntry_t × Bytes)} (hl : c.Lays head done) (B : Nat)
    (e : fileRecipeEntry_t) (p : Bytes) : (c.put B e p).Lays head (done ++ [(e, p)]) := by
  have hr : renderShare e p = renderShares [(e, p)] := by
    simp [renderShares]
  unfold RestoreCursor.put
  by_cases hfl : c.shareFileBufferOffset + (SHARE_ENTRY_SIZE + e.shareSize.toNat) ≥ B
  · simp only [hfl, if_true]
    rcases hl with ⟨hf, hw⟩ | ⟨first, rest, cur, hf, hw, hd⟩
    · refine Or.inr ⟨done, [], [(e, p)], ?_, hr, by simp⟩
      simp [hf, hw]
    · refine Or.inr ⟨first, rest ++ [cur], [(e, p)], ?_, hr, ?_⟩
      · simp [hf, hw]
      · simp [← hd]
  · simp only [hfl, if_false]
    rcases hl with ⟨hf, hw⟩ | ⟨first, rest, cur, hf, hw, hd⟩
    · refine Or.inl ⟨hf, ?_⟩
      show c.written ++ renderShare e p = _
      rw [hw, renderShares_append, hr]
      rfl
    · refine Or.inr ⟨first, rest, cur ++ [(e, p)], hf, ?_, ?_⟩
      · show c.written ++ renderShare e p = _
        rw [hw, renderShares_append, hr]
      · simp [← hd]

/-- The loop of `restoreShareFile` returns when every share restore does, and lays out whole
shares. -/
theorem ShareFileBuffer.length_read (size : Nat) (buf : ShareFileBuffer) (off n : Nat) :
    (ShareFileBuffer.read size buf off n).length = n := by
  simp [ShareFileBuffer.read]

theorem RestoreCursor.slice_length (B : Nat) (e : fileRecipeEntry_t) (c : RestoreCursor) :
    (c.slice B e).length = e.shareSize.toNat := by
  unfold RestoreCursor.slice
  split <;> exact ShareFileBuffer.length_read _ _ _ _

/-- The loop of `restoreShareFile` returns when every share restore does, and lays out whole
shares: each payload is what `restoreShare` left in the span of `shareSize` bytes it was
handed. -/
theorem DedupCore.restoreLoop_lays {E : External} {fuel : Nat} {s : DedupCore} {B : Nat}
    {head : shareFileHead_t} (hB : B < 2 ^ 63) :
    ∀ (entries : List fileRecipeEntry_t) (c : RestoreCursor)
      (done : List (fileRecipeEntry_t × Bytes)),
      (∀ e ∈ entries, ∀ x : Bytes, x.length = e.shareSize.toNat →
        ∃ p, s.restoreShare E fuel e.shareFP x = .ok p) →
      (∀ e ∈ entries, 0 ≤ e.shareSize ∧ (SHARE_ENTRY_SIZE : Int) + e.shareSize ≤ INT_MAX ∧
        (SHARE_ENTRY_SIZE : Int) + e.shareSize < B) →
      c.Ok B → c.Lays head done →
      ∃ c' payloads, s.restoreLoop E fuel B entries c = .ok () c' ∧ c'.Ok B ∧
        List.Forall₂ (fun e p => ∃ x : Bytes, x.length = e.shareSize.toNat ∧
          s.restoreShare E fuel e.shareFP x = .ok p) entries payloads ∧
        c'.Lays head (done ++ entries.zip payloads) := by
  intro entries
  induction entries with
  | nil =>
    intro c done _ _ hc hl
    exact ⟨c, [], rfl, hc, List.Forall₂.nil, by simpa using hl⟩
  | cons e rest ih =>
    intro c done hret hsmall hc hl
    obtain ⟨h0, hmax, hfit⟩ := hsmall e (List.mem_cons_self _ _)
    obtain ⟨p, hp⟩ := hret e (List.mem_cons_self _ _) (c.slice B e) (c.slice_length B e)
    have hlen : p.length = e.shareSize.toNat := by
      rw [DedupCore.restoreShare_length hp, RestoreCursor.slice_length]
    have hfit' : SHARE_ENTRY_SIZE + e.shareSize.toNat < B := by
      have : ((SHARE_ENTRY_SIZE + e.shareSize.toNat : Nat) : Int) < (B : Int) := by
        push_cast
        rw [Int.toNat_of_nonneg h0]
        exact hfit
      exact_mod_cast this
    rw [DedupCore.restoreLoop_cons rest c h0 hmax (lt_of_le_of_lt hc.le hB) hp]
    obtain ⟨c', ps, h1, h2, hall, h3⟩ := ih (c.put B e p) (done ++ [(e, p)])
      (fun e' he' => hret e' (List.mem_cons_of_mem _ he'))
      (fun e' he' => hsmall e' (List.mem_cons_of_mem _ he')) (hc.after_write hlen hfit')
      (hl.after_share B e p)
    refine ⟨c', p :: ps, h1, h2, List.Forall₂.cons ⟨_, c.slice_length B e, hp⟩ hall, ?_⟩
    simpa using h3

theorem DedupCore.restoreDeltaShare_congr {E : External} {s s' : DedupCore}
    (hdb : s'.backend_.db = s.backend_.db)
    (hfiles : s'.backend_.containerFiles = s.backend_.containerFiles) :
    ∀ (fuel : Nat) (head : shareIndexHead_t) (data : Bytes),
      s'.restoreDeltaShare E fuel head data = s.restoreDeltaShare E fuel head data := by
  have hidx : ∀ k, s'.backend_.getShareIndex k = s.backend_.getShareIndex k := by
    intro k; unfold BackendFacade.getShareIndex; rw [hdb]
  have hdata : ∀ n o m, s'.backend_.getShareData n o m = s.backend_.getShareData n o m := by
    intro n o m; unfold BackendFacade.getShareData; rw [hfiles]
  intro fuel
  induction fuel with
  | zero => intro head data; rfl
  | succ fuel ih =>
    intro head data
    rw [DedupCore.restoreDeltaShare, DedupCore.restoreDeltaShare]
    simp only [hidx, hdata, ih]

theorem DedupCore.restoreShare_congr {E : External} {s s' : DedupCore}
    (hdb : s'.backend_.db = s.backend_.db)
    (hfiles : s'.backend_.containerFiles = s.backend_.containerFiles)
    (fuel : Nat) (fp : fingerprint_t) (data : Bytes) :
    s'.restoreShare E fuel fp data = s.restoreShare E fuel fp data := by
  unfold DedupCore.restoreShare BackendFacade.getShareIndex BackendFacade.getShareData
  rw [hdb, hfiles]
  simp only [DedupCore.restoreDeltaShare_congr hdb hfiles]

theorem DedupCore.restoreLoop_congr {E : External} {s s' : DedupCore}
    (hdb : s'.backend_.db = s.backend_.db)
    (hfiles : s'.backend_.containerFiles = s.backend_.containerFiles)
    (fuel B : Nat) :
    ∀ (entries : List fileRecipeEntry_t) (c : RestoreCursor),
      s'.restoreLoop E fuel B entries c = s.restoreLoop E fuel B entries c := by
  intro entries
  induction entries with
  | nil => intro c; rfl
  | cons e rest ih =>
    intro c
    rw [DedupCore.restoreLoop, DedupCore.restoreLoop]
    simp only [DedupCore.restoreShare_congr hdb hfiles, ih]

theorem BackendFacade.getRecipeData_frame {E : External} {b b' : BackendFacade} {key : key_t}
    {recipe : FileRecipe} (h : b.getRecipeData E key = .ok recipe b') :
    b'.db = b.db ∧ b'.containerFiles = b.containerFiles := by
  unfold BackendFacade.getRecipeData at h
  cases hc : b.recipeCache_.get key with
  | mk found cache =>
    cases found with
    | some rv =>
      obtain ⟨r, size⟩ := rv
      simp only [hc, Res.ok.injEq] at h
      rw [← h.2]
      exact ⟨rfl, rfl⟩
    | none =>
      simp only [hc] at h
      cases hf : kvGet (BackendFacade.formatRecipeFileName E key) b.recipeFiles with
      | none => simp [hf] at h
      | some rd =>
        simp only [hf, Res.ok.injEq] at h
        rw [← h.2]
        exact ⟨rfl, rfl⟩

theorem renderShares_flatten (l : List (List (fileRecipeEntry_t × Bytes))) :
    renderShares l.flatten = (l.map renderShares).flatten := by
  induction l with
  | nil => rfl
  | cons a l ih => simp [renderShares_append, ih]

/-- C17 (amended): for the recipe that `getRecipeData` returns, with `shareSize` not negative
and `SHARE_ENTRY_SIZE + shareSize` smaller than the buffer for every entry, and a buffer
that holds at least the share file head, `restoreShareFile` returns whenever `restoreShare`
returns for every entry; every call of `flushCallBack` has a length that is positive, at
most the buffer size and the size of the items laid out since the previous call; the
flushed items, concatenated, are the share file head `{fileSize, numOfShares}` of the recipe
head followed, for each recipe entry in order, by its share entry and the `shareSize` bytes
that `restoreShare(entry.shareFP, span)` left in the span of `shareSize` bytes it was
handed; and
every flush holds whole shares only (the first one after the head). The buffer may hold any
bytes at the call. The sizes are in the range of their C++ types: `numOfShares` of the
recipe head not negative, `SHARE_ENTRY_SIZE + shareSize` an `int`, the buffer size below
`2^63`. -/
theorem DedupCore.restoreShareFile_stream {E : External} {fuel : Nat} {s : DedupCore}
    {u : user_id_t} {name fullName : List Char} {shareFileData : ShareFileBuffer} {B : Nat}
    {recipe : FileRecipe} {b : BackendFacade}
    (hhead : SHARE_FILE_HEAD_SIZE ≤ B) (hB : B < 2 ^ 63)
    (hfmt : FormatFullFileName name = .ok fullName)
    (hrec : s.backend_.getRecipeData E (ToIndexKey .RECIPE (ToRecipeFP E fullName u)) =
      .ok recipe b)
    (hn : 0 ≤ recipe.head.numOfShares)
    (hsmall : ∀ e ∈ spanRead recipe.entries recipe.head.numOfShares.toNat,
      0 ≤ e.shareSize ∧ (SHARE_ENTRY_SIZE : Int) + e.shareSize ≤ INT_MAX ∧
      (SHARE_ENTRY_SIZE : Int) + e.shareSize < B)
    (hret : ∀ e ∈ spanRead recipe.entries recipe.head.numOfShares.toNat,
      ∀ span : Bytes, span.length = e.shareSize.toNat →
        ∃ p, s.restoreShare E fuel e.shareFP span = .ok p) :
    ∃ (flushes : List Flush) (payloads : List Bytes),
      s.restoreShareFile E fuel u name shareFileData B =
        .ok () ({ s with backend_ := b }, flushes) ∧
      (∀ f ∈ flushes, 0 < f.size ∧ f.size ≤ B ∧ f.size = itemsSize f.content) ∧
      List.Forall₂ (fun e p => p.length = e.shareSize.toNat ∧
          ∃ span : Bytes, span.length = e.shareSize.toNat ∧
            s.restoreShare E fuel e.shareFP span = .ok p)
        (spanRead recipe.entries recipe.head.numOfShares.toNat) payloads ∧
      flushes.flatMap (fun f => f.content) =
        .head ⟨recipe.head.fileSize, recipe.head.numOfShares⟩ ::
          renderShares ((spanRead recipe.entries recipe.head.numOfShares.toNat).zip payloads) ∧
      ∃ (first : List (fileRecipeEntry_t × Bytes))
          (rest : List (List (fileRecipeEntry_t × Bytes))),
        first ++ rest.flatten =
          (spanRead recipe.entries recipe.head.numOfShares.toNat).zip payloads ∧
        flushes.map (fun f => f.content) =
          (.head ⟨recipe.head.fileSize, recipe.head.numOfShares⟩ :: renderShares first) ::
            rest.map renderShares := by
  obtain ⟨hdb, hfiles⟩ := BackendFacade.getRecipeData_frame hrec
  have hparse : ParseFileRecipe recipe =
      .ok (recipe.head, spanRead recipe.entries recipe.head.numOfShares.toNat) := by
    unfold ParseFileRecipe numeric_cast
    simp only [PARANOID_CHECK, Bool.false_eq_true, false_and, if_false, not_lt.mpr hn]
  have hc0 : RestoreCursor.Ok B
      ⟨[.head ⟨recipe.head.fileSize, recipe.head.numOfShares⟩], SHARE_FILE_HEAD_SIZE, [],
        ShareFileBuffer.writeHead B shareFileData 0
          ⟨recipe.head.fileSize, recipe.head.numOfShares⟩⟩ :=
    ⟨by simp [SHARE_FILE_HEAD_SIZE], hhead, by simp [itemsSize, ShareFileItem.size],
      by intro f hf; simp at hf⟩
  have hl0 : RestoreCursor.Lays ⟨recipe.head.fileSize, recipe.head.numOfShares⟩
      ⟨[.head ⟨recipe.head.fileSize, recipe.head.numOfShares⟩], SHARE_FILE_HEAD_SIZE, [],
        ShareFileBuffer.writeHead B shareFileData 0
          ⟨recipe.head.fileSize, recipe.head.numOfShares⟩⟩ [] :=
    Or.inl ⟨rfl, by simp [renderShares]⟩
  obtain ⟨c', payloads, hloop, hok, hall, hlays⟩ :=
    @DedupCore.restoreLoop_lays E fuel s B _ hB _ _ _ hret hsmall hc0 hl0
  have hloop' : DedupCore.restoreLoop E fuel { s with backend_ := b } B
      (spanRead recipe.entries recipe.head.numOfShares.toNat)
      ⟨[.head ⟨recipe.head.fileSize, recipe.head.numOfShares⟩], SHARE_FILE_HEAD_SIZE, [],
        ShareFileBuffer.writeHead B shareFileData 0
          ⟨recipe.head.fileSize, recipe.head.numOfShares⟩⟩ =
      .ok () c' := by
    rw [DedupCore.restoreLoop_congr (s := s) hdb hfiles]
    exact hloop
  have hall' : List.Forall₂ (fun (e : fileRecipeEntry_t) (p : Bytes) =>
      p.length = e.shareSize.toNat ∧ ∃ span : Bytes, span.length = e.shareSize.toNat ∧
        s.restoreShare E fuel e.shareFP span = .ok p)
      (spanRead recipe.entries recipe.head.numOfShares.toNat) payloads := by
    refine List.Forall₂.imp ?_ hall
    rintro e p ⟨x, hx, hp⟩
    exact ⟨by rw [DedupCore.restoreShare_length hp, hx], x, hx, hp⟩
  refine ⟨c'.flushed ++ [⟨c'.shareFileBufferOffset, c'.written⟩], payloads, ?_, ?_, hall', ?_,
    ?_⟩
  · unfold DedupCore.restoreShareFile
    simp only [hfmt, hrec, hparse, LOOP_PARALLEL, Bool.false_eq_true, if_false, hloop',
      hok.pos, if_true]
  · intro f hf
    rcases List.mem_append.mp hf with h1 | h1
    · exact hok.flushed f h1
    · simp only [List.mem_singleton] at h1
      subst h1
      exact ⟨hok.pos, hok.le, hok.size⟩
  · simp only [List.nil_append] at hlays
    rcases hlays with ⟨hf, hw⟩ | ⟨first, rest, cur, hf, hw, hd⟩
    · simp [hf, hw]
    · have : (c'.flushed ++ [Flush.mk c'.shareFileBufferOffset c'.written]).flatMap
          (fun f => f.content) =
          ((c'.flushed.map (fun f => f.content)) ++ [c'.written]).flatten := by
        simp [List.flatMap, List.flatten_append]
      rw [this, hf, hw, ← hd, renderShares_append, renderShares_append, renderShares_flatten]
      simp [List.flatten_append]
  · simp only [List.nil_append] at hlays
    rcases hlays with ⟨hf, hw⟩ | ⟨first, rest, cur, hf, hw, hd⟩
    · exact ⟨(spanRead recipe.entries recipe.head.numOfShares.toNat).zip payloads, [],
        by simp, by simp [hf, hw]⟩
    · refine ⟨first, rest ++ [cur], ?_, ?_⟩
      · rw [← hd]; simp
      · simp [hf, hw]

/-! ## C15: the recipe of an upload in fragments -/

theorem writeEntries_fill {α : Type} (d : α) :
    ∀ (xs sub : List α) (m : Nat), xs.length ≤ m →
      writeEntries (sub ++ List.replicate m d) sub.length xs =
        sub ++ xs ++ List.replicate (m - xs.length) d := by
  intro xs
  induction xs with
  | nil => intro sub m _; simp [writeEntries]
  | cons x xs ih =>
    intro sub m h
    simp only [List.length_cons] at h
    obtain ⟨m', rfl⟩ : ∃ m', m = m' + 1 := ⟨m - 1, by omega⟩
    have hset : (sub ++ List.replicate (m' + 1) d).set sub.length x =
        (sub ++ [x]) ++ List.replicate m' d := by
      rw [List.set_append_right _ _ (le_refl _)]
      simp [List.replicate_succ]
    rw [writeEntries, hset]
    have := ih (sub ++ [x]) m' (by omega)
    simp only [List.length_append, List.length_singleton] at this
    rw [this]
    simp

/-- A call of `interUserIndexUpdate` leaves the recipe store alone. -/
theorem interUserIndexUpdate_recipe_frame {E : External} {fuel : Nat} {s s' : DedupCore}
    {fp : fingerprint_t} {u : user_id_t} {d : Bytes}
    (h : (s.interUserIndexUpdate E fuel fp u d).state? = some s') :
    s'.backend_.unfinishedRecipeFileCache_ = s.backend_.unfinishedRecipeFileCache_ ∧
    s'.backend_.recipeFiles = s.backend_.recipeFiles ∧
    s'.backend_.recipeCache_ = s.backend_.recipeCache_ := by
  have hstore : ∀ {feat payload depth baseFP dsize},
      (s.storeNewShare fp u d feat payload depth baseFP dsize).state? = some s' →
      s'.backend_.unfinishedRecipeFileCache_ = s.backend_.unfinishedRecipeFileCache_ ∧
      s'.backend_.recipeFiles = s.backend_.recipeFiles ∧
      s'.backend_.recipeCache_ = s.backend_.recipeCache_ := by
    intro feat payload depth baseFP dsize h1
    rcases storeNewShare_cases h1 with ⟨b, hb, rfl⟩ | ⟨name, off, b, hb, -, rfl⟩
    · have hp := BackendFacade.putShareData_step hb
      exact ⟨hp.unfinished, hp.recipes, hp.cache⟩
    · have hb' : (s.backend_.putShareData payload).state? = some b := by rw [hb]; rfl
      have hp := BackendFacade.putShareData_step hb'
      exact ⟨hp.unfinished, hp.recipes, hp.cache⟩
  rcases interUserIndexUpdate_cases h with rfl | ⟨v0, -, -, -, -, rfl⟩ | ⟨-, h1, -⟩ |
    ⟨-, baseFP, kBase, delta, -, h1⟩
  · exact ⟨rfl, rfl, rfl⟩
  · exact ⟨rfl, rfl, rfl⟩
  · exact hstore h1
  · exact hstore h1

theorem BackendFacade.setRecipeEntry_get {b : BackendFacade} {key : key_t} {sp : RecipeSpan}
    (hfirst : 0 ≤ sp.first) (i : Nat) (e : fileRecipeEntry_t) :
    (b.setRecipeEntry key sp i e).recipeFiles = b.recipeFiles ∧
    (b.setRecipeEntry key sp i e).recipeCache_ = b.recipeCache_ ∧
    ∀ buf total, kvGet key b.unfinishedRecipeFileCache_ = some (buf, total) →
      kvGet key (b.setRecipeEntry key sp i e).unfinishedRecipeFileCache_ =
        some ({ buf with entries := buf.entries.set (sp.first.toNat + i) e }, total) := by
  have hidx : ¬ (sp.first + (i : Int) < 0) := by omega
  have hnat : (sp.first + (i : Int)).toNat = sp.first.toNat + i := by omega
  unfold BackendFacade.setRecipeEntry
  simp only [hidx, if_false, hnat]
  refine ⟨trivial, trivial, ?_⟩
  intro buf total hget
  rw [kvGet_modify, if_pos rfl, hget]
  rfl

theorem secondStageLoop_recipe {E : External} {fuel : Nat} {u : user_id_t} {key : key_t}
    {sp : RecipeSpan} {data : Bytes} (hfirst : 0 ≤ sp.first) :
    ∀ (l : List (shareMetaEntry_t × Bool)) (i off : Nat) (s s' : DedupCore),
      DedupCore.secondStageLoop E fuel u key sp data l i off s = .ok () s' →
      s'.backend_.recipeFiles = s.backend_.recipeFiles ∧
      s'.backend_.recipeCache_ = s.backend_.recipeCache_ ∧
      ∀ buf total, kvGet key s.backend_.unfinishedRecipeFileCache_ = some (buf, total) →
        kvGet key s'.backend_.unfinishedRecipeFileCache_ =
          some ({ buf with entries := (writeEntries buf.entries (sp.first.toNat + i)
            (l.map (fun p => p.1.toRecipeEntry))) }, total) := by
  intro l
  induction l with
  | nil =>
    intro i off s s' h
    simp only [DedupCore.secondStageLoop, Res.ok.injEq, true_and] at h
    subst h
    exact ⟨rfl, rfl, fun buf total hg => by simpa [writeEntries] using hg⟩
  | cons a l ih =>
    intro i off s s' h
    obtain ⟨e, dup⟩ := a
    simp only [DedupCore.secondStageLoop] at h
    have hstep : ∀ (s1 : DedupCore),
        s1.backend_.unfinishedRecipeFileCache_ = s.backend_.unfinishedRecipeFileCache_ →
        s1.backend_.recipeFiles = s.backend_.recipeFiles →
        s1.backend_.recipeCache_ = s.backend_.recipeCache_ →
        DedupCore.secondStageLoop E fuel u key sp data l (i + 1) (off + 0)
            { s1 with backend_ := (s1.backend_.setRecipeEntry key sp i
              ⟨e.shareFP, e.secretID, e.secretSize, e.shareSize⟩) } = .ok () s' ∨
          (∃ off', DedupCore.secondStageLoop E fuel u key sp data l (i + 1) off'
            { s1 with backend_ := (s1.backend_.setRecipeEntry key sp i
              ⟨e.shareFP, e.secretID, e.secretSize, e.shareSize⟩) } = .ok () s') →
        s'.backend_.recipeFiles = s.backend_.recipeFiles ∧
        s'.backend_.recipeCache_ = s.backend_.recipeCache_ ∧
        ∀ buf total, kvGet key s.backend_.unfinishedRecipeFileCache_ = some (buf, total) →
          kvGet key s'.backend_.unfinishedRecipeFileCache_ =
            some ({ buf with entries := (writeEntries buf.entries (sp.first.toNat + i)
              (((e, dup) :: l).map (fun p => p.1.toRecipeEntry))) }, total) := by
      intro s1 hu hf hc hl
      have hl' : ∃ off', DedupCore.secondStageLoop E fuel u key sp data l (i + 1) off'
            { s1 with backend_ := (s1.backend_.setRecipeEntry key sp i
              ⟨e.shareFP, e.secretID, e.secretSize, e.shareSize⟩) } = .ok () s' := by
        rcases hl with h1 | h1
        · exact ⟨_, h1⟩
        · exact h1
      obtain ⟨off', hl''⟩ := hl'
      obtain ⟨h1, h2, h3⟩ := @BackendFacade.setRecipeEntry_get s1.backend_ key sp
        hfirst i ⟨e.shareFP, e.secretID, e.secretSize, e.shareSize⟩
      obtain ⟨g1, g2, g3⟩ := ih _ _ _ _ hl''
      refine ⟨g1.trans (h1.trans hf), g2.trans (h2.trans hc), ?_⟩
      intro buf total hget
      rw [← hu] at hget
      have := g3 _ _ (h3 buf total hget)
      rw [this]
      simp only [List.map_cons, writeEntries, shareMetaEntry_t.toRecipeEntry, Nat.add_assoc]
    cases dup with
    | true =>
      simp only [Bool.not_true, Bool.false_eq_true, if_false] at h
      exact hstep s rfl rfl rfl (Or.inr ⟨_, h⟩)
    | false =>
      simp only [Bool.not_false, if_true] at h
      cases hc : numeric_cast e.shareSize with
      | error m => simp [hc] at h
      | ok size =>
        simp only [hc] at h
        cases hi : DedupCore.interUserIndexUpdate E fuel s e.shareFP u
            (shareDataSlice data off size) with
        | abort w => simp [hi] at h
        | thrown m s1 => simp [hi] at h
        | ok x s1 =>
          simp only [hi] at h
          obtain ⟨f1, f2, f3⟩ := interUserIndexUpdate_recipe_frame (s := s)
            (by rw [hi]; rfl)
          exact hstep s1 f1 f2 f3 (Or.inr ⟨_, h⟩)

theorem BackendFacade.finishRecipeFile_building {E : External} {b b2 : BackendFacade}
    {key : key_t} {u u0 : user_id_t} {fsz : Int} {T : Nat} {sub xs : List fileRecipeEntry_t}
    {hd : fileShareMetaHead_t}
    (hget : kvGet key b.unfinishedRecipeFileCache_ =
      some (⟨⟨u0, fsz, (sub.length : Int)⟩,
        sub ++ xs ++ List.replicate (T - sub.length - xs.length) default⟩, T))
    (hcoming : hd.numOfComingSecrets = (xs.length : Int))
    (hfin : b.finishRecipeFile E u hd key = .ok () b2) :
    (T = (sub ++ xs).length →
      kvGet key b2.unfinishedRecipeFileCache_ = none ∧
      kvGet (BackendFacade.formatRecipeFileName E key) b2.recipeFiles =
        some ⟨⟨u0, fsz, T⟩, sub ++ xs⟩) ∧
    (T ≠ (sub ++ xs).length →
      b2.Building key u0 fsz T (sub ++ xs) ∧ b2.recipeFiles = b.recipeFiles ∧
      b2.recipeCache_ = b.recipeCache_) := by
  unfold BackendFacade.finishRecipeFile at hfin
  simp only [hget, hcoming] at hfin
  by_cases hov : ((sub.length : Int) + (xs.length : Int) > INT_MAX ∨
      (sub.length : Int) + (xs.length : Int) < -INT_MAX - 1)
  · simp [hov] at hfin
  · simp only [hov, if_false] at hfin
    by_cases hov2 : ((T : Int) = (sub.length : Int) + (xs.length : Int) ∧
        (FILE_RECIPE_HEAD_SIZE : Int) + FILE_RECIPE_ENTRY_SIZE *
          ((sub.length : Int) + (xs.length : Int)) > INT_MAX)
    · simp [hov2] at hfin
    · simp only [hov2, if_false, Res.ok.injEq, true_and] at hfin
      have hnat : ((sub.length : Int) + (xs.length : Int)).toNat = sub.length + xs.length := by
        omega
      constructor
      · intro hT
        simp only [List.length_append] at hT
        have hTi : (T : Int) = (sub.length : Int) + (xs.length : Int) := by omega
        simp only [hTi, if_true] at hfin
        subst hfin
        refine ⟨?_, ?_⟩
        · show kvGet key (kvErase key _) = none
          rw [kvGet_erase, if_pos rfl]
        · show kvGet _ ((_, _) :: _) = _
          rw [kvGet_cons_self]
          have hz : T - sub.length - xs.length = 0 := by omega
          have hlen : (sub ++ xs ++ List.replicate (T - sub.length - xs.length)
              (default : fileRecipeEntry_t)).length = sub.length + xs.length := by
            simp [hz]
          simp only [hnat]
          rw [← hlen, spanRead_self, hz]
          simp [hTi]
      · intro hT
        simp only [List.length_append] at hT
        have hTi : ¬ (T : Int) = (sub.length : Int) + (xs.length : Int) := by omega
        simp only [hTi, if_false] at hfin
        subst hfin
        refine ⟨?_, rfl, rfl⟩
        unfold BackendFacade.Building
        simp only
        rw [kvGet_modify, if_pos rfl, hget]
        simp only [Option.map_some', List.length_append, Nat.sub_sub]
        push_cast
        rfl

theorem Fragment.recipeEntries_length (f : Fragment) :
    f.recipeEntries.length = f.shareMeta.head.numOfComingSecrets.toNat := by
  simp [Fragment.recipeEntries, FileShareMeta.entriesView, spanRead_length]

theorem zip_map_fst_recipe (m : FileShareMeta) (dup : List Bool) :
    (m.entriesView.zip (spanRead dup m.entriesView.length)).map
      (fun p => p.1.toRecipeEntry) = m.entriesView.map shareMetaEntry_t.toRecipeEntry := by
  have h : (m.entriesView.zip (spanRead dup m.entriesView.length)).map Prod.fst =
      m.entriesView := by
    apply List.map_fst_zip
    rw [spanRead_length]
  conv_rhs => rw [← h]
  rw [List.map_map]
  rfl

/-- The loop and `finishRecipeFile` of a call of `secondStageDedup`, on a buffer that holds the
entries `sub`: the fragment adds its entries, and the recipe is persisted when that makes
`total` entries. -/
theorem secondStage_building {E : External} {fuel : Nat} {u u0 : user_id_t} {key : key_t}
    {sp : RecipeSpan} {T : Nat} {fsz : Int} {sub : List fileRecipeEntry_t} {f : Fragment}
    {s s1 : DedupCore} {b2 : BackendFacade}
    (hb : s.backend_.Building key u0 fsz T sub) (hsp : sp.first = (sub.length : Int))
    (hcoming : 0 ≤ f.shareMeta.head.numOfComingSecrets)
    (hle : sub.length + f.recipeEntries.length ≤ T)
    (hloop : DedupCore.secondStageLoop E fuel u key sp f.shareData
      (f.shareMeta.entriesView.zip (spanRead f.dupStat f.shareMeta.entriesView.length)) 0 0 s =
        .ok () s1)
    (hfin : s1.backend_.finishRecipeFile E u f.shareMeta.head key = .ok () b2) :
    (T = (sub ++ f.recipeEntries).length →
      kvGet key b2.unfinishedRecipeFileCache_ = none ∧
      kvGet (BackendFacade.formatRecipeFileName E key) b2.recipeFiles =
        some ⟨⟨u0, fsz, T⟩, sub ++ f.recipeEntries⟩) ∧
    (T ≠ (sub ++ f.recipeEntries).length →
      b2.Building key u0 fsz T (sub ++ f.recipeEntries) ∧
      b2.recipeFiles = s.backend_.recipeFiles ∧ b2.recipeCache_ = s.backend_.recipeCache_) := by
  obtain ⟨g1, g2, g3⟩ := @secondStageLoop_recipe E fuel u key sp f.shareData (by rw [hsp]; omega) _ _ _ _ _ hloop
  have hget := g3 _ _ hb
  have hpos : sp.first.toNat + 0 = sub.length := by rw [hsp]; omega
  rw [zip_map_fst_recipe] at hget
  simp only [hpos] at hget
  have hfill := writeEntries_fill (default : fileRecipeEntry_t) f.recipeEntries sub
    (T - sub.length) (by omega)
  unfold Fragment.recipeEntries at hfill hle ⊢
  rw [hfill] at hget
  have hc : f.shareMeta.head.numOfComingSecrets =
      ((f.shareMeta.entriesView.map shareMetaEntry_t.toRecipeEntry).length : Int) := by
    have := f.recipeEntries_length
    unfold Fragment.recipeEntries at this
    rw [this]
    omega
  obtain ⟨r1, r2⟩ := BackendFacade.finishRecipeFile_building hget hc hfin
  refine ⟨r1, fun hT => ?_⟩
  obtain ⟨q1, q2, q3⟩ := r2 hT
  exact ⟨q1, q2.trans g1, q3.trans g2⟩

theorem BackendFacade.putRecipeFile_first {b b' : BackendFacade} {u : user_id_t} {key : key_t}
    {hd : fileShareMetaHead_t} {T : Nat} {sp : RecipeSpan}
    (hnone : kvGet key b.unfinishedRecipeFileCache_ = none) (hpast : hd.numOfPastSecrets = 0)
    (h : b.putRecipeFile u key hd T = .ok sp b') :
    sp.first = 0 ∧ b'.Building key u hd.fileSize T [] ∧ b'.recipeFiles = b.recipeFiles ∧
      b'.recipeCache_ = b.recipeCache_ := by
  unfold BackendFacade.putRecipeFile at h
  simp only [hpast, if_true, hnone] at h
  cases hc : numeric_cast hd.numOfComingSecrets with
  | error e => simp [hc] at h
  | ok n =>
    simp only [hc, Res.ok.injEq] at h
    obtain ⟨rfl, rfl⟩ := h
    refine ⟨rfl, ?_, rfl, rfl⟩
    unfold BackendFacade.Building
    simp only
    rw [kvGet_modify, if_pos rfl, kvGet_cons_self]
    simp

theorem BackendFacade.putRecipeFile_later {b b' : BackendFacade} {u : user_id_t} {key : key_t}
    {hd : fileShareMetaHead_t} {T : Nat} {sp : RecipeSpan}
    (hpast : hd.numOfPastSecrets ≠ 0) (h : b.putRecipeFile u key hd T = .ok sp b') :
    sp.first = hd.numOfPastSecrets ∧ b' = b ∧ (kvGet key b.unfinishedRecipeFileCache_).isSome := by
  unfold BackendFacade.putRecipeFile at h
  simp only [hpast, if_false] at h
  cases hg : kvGet key b.unfinishedRecipeFileCache_ with
  | none => simp [hg] at h
  | some p =>
    obtain ⟨buf, total⟩ := p
    simp only [hg, PARANOID_CHECK, Bool.false_eq_true, false_and, if_false] at h
    split at h
    · cases h
    · cases hc : numeric_cast hd.numOfComingSecrets with
      | error e => simp [hc] at h
      | ok n =>
        simp only [hc, Res.ok.injEq] at h
        obtain ⟨rfl, rfl⟩ := h
        exact ⟨rfl, rfl, rfl⟩

section fragments
variable {E : External} {fuel : Nat} {u : user_id_t} {T : Nat}

theorem DedupCore.secondStageRun_cons {f : Fragment} {rest : List Fragment}
    {s s2 : DedupCore} (h : s.secondStageRun E fuel u T (f :: rest) = .ok () s2) :
    ∃ s', s.secondStageDedup E fuel u f.shareMeta f.shareData f.dupStat T = .ok () s' ∧
      s'.secondStageRun E fuel u T rest = .ok () s2 := by
  rw [DedupCore.secondStageRun] at h
  cases hs : s.secondStageDedup E fuel u f.shareMeta f.shareData f.dupStat T with
  | thrown m s1 => simp [hs] at h
  | abort w => simp [hs] at h
  | ok x s1 =>
    simp only [hs] at h
    exact ⟨s1, rfl, h⟩

/-- A fragment that announces past entries finds the unfinished buffer of its key, and adds
its entries to it. -/
theorem fragment_later {f : Fragment} {s s' : DedupCore} {name fullName : List Char}
    (hname : spanRead f.shareMeta.fullFileName f.shareMeta.head.fullNameSize.toNat = name)
    (hfmt : FormatFullFileName name = .ok fullName)
    (hpast : f.shareMeta.head.numOfPastSecrets ≠ 0)
    (hs : s.secondStageDedup E fuel u f.shareMeta f.shareData f.dupStat T = .ok () s') :
    (kvGet (ToIndexKey .RECIPE (ToRecipeFP E fullName u))
      s.backend_.unfinishedRecipeFileCache_).isSome ∧
    ∀ (u0 : user_id_t) (fsz : Int) (sub : List fileRecipeEntry_t),
      s.backend_.Building (ToIndexKey .RECIPE (ToRecipeFP E fullName u)) u0 fsz T sub →
      f.shareMeta.head.numOfPastSecrets = (sub.length : Int) →
      sub.length + f.recipeEntries.length ≤ T →
      (T = (sub ++ f.recipeEntries).length →
        kvGet (ToIndexKey .RECIPE (ToRecipeFP E fullName u))
          s'.backend_.unfinishedRecipeFileCache_ = none ∧
        kvGet (BackendFacade.formatRecipeFileName E (ToIndexKey .RECIPE (ToRecipeFP E fullName u)))
          s'.backend_.recipeFiles = some ⟨⟨u0, fsz, T⟩, sub ++ f.recipeEntries⟩) ∧
      (T ≠ (sub ++ f.recipeEntries).length →
        s'.backend_.Building (ToIndexKey .RECIPE (ToRecipeFP E fullName u)) u0 fsz T
          (sub ++ f.recipeEntries) ∧
        s'.backend_.recipeFiles = s.backend_.recipeFiles ∧
        s'.backend_.recipeCache_ = s.backend_.recipeCache_) := by
  obtain ⟨name', fullName', sp, b, s1, b2, hparse, hfmt', hput, hloop, hfin, rfl⟩ :=
    secondStageDedup_ok hs
  obtain ⟨-, -, hcoming, hn⟩ := ParseFileShareMeta_ok hparse
  rw [hname] at hn
  subst hn
  rw [hfmt] at hfmt'
  cases hfmt'
  obtain ⟨hsp, rfl, hsome⟩ := BackendFacade.putRecipeFile_later hpast hput
  refine ⟨hsome, ?_⟩
  intro u0 fsz sub hb hp hle
  exact secondStage_building (s := s) hb (by rw [hsp, hp]) hcoming hle hloop hfin

/-- The first fragment of a file whose key has no unfinished buffer opens the buffer and puts
its entries in. -/
theorem fragment_first {f : Fragment} {s s' : DedupCore} {name fullName : List Char}
    (hname : spanRead f.shareMeta.fullFileName f.shareMeta.head.fullNameSize.toNat = name)
    (hfmt : FormatFullFileName name = .ok fullName)
    (hnone : kvGet (ToIndexKey .RECIPE (ToRecipeFP E fullName u))
      s.backend_.unfinishedRecipeFileCache_ = none)
    (hpast : f.shareMeta.head.numOfPastSecrets = 0)
    (hle : f.recipeEntries.length ≤ T)
    (hs : s.secondStageDedup E fuel u f.shareMeta f.shareData f.dupStat T = .ok () s') :
    (T = f.recipeEntries.length →
      kvGet (ToIndexKey .RECIPE (ToRecipeFP E fullName u))
        s'.backend_.unfinishedRecipeFileCache_ = none ∧
      kvGet (BackendFacade.formatRecipeFileName E (ToIndexKey .RECIPE (ToRecipeFP E fullName u)))
        s'.backend_.recipeFiles = some ⟨⟨u, f.shareMeta.head.fileSize, T⟩, f.recipeEntries⟩) ∧
    (T ≠ f.recipeEntries.length →
      s'.backend_.Building (ToIndexKey .RECIPE (ToRecipeFP E fullName u)) u
        f.shareMeta.head.fileSize T f.recipeEntries ∧
      s'.backend_.recipeFiles = s.backend_.recipeFiles ∧
      s'.backend_.recipeCache_ = s.backend_.recipeCache_) := by
  obtain ⟨name', fullName', sp, b, s1, b2, hparse, hfmt', hput, hloop, hfin, rfl⟩ :=
    secondStageDedup_ok hs
  obtain ⟨-, -, hcoming, hn⟩ := ParseFileShareMeta_ok hparse
  rw [hname] at hn
  subst hn
  rw [hfmt] at hfmt'
  cases hfmt'
  obtain ⟨hsp, hb, hfiles, hcache⟩ := BackendFacade.putRecipeFile_first hnone hpast hput
  have h := @secondStage_building E fuel u u _ sp T f.shareMeta.head.fileSize [] f
    { s with backend_ := b } s1 b2 hb
    (by rw [hsp]; rfl) hcoming (by simpa using hle) hloop hfin
  simp only [List.nil_append] at h
  refine ⟨h.1, fun hT => ?_⟩
  obtain ⟨q1, q2, q3⟩ := h.2 hT
  exact ⟨q1, q2.trans hfiles, q3.trans hcache⟩

end fragments

section fragments
variable {E : External} {fuel : Nat} {u : user_id_t} {T : Nat}

theorem fragment_coming {f : Fragment} {s s' : DedupCore}
    (hs : s.secondStageDedup E fuel u f.shareMeta f.shareData f.dupStat T = .ok () s') :
    0 ≤ f.shareMeta.head.numOfComingSecrets := by
  obtain ⟨name', fullName', sp, b, s1, b2, hparse, -⟩ := secondStageDedup_ok hs
  exact (ParseFileShareMeta_ok hparse).2.2.1

theorem DedupCore.secondStageRun_nil (s : DedupCore) :
    s.secondStageRun E fuel u T [] = .ok () s := by
  rw [DedupCore.secondStageRun]

theorem DedupCore.secondStageRun_step {f : Fragment} {rest : List Fragment}
    {s s' : DedupCore}
    (h : s.secondStageDedup E fuel u f.shareMeta f.shareData f.dupStat T = .ok () s') :
    s.secondStageRun E fuel u T (f :: rest) = s'.secondStageRun E fuel u T rest := by
  rw [DedupCore.secondStageRun, h]

/-- While later fragments of a file still return, the unfinished buffer of the key collects
their entries and neither the recipe files nor the recipe cache change. -/
theorem secondStageRun_building {last : Fragment} {name fullName : List Char}
    (hfmt : FormatFullFileName name = .ok fullName) {u0 : user_id_t} {fsz : Int}
    {s2 : DedupCore} :
    ∀ (pre : List Fragment) (s : DedupCore) (sub : List fileRecipeEntry_t),
      s.backend_.Building (ToIndexKey .RECIPE (ToRecipeFP E fullName u)) u0 fsz T sub →
      sub ≠ [] →
      Fragment.Follow (sub.length : Int) (pre ++ [last]) →
      Fragment.Named name (pre ++ [last]) →
      s.secondStageRun E fuel u T (pre ++ [last]) = .ok () s2 →
      sub.length + ((pre ++ [last]).map (fun f => f.recipeEntries.length)).sum ≤ T →
      ∃ s1, s.secondStageRun E fuel u T pre = .ok () s1 ∧
        s1.secondStageDedup E fuel u last.shareMeta last.shareData last.dupStat T = .ok () s2 ∧
        s1.backend_.Building (ToIndexKey .RECIPE (ToRecipeFP E fullName u)) u0 fsz T
          (sub ++ pre.flatMap Fragment.recipeEntries) ∧
        s1.backend_.recipeFiles = s.backend_.recipeFiles ∧
        s1.backend_.recipeCache_ = s.backend_.recipeCache_ ∧
        last.shareMeta.head.numOfPastSecrets =
          ((sub ++ pre.flatMap Fragment.recipeEntries).length : Int) := by
  intro pre
  induction pre with
  | nil =>
    intro s sub hb hne hfollow hnamed hrun hsum
    obtain ⟨s', hs, hrest⟩ := DedupCore.secondStageRun_cons hrun
    rw [DedupCore.secondStageRun_nil] at hrest
    cases hrest
    refine ⟨s, DedupCore.secondStageRun_nil s, hs, ?_, rfl, rfl, ?_⟩
    · simpa using hb
    · simpa using hfollow.1
  | cons f pre ih =>
    intro s sub hb hne hfollow hnamed hrun hsum
    have hrun0 : s.secondStageRun E fuel u T (f :: (pre ++ [last])) = .ok () s2 := hrun
    have hfollow0 : Fragment.Follow (sub.length : Int) (f :: (pre ++ [last])) := hfollow
    have hnamed0 : Fragment.Named name (f :: (pre ++ [last])) := hnamed
    clear hrun hfollow hnamed
    obtain ⟨s', hs, hrest⟩ := DedupCore.secondStageRun_cons hrun0
    obtain ⟨hp, hfol⟩ := hfollow0
    have hnamed : Fragment.Named name (pre ++ [last]) :=
      fun g hg => hnamed0 g (List.mem_cons_of_mem f hg)
    have hlen : 0 < sub.length := List.length_pos.mpr hne
    have hpast : f.shareMeta.head.numOfPastSecrets ≠ 0 := by
      rw [hp]
      exact_mod_cast hlen.ne'
    have hc : 0 ≤ f.shareMeta.head.numOfComingSecrets := fragment_coming hs
    have hname := hnamed0 f (List.mem_cons_self f _)
    obtain ⟨-, hstep⟩ := fragment_later hname hfmt hpast hs
    have hsum' : sub.length + f.recipeEntries.length +
        ((pre ++ [last]).map (fun f => f.recipeEntries.length)).sum ≤ T := by
      simp only [List.cons_append, List.map_cons, List.sum_cons] at hsum
      omega
    have hcast : ((sub ++ f.recipeEntries).length : Int) =
        (sub.length : Int) + f.shareMeta.head.numOfComingSecrets := by
      rw [List.length_append, Fragment.recipeEntries_length]
      push_cast
      rw [Int.toNat_of_nonneg hc]
    have hst := hstep u0 fsz sub hb hp (by omega)
    by_cases hT : T = (sub ++ f.recipeEntries).length
    · exfalso
      have herased := (hst.1 hT).1
      cases hpl : pre ++ [last] with
      | nil => simp at hpl
      | cons g r =>
        rw [hpl] at hrest hfol hnamed
        obtain ⟨s'', hg, -⟩ := DedupCore.secondStageRun_cons hrest
        have hgp : g.shareMeta.head.numOfPastSecrets ≠ 0 := by
          rw [hfol.1]
          have : (0 : Int) < (sub.length : Int) := by exact_mod_cast hlen
          omega
        have hgn := hnamed g (by simp)
        obtain ⟨hsome, -⟩ := fragment_later hgn hfmt hgp hg
        rw [herased] at hsome
        simp at hsome
    · obtain ⟨hb', hfiles, hcache⟩ := hst.2 hT
      have hne' : sub ++ f.recipeEntries ≠ [] := by simp [hne]
      obtain ⟨s1, hrun1, hlast, hb1, hf1, hc1, hp1⟩ :=
        ih s' (sub ++ f.recipeEntries) hb' hne' (by rw [hcast]; exact hfol)
          hnamed hrest
          (by rw [List.length_append]; exact hsum')
      refine ⟨s1, ?_, hlast, ?_, hf1.trans hfiles, hc1.trans hcache, ?_⟩
      · rw [DedupCore.secondStageRun_step hs]
        exact hrun1
      · simpa [List.flatMap_cons, List.append_assoc] using hb1
      · simpa [List.flatMap_cons, List.append_assoc] using hp1

end fragments

section fragments
variable {E : External} {fuel : Nat} {u : user_id_t} {T : Nat}

theorem secondStageRun_sum : ∀ (frags : List Fragment) (s s2 : DedupCore),
    s.secondStageRun E fuel u T frags = .ok () s2 →
    (frags.map (fun f => f.shareMeta.head.numOfComingSecrets)).sum =
      (((frags.map (fun f => f.recipeEntries.length)).sum : Nat) : Int) := by
  intro frags
  induction frags with
  | nil => intro s s2 _; simp
  | cons f rest ih =>
    intro s s2 h
    obtain ⟨s', hs, hrest⟩ := DedupCore.secondStageRun_cons h
    have hc := fragment_coming hs
    simp only [List.map_cons, List.sum_cons, ih s' s2 hrest, Fragment.recipeEntries_length]
    push_cast
    rw [Int.toNat_of_nonneg hc]

theorem flatMap_recipeEntries_length (frags : List Fragment) :
    (frags.flatMap Fragment.recipeEntries).length =
      (frags.map (fun f => f.recipeEntries.length)).sum := by
  induction frags with
  | nil => rfl
  | cons f rest ih => simp [List.flatMap_cons, ih]

/-- Once the buffer of a key is gone, no fragment that announces past entries returns. -/
theorem erased_stops {g : Fragment} {r : List Fragment} {s s2 : DedupCore}
    {name fullName : List Char}
    (hname : spanRead g.shareMeta.fullFileName g.shareMeta.head.fullNameSize.toNat = name)
    (hfmt : FormatFullFileName name = .ok fullName)
    (hnone : kvGet (ToIndexKey .RECIPE (ToRecipeFP E fullName u))
      s.backend_.unfinishedRecipeFileCache_ = none)
    (hpast : g.shareMeta.head.numOfPastSecrets ≠ 0)
    (hrun : s.secondStageRun E fuel u T (g :: r) = .ok () s2) : False := by
  obtain ⟨s'', hg, -⟩ := DedupCore.secondStageRun_cons hrun
  obtain ⟨hsome, -⟩ := fragment_later hname hfmt hpast hg
  rw [hnone] at hsome
  simp at hsome

end fragments

/-- C15 (amended): user `u` sends the fragments `first :: rest` of the file `name`, whose key
has no unfinished buffer when `first` arrives; `first` announces `numOfPastSecrets = 0` and
carries at least one entry, each later fragment announces the number of entries submitted
before it, the `numOfComingSecrets` sum to `totalNumOfShares`, and every call of
`secondStageDedup` returns. Then in the state before the last call the unfinished-recipe map
holds the buffer of the key with the entries submitted so far, while the recipe files and the
recipe cache are as they were before the upload; after the last call the key is gone from the
unfinished-recipe map and the recipe file holds a head with the uploader, the file size of the
first fragment and `totalNumOfShares`, and the entries (shareFP, secretID, secretSize,
shareSize) of all submitted meta entries in order, duplicates or not. -/
theorem DedupCore.recipe_of_fragments {E : External} {fuel : Nat} {u : user_id_t} {T : Nat}
    {s0 s2 : DedupCore} {first : Fragment} {rest : List Fragment} {name fullName : List Char}
    (hnamed : Fragment.Named name (first :: rest))
    (hfmt : FormatFullFileName name = .ok fullName)
    (hfresh : kvGet (ToIndexKey .RECIPE (ToRecipeFP E fullName u))
      s0.backend_.unfinishedRecipeFileCache_ = none)
    (hpos : 0 < first.shareMeta.head.numOfComingSecrets)
    (hfollow : Fragment.Follow 0 (first :: rest))
    (hsum : ((first :: rest).map (fun f => f.shareMeta.head.numOfComingSecrets)).sum = (T : Int))
    (hrun : s0.secondStageRun E fuel u T (first :: rest) = .ok () s2) :
    (∀ (pre : List Fragment) (last : Fragment), first :: rest = pre ++ [last] →
      ∃ s1, s0.secondStageRun E fuel u T pre = .ok () s1 ∧
        s1.secondStageDedup E fuel u last.shareMeta last.shareData last.dupStat T = .ok () s2 ∧
        (pre ≠ [] →
          s1.backend_.Building (ToIndexKey .RECIPE (ToRecipeFP E fullName u)) u
            first.shareMeta.head.fileSize T (pre.flatMap Fragment.recipeEntries)) ∧
        s1.backend_.recipeFiles = s0.backend_.recipeFiles ∧
        s1.backend_.recipeCache_ = s0.backend_.recipeCache_) ∧
    kvGet (ToIndexKey .RECIPE (ToRecipeFP E fullName u))
      s2.backend_.unfinishedRecipeFileCache_ = none ∧
    kvGet (BackendFacade.formatRecipeFileName E (ToIndexKey .RECIPE (ToRecipeFP E fullName u)))
      s2.backend_.recipeFiles =
        some ⟨⟨u, first.shareMeta.head.fileSize, T⟩,
          (first :: rest).flatMap Fragment.recipeEntries⟩ := by
  have hsumN : ((first :: rest).map (fun f => f.recipeEntries.length)).sum = T := by
    have h := secondStageRun_sum _ _ _ hrun
    rw [hsum] at h
    exact_mod_cast h.symm
  obtain ⟨s', hs, hrest⟩ := DedupCore.secondStageRun_cons hrun
  obtain ⟨hp0, hfol⟩ := hfollow
  have hname := hnamed first (List.mem_cons_self _ _)
  have hc : 0 ≤ first.shareMeta.head.numOfComingSecrets := le_of_lt hpos
  have hlen1 : 0 < first.recipeEntries.length := by
    rw [Fragment.recipeEntries_length]
    omega
  have hne : first.recipeEntries ≠ [] := List.length_pos.mp hlen1
  have hle : first.recipeEntries.length ≤ T := by
    rw [← hsumN]
    simp only [List.map_cons, List.sum_cons]
    omega
  have hF := fragment_first hname hfmt hfresh hp0 hle hs
  have hsplit : rest = [] ∨ ∃ mid last, rest = mid ++ [last] := by
    rcases List.eq_nil_or_concat rest with h | ⟨mid, last, h⟩
    · exact Or.inl h
    · exact Or.inr ⟨mid, last, by rw [h, List.concat_eq_append]⟩
  rcases hsplit with hnil | ⟨mid, last, hcat⟩
  · subst hnil
    rw [DedupCore.secondStageRun_nil] at hrest
    cases hrest
    have hT : T = first.recipeEntries.length := by
      rw [← hsumN]
      simp
    refine ⟨?_, ?_⟩
    · intro pre last hpl
      cases pre with
      | nil =>
        simp only [List.nil_append, List.cons.injEq, and_true] at hpl
        subst hpl
        exact ⟨s0, DedupCore.secondStageRun_nil s0, hs, fun h => absurd rfl h, rfl, rfl⟩
      | cons p pre' =>
        simp at hpl
    · simpa using hF.1 hT
  · subst hcat
    have hnamed' : Fragment.Named name (mid ++ [last]) :=
      fun g hg => hnamed g (List.mem_cons_of_mem _ hg)
    have hcast : ((first.recipeEntries.length : Nat) : Int) =
        0 + first.shareMeta.head.numOfComingSecrets := by
      rw [Fragment.recipeEntries_length, Int.toNat_of_nonneg hc]
      simp
    by_cases hT : T = first.recipeEntries.length
    · exfalso
      have herased := (hF.1 hT).1
      cases hpl : mid ++ [last] with
      | nil => simp at hpl
      | cons g r =>
        rw [hpl] at hrest hfol hnamed'
        have hgp : g.shareMeta.head.numOfPastSecrets ≠ 0 := by
          rw [hfol.1]
          omega
        exact erased_stops (hnamed' g (List.mem_cons_self _ _)) hfmt herased hgp hrest
    · obtain ⟨hb', hfiles, hcache⟩ := hF.2 hT
      have hbound : first.recipeEntries.length +
          ((mid ++ [last]).map (fun f => f.recipeEntries.length)).sum ≤ T := by
        rw [← hsumN]
        simp only [List.map_cons, List.sum_cons]
        exact le_refl _
      obtain ⟨s1, hrun1, hlast, hb1, hf1, hc1, hp1⟩ :=
        secondStageRun_building hfmt mid s' first.recipeEntries hb' hne
          (by rw [hcast]; exact hfol) hnamed' hrest hbound
      have hrun01 : s0.secondStageRun E fuel u T (first :: mid) = .ok () s1 := by
        rw [DedupCore.secondStageRun_step hs]
        exact hrun1
      have hflat : first.recipeEntries ++ mid.flatMap Fragment.recipeEntries =
          (first :: mid).flatMap Fragment.recipeEntries := by
        simp [List.flatMap_cons]
      rw [hflat] at hb1 hp1
      refine ⟨?_, ?_⟩
      · intro pre last' hpl
        have hpl' : (first :: mid) ++ [last] = pre ++ [last'] := hpl
        obtain ⟨h1, h2⟩ := List.append_inj' hpl' rfl
        simp only [List.cons.injEq, and_true] at h2
        subst h1
        subst h2
        exact ⟨s1, hrun01, hlast, fun _ => hb1, hf1.trans hfiles, hc1.trans hcache⟩
      · have hlp : last.shareMeta.head.numOfPastSecrets ≠ 0 := by
          rw [hp1]
          simp only [List.flatMap_cons, List.length_append]
          push_cast
          omega
        have hnl := hnamed' last (by simp)
        obtain ⟨-, hstep⟩ := fragment_later hnl hfmt hlp hlast
        have hall : (first :: (mid ++ [last])).flatMap Fragment.recipeEntries =
            (first :: mid).flatMap Fragment.recipeEntries ++ last.recipeEntries := by
          simp [List.flatMap_cons, List.flatMap_append]
        have hTall : T = ((first :: mid).flatMap Fragment.recipeEntries ++
            last.recipeEntries).length := by
          rw [← hall, flatMap_recipeEntries_length, hsumN]
        have hst := hstep u first.shareMeta.head.fileSize
          ((first :: mid).flatMap Fragment.recipeEntries) hb1 hp1
          (by rw [← List.length_append]; exact le_of_eq hTall.symm)
        rw [hall]
        exact hst.1 hTall

/-! ## Instances on concrete runs -/

/-- C15 (as stated, fails): user 1 sends `/a` to the empty store as an upload of one share in
two fragments, the first without entries and announcing a file of 10 bytes, the second with
`numOfPastSecrets = 0`, the number of entries submitted before it, announcing 20 bytes. The
claim's conditions hold, and the persisted recipe carries the file size of the second
fragment. Likewise, when the entries are complete before the last fragment, here one entry
followed by a fragment without entries, the recipe is persisted before the last call, which
then throws. -/
theorem DedupCore.recipe_after_empty_fragment :
    Fragment.Follow 0 [Sample.emptyFragment, Sample.soleFragment] ∧
    ([Sample.emptyFragment, Sample.soleFragment].map
      (fun f => f.shareMeta.head.numOfComingSecrets)).sum = ((1 : Nat) : Int) ∧
    kvGet Sample.recipeKey DedupCore.new.backend_.unfinishedRecipeFileCache_ = none ∧
    DedupCore.new.secondStageRun External.sample 2 1 1
      [Sample.emptyFragment, Sample.soleFragment] = .ok () Sample.afterEmptyFragment ∧
    kvGet Sample.recipeKey Sample.afterEmptyFragment.backend_.unfinishedRecipeFileCache_ = none ∧
    kvGet (BackendFacade.formatRecipeFileName External.sample Sample.recipeKey)
      Sample.afterEmptyFragment.backend_.recipeFiles =
        some ⟨⟨1, 20, 1⟩, [⟨[1], 0, 2, 2⟩]⟩ ∧
    Sample.emptyFragment.shareMeta.head.fileSize = 10 ∧
    Fragment.Follow 0 [Sample.soleFragment, Sample.trailingFragment] ∧
    ([Sample.soleFragment, Sample.trailingFragment].map
      (fun f => f.shareMeta.head.numOfComingSecrets)).sum = ((1 : Nat) : Int) ∧
    ∃ s1 s2, DedupCore.new.secondStageRun External.sample 2 1 1 [Sample.soleFragment] =
        .ok () s1 ∧
      kvGet Sample.recipeKey s1.backend_.unfinishedRecipeFileCache_ = none ∧
      kvGet (BackendFacade.formatRecipeFileName External.sample Sample.recipeKey)
        s1.backend_.recipeFiles = some ⟨⟨1, 20, 1⟩, [⟨[1], 0, 2, 2⟩]⟩ ∧
      DedupCore.new.secondStageRun External.sample 2 1 1
        [Sample.soleFragment, Sample.trailingFragment] =
          .thrown "fail to find the recipe file in cache" s2 :=
  ⟨⟨rfl, rfl, trivial⟩, by decide, rfl, rfl, rfl, rfl, rfl, ⟨rfl, rfl, trivial⟩, by decide,
    _, _, rfl, rfl, rfl, rfl⟩

/-- Instance of the amended C15: user 1 sends `/a` to the empty store in two fragments of one
share each. -/
theorem DedupCore.recipe_of_fragments_witness :
    (∀ (pre : List Fragment) (last : Fragment),
      Sample.firstFragment :: [Sample.lastFragment] = pre ++ [last] →
      ∃ s1, DedupCore.new.secondStageRun External.sample 2 1 2 pre = .ok () s1 ∧
        s1.secondStageDedup External.sample 2 1 last.shareMeta last.shareData last.dupStat 2 =
          .ok () Sample.afterFragments ∧
        (pre ≠ [] →
          s1.backend_.Building (ToIndexKey .RECIPE (ToRecipeFP External.sample ['/', 'a'] 1)) 1
            Sample.firstFragment.shareMeta.head.fileSize 2
            (pre.flatMap Fragment.recipeEntries)) ∧
        s1.backend_.recipeFiles = DedupCore.new.backend_.recipeFiles ∧
        s1.backend_.recipeCache_ = DedupCore.new.backend_.recipeCache_) ∧
    kvGet (ToIndexKey .RECIPE (ToRecipeFP External.sample ['/', 'a'] 1))
      Sample.afterFragments.backend_.unfinishedRecipeFileCache_ = none ∧
    kvGet (BackendFacade.formatRecipeFileName External.sample
        (ToIndexKey .RECIPE (ToRecipeFP External.sample ['/', 'a'] 1)))
      Sample.afterFragments.backend_.recipeFiles =
        some ⟨⟨1, Sample.firstFragment.shareMeta.head.fileSize, ((2 : Nat) : Int)⟩,
          (Sample.firstFragment :: [Sample.lastFragment]).flatMap Fragment.recipeEntries⟩ :=
  @DedupCore.recipe_of_fragments External.sample 2 1 2 DedupCore.new Sample.afterFragments
    Sample.firstFragment [Sample.lastFragment] ['/', 'a'] ['/', 'a']
    (by
      intro f hf
      rcases List.mem_cons.mp hf with h | h
      · rw [h]; rfl
      · rw [List.mem_singleton.mp h]; rfl)
    rfl rfl (by decide) ⟨rfl, rfl, trivial⟩ (by decide) rfl

/-- C17 (as stated, fails): user 1 uploads `/a` with the share `[5, 6]` of fingerprint `[1]`,
then uploads `/b` with a META packet whose one entry names the fingerprint `[1]` with the
share size -1. The first stage reports the share as a duplicate, so the entry goes into
the recipe as it is: the stored recipe of `/b` has one entry, and `SHARE_ENTRY_SIZE +
shareSize = 11` is smaller than the buffer `ClientDownload` hands over. The download of `/b`
then ends in the exception of `boost::numeric_cast<std::size_t>(shareSize)`, before any call
of `flushCallBack`: nothing is flushed, not even the share file head. -/
theorem DedupCore.restoreShareFile_negative_share :
    ClientUpload.run External.sample 2 1 [Sample.firstUpload] DedupCore.new =
      .ok [[false]] Sample.afterFirst ∧
    ClientUpload.run External.sample 2 1 [Sample.negativeUpload] Sample.afterFirst =
      .ok [[true]] Sample.afterNegative ∧
    (Sample.afterNegative.backend_.getRecipeData External.sample
        (ToIndexKey .RECIPE (ToRecipeFP External.sample ['/', 'b'] 1))).value? =
      some ⟨⟨1, 2, 1⟩, [⟨[1], 0, 2, -1⟩]⟩ ∧
    (∀ e ∈ [(⟨[1], 0, 2, -1⟩ : fileRecipeEntry_t)],
      (SHARE_ENTRY_SIZE : Int) + e.shareSize <
        ((SHARE_FILE_BUFFER_LEN - PACKET_HEADER_SIZE : Nat) : Int)) ∧
    (∃ st, ClientDownload.run External.sample 2 1 Sample.afterNegative ['/', 'b'] =
      .thrown "bad numeric conversion: negative overflow" (st, [])) ∧
    (∀ (shareFileData : ShareFileBuffer) (bufferSize : Nat),
      (Sample.afterNegative.restoreShareFile External.sample 2 1 ['/', 'b'] shareFileData
        bufferSize).flushes? = none) :=
  ⟨rfl, rfl, by decide, by decide, ⟨_, rfl⟩, fun _ _ => rfl⟩

/-- Instance of the amended C17: download of `/a` after `Sample.firstUpload`, with the buffer
that `ClientDownload` hands over. -/
theorem DedupCore.restoreShareFile_stream_witness :
    ∃ (flushes : List Flush) (payloads : List Bytes),
      Sample.afterFirst.restoreShareFile External.sample 2 1 ['/', 'a'] (fun _ => 0)
          (SHARE_FILE_BUFFER_LEN - PACKET_HEADER_SIZE) =
        .ok () ({ Sample.afterFirst with backend_ := Sample.afterLookup }, flushes) ∧
      (∀ f ∈ flushes, 0 < f.size ∧ f.size ≤ SHARE_FILE_BUFFER_LEN - PACKET_HEADER_SIZE ∧
        f.size = itemsSize f.content) ∧
      List.Forall₂ (fun e p => p.length = e.shareSize.toNat ∧
          ∃ span : Bytes, span.length = e.shareSize.toNat ∧
            Sample.afterFirst.restoreShare External.sample 2 e.shareFP span = .ok p)
        [(⟨[1], 0, 2, 2⟩ : fileRecipeEntry_t)] payloads ∧
      flushes.flatMap (fun f => f.content) =
        .head ⟨2, 1⟩ :: renderShares ([(⟨[1], 0, 2, 2⟩ : fileRecipeEntry_t)].zip payloads) ∧
      ∃ (first : List (fileRecipeEntry_t × Bytes))
          (rest : List (List (fileRecipeEntry_t × Bytes))),
        first ++ rest.flatten = [(⟨[1], 0, 2, 2⟩ : fileRecipeEntry_t)].zip payloads ∧
        flushes.map (fun f => f.content) =
          (.head ⟨2, 1⟩ :: renderShares first) :: rest.map renderShares :=
  @DedupCore.restoreShareFile_stream External.sample 2 Sample.afterFirst 1 ['/', 'a'] ['/', 'a']
    (fun _ => 0) (SHARE_FILE_BUFFER_LEN - PACKET_HEADER_SIZE) ⟨⟨1, 2, 1⟩, [⟨[1], 0, 2, 2⟩]⟩
    Sample.afterLookup (by decide) (by decide) rfl rfl (by decide) (by decide)
    (by
      intro e he span _
      rw [List.mem_singleton.mp he]
      exact ⟨_, rfl⟩)

/-- Instance of the amended C13: the delta of 512 bytes that `Sample.afterFlat` holds. -/
theorem DedupCore.delta_not_longer_than_share_witness :
    (List.replicate 512 (1 : Nat)).length ≤ (List.replicate 512 (1 : Nat)).length ∧
    ∃ v, Sample.afterFlat.backend_.db.bindings =
        (ToIndexKey .SHARE_INDEX [2], v) :: Sample.afterBase.backend_.db.bindings ∧
      (0 < v.head.deltaDepth → 0 < v.head.deltaSize ∧ (v.head.deltaSize : Int) ≤ v.head.shareSize) :=
  ⟨(DedupCore.delta_not_longer_than_share External.flat).1 (List.replicate 1024 0)
      (List.replicate 512 1) (List.replicate 512 1) (by decide),
    (DedupCore.delta_not_longer_than_share External.flat).2.2 Sample.afterBase Sample.afterFlat 2
      [2] 1 (List.replicate 512 1) (by decide) rfl⟩

/-- Instance of C14 at the state after a first upload. -/
theorem DedupCore.first_stage_reads_witness :
    (∀ fp u, ∃ b, Sample.afterFirst.intraUserIndexUpdate fp u = .ok b ∧
      (b = true ↔ ∃ v, Sample.afterFirst.backend_.getShareIndex (ToIndexKey .SHARE_INDEX fp) =
          some v ∧ ∃ e ∈ v.entries, e.userID = u)) ∧
    (∀ u (m : FileShareMeta), 0 ≤ m.head.fullNameSize → 0 ≤ m.head.numOfComingSecrets →
      ∃ stats, Sample.afterFirst.firstStageDedup u m = .ok stats ∧
        stats.length = m.head.numOfComingSecrets.toNat ∧
        List.Forall₂ (fun e b => Sample.afterFirst.intraUserIndexUpdate e.shareFP u = .ok b)
          (spanRead m.entries m.head.numOfComingSecrets.toNat) stats) :=
  DedupCore.first_stage_reads (E := External.sample) (s := Sample.afterFirst)
    (Reachable.secondStageDedup 2 1 (Sample.shareMeta [1] 2) [5, 6] [false] 1 Reachable.init rfl)

/-- Instance of C18: the key of `/a` on a fresh backend. -/
theorem BackendFacade.recipe_calls_without_buffer_witness :
    BackendFacade.new.putRecipeFile 1 Sample.recipeKey ⟨2, 7, 1, 2, 1, 3⟩ 2 =
      .thrown "fail to find the recipe file in cache" BackendFacade.new ∧
    BackendFacade.new.finishRecipeFile External.sample 1 ⟨2, 7, 1, 2, 1, 3⟩ Sample.recipeKey =
      .thrown "fail to find the recipe file in cache" BackendFacade.new :=
  ⟨(BackendFacade.recipe_calls_without_buffer External.sample BackendFacade.new
      Sample.recipeKey rfl).1 1 ⟨2, 7, 1, 2, 1, 3⟩ 2 (by decide),
    (BackendFacade.recipe_calls_without_buffer External.sample BackendFacade.new
      Sample.recipeKey rfl).2 1 ⟨2, 7, 1, 2, 1, 3⟩⟩

/-- Instance of the amended C19: user 2 continues, with a total of 5, the buffer that user 1
opened for 2 shares. -/
theorem BackendFacade.putRecipeFile_mismatch_witness :
    Sample.unfinished.putRecipeFileWith true 2 Sample.recipeKey ⟨2, 7, 1, 0, 1, 7⟩ 5 =
      .thrown "the file recipe head is invalid" Sample.unfinished ∧
    Sample.unfinished.putRecipeFile 2 Sample.recipeKey ⟨2, 7, 1, 0, 1, 7⟩ 5 =
      Sample.unfinished.putRecipeFileWith false 2 Sample.recipeKey ⟨2, 7, 1, 0, 1, 7⟩ 5 ∧
    Sample.unfinished.putRecipeFile 2 Sample.recipeKey ⟨2, 7, 1, 0, 1, 7⟩ 5 =
      .ok ⟨1, (1 : Int).toNat⟩ Sample.unfinished :=
  ⟨(BackendFacade.putRecipeFile_mismatch Sample.unfinished Sample.recipeKey
      ⟨⟨1, 7, 0⟩, List.replicate 2 default⟩ 2 rfl 2 ⟨2, 7, 1, 0, 1, 7⟩ 5 (by decide)).1
      (Or.inl (by decide)),
    (BackendFacade.putRecipeFile_mismatch Sample.unfinished Sample.recipeKey
      ⟨⟨1, 7, 0⟩, List.replicate 2 default⟩ 2 rfl 2 ⟨2, 7, 1, 0, 1, 7⟩ 5 (by decide)).2.1,
    (BackendFacade.putRecipeFile_mismatch Sample.unfinished Sample.recipeKey
      ⟨⟨1, 7, 0⟩, List.replicate 2 default⟩ 2 rfl 2 ⟨2, 7, 1, 0, 1, 7⟩ 5 (by decide)).2.2
      (by decide) (by decide)⟩

/-- Instance of C20 on the empty store. -/
theorem DedupCore.restore_errors_witness :
    (∃ msg, DedupCore.new.restoreShareFile External.sample 1 1 ['/', 'a'] (fun _ => 0) 100 =
      .thrown msg (DedupCore.new, [])) ∧
    DedupCore.new.restoreShare External.sample 1 [1] [0, 0] = .thrown "no such share index" ∧
    DedupCore.new.restoreDeltaShare External.sample (0 + 1)
        ⟨2, 1, 1, 1, [1], "aaaaaaaaaaaaaaaa".toList, 0⟩ [0, 0] =
      .thrown "base index not exists" :=
  ⟨(DedupCore.restore_errors External.sample DedupCore.new).1 1 1 ['/', 'a'] (fun _ => 0) 100
      (fun _ _ => ⟨rfl, rfl⟩),
    (DedupCore.restore_errors External.sample DedupCore.new).2.1 1 [1] [0, 0] rfl,
    (DedupCore.restore_errors External.sample DedupCore.new).2.2 0
      ⟨2, 1, 1, 1, [1], "aaaaaaaaaaaaaaaa".toList, 0⟩ [0, 0] rfl⟩

theorem DedupCore.fetchBase_length {E : External} {fuel : Nat} {s : DedupCore}
    {kBase : shareIndexHead_t} {base : Bytes} (hdepth : kBase.deltaDepth < MAX_DELTA_DEPTH)
    (h : s.fetchBase E fuel kBase = .ok base) : base.length = kBase.shareSize.toNat := by
  have hzero : kBase.deltaDepth = 0 := by
    simp only [MAX_DELTA_DEPTH] at hdepth
    omega
  unfold DedupCore.fetchBase at h
  simp only [hzero, if_true] at h
  exact BackendFacade.getShareData_length h

/-- C12: `compute_delta` returns no delta for a share data of fewer than 512 bytes, and none
for a base of fewer than 1024 bytes; so, whatever the similarity index and the share index
hold, a call of `interUserIndexUpdate` that stores a share of fewer than 512 bytes appends
the share data itself and writes a value with `deltaDepth = 0`, and so does a call that
stores a share whose similar share, if the index names one, is shorter than 1024 bytes. -/
theorem DedupCore.small_share_stored_raw (E : External) :
    (∀ base src : Bytes, src.length < 512 → compute_delta E base src = none) ∧
    (∀ base src : Bytes, base.length < 1024 → compute_delta E base src = none) ∧
    (∀ (s s' : DedupCore) (fuel : Nat) (fp : fingerprint_t) (u : user_id_t) (d : Bytes),
      d.length < 512 →
      s.backend_.getShareIndex (ToIndexKey .SHARE_INDEX fp) = none →
      s.interUserIndexUpdate E fuel fp u d = .ok () s' →
      ∃ name off b v, s.backend_.putShareData d = .ok (name, off) b ∧
        s'.backend_.db.bindings = (ToIndexKey .SHARE_INDEX fp, v) :: s.backend_.db.bindings ∧
        v = newShareValue u d 0 (List.replicate 32 0) 0 name off ∧ v.head.deltaDepth = 0) ∧
    (∀ (s s' : DedupCore) (fuel : Nat) (fp : fingerprint_t) (u : user_id_t) (d : Bytes),
      (∀ baseFP baseVal, s.delta_.superFeatureIndex (Delta.GenSuperFeature E d) = some baseFP →
        s.backend_.getShareIndex (ToIndexKey .SHARE_INDEX baseFP) = some baseVal →
        baseVal.head.shareSize < 1024) →
      s.backend_.getShareIndex (ToIndexKey .SHARE_INDEX fp) = none →
      s.interUserIndexUpdate E fuel fp u d = .ok () s' →
      ∃ name off b v, s.backend_.putShareData d = .ok (name, off) b ∧
        s'.backend_.db.bindings = (ToIndexKey .SHARE_INDEX fp, v) :: s.backend_.db.bindings ∧
        v = newShareValue u d 0 (List.replicate 32 0) 0 name off ∧ v.head.deltaDepth = 0) := by
  refine ⟨(small_share_value E).1, (small_share_value E).2.1, (small_share_value E).2.2, ?_⟩
  intro s s' fuel fp u d hbase hnone hok
  obtain ⟨payload, depth, baseFP, dsize, name, off, b, hshape, hput, rfl⟩ :=
    interUserIndexUpdate_ok_new hnone hok
  have hput' : (s.backend_.putShareData payload).state? = some b := by rw [hput]; rfl
  have hb : (b.putShareIndex (ToIndexKey .SHARE_INDEX fp)
      (newShareValue u d depth baseFP dsize name off)).db.bindings =
      (ToIndexKey .SHARE_INDEX fp, newShareValue u d depth baseFP dsize name off) ::
        s.backend_.db.bindings := by
    show (b.db.Put _ _).bindings = _
    rw [DataBase.bindings_Put, (BackendFacade.putShareData_step hput').db]
  rcases hshape with ⟨-, rfl, rfl, rfl, rfl⟩ | ⟨kBase, hc, -, -⟩
  · exact ⟨name, off, b, _, hput, hb, rfl, rfl⟩
  · exfalso
    obtain ⟨baseVal, base, hidx, hget, hk, -, hdep, hsize, hfetch, hdelta, hne⟩ :=
      deltaCandidate_some hc
    have hlen := DedupCore.fetchBase_length hdep hfetch
    have hsmall := hbase baseFP baseVal hidx hget
    apply hne
    rw [hdelta]
    unfold Delta.ComputeDelta
    rw [compute_delta_small_base E base d (by rw [hlen, hk]; omega)]

/-- Instance of C12: the two-byte share of `Sample.afterShare`. -/
theorem DedupCore.small_share_stored_raw_witness :
    compute_delta External.sample (List.replicate 1024 0) [5, 6] = none ∧
    compute_delta External.sample [5, 6] (List.replicate 512 0) = none ∧
    ∃ name off b v, DedupCore.new.backend_.putShareData [5, 6] = .ok (name, off) b ∧
      Sample.afterShare.backend_.db.bindings =
        (ToIndexKey .SHARE_INDEX [1], v) :: DedupCore.new.backend_.db.bindings ∧
      v = newShareValue 7 [5, 6] 0 (List.replicate 32 0) 0 name off ∧ v.head.deltaDepth = 0 :=
  ⟨(DedupCore.small_share_stored_raw External.sample).1 _ _ (by decide),
    (DedupCore.small_share_stored_raw External.sample).2.1 _ _ (by decide),
    (DedupCore.small_share_stored_raw External.sample).2.2.1 DedupCore.new Sample.afterShare 1 [1] 7
      [5, 6] (by decide) rfl rfl⟩

/-! ## File names and keys -/

theorem take_two_iff (s : List Char) : s.take 2 = ['.', '/'] ↔ ['.', '/'] <+: s := by
  rw [List.prefix_iff_eq_take]
  exact eq_comm

theorem take_three_iff (s : List Char) :
    s.take 3 = ['.', '.', '/'] ↔ ['.', '.', '/'] <+: s := by
  rw [List.prefix_iff_eq_take]
  exact eq_comm

theorem head_slash_iff (s : List Char) : s.head? = some '/' ↔ ['/'] <+: s := by
  cases s with
  | nil => simp
  | cons c t => simp [List.cons_prefix_cons, eq_comm]

theorem FormatFullFileName_slash {s : List Char} (h : ['/'] <+: s) :
    FormatFullFileName s = .ok s := by
  have hh := (head_slash_iff s).mpr h
  have hne : s.isEmpty = false := by
    cases s with
    | nil => simp at hh
    | cons c t => rfl
  simp [FormatFullFileName, hne, hh]

/-- C22: `FormatFullFileName(s)` throws iff `s` is empty or begins with "./" or "../";
otherwise it returns `s` when `s` begins with '/', and '/' followed by `s` when it does not.
Every result begins with '/' and is returned unchanged when formatted again; "a.bin" and
"/a.bin" give the same formatted name, hence the same recipe key for one user. -/
theorem FormatFullFileName_spec (s : List Char) :
    ((∃ msg, FormatFullFileName s = .error msg) ↔
      (s = [] ∨ ['.', '/'] <+: s ∨ ['.', '.', '/'] <+: s)) ∧
    (['/'] <+: s → FormatFullFileName s = .ok s) ∧
    (s ≠ [] → ¬ ['/'] <+: s → ¬ ['.', '/'] <+: s → ¬ ['.', '.', '/'] <+: s →
      FormatFullFileName s = .ok ('/' :: s)) ∧
    (∀ r, FormatFullFileName s = .ok r →
      ['/'] <+: r ∧ FormatFullFileName r = .ok r) ∧
    FormatFullFileName "a.bin".toList = .ok "/a.bin".toList ∧
    FormatFullFileName "/a.bin".toList = .ok "/a.bin".toList ∧
    (∀ (E : External) (u : user_id_t) (r1 r2 : List Char),
      FormatFullFileName "a.bin".toList = .ok r1 → FormatFullFileName "/a.bin".toList = .ok r2 →
      ToIndexKey .RECIPE (ToRecipeFP E r1 u) = ToIndexKey .RECIPE (ToRecipeFP E r2 u)) := by
  have hcases : s = [] ∨ ['/'] <+: s ∨
      (s ≠ [] ∧ ¬ ['/'] <+: s ∧ (['.', '/'] <+: s ∨ ['.', '.', '/'] <+: s)) ∨
      (s ≠ [] ∧ ¬ ['/'] <+: s ∧ ¬ ['.', '/'] <+: s ∧ ¬ ['.', '.', '/'] <+: s) := by
    by_cases h0 : s = []
    · exact Or.inl h0
    · by_cases h1 : ['/'] <+: s
      · exact Or.inr (Or.inl h1)
      · by_cases h2 : ['.', '/'] <+: s ∨ ['.', '.', '/'] <+: s
        · exact Or.inr (Or.inr (Or.inl ⟨h0, h1, h2⟩))
        · exact Or.inr (Or.inr (Or.inr ⟨h0, h1, fun h => h2 (Or.inl h), fun h => h2 (Or.inr h)⟩))
  have hplain : s ≠ [] → ¬ ['/'] <+: s → ¬ ['.', '/'] <+: s → ¬ ['.', '.', '/'] <+: s →
      FormatFullFileName s = .ok ('/' :: s) := by
    intro h0 h1 h2 h3
    have hne : s.isEmpty = false := by
      cases s with
      | nil => exact absurd rfl h0
      | cons c t => rfl
    have hh : ¬ s.head? = some '/' := fun h => h1 ((head_slash_iff s).mp h)
    have h2' : ¬ s.take 2 = ['.', '/'] := fun h => h2 ((take_two_iff s).mp h)
    have h3' : ¬ s.take 3 = ['.', '.', '/'] := fun h => h3 ((take_three_iff s).mp h)
    simp [FormatFullFileName, hne, hh, h2', h3']
  have hdot : s ≠ [] → ¬ ['/'] <+: s → (['.', '/'] <+: s ∨ ['.', '.', '/'] <+: s) →
      FormatFullFileName s =
        .error "the full file name should not begin with './' or '../'" := by
    intro h0 h1 h2
    have hne : s.isEmpty = false := by
      cases s with
      | nil => exact absurd rfl h0
      | cons c t => rfl
    have hh : ¬ s.head? = some '/' := fun h => h1 ((head_slash_iff s).mp h)
    have h2' : s.take 2 = ['.', '/'] ∨ s.take 3 = ['.', '.', '/'] :=
      h2.imp (take_two_iff s).mpr (take_three_iff s).mpr
    simp [FormatFullFileName, hne, hh, h2']
  have hslash_not_dot : ['/'] <+: s → ¬ (s = [] ∨ ['.', '/'] <+: s ∨ ['.', '.', '/'] <+: s) := by
    intro h1 h
    cases s with
    | nil => simp at h1
    | cons c t =>
      simp only [List.cons_prefix_cons] at h1 h
      rcases h with h | h | h
      · cases h
      · rw [← h1.1] at h
        exact absurd h.1 (by decide)
      · rw [← h1.1] at h
        exact absurd h.1 (by decide)
  refine ⟨?_, FormatFullFileName_slash, hplain, ?_, rfl, rfl, ?_⟩
  · rcases hcases with h | h | ⟨h0, h1, h2⟩ | ⟨h0, h1, h2, h3⟩
    · subst h
      exact ⟨fun _ => Or.inl rfl, fun _ => ⟨_, rfl⟩⟩
    · rw [FormatFullFileName_slash h]
      exact ⟨fun ⟨msg, hm⟩ => (by cases hm), fun hd => absurd hd (hslash_not_dot h)⟩
    · rw [hdot h0 h1 h2]
      exact ⟨fun _ => Or.inr h2, fun _ => ⟨_, rfl⟩⟩
    · rw [hplain h0 h1 h2 h3]
      refine ⟨fun ⟨msg, hm⟩ => (by cases hm), ?_⟩
      rintro (h | h | h)
      · exact absurd h h0
      · exact absurd h h2
      · exact absurd h h3
  · intro r hr
    have hpre : ['/'] <+: r := by
      rcases hcases with h | h | ⟨h0, h1, h2⟩ | ⟨h0, h1, h2, h3⟩
      · subst h
        cases hr
      · rw [FormatFullFileName_slash h] at hr
        cases hr
        exact h
      · rw [hdot h0 h1 h2] at hr
        cases hr
      · rw [hplain h0 h1 h2 h3] at hr
        cases hr
        simp [List.cons_prefix_cons]
    exact ⟨hpre, FormatFullFileName_slash hpre⟩
  · intro E u r1 r2 h1 h2
    have e1 : r1 = "/a.bin".toList := by
      have : (Except.ok "/a.bin".toList : Except String (List Char)) = .ok r1 := h1
      cases this
      rfl
    have e2 : r2 = "/a.bin".toList := by
      have : (Except.ok "/a.bin".toList : Except String (List Char)) = .ok r2 := h2
      cases this
      rfl
    rw [e1, e2]

/-- Instance of C22 at the name "dir/a.bin". -/
theorem FormatFullFileName_spec_witness :
    FormatFullFileName "dir/a.bin".toList = .ok ('/' :: "dir/a.bin".toList) ∧
    ['/'] <+: "/dir/a.bin".toList ∧
    FormatFullFileName "/dir/a.bin".toList = .ok "/dir/a.bin".toList :=
  ⟨(FormatFullFileName_spec "dir/a.bin".toList).2.2.1 (by decide) (by decide) (by decide)
      (by decide),
    ((FormatFullFileName_spec "dir/a.bin".toList).2.2.2.1 "/dir/a.bin".toList rfl).1,
    ((FormatFullFileName_spec "dir/a.bin".toList).2.2.2.1 "/dir/a.bin".toList rfl).2⟩

/-- C23: `ToIndexKey(prefix, fp)` is the prefix byte (`RECIPE` = 0, `SHARE_INDEX` = 1)
followed by the bytes of `fp`, 33 bytes for a fingerprint of 32 bytes; it is injective in the
pair, so a recipe key never equals a share index key and distinct fingerprints never share
a key. -/
theorem ToIndexKey_spec (pre : IndexPrefix) (fp : fingerprint_t) :
    (ToIndexKey pre fp).head? = some pre.toByte ∧ (ToIndexKey pre fp).tail = fp ∧
    (fp.length = 32 → (ToIndexKey pre fp).length = 33) ∧
    IndexPrefix.RECIPE.toByte = 0 ∧ IndexPrefix.SHARE_INDEX.toByte = 1 ∧
    (∀ pre' fp', ToIndexKey pre fp = ToIndexKey pre' fp' → pre = pre' ∧ fp = fp') ∧
    (∀ fp', ToIndexKey .RECIPE fp ≠ ToIndexKey .SHARE_INDEX fp') ∧
    (∀ fp', fp ≠ fp' → ToIndexKey pre fp ≠ ToIndexKey pre fp') := by
  have hinj : ∀ (p p' : IndexPrefix) (a b : fingerprint_t),
      ToIndexKey p a = ToIndexKey p' b → p = p' ∧ a = b := by
    intro p p' a b h
    simp only [ToIndexKey, List.cons.injEq] at h
    refine ⟨?_, h.2⟩
    cases p <;> cases p' <;> simp [IndexPrefix.toByte] at h ⊢
  refine ⟨rfl, rfl, ?_, rfl, rfl, fun p' b h => hinj pre p' fp b h, ?_, ?_⟩
  · intro h
    simp [ToIndexKey, h]
  · intro fp' h
    exact absurd (hinj _ _ _ _ h).1 (by decide)
  · intro fp' hne h
    exact hne (hinj _ _ _ _ h).2

/-- Instance of C23 at the share index key of a fingerprint of 32 bytes. -/
theorem ToIndexKey_spec_witness :
    (ToIndexKey .SHARE_INDEX (List.replicate 32 7)).length = 33 ∧
    ToIndexKey .SHARE_INDEX (List.replicate 32 7) ≠ ToIndexKey .SHARE_INDEX (List.replicate 32 8) :=
  ⟨(ToIndexKey_spec .SHARE_INDEX (List.replicate 32 7)).2.2.1 (by decide),
    (ToIndexKey_spec .SHARE_INDEX (List.replicate 32 7)).2.2.2.2.2.2.2 (List.replicate 32 8)
      (by decide)⟩

/-! ## C24: the name of a recipe file -/

theorem hexDigit_table (n : Nat) (h : n < 16) :
    hexDigit n = "0123456789abcdef".toList.getD n '0' := by
  interval_cases n <;> rfl

theorem hexDigit_mem (n : Nat) (h : n < 16) : hexDigit n ∈ "0123456789abcdef".toList := by
  interval_cases n <;> decide

theorem ToHexDump_cons (b : Nat) (bs : Bytes) :
    ToHexDump (b :: bs) =
      String.mk [hexDigit (b % 256 / 16), hexDigit (b % 256 % 16)] ++ ToHexDump bs := by
  simp only [ToHexDump, List.flatMap_cons]
  rfl

theorem ToHexDump_length (bs : Bytes) : (ToHexDump bs).length = 2 * bs.length := by
  induction bs with
  | nil => rfl
  | cons b bs ih =>
    rw [ToHexDump_cons, String.length_append, ih, List.length_cons]
    show 2 + 2 * bs.length = 2 * (bs.length + 1)
    omega

theorem ToHexDump_digits (bs : Bytes) :
    ∀ c ∈ (ToHexDump bs).data, c ∈ "0123456789abcdef".toList := by
  intro c hc
  simp only [ToHexDump, List.mem_flatMap, List.mem_cons, List.mem_singleton,
    List.not_mem_nil, or_false] at hc
  obtain ⟨b, -, rfl | rfl⟩ := hc
  · exact hexDigit_mem _ (by omega)
  · exact hexDigit_mem _ (by omega)

/-- C24 (amended): the recipe file that `finishRecipeFile` writes when a recipe is complete,
and that `getRecipeData` opens on a cache miss, is named by the hexadecimal dump of the
recipe key, prefix byte included, followed by ".rf", in the container directory: "00", then
the lowercase hexadecimal digits of the recipe fingerprint, two per byte, 66 digits for a
fingerprint of 32 bytes. -/
theorem BackendFacade.formatRecipeFileName_spec (E : External) (fp : fingerprint_t) :
    BackendFacade.formatRecipeFileName E (ToIndexKey .RECIPE fp) =
      E.containerDir_ ++ ("00" ++ ToHexDump fp) ++ ".rf" ∧
    (fp.length = 32 → (ToHexDump (ToIndexKey .RECIPE fp)).length = 66) ∧
    (∀ bs : Bytes, (ToHexDump bs).length = 2 * bs.length) ∧
    (∀ (b : Nat) (bs : Bytes), ToHexDump (b :: bs) =
      String.mk [hexDigit (b % 256 / 16), hexDigit (b % 256 % 16)] ++ ToHexDump bs) ∧
    (∀ n, n < 16 → hexDigit n = "0123456789abcdef".toList.getD n '0') ∧
    (∀ (b : BackendFacade) (key : key_t) (r : FileRecipe),
      kvGet key b.recipeCache_.m_items = none →
      kvGet (BackendFacade.formatRecipeFileName E key) b.recipeFiles = some r →
      b.getRecipeData E key = .ok r b) ∧
    (∀ (b b2 : BackendFacade) (key : key_t) (u : user_id_t) (hd : fileShareMetaHead_t)
        (buf : FileRecipe) (total : Nat),
      kvGet key b.unfinishedRecipeFileCache_ = some (buf, total) →
      (total : Int) = buf.head.numOfShares + hd.numOfComingSecrets →
      b.finishRecipeFile E u hd key = .ok () b2 →
      kvGet (BackendFacade.formatRecipeFileName E key) b2.recipeFiles =
        some ⟨{ buf.head with numOfShares := total },
          spanRead buf.entries total⟩) := by
  refine ⟨?_, ?_, ToHexDump_length, ToHexDump_cons, hexDigit_table, ?_, ?_⟩
  · unfold BackendFacade.formatRecipeFileName
    rw [show ToIndexKey .RECIPE fp = 0 :: fp from rfl, ToHexDump_cons]
    rfl
  · intro h
    rw [ToHexDump_length]
    simp [ToIndexKey, h]
  · intro b key r hc hf
    unfold BackendFacade.getRecipeData lru_cache.get
    simp only [hc, hf]
  · intro b b2 key u hd buf total hget htot hfin
    unfold BackendFacade.finishRecipeFile at hfin
    simp only [hget, ← htot] at hfin
    by_cases h1 : ((total : Int) > INT_MAX ∨ (total : Int) < -INT_MAX - 1)
    · simp [h1] at hfin
    · simp only [h1, if_false, true_and] at hfin
      by_cases h2 : (FILE_RECIPE_HEAD_SIZE : Int) + FILE_RECIPE_ENTRY_SIZE * (total : Int) > INT_MAX
      · simp [h2] at hfin
      · simp only [h2, if_false, if_true, Res.ok.injEq, true_and] at hfin
        subst hfin
        simp [kvGet_cons_self]

/-- C24 (as stated, fails): for the fingerprint of 32 bytes `0xab`, the recipe file name in
the container directory "./meta/Container/" has 66 hexadecimal digits, "00" first, and is
not the 64 digits of the fingerprint followed by ".rf". -/
theorem BackendFacade.formatRecipeFileName_prefix_byte :
    BackendFacade.formatRecipeFileName External.sample
        (ToIndexKey .RECIPE (List.replicate 32 171)) =
      "./meta/Container/00abababababababababababababababababababababababababababababababab.rf" ∧
    (ToHexDump (ToIndexKey .RECIPE (List.replicate 32 171))).length = 66 ∧
    BackendFacade.formatRecipeFileName External.sample
        (ToIndexKey .RECIPE (List.replicate 32 171)) ≠
      External.sample.containerDir_ ++ ToHexDump (List.replicate 32 171) ++ ".rf" := by
  decide

/-- Instance of the amended C24: a backend that holds the recipe file of `/a` and has nothing
cached reads the recipe from that file. -/
theorem BackendFacade.formatRecipeFileName_spec_witness :
    (ToHexDump (ToIndexKey .RECIPE (List.replicate 32 171))).length = 66 ∧
    ({ BackendFacade.new with
        recipeFiles := [(BackendFacade.formatRecipeFileName External.sample Sample.recipeKey,
          ⟨⟨1, 2, 1⟩, [⟨[1], 0, 2, 2⟩]⟩)] } : BackendFacade).getRecipeData External.sample
        Sample.recipeKey =
      .ok ⟨⟨1, 2, 1⟩, [⟨[1], 0, 2, 2⟩]⟩
        { BackendFacade.new with
          recipeFiles := [(BackendFacade.formatRecipeFileName External.sample Sample.recipeKey,
            ⟨⟨1, 2, 1⟩, [⟨[1], 0, 2, 2⟩]⟩)] } :=
  ⟨(BackendFacade.formatRecipeFileName_spec External.sample (List.replicate 32 171)).2.1
      (by decide),
    (BackendFacade.formatRecipeFileName_spec External.sample (List.replicate 32 171)).2.2.2.2.2.1
      { BackendFacade.new with
        recipeFiles := [(BackendFacade.formatRecipeFileName External.sample Sample.recipeKey,
          ⟨⟨1, 2, 1⟩, [⟨[1], 0, 2, 2⟩]⟩)] }
      Sample.recipeKey ⟨⟨1, 2, 1⟩, [⟨[1], 0, 2, 2⟩]⟩ rfl (by decide)⟩

/-! ## C25: the super feature index -/

/-- C25: `superFeatureIndex(f)` returns the entry of the sf1 map at `f.sf1` if there is one,
else that of the sf2 map at `f.sf2`, else that of the sf3 map at `f.sf3`, else nothing; after
`superFeatureIndexUpdate(f, fp)` it returns `fp` for `f`, whatever the maps held, and in each
map the entries under other feature values are as before. -/
theorem Delta.superFeatureIndex_spec (d : Delta) (f : superF) :
    (∀ fp, kvGet f.sf1 d.superFeature1Map_ = some fp → d.superFeatureIndex f = some fp) ∧
    (kvGet f.sf1 d.superFeature1Map_ = none →
      ∀ fp, kvGet f.sf2 d.superFeature2Map_ = some fp → d.superFeatureIndex f = some fp) ∧
    (kvGet f.sf1 d.superFeature1Map_ = none → kvGet f.sf2 d.superFeature2Map_ = none →
      ∀ fp, kvGet f.sf3 d.superFeature3Map_ = some fp → d.superFeatureIndex f = some fp) ∧
    (kvGet f.sf1 d.superFeature1Map_ = none → kvGet f.sf2 d.superFeature2Map_ = none →
      kvGet f.sf3 d.superFeature3Map_ = none → d.superFeatureIndex f = none) ∧
    (∀ fp, (d.superFeatureIndexUpdate f fp).superFeatureIndex f = some fp) ∧
    (∀ fp k, k ≠ f.sf1 →
      kvGet k (d.superFeatureIndexUpdate f fp).superFeature1Map_ =
        kvGet k d.superFeature1Map_) ∧
    (∀ fp k, k ≠ f.sf2 →
      kvGet k (d.superFeatureIndexUpdate f fp).superFeature2Map_ =
        kvGet k d.superFeature2Map_) ∧
    (∀ fp k, k ≠ f.sf3 →
      kvGet k (d.superFeatureIndexUpdate f fp).superFeature3Map_ =
        kvGet k d.superFeature3Map_) := by
  refine ⟨?_, ?_, ?_, ?_, ?_, ?_, ?_, ?_⟩
  · intro fp h
    simp only [Delta.superFeatureIndex, h]
  · intro h1 fp h
    simp only [Delta.superFeatureIndex, h1, h]
  · intro h1 h2 fp h
    simp only [Delta.superFeatureIndex, h1, h2, h]
  · intro h1 h2 h3
    simp only [Delta.superFeatureIndex, h1, h2, h3]
  · intro fp
    simp only [Delta.superFeatureIndex, Delta.superFeatureIndexUpdate, kvGet_cons_self]
  · intro fp k hk
    exact kvGet_cons_ne (fun h => hk h.symm) _ _
  · intro fp k hk
    exact kvGet_cons_ne (fun h => hk h.symm) _ _
  · intro fp k hk
    exact kvGet_cons_ne (fun h => hk h.symm) _ _

/-- Instance of C25: an index whose sf2 map alone knows the features, before and after an
update for the same features. -/
theorem Delta.superFeatureIndex_spec_witness :
    (⟨[], [(2, [7])], [(3, [8])]⟩ : Delta).superFeatureIndex ⟨1, 2, 3⟩ = some [7] ∧
    ((⟨[], [(2, [7])], [(3, [8])]⟩ : Delta).superFeatureIndexUpdate ⟨1, 2, 3⟩
      [9]).superFeatureIndex ⟨1, 2, 3⟩ = some [9] ∧
    kvGet 4 ((⟨[], [(2, [7])], [(3, [8])]⟩ : Delta).superFeatureIndexUpdate ⟨1, 2, 3⟩
      [9]).superFeature1Map_ = kvGet 4 (⟨[], [(2, [7])], [(3, [8])]⟩ : Delta).superFeature1Map_ :=
  ⟨(Delta.superFeatureIndex_spec ⟨[], [(2, [7])], [(3, [8])]⟩ ⟨1, 2, 3⟩).2.1 rfl [7] rfl,
    (Delta.superFeatureIndex_spec ⟨[], [(2, [7])], [(3, [8])]⟩ ⟨1, 2, 3⟩).2.2.2.2.1 [9],
    (Delta.superFeatureIndex_spec ⟨[], [(2, [7])], [(3, [8])]⟩ ⟨1, 2, 3⟩).2.2.2.2.2.1 [9] 4
      (by decide)⟩

/-! ## C21: a decoder that does not give the share back -/

theorem DedupCore.restoreDeltaShare_eq_with (E : External) (s : DedupCore) :
    ∀ (fuel : Nat) (head : shareIndexHead_t) (data : Bytes),
      s.restoreDeltaShare E fuel head data =
        s.restoreDeltaShareWith PARANOID_CHECK E fuel head data := by
  intro fuel
  induction fuel with
  | zero => intro head data; rfl
  | succ n ih =>
    intro head data
    rw [DedupCore.restoreDeltaShare, DedupCore.restoreDeltaShareWith]
    cases h1 : s.backend_.getShareIndex (ToIndexKey .SHARE_INDEX head.baseFP) with
    | none => rfl
    | some baseVal =>
      simp only []
      cases h2 : ParseShareIndex baseVal with
      | error e => rfl
      | ok p =>
        obtain ⟨kBase, entries⟩ := p
        simp only [ih, PARANOID_CHECK]

theorem Delta.RestoreSrc_none {E : External} {base delta : Bytes} {n : Nat}
    (h : restore_delta E base delta n = none) : Delta.RestoreSrc E base delta n = [] := by
  unfold Delta.RestoreSrc
  rw [h]

theorem Delta.RestoreSrc_some {E : External} {base delta out : Bytes} {n : Nat}
    (h : restore_delta E base delta n = some out) :
    (Delta.RestoreSrc E base delta n).length = out.length := by
  unfold Delta.RestoreSrc
  rw [h]
  exact spanRead_length _ _

/-- One call of `restoreDeltaShareWith` whose base is a regular share, once the base and the
delta have been read. -/
theorem DedupCore.restoreDeltaShareWith_raw {paranoid : Bool} {E : External} {s : DedupCore}
    {fuel : Nat} {head : shareIndexHead_t} {data : Bytes} {baseVal : ShareIndexValue}
    {base delta : Bytes}
    (hidx : s.backend_.getShareIndex (ToIndexKey .SHARE_INDEX head.baseFP) = some baseVal)
    (husers : 0 ≤ baseVal.head.numOfUsers) (hsize : 0 ≤ baseVal.head.shareSize)
    (hraw : baseVal.head.deltaDepth = 0)
    (hbase : s.backend_.getShareData baseVal.head.containerName baseVal.head.offset
      baseVal.head.shareSize.toNat = .ok base)
    (hdelta : s.backend_.getShareData head.containerName head.offset head.deltaSize = .ok delta)
    (hshare : 0 ≤ head.shareSize) :
    s.restoreDeltaShareWith paranoid E (fuel + 1) head data =
      if paranoid = true ∧
          (Delta.RestoreSrc E base delta head.shareSize.toNat).length ≠ data.length then
        .thrown "size not match"
      else
        .ok ((Delta.RestoreSrc E base delta head.shareSize.toNat).take data.length ++
          data.drop (Delta.RestoreSrc E base delta head.shareSize.toNat).length) := by
  have hparse : ParseShareIndex baseVal =
      .ok (baseVal.head, spanRead baseVal.entries baseVal.head.numOfUsers.toNat) := by
    unfold ParseShareIndex numeric_cast
    simp only [PARANOID_CHECK, Bool.false_eq_true, false_and, if_false, not_lt.mpr husers]
  rw [DedupCore.restoreDeltaShareWith]
  simp only [hidx, hparse, not_lt.mpr hsize, if_false, hraw, if_true, hbase, hdelta,
    not_lt.mpr hshare]

/-- C21 (amended): `RestoreSrc` yields an empty vector when the decoder fails and the decoder
output, of the length the decoder reports, when it succeeds; nothing compares that length
with the declared source size. `restoreDeltaShare` compares it with the length of the output
span only under `config::PARANOID_CHECK`, where a mismatch throws; it is the function with
the flag as configured, `false`, where the call returns after copying what was decoded over
the start of the output span, so after a failed decode the span is as it was. Stated for a
share whose base is a regular share. -/
theorem DedupCore.restoreDeltaShare_decoder (E : External) (s : DedupCore) (fuel : Nat)
    (head : shareIndexHead_t) (data : Bytes) (baseVal : ShareIndexValue) (base delta : Bytes)
    (hidx : s.backend_.getShareIndex (ToIndexKey .SHARE_INDEX head.baseFP) = some baseVal)
    (husers : 0 ≤ baseVal.head.numOfUsers) (hsize : 0 ≤ baseVal.head.shareSize)
    (hraw : baseVal.head.deltaDepth = 0)
    (hbase : s.backend_.getShareData baseVal.head.containerName baseVal.head.offset
      baseVal.head.shareSize.toNat = .ok base)
    (hdelta : s.backend_.getShareData head.containerName head.offset head.deltaSize = .ok delta)
    (hshare : 0 ≤ head.shareSize) :
    (restore_delta E base delta head.shareSize.toNat = none →
      Delta.RestoreSrc E base delta head.shareSize.toNat = []) ∧
    (∀ out, restore_delta E base delta head.shareSize.toNat = some out →
      (Delta.RestoreSrc E base delta head.shareSize.toNat).length = out.length) ∧
    ((Delta.RestoreSrc E base delta head.shareSize.toNat).length ≠ data.length →
      s.restoreDeltaShareWith true E (fuel + 1) head data = .thrown "size not match") ∧
    (∀ fuel' head' data', s.restoreDeltaShare E fuel' head' data' =
      s.restoreDeltaShareWith false E fuel' head' data') ∧
    s.restoreDeltaShare E (fuel + 1) head data =
      .ok ((Delta.RestoreSrc E base delta head.shareSize.toNat).take data.length ++
        data.drop (Delta.RestoreSrc E base delta head.shareSize.toNat).length) ∧
    (restore_delta E base delta head.shareSize.toNat = none →
      s.restoreDeltaShare E (fuel + 1) head data = .ok data) := by
  have hwith := fun (p : Bool) => @DedupCore.restoreDeltaShareWith_raw p E s fuel head data
    baseVal base delta hidx husers hsize hraw hbase hdelta hshare
  have heq := DedupCore.restoreDeltaShare_eq_with E s
  have hfalse : s.restoreDeltaShare E (fuel + 1) head data =
      .ok ((Delta.RestoreSrc E base delta head.shareSize.toNat).take data.length ++
        data.drop (Delta.RestoreSrc E base delta head.shareSize.toNat).length) := by
    rw [heq, hwith]
    simp [PARANOID_CHECK]
  refine ⟨Delta.RestoreSrc_none, fun out h => Delta.RestoreSrc_some h, ?_, heq, hfalse, ?_⟩
  · intro hne
    rw [hwith]
    simp [hne]
  · intro hnone
    rw [hfalse, Delta.RestoreSrc_none hnone]
    simp

/-- C21 (as stated, fails): the share `[2]` of `Sample.afterDelta`, 512 bytes of value one, is
stored as a delta. With a decoder that fails, `restoreShare` returns and the output span holds
the zero bytes it held before; with a decoder whose output is one byte long, `restoreShare`
returns with that byte followed by what the span held. -/
theorem DedupCore.restoreShare_undecoded :
    Sample.afterDelta.backend_.getShareIndex (ToIndexKey .SHARE_INDEX [2]) =
      some ⟨⟨512, 1, 1, 512, [1], "aaaaaaaaaaaaaaaa".toList, 1024⟩, [⟨1⟩]⟩ ∧
    (∀ base delta srcSize, restore_delta External.deaf base delta srcSize = none) ∧
    Sample.afterDelta.restoreShare External.deaf 1 [2] (List.replicate 512 0) =
      .ok (List.replicate 512 0) ∧
    (∀ base delta srcSize, restore_delta External.curt base delta srcSize = some [9]) ∧
    Sample.afterDelta.restoreShare External.curt 1 [2] (List.replicate 512 0) =
      .ok (9 :: List.replicate 511 0) :=
  ⟨rfl, fun _ _ _ => rfl, rfl, fun _ _ _ => rfl, rfl⟩

/-- Instance of the amended C21: the delta share of `Sample.afterDelta` and the decoder that
fails. -/
theorem DedupCore.restoreDeltaShare_decoder_witness :
    Sample.afterDelta.restoreDeltaShareWith true External.deaf (0 + 1)
        ⟨512, 1, 1, 512, [1], "aaaaaaaaaaaaaaaa".toList, 1024⟩ (List.replicate 512 0) =
      .thrown "size not match" ∧
    Sample.afterDelta.restoreDeltaShare External.deaf (0 + 1)
        ⟨512, 1, 1, 512, [1], "aaaaaaaaaaaaaaaa".toList, 1024⟩ (List.replicate 512 0) =
      .ok (List.replicate 512 0) :=
  ⟨(DedupCore.restoreDeltaShare_decoder External.deaf Sample.afterDelta 0
      ⟨512, 1, 1, 512, [1], "aaaaaaaaaaaaaaaa".toList, 1024⟩ (List.replicate 512 0)
      ⟨⟨1024, 1, 0, 0, List.replicate 32 0, "aaaaaaaaaaaaaaaa".toList, 0⟩, [⟨1⟩]⟩
      _ _ rfl (by decide) (by decide) rfl rfl rfl (by decide)).2.2.1 (by decide),
    (DedupCore.restoreDeltaShare_decoder External.deaf Sample.afterDelta 0
      ⟨512, 1, 1, 512, [1], "aaaaaaaaaaaaaaaa".toList, 1024⟩ (List.replicate 512 0)
      ⟨⟨1024, 1, 0, 0, List.replicate 32 0, "aaaaaaaaaaaaaaaa".toList, 0⟩, [⟨1⟩]⟩
      _ _ rfl (by decide) (by decide) rfl rfl rfl (by decide)).2.2.2.2.2 rfl⟩

/-! ## Evaluations -/

/-- C27 (fails on the code): the recipe of `/a` after `Sample.firstUpload` has one entry with
a share of 2 bytes. With a buffer of 30 bytes the share file head (16 bytes), the share entry
(12 bytes) and the share fit exactly, and `restoreShareFile` still calls `flushCallBack(16)`
before the entry: the loop flushes when `offset + SHARE_ENTRY_SIZE + shareSize >= size`. With
31 bytes there is one flush of 30 bytes. -/
theorem DedupCore.restoreShareFile_flush_on_exact_fit :
    kvGet (BackendFacade.formatRecipeFileName External.sample Sample.recipeKey)
      Sample.afterFirst.backend_.recipeFiles = some ⟨⟨1, 2, 1⟩, [⟨[1], 0, 2, 2⟩]⟩ ∧
    SHARE_FILE_HEAD_SIZE + SHARE_ENTRY_SIZE + 2 = 30 ∧
    (∀ shareFileData : ShareFileBuffer,
      (Sample.afterFirst.restoreShareFile External.sample 2 1 ['/', 'a'] shareFileData 30).flushes? =
        some [⟨16, [.head ⟨2, 1⟩]⟩, ⟨14, [.entry ⟨0, 2, 2⟩, .data [5, 6]]⟩]) ∧
    (∀ shareFileData : ShareFileBuffer,
      (Sample.afterFirst.restoreShareFile External.sample 2 1 ['/', 'a'] shareFileData 31).flushes? =
        some [⟨30, [.head ⟨2, 1⟩, .entry ⟨0, 2, 2⟩, .data [5, 6]]⟩]) :=
  ⟨rfl, rfl, fun _ => rfl, fun _ => rfl⟩

/-- C29 (fails on the code): user 1 sends to the empty store one fragment whose two entries
carry the same new fingerprint `[1]` and the share `[5, 6]`, neither marked as a duplicate.
The second `interUserIndexUpdate` does not see the value the first one put, which is still
in the write batch: the share is appended to the container twice, two values are written for
the key, and the index ends up pointing at the second copy. -/
theorem DedupCore.twin_share_stored_twice :
    DedupCore.new.backend_.getShareIndex (ToIndexKey .SHARE_INDEX [1]) = none ∧
    DedupCore.new.backend_.shareContainerOffset_ = 0 ∧
    DedupCore.new.secondStageRun External.sample 2 1 2 [Sample.twinFragment] =
      .ok () Sample.afterTwin ∧
    Sample.afterTwin.backend_.shareContainerOffset_ = 4 ∧
    (kvGet "aaaaaaaaaaaaaaaa".toList Sample.afterTwin.backend_.containerFiles).map
      (fun r => r.read 0 4) = some [5, 6, 5, 6] ∧
    Sample.afterTwin.backend_.db.bindings.map (fun kv => (kv.1, kv.2.head.offset)) =
      [(ToIndexKey .SHARE_INDEX [1], 2), (ToIndexKey .SHARE_INDEX [1], 0)] ∧
    Sample.afterTwin.backend_.getShareIndex (ToIndexKey .SHARE_INDEX [1]) =
      some ⟨⟨2, 1, 0, 0, List.replicate 32 0, "aaaaaaaaaaaaaaaa".toList, 2⟩, [⟨1⟩]⟩ :=
  ⟨rfl, rfl, rfl, rfl, rfl, rfl, rfl⟩

/-- C30 (fails on the code): the key of `/a` has an unfinished buffer that user 1 opened for
two shares. `putRecipeFile` with `numOfPastSecrets == 0` for the same key and a total of one
share rewrites the head and keeps the buffer of two slots with its declared total of two.
On the server: after the first of two fragments of `/a`, a new upload of `/a` as a file of
one share returns, and its recipe is not written; the buffer stays in the unfinished
map, still waiting for a second entry. -/
theorem BackendFacade.putRecipeFile_keeps_stale_buffer :
    kvGet Sample.recipeKey Sample.unfinished.unfinishedRecipeFileCache_ =
      some (⟨⟨1, 7, 0⟩, [default, default]⟩, 2) ∧
    Sample.unfinished.putRecipeFile 1 Sample.recipeKey ⟨2, 9, 0, 0, 1, 9⟩ 1 =
      .ok ⟨0, 1⟩ Sample.reopened ∧
    kvGet Sample.recipeKey Sample.reopened.unfinishedRecipeFileCache_ =
      some (⟨⟨1, 9, 0⟩, [default, default]⟩, 2) ∧
    DedupCore.new.secondStageRun External.sample 2 1 2 [Sample.firstFragment] =
      .ok () Sample.afterFirstFragment ∧
    Sample.afterFirstFragment.secondStageRun External.sample 2 1 1 [Sample.soleFragment] =
      .ok () Sample.afterRestart ∧
    kvGet Sample.recipeKey Sample.afterRestart.backend_.unfinishedRecipeFileCache_ =
      some (⟨⟨1, 20, 1⟩, [⟨[1], 0, 2, 2⟩, default]⟩, 2) ∧
    kvGet (BackendFacade.formatRecipeFileName External.sample Sample.recipeKey)
      Sample.afterRestart.backend_.recipeFiles = none :=
  ⟨rfl, rfl, rfl, rfl, rfl, rfl, rfl⟩

/-! ## C28: restoring terminates -/

/-- C28: in a reachable state, for a fingerprint present in the index, `restoreShare`
returns as soon as the recursion budget reaches the `deltaDepth` of the entry, and runs out
of budget below it: it makes `deltaDepth` nested calls of `restoreDeltaShare`, which is the
number of `baseFP` links to a regular share and at most `MAX_DELTA_DEPTH`. -/
theorem DedupCore.restoreShare_terminates {E : External} {s : DedupCore} (hr : Reachable E s)
    (fp : fingerprint_t) (v : ShareIndexValue)
    (hget : s.backend_.getShareIndex (ToIndexKey .SHARE_INDEX fp) = some v) (data : Bytes) :
    v.head.deltaDepth ≤ MAX_DELTA_DEPTH ∧
    s.stepsToRaw MAX_DELTA_DEPTH v = some v.head.deltaDepth ∧
    (∀ fuel, v.head.deltaDepth ≤ fuel → ∃ out, s.restoreShare E fuel fp data = .ok out) ∧
    (∀ fuel, fuel < v.head.deltaDepth →
      s.restoreShare E fuel fp data = .abort .outOfFuel) := by
  have hmem := DataBase.Get_mem_bindings hget
  have hdepth := hr.depthOk
  have hbound := hdepth.bound _ v hmem
  have hok := hr.usersOk _ v hmem
  have hcont := hr.containers _ v hmem
  obtain ⟨region, hregion⟩ := Option.isSome_iff_exists.mp hcont
  have hread : ∀ off n, s.backend_.getShareData v.head.containerName off n =
      .ok (region.read off n) := by
    intro off n
    unfold BackendFacade.getShareData
    simp only [hregion, PARANOID_CHECK, Bool.false_eq_true, false_and, if_false]
  refine ⟨hbound, DedupCore.stepsToRaw_eq hdepth _ _ v hmem hbound, ?_, ?_⟩
  · intro fuel hfuel
    unfold DedupCore.restoreShare
    simp only [hget, hok.parse]
    by_cases hpos : v.head.deltaDepth > 0
    · simp only [hpos, if_true]
      obtain ⟨b, hb, hbd⟩ := hdepth.base _ v hmem hpos
      have hbmem := DataBase.Get_mem_bindings hb
      have hbok := hr.usersOk _ b hbmem
      have hbsize := hr.shareSize_nonneg _ b hbmem
      have hbcont := hr.containers _ b hbmem
      obtain ⟨bregion, hbregion⟩ := Option.isSome_iff_exists.mp hbcont
      have hbraw : b.head.deltaDepth = 0 := by
        simp only [MAX_DELTA_DEPTH] at hbound
        omega
      have hbase : s.backend_.getShareData b.head.containerName b.head.offset
          b.head.shareSize.toNat = .ok (bregion.read b.head.offset b.head.shareSize.toNat) := by
        unfold BackendFacade.getShareData
        simp only [hbregion, PARANOID_CHECK, Bool.false_eq_true, false_and, if_false]
      obtain ⟨n, rfl⟩ : ∃ n, fuel = n + 1 := ⟨fuel - 1, by omega⟩
      rw [DedupCore.restoreDeltaShare_eq_with,
        DedupCore.restoreDeltaShareWith_raw hb (by have := hbok.pos; omega) hbsize hbraw hbase
          (hread _ _) (hr.shareSize_nonneg _ v hmem)]
      simp only [PARANOID_CHECK, Bool.false_eq_true, false_and, if_false]
      exact ⟨_, rfl⟩
    · simp only [hpos, if_false, PARANOID_CHECK, Bool.false_eq_true, false_and, hread]
      exact ⟨_, rfl⟩
  · intro fuel hfuel
    have hzero : fuel = 0 := by
      simp only [MAX_DELTA_DEPTH] at hbound
      omega
    subst hzero
    unfold DedupCore.restoreShare
    simp only [hget, hok.parse, hfuel, if_true]
    rfl

/-- Instance of C28: the delta share `[2]` of `Sample.afterDelta`, whose `deltaDepth` is 1. -/
theorem DedupCore.restoreShare_terminates_witness :
    (⟨⟨512, 1, 1, 512, [1], "aaaaaaaaaaaaaaaa".toList, 1024⟩, [⟨1⟩]⟩ :
      ShareIndexValue).head.deltaDepth ≤ MAX_DELTA_DEPTH ∧
    Sample.afterDelta.stepsToRaw MAX_DELTA_DEPTH
      ⟨⟨512, 1, 1, 512, [1], "aaaaaaaaaaaaaaaa".toList, 1024⟩, [⟨1⟩]⟩ =
        some (⟨⟨512, 1, 1, 512, [1], "aaaaaaaaaaaaaaaa".toList, 1024⟩, [⟨1⟩]⟩ :
          ShareIndexValue).head.deltaDepth ∧
    (∀ fuel, (⟨⟨512, 1, 1, 512, [1], "aaaaaaaaaaaaaaaa".toList, 1024⟩, [⟨1⟩]⟩ :
        ShareIndexValue).head.deltaDepth ≤ fuel →
      ∃ out, Sample.afterDelta.restoreShare External.flat fuel [2] (List.replicate 512 0) =
        .ok out) ∧
    (∀ fuel, fuel < (⟨⟨512, 1, 1, 512, [1], "aaaaaaaaaaaaaaaa".toList, 1024⟩, [⟨1⟩]⟩ :
        ShareIndexValue).head.deltaDepth →
      Sample.afterDelta.restoreShare External.flat fuel [2] (List.replicate 512 0) =
        .abort .outOfFuel) :=
  @DedupCore.restoreShare_terminates External.flat Sample.afterDelta
    (Reachable.secondStageDedup 2 1 (Sample.shareMeta [2] 512) (List.replicate 512 1) [false] 1
      (@Reachable.secondStageDedup External.flat DedupCore.new Sample.afterRaw 2 1
        (Sample.shareMeta [1] 1024) (List.replicate 1024 0) [false] 1 Reachable.init rfl) rfl)
    [2] ⟨⟨512, 1, 1, 512, [1], "aaaaaaaaaaaaaaaa".toList, 1024⟩, [⟨1⟩]⟩ rfl
    (List.replicate 512 0)

/-! ## C26: what a fragment leaves in the key-value store -/

section stored
variable {E : External} {u : user_id_t} {J Q : DedupCore → Prop} {F : fingerprint_t}

/-- The loop of `secondStageDedup` keeps an invariant that each call of
`interUserIndexUpdate` and each step on the recipe store keep, and establishes `Q` when an
entry that is not marked as a duplicate carries the fingerprint `F`. -/
theorem secondStageLoop_stored
    (hInv : ∀ s s' fuel fp d, J s →
      (DedupCore.interUserIndexUpdate E fuel s fp u d).state? = some s' → J s')
    (hInvR : ∀ (s : DedupCore) b', J s → s.backend_.RecipeStep b' → J { s with backend_ := b' })
    (hPost : ∀ s s' fuel fp d, J s → Q s →
      (DedupCore.interUserIndexUpdate E fuel s fp u d).state? = some s' → Q s')
    (hPostR : ∀ (s : DedupCore) b', J s → Q s → s.backend_.RecipeStep b' →
      Q { s with backend_ := b' })
    (hcall : ∀ s s' fuel d, J s →
      DedupCore.interUserIndexUpdate E fuel s F u d = .ok () s' → Q s')
    (fuel : Nat) (k : key_t) (sp : RecipeSpan) (data : Bytes) :
    ∀ (l : List (shareMetaEntry_t × Bool)) (i off : Nat) (s s' : DedupCore), J s →
      DedupCore.secondStageLoop E fuel u k sp data l i off s = .ok () s' →
      J s' ∧ (Q s → Q s') ∧ ((∃ p ∈ l, p.1.shareFP = F ∧ p.2 = false) → Q s') := by
  intro l
  induction l with
  | nil =>
    intro i off s s' hI h
    simp only [DedupCore.secondStageLoop, Res.ok.injEq, true_and] at h
    subst h
    exact ⟨hI, id, by rintro ⟨p, hp, -⟩; simp at hp⟩
  | cons a l ih =>
    intro i off s s' hI h
    obtain ⟨e, dup⟩ := a
    simp only [DedupCore.secondStageLoop] at h
    cases dup with
    | true =>
      simp only [Bool.not_true, Bool.false_eq_true, if_false] at h
      have hst := BackendFacade.setRecipeEntry_step s.backend_ k sp i
        ⟨e.shareFP, e.secretID, e.secretSize, e.shareSize⟩
      have hI1 := hInvR s _ hI hst
      have hP1 : Q s → Q _ := fun hp => hPostR s _ hI hp hst
      obtain ⟨hI', hPP, hF⟩ := ih _ _ _ _ hI1 h
      refine ⟨hI', fun hp => hPP (hP1 hp), ?_⟩
      rintro ⟨p, hp, hpF, hpd⟩
      rcases List.mem_cons.mp hp with rfl | hp'
      · cases hpd
      · exact hF ⟨p, hp', hpF, hpd⟩
    | false =>
      simp only [Bool.not_false, if_true] at h
      cases hc : numeric_cast e.shareSize with
      | error m => simp [hc] at h
      | ok size =>
        simp only [hc] at h
        cases hi : DedupCore.interUserIndexUpdate E fuel s e.shareFP u
            (shareDataSlice data off size) with
        | abort w => simp [hi] at h
        | thrown m s1 => simp [hi] at h
        | ok x s1 =>
          simp only [hi] at h
          have hst? : (DedupCore.interUserIndexUpdate E fuel s e.shareFP u
              (shareDataSlice data off size)).state? = some s1 := by rw [hi]; rfl
          have hI1 : J s1 := hInv s s1 fuel _ _ hI hst?
          have hP1 : Q s → Q s1 := fun hp => hPost s s1 fuel _ _ hI hp hst?
          have hst := BackendFacade.setRecipeEntry_step s1.backend_ k sp i
            ⟨e.shareFP, e.secretID, e.secretSize, e.shareSize⟩
          have hI2 := hInvR s1 _ hI1 hst
          have hP2 : Q s1 → Q _ := fun hp => hPostR s1 _ hI1 hp hst
          obtain ⟨hI', hPP, hF⟩ := ih _ _ _ _ hI2 h
          refine ⟨hI', fun hp => hPP (hP2 (hP1 hp)), ?_⟩
          rintro ⟨p, hp, hpF, hpd⟩
          rcases List.mem_cons.mp hp with rfl | hp'
          · simp only at hpF
            subst hpF
            exact hPP (hP2 (hcall s s1 fuel _ hI hi))
          · exact hF ⟨p, hp', hpF, hpd⟩

end stored

/-- C26: when `secondStageDedup` returns in a reachable state, whichever fragment it was
given, the write batch is empty and its counter is 0; every binding written to the
key-value store so far, the puts of this call included, is in the database, so `Get`
returns for every key the value put last; and for every entry of the fragment that is not
marked as a duplicate, `intraUserIndexUpdate(entry.shareFP, userID)` is `true`
afterwards. -/
theorem DedupCore.secondStageDedup_flushes {E : External} {s s' : DedupCore}
    (hr : Reachable E s) (fuel : Nat) (u : user_id_t) (m : FileShareMeta) (data : Bytes)
    (dup : List Bool) (T : Nat)
    (hok : s.secondStageDedup E fuel u m data dup T = .ok () s') :
    s'.backend_.db.writeBatch_ = [] ∧ s'.backend_.db.batchCnt_ = 0 ∧
    (∃ puts, s'.backend_.db.db_ = puts ++ s.backend_.db.bindings) ∧
    (∀ key, s'.backend_.getShareIndex key = kvGet key s'.backend_.db.bindings) ∧
    (∀ p ∈ m.entriesView.zip (spanRead dup m.entriesView.length), p.2 = false →
      s'.intraUserIndexUpdate p.1.shareFP u = .ok true) := by
  obtain ⟨name, fullName, sp, b, s1, b2, -, -, hput, hloop, hfin, rfl⟩ := secondStageDedup_ok hok
  have hputs : s.backend_.RecipeStep b := BackendFacade.putRecipeFile_step (by rw [hput]; rfl)
  have hfins : s1.backend_.RecipeStep b2 :=
    BackendFacade.finishRecipeFile_step (by rw [hfin]; rfl)
  have hdb := BackendFacade.finishRecipeFile_ok_db hfin
  have hbatch : b2.db.writeBatch_ = [] ∧ b2.db.batchCnt_ = 0 := by
    rw [hdb, DataBase.BatchFlush_eq]
    exact ⟨rfl, rfl⟩
  -- the invariant of the loop
  have hInv : ∀ (t t' : DedupCore) (fuel : Nat) (fp : fingerprint_t) (d : Bytes),
      (t.backend_.db.Consistent ∧ ∃ puts, t.backend_.db.bindings = puts ++ s.backend_.db.bindings) →
      (DedupCore.interUserIndexUpdate E fuel t fp u d).state? = some t' →
      (t'.backend_.db.Consistent ∧
        ∃ puts, t'.backend_.db.bindings = puts ++ s.backend_.db.bindings) := by
    intro t t' fuel fp d ⟨hc, puts, hp⟩ hs
    refine ⟨consistent_dbInv.inter hc hs, ?_⟩
    rcases interUserIndexUpdate_db hs with h1 | ⟨v, -, -, -, h1⟩ | ⟨-, depth, baseFP, dsize, nm, off, h1⟩
    · exact ⟨puts, by rw [h1, hp]⟩
    · exact ⟨_ :: puts, by rw [h1, DataBase.bindings_Put, hp]; rfl⟩
    · exact ⟨_ :: puts, by rw [h1, DataBase.bindings_Put, hp]; rfl⟩
  have hInvR : ∀ (t : DedupCore) (b' : BackendFacade),
      (t.backend_.db.Consistent ∧ ∃ puts, t.backend_.db.bindings = puts ++ s.backend_.db.bindings) →
      t.backend_.RecipeStep b' →
      (b'.db.Consistent ∧ ∃ puts, b'.db.bindings = puts ++ s.backend_.db.bindings) := by
    intro t b' ⟨hc, puts, hp⟩ hb
    exact ⟨consistent_dbInv.recipeStep hc hb, puts, by rw [hb.bindings, hp]⟩
  have hJ0 := hInvR s b ⟨hr.consistent, [], rfl⟩ hputs
  have hmain : ∀ F : fingerprint_t,
      (b2.db.Consistent ∧ ∃ puts, b2.db.bindings = puts ++ s.backend_.db.bindings) ∧
      ((∃ p ∈ m.entriesView.zip (spanRead dup m.entriesView.length),
          p.1.shareFP = F ∧ p.2 = false) →
        ∃ w, kvGet (ToIndexKey .SHARE_INDEX F) b2.db.bindings = some w ∧ u ∈ w.users) := by
    intro F
    obtain ⟨hJ1, -, hQ1⟩ := secondStageLoop_stored (E := E) (u := u) (F := F)
      (J := fun t => t.backend_.db.Consistent ∧
        ∃ puts, t.backend_.db.bindings = puts ++ s.backend_.db.bindings)
      (Q := fun t => ∃ w, kvGet (ToIndexKey .SHARE_INDEX F) t.backend_.db.bindings = some w ∧
        u ∈ w.users)
      hInv (fun t b' hJ hb => hInvR t b' hJ hb)
      (by
        intro t t' fuel fp d hI hP hs
        rcases interUserIndexUpdate_db hs with h1 | ⟨v, hv, -, -, h1⟩ |
          ⟨-, depth, baseFP, dsize, nm, off, h1⟩
        · rw [h1]; exact hP
        · rw [h1]
          refine DataBase.newest_put hP ?_
          rw [(hI.1.users _ _ (DataBase.Get_mem_bindings hv)).addUser_users]
          simp
        · rw [h1]
          exact DataBase.newest_put hP (by simp [newShareValue, ShareIndexValue.users]))
      (by
        intro t b' _ hP hb
        show ∃ w, kvGet _ b'.db.bindings = some w ∧ u ∈ w.users
        rw [hb.bindings]; exact hP)
      (by
        intro t t' fuel d hI hs
        rcases interUserIndexUpdate_ok_db hs with ⟨v, hv, -, ⟨x, hx, hxu⟩, rfl⟩ |
          ⟨v, hv, -, -, h1⟩ | ⟨-, depth, baseFP, dsize, nm, off, h1⟩
        · have hvok := hI.1.users _ _ (DataBase.Get_mem_bindings hv)
          rw [hvok.spanRead_entries] at hx
          exact hI.1.newest_has_user hv (List.mem_map.mpr ⟨x, hx, hxu⟩)
        · rw [h1, DataBase.bindings_Put]
          refine ⟨_, kvGet_cons_self _ _ _, ?_⟩
          rw [(hI.1.users _ _ (DataBase.Get_mem_bindings hv)).addUser_users]
          simp
        · rw [h1, DataBase.bindings_Put]
          exact ⟨_, kvGet_cons_self _ _ _, by simp [newShareValue, ShareIndexValue.users]⟩)
      fuel _ sp data _ 0 0 _ s1 hJ0 hloop
    refine ⟨hInvR s1 b2 hJ1 hfins, fun hp => ?_⟩
    obtain ⟨w, hw, hu⟩ := hQ1 hp
    exact ⟨w, by rw [hfins.bindings]; exact hw, hu⟩
  obtain ⟨⟨hcons, puts, hputsEq⟩, -⟩ := hmain []
  have hflushed : ∀ key, b2.db.Get key = kvGet key b2.db.bindings :=
    DataBase.kvGet_bindings_flushed hbatch.1
  refine ⟨hbatch.1, hbatch.2, ⟨puts, ?_⟩, hflushed, ?_⟩
  · rw [← hputsEq]
    simp [DataBase.bindings, hbatch.1]
  · intro p hp hfalse
    obtain ⟨w, hw, hu⟩ := (hmain p.1.shareFP).2 ⟨p, hp, rfl, hfalse⟩
    have hget : b2.db.Get (ToIndexKey .SHARE_INDEX p.1.shareFP) = some w := by
      rw [hflushed]; exact hw
    exact intraUserIndexUpdate_true hget (hcons.users _ _ (DataBase.Get_mem_bindings hget)) hu

/-- Instance of C26: the fragment `Sample.twinFragment` sent to the empty store. -/
theorem DedupCore.secondStageDedup_flushes_witness :
    Sample.afterTwin.backend_.db.writeBatch_ = [] ∧ Sample.afterTwin.backend_.db.batchCnt_ = 0 ∧
    (∃ puts, Sample.afterTwin.backend_.db.db_ = puts ++ DedupCore.new.backend_.db.bindings) ∧
    (∀ key, Sample.afterTwin.backend_.getShareIndex key =
      kvGet key Sample.afterTwin.backend_.db.bindings) ∧
    (∀ p ∈ Sample.twinFragment.shareMeta.entriesView.zip
        (spanRead Sample.twinFragment.dupStat Sample.twinFragment.shareMeta.entriesView.length),
      p.2 = false → Sample.afterTwin.intraUserIndexUpdate p.1.shareFP 1 = .ok true) :=
  @DedupCore.secondStageDedup_flushes External.sample DedupCore.new Sample.afterTwin
    Reachable.init 2 1 Sample.twinFragment.shareMeta Sample.twinFragment.shareData
    Sample.twinFragment.dupStat 2 rfl

/-! ## C11: an instance on the delta path -/

/-- The codec stand-in `External.flat` encodes a share of 512 bytes to 128 KiB against a base
of at least 1024 bytes as the share itself. -/
theorem Delta.ComputeDelta_flat {base src : Bytes} (hb : 1024 ≤ base.length)
    (h1 : 512 ≤ src.length) (h2 : src.length ≤ 128 * 1024) :
    Delta.ComputeDelta External.flat base src = src := by
  unfold Delta.ComputeDelta compute_delta
  have h : ¬ (base.length < 1024 ∨ src.length < 512) := by omega
  simp only [h, if_false, External.flat, le_refl, if_true, lt_irrefl,
    List.take_of_length_le h2, spanRead_self]

/-- Instance of C11. On `Sample.afterRaw`, which holds the share `[1]` of 1024 zero bytes at
depth 0, the new share `[2]` of 512 bytes of value one takes the delta path: the delta is
appended at offset 1024 and the value has `deltaDepth = 1` and `baseFP = [1]`. On
`Sample.afterDelta`, where the similarity lookup names the share `[2]` at depth
`MAX_DELTA_DEPTH`, the new share `[3]` takes the raw path. -/
theorem DedupCore.new_share_paths_witness :
    (∃ s', Sample.afterRaw.interUserIndexUpdate External.flat 2 [2] 1 (List.replicate 512 1) =
        .ok () s' ∧
      s'.backend_.db.bindings =
        (ToIndexKey .SHARE_INDEX [2],
          ⟨⟨512, 1, 1, 512, [1], "aaaaaaaaaaaaaaaa".toList, 1024⟩, [⟨1⟩]⟩) ::
          Sample.afterRaw.backend_.db.bindings ∧
      s'.backend_.getShareData "aaaaaaaaaaaaaaaa".toList 1024 512 =
        .ok (List.replicate 512 1)) ∧
    (∃ s', Sample.afterDelta.interUserIndexUpdate External.flat 2 [3] 1 [7, 8] = .ok () s' ∧
      s'.backend_.db.bindings =
        (ToIndexKey .SHARE_INDEX [3],
          ⟨⟨2, 1, 0, 0, List.replicate 32 0, "aaaaaaaaaaaaaaaa".toList, 1536⟩, [⟨1⟩]⟩) ::
          Sample.afterDelta.backend_.db.bindings ∧
      s'.backend_.getShareData "aaaaaaaaaaaaaaaa".toList 1536 2 = .ok [7, 8]) := by
  have hr : Reachable External.flat Sample.afterRaw :=
    @Reachable.secondStageDedup External.flat DedupCore.new Sample.afterRaw 2 1
      (Sample.shareMeta [1] 1024) (List.replicate 1024 0) [false] 1 Reachable.init rfl
  have hr2 : Reachable External.flat Sample.afterDelta :=
    Reachable.secondStageDedup 2 1 (Sample.shareMeta [2] 512) (List.replicate 512 1) [false] 1
      hr rfl
  obtain ⟨base, hbase⟩ : ∃ base, Sample.afterRaw.backend_.getShareData
      "aaaaaaaaaaaaaaaa".toList 0 1024 = .ok base := ⟨_, rfl⟩
  have hdelta : Delta.ComputeDelta External.flat base (List.replicate 512 1) =
      List.replicate 512 1 :=
    Delta.ComputeDelta_flat (by rw [BackendFacade.getShareData_length hbase])
      (by rw [List.length_replicate]) (by rw [List.length_replicate]; decide)
  obtain ⟨b, hput⟩ : ∃ b, Sample.afterRaw.backend_.putShareData (List.replicate 512 1) =
      .ok ("aaaaaaaaaaaaaaaa".toList, 1024) b := ⟨_, rfl⟩
  obtain ⟨b2, hput2⟩ : ∃ b, Sample.afterDelta.backend_.putShareData [7, 8] =
      .ok ("aaaaaaaaaaaaaaaa".toList, 1536) b := ⟨_, rfl⟩
  have h1 := (DedupCore.new_share_paths hr 2 [2] 1 (List.replicate 512 1) rfl
      (by rw [List.length_replicate]; decide)).2.1 [1]
    ⟨⟨1024, 1, 0, 0, List.replicate 32 0, "aaaaaaaaaaaaaaaa".toList, 0⟩, [⟨1⟩]⟩ base rfl rfl
    (by decide) hbase (by rw [hdelta]; exact List.cons_ne_nil _ _)
    "aaaaaaaaaaaaaaaa".toList 1024 b (by rw [hdelta]; exact hput)
  have h2 := (DedupCore.new_share_paths hr2 2 [3] 1 [7, 8] rfl (by decide)).2.2.1
    ((DedupCore.new_share_paths hr2 2 [3] 1 [7, 8] rfl (by decide)).2.2.2 [2]
      ⟨⟨512, 1, 1, 512, [1], "aaaaaaaaaaaaaaaa".toList, 1024⟩, [⟨1⟩]⟩ rfl rfl rfl)
    "aaaaaaaaaaaaaaaa".toList 1536 b2 hput2
  rw [hdelta] at h1
  obtain ⟨s1, hcall1, hbind1, -, hread1, -⟩ := h1
  obtain ⟨s2, hcall2, hbind2, -, hread2, -⟩ := h2
  refine ⟨⟨s1, hcall1, ?_, ?_⟩, ⟨s2, hcall2, hbind2, hread2 (by decide)⟩⟩
  · rw [hbind1, List.length_replicate]
    rfl
  · have := hread1 (by rw [List.length_replicate]; decide)
    rw [List.length_replicate] at this
    exact this

/-! ## C7: where a share index entry points -/

/-- A download whose second share is a delta that the decoder fails on. User 1 sends `/b`,
the stored share `[1]` and the new share `[2]`, which is stored as a delta. With a buffer of
1100 bytes, `restoreShareFile` flushes the share file head and the first share (1052 bytes),
then lays out the second share entry at offset 0 and hands `restoreShare` the 512 bytes
behind it. With `External.deaf`, whose decoder reports a failure, `restoreShare` leaves that
span as it was: the share flushed for the entry starts with the bytes 12 to 27 of the first
flush, which are the tail padding of the share file head and the first share entry `{0,
1024, 1024}`. With `External.flat` the span is overwritten with the share. -/
theorem DedupCore.restoreShareFile_failed_decode :
    Sample.afterRaw.secondStageDedup External.flat 2 1 Sample.pairMeta
      (List.replicate 512 1) [true, false] 2 = .ok () Sample.afterPair ∧
    ((Sample.afterPair.restoreShareFile External.deaf 2 1 ['/', 'b'] (fun _ => 0)
        1100).flushes?).map (fun fs => fs.map (fun f => (f.size, f.heads 16))) =
      some [(1052, [.head ⟨1536, 2⟩, .entry ⟨0, 1024, 1024⟩, .data (List.replicate 16 0)]),
        (524, [.entry ⟨1, 512, 512⟩,
          .data [0, 0, 0, 0, 0, 0, 0, 0, 0, 4, 0, 0, 0, 4, 0, 0]])] ∧
    ((Sample.afterPair.restoreShareFile External.flat 2 1 ['/', 'b'] (fun _ => 0)
        1100).flushes?).map (fun fs => fs.map (fun f => (f.size, f.heads 16))) =
      some [(1052, [.head ⟨1536, 2⟩, .entry ⟨0, 1024, 1024⟩, .data (List.replicate 16 0)]),
        (524, [.entry ⟨1, 512, 512⟩, .data (List.replicate 16 1)])] :=
  ⟨rfl, rfl, rfl⟩

end dedup
